import Mathlib

/-!
# GNU tar, `src/misc.c`: virtual working directories, file-name normalisation, removal

A shallow embedding of the `chdir_arg` / `chdir_do` descriptor cache, of
`normalize_filename_x` and `normalize_filename`, and of `remove_any_file` with
`safer_rmdir` and `must_be_dot_or_slash`, followed by the properties proved
about them.

Conventions of the embedding.

* A C string is the list of its characters before the terminating NUL.
* The POSIX build is modelled: `ISSLASH (c)` is `c == '/'`,
  `FILE_SYSTEM_PREFIX_LEN` is `0` and `DOUBLE_SLASH_IS_DISTINCT_ROOT` is `0`.
* The static variables of `misc.c` are the fields of `State`; every function
  that touches them takes the state and returns the new one.
* System calls are recorded in `State.trace`, in program order; what `openat`
  and `xgetcwd` return is taken from an environment `Env`. The removal code
  has its own record `RmState` (`errno` and the calls made) and environment
  `RmEnv`.
* A run that ends in `open_fatal` / `call_arg_fatal`, or that would index an
  array outside its bounds or read through a null pointer, ends in
  `Except.error`.
-/

namespace Tar

/-! ## Characters and file names -/

/-- The macro `ISSLASH (c)` of the POSIX build. -/
def ISSLASH (c : Char) : Bool := c == '/'

/-- The macro `IS_ABSOLUTE_FILE_NAME (name)` of the POSIX build:
`ISSLASH (name[0])`. -/
def IS_ABSOLUTE_FILE_NAME : List Char → Bool
  | [] => false
  | c :: _ => ISSLASH c

/-- The constant `AT_FDCWD` of `<fcntl.h>` (the Linux value); the code needs it to be neither
zero nor positive. -/
def AT_FDCWD : Int := -100

/-- The constant `O_NOFOLLOW` of `<fcntl.h>` (the Linux value). -/
def O_NOFOLLOW : Nat := 0o400000

/-- The constant of `enum { CHDIR_CACHE_SIZE = 16 }`. -/
def CHDIR_CACHE_SIZE : Nat := 16

/-! ## Environment, faults and the static state -/

/-- The system calls that `chdir_do` issues. -/
inductive Event where
  | openat (dirfd : Int) (name : List Char) (flags : Nat) (ret : Int)
  | close (fd : Int)
  deriving DecidableEq, Repr

/-- Abnormal ends of a run. -/
inductive Fault where
  | open_fatal (name : List Char)
  | getcwd_fatal
  | out_of_bounds
  | out_of_fuel
  | null_pointer
  | xalloc_die
  | signed_overflow
  deriving DecidableEq, Repr

/-- What the program cannot decide itself: the value of the global
`open_searchdir_flags` (set in `tar.c`), the result of `xgetcwd ()`, the growth
of `x2nrealloc` (new capacity from the old one) and the result of each `openat`
call, which may depend on all system calls made before it. -/
structure Env where
  open_searchdir_flags : Nat
  xgetcwd : Option (List Char)
  x2nrealloc : Nat → Nat
  openat : List Event → Int → List Char → Nat → Int

/-- The type `struct wd`: a chdir target. `abspath = none` is the NULL pointer. -/
structure wd where
  name : List Char
  abspath : Option (List Char)
  fd : Int
  deriving DecidableEq, Repr

/-- The static variables of the working-directory code. `wd` holds the
entries `wd[0 .. wd_count)`, so `wd_count` is `wd.length`. -/
structure State where
  wd : List wd
  wd_alloc : Nat
  wdcache : List Nat
  wdcache_count : Nat
  chdir_current : Nat
  chdir_fd : Int
  trace : List Event
  deriving DecidableEq, Repr

/-- The state at program start: all statics zero, `chdir_fd = AT_FDCWD`. -/
def State.init : State :=
  { wd := [], wd_alloc := 0, wdcache := List.replicate CHDIR_CACHE_SIZE 0,
    wdcache_count := 0, chdir_current := 0, chdir_fd := AT_FDCWD, trace := [] }

/-- The number of entries `wd_count`. -/
def State.wd_count (s : State) : Nat := s.wd.length

/-- The function `chdir_count ()`. -/
def chdir_count (s : State) : Nat :=
  if s.wd_count = 0 then s.wd_count else s.wd_count - 1

/-! ## `namebuf` -/

/-- The type `struct namebuf`: `buffer` holds the bytes written so far. -/
structure namebuf where
  buffer : List Char
  dir_length : Nat
  deriving DecidableEq, Repr

/-- The function `namebuf_create (dir)`; reading `buffer[dir_length - 1]` of an empty `dir`
is out of bounds. -/
def namebuf_create (dir : List Char) : Except Fault namebuf :=
  match dir.getLast? with
  | none => .error .out_of_bounds
  | some c =>
    if !ISSLASH c then .ok { buffer := dir ++ ['/'], dir_length := dir.length + 1 }
    else .ok { buffer := dir, dir_length := dir.length }

/-- The function `namebuf_name (buf, name)`: `strcpy (buf->buffer + buf->dir_length, name)`. -/
def namebuf_name (buf : namebuf) (name : List Char) : namebuf :=
  { buf with buffer := buf.buffer.take buf.dir_length ++ name }

/-- The function `namebuf_add_dir (buf, name)`. -/
def namebuf_add_dir (buf : namebuf) (name : List Char) : Except Fault namebuf :=
  match (buf.buffer.take buf.dir_length).getLast? with
  | none => .error .out_of_bounds
  | some c =>
    let buf1 : namebuf :=
      if !ISSLASH c then { namebuf_name buf ['/'] with dir_length := buf.dir_length + 1 }
      else buf
    .ok { namebuf_name buf1 name with dir_length := buf1.dir_length + name.length }

/-- The function `namebuf_finish (buf)`: the buffer as a C string. -/
def namebuf_finish (buf : namebuf) : Except Fault (List Char) :=
  match (buf.buffer.take buf.dir_length).getLast? with
  | none => .error .out_of_bounds
  | some c => if ISSLASH c then .ok (buf.buffer.take buf.dir_length) else .ok buf.buffer

/-! ## `chdir_arg` -/

/-- The inner loop `for (dir += 2; ISSLASH (*dir); dir++) continue;` after the
`dir += 2`. -/
def skip_slashes : List Char → List Char
  | [] => []
  | c :: rest => if ISSLASH c then skip_slashes rest else c :: rest

/-- The loop `while (dir[0] == '.' && ISSLASH (dir[1])) ...` of `chdir_arg`;
every round consumes at least two characters. -/
def skip_dot_slash : Nat → List Char → Except Fault (List Char)
  | 0, _ => .error .out_of_fuel
  | fuel + 1, dir =>
    match dir with
    | c0 :: c1 :: rest =>
      if c0 == '.' && ISSLASH c1 then skip_dot_slash fuel (skip_slashes rest) else .ok dir
    | _ => .ok dir

/-- The test `! dir[dir[0] == '.']`. -/
def dot_or_end : List Char → Bool
  | [] => true
  | c :: rest => if c == '.' then rest.isEmpty else false

/-- The first part of `chdir_arg`: grow the vector when it is full and, when it
was empty, make `wd[0]` the initial working directory. -/
def chdir_arg_grow (env : Env) (s : State) : Except Fault State :=
  if s.wd_count = s.wd_alloc then
    let alloc := env.x2nrealloc (if s.wd_alloc = 0 then 2 else s.wd_alloc)
    if s.wd_count = 0 then
      match env.xgetcwd with
      | none => .error .getcwd_fatal
      | some cwd =>
        .ok { s with wd_alloc := alloc,
                     wd := s.wd ++ [{ name := ['.'], abspath := some cwd, fd := AT_FDCWD }] }
    else .ok { s with wd_alloc := alloc }
  else .ok s

/-- The part of `chdir_arg` that computes `absdir`. -/
def chdir_arg_absdir (s : State) (dir : List Char) : Except Fault (Option (List Char)) :=
  if IS_ABSOLUTE_FILE_NAME dir then .ok (some dir)
  else
    match s.wd_count, s.wd[s.wd_count - 1]? with
    | 0, _ => .error .out_of_bounds
    | _, none => .error .out_of_bounds
    | _, some last =>
      match last.abspath with
      | none => .ok none
      | some abspath =>
        match namebuf_create abspath with
        | .error e => .error e
        | .ok nbuf =>
          match namebuf_add_dir nbuf dir with
          | .error e => .error e
          | .ok nbuf1 =>
            match namebuf_finish nbuf1 with
            | .error e => .error e
            | .ok absdir => .ok (some absdir)

/-- The last part of `chdir_arg`: store the new entry and return its index. -/
def chdir_arg_store (s : State) (dir : List Char) : Except Fault (Nat × State) :=
  match chdir_arg_absdir s dir with
  | .error e => .error e
  | .ok absdir =>
    .ok (s.wd_count, { s with wd := s.wd ++ [{ name := dir, abspath := absdir, fd := 0 }] })

/-- The function `chdir_arg (dir)`: the returned index and the new state. -/
def chdir_arg (env : Env) (dir : List Char) (s : State) : Except Fault (Nat × State) :=
  match chdir_arg_grow env s with
  | .error e => .error e
  | .ok s1 =>
    if dir ≠ [] then
      match skip_dot_slash (dir.length + 1) dir with
      | .error e => .error e
      | .ok dir1 =>
        if dot_or_end dir1 then .ok (s1.wd_count - 1, s1)
        else chdir_arg_store s1 dir1
    else chdir_arg_store s1 dir

/-! ## `chdir_do` -/

/-- The loop `for (ci = 1; prev != i; ci++) ...` that shifts the cache entries
in front of `i` one place down. -/
def move_loop (i : Nat) : Nat → Nat → Nat → List Nat → Except Fault (List Nat)
  | 0, _, _, _ => .error .out_of_fuel
  | fuel + 1, ci, prev, wdcache =>
    if prev = i then .ok wdcache
    else
      match wdcache[ci]? with
      | none => .error .out_of_bounds
      | some cur =>
        if cur = i then .ok (wdcache.set ci prev)
        else move_loop i fuel (ci + 1) cur (wdcache.set ci prev)

/-- The block under `if (0 < fd)`: move `i` to the front of the cache. -/
def move_to_front (i : Nat) (wdcache : List Nat) : Except Fault (List Nat) :=
  match wdcache[0]? with
  | none => .error .out_of_bounds
  | some prev =>
    match move_loop i (CHDIR_CACHE_SIZE + 1) 1 prev wdcache with
    | .error e => .error e
    | .ok c => .ok (c.set 0 i)

/-- The end of `chdir_do`: the move to the front when `0 < fd`, then
`chdir_current = i; chdir_fd = fd;`. -/
def chdir_do_finish (i : Nat) (fd : Int) (s : State) : Except Fault State :=
  if 0 < fd then
    match move_to_front i s.wdcache with
    | .error e => .error e
    | .ok c => .ok { s with wdcache := c, chdir_current := i, chdir_fd := fd }
  else .ok { s with chdir_current := i, chdir_fd := fd }

/-- The statement "Add I to the cache, tossing out the lowest-ranking entry if
the cache is full": the `if (wdcache_count < CHDIR_CACHE_SIZE) ... else ...` statement. -/
def cache_add (i : Nat) (s : State) : Except Fault State :=
  if s.wdcache_count < CHDIR_CACHE_SIZE then
    if s.wdcache_count < s.wdcache.length then
      .ok { s with wdcache := s.wdcache.set s.wdcache_count i,
                   wdcache_count := s.wdcache_count + 1 }
    else .error .out_of_bounds
  else
    match s.wdcache[CHDIR_CACHE_SIZE - 1]? with
    | none => .error .out_of_bounds
    | some st =>
      match s.wd[st]? with
      | none => .error .out_of_bounds
      | some stale =>
        .ok { s with trace := s.trace ++ [Event.close stale.fd],
                     wd := s.wd.set st { stale with fd := 0 },
                     wdcache := s.wdcache.set (CHDIR_CACHE_SIZE - 1) i }

/-- The flags `chdir_do` passes to `openat`:
`open_searchdir_flags & ~ O_NOFOLLOW`. -/
def chdir_open_flags (env : Env) : Nat :=
  env.open_searchdir_flags &&& (2 ^ 32 - 1 - O_NOFOLLOW)

/-- The block under `if (! fd)` after the parent has been resolved: open the
directory, store the descriptor and put `i` in the cache. -/
def chdir_do_open (env : Env) (i : Nat) (s : State) : Except Fault (Int × State) :=
  match s.wd[i]? with
  | none => .error .out_of_bounds
  | some curr =>
    let fd := env.openat s.trace s.chdir_fd curr.name (chdir_open_flags env)
    let s1 := { s with trace := s.trace ++
                  [Event.openat s.chdir_fd curr.name (chdir_open_flags env) fd] }
    if fd < 0 then .error (.open_fatal curr.name)
    else
      match cache_add i { s1 with wd := s1.wd.set i { curr with fd := fd } } with
      | .error e => .error e
      | .ok s2 => .ok (fd, s2)

/-- The body of `chdir_do (i)`, with the recursive call `chdir_do (i - 1)`
passed as `parent`. -/
def chdir_do_body (env : Env) (parent : State → Except Fault State) (i : Nat) (s : State) :
    Except Fault State :=
  if s.chdir_current ≠ i then
    match s.wd[i]? with
    | none => .error .out_of_bounds
    | some curr =>
      if curr.fd = 0 then
        match (if !IS_ABSOLUTE_FILE_NAME curr.name then parent s else .ok s) with
        | .error e => .error e
        | .ok s1 =>
          match chdir_do_open env i s1 with
          | .error e => .error e
          | .ok (fd, s2) => chdir_do_finish i fd s2
      else chdir_do_finish i curr.fd s
  else .ok s

/-- The function `chdir_do (i)`. The index is a natural number; `chdir_do (0 - 1)` would
index `wd` out of bounds. -/
def chdir_do (env : Env) : Nat → State → Except Fault State
  | 0, s => chdir_do_body env (fun _ => .error .out_of_bounds) 0 s
  | i + 1, s => chdir_do_body env (chdir_do env i) (i + 1) s

/-! ## Views of the state used in the statements -/

/-- The cache proper: `wdcache[0 .. wdcache_count)`. -/
def State.cache (s : State) : List Nat := s.wdcache.take s.wdcache_count

/-- The descriptor stored in entry `j` of a table (`0` when there is no such
entry). -/
def fdAt (l : List wd) (j : Nat) : Int :=
  match l[j]? with
  | some e => e.fd
  | none => 0

/-- The descriptor stored in `wd[j]`. -/
def State.fdOf (s : State) (j : Nat) : Int := fdAt s.wd j

/-- The effect of one system call on the list of open directory descriptors:
a successful `openat` adds its result, `close` removes one occurrence. -/
def live_step (l : List Int) : Event → List Int
  | Event.openat _ _ _ ret => if 0 ≤ ret then ret :: l else l
  | Event.close fd => l.erase fd

/-- The directory descriptors that are open after the system calls of a
trace. -/
def live (t : List Event) : List Int := t.foldl live_step []

/-- The number of `openat` calls in a trace. -/
def opens (t : List Event) : Nat :=
  t.countP (fun e => match e with | Event.openat _ _ _ _ => true | Event.close _ => false)

/-- The number of `close` calls (evictions) in a trace. -/
def closes (t : List Event) : Nat :=
  t.countP (fun e => match e with | Event.openat _ _ _ _ => false | Event.close _ => true)

/-- The name and absolute path of an entry: what `chdir_do` never changes. -/
def wd.static (e : wd) : List Char × Option (List Char) := (e.name, e.abspath)

/-- The invariant of the working-directory table and its descriptor cache. -/
structure Inv (s : State) : Prop where
  cache_len : s.wdcache.length = CHDIR_CACHE_SIZE
  count_le : s.wdcache_count ≤ CHDIR_CACHE_SIZE
  nodup : s.cache.Nodup
  cached : ∀ j ∈ s.cache, 0 < j ∧ j < s.wd.length ∧ 0 < s.fdOf j
  uncached : ∀ j, 0 < j → j ∉ s.cache → s.fdOf j = 0
  entry0 : s.wd ≠ [] → s.fdOf 0 = AT_FDCWD
  current : s.chdir_current = 0 ∨ s.cache.head? = some s.chdir_current
  current_fd : s.chdir_fd = if s.chdir_current = 0 then AT_FDCWD else s.fdOf s.chdir_current
  alloc : s.wd = [] → s.wd_alloc = 0
  live : (live s.trace).Perm (s.cache.map s.fdOf)

/-- What a call `chdir_do (i)` leaves alone. -/
structure Frame (i : Nat) (s s' : State) : Prop where
  static : s'.wd.map wd.static = s.wd.map wd.static
  above : ∀ j, i < j → s.fdOf j = 0 → s'.fdOf j = 0
  alloc : s'.wd_alloc = s.wd_alloc
  trace : ∃ t, s'.trace = s.trace ++ t

/-- The descriptor that the `openat` of `chdir_do` returns for entry `curr` in
state `s`. -/
def open_ret (env : Env) (s : State) (curr : wd) : Int :=
  env.openat s.trace s.chdir_fd curr.name (chdir_open_flags env)

/-- The `openat` event of `chdir_do` for entry `curr` in state `s`. -/
def open_event (env : Env) (s : State) (curr : wd) : Event :=
  Event.openat s.chdir_fd curr.name (chdir_open_flags env) (open_ret env s curr)

/-- The effect of opening entry `i` (which is `curr` in `s1`) and putting it in
front of the cache: either there was room, or the last cache entry `st` was
closed and dropped. -/
def OpenStep (env : Env) (i : Nat) (curr : wd) (s1 s' : State) : Prop :=
  (s1.wdcache_count < CHDIR_CACHE_SIZE ∧ s'.cache = i :: s1.cache ∧
      s'.wdcache_count = s1.wdcache_count + 1 ∧
      s'.trace = s1.trace ++ [open_event env s1 curr] ∧
      s'.wd = s1.wd.set i { curr with fd := open_ret env s1 curr }) ∨
  (s1.wdcache_count = CHDIR_CACHE_SIZE ∧ ∃ st stale, s1.cache.getLast? = some st ∧
      s1.wd[st]? = some stale ∧ st ≠ i ∧ s'.cache = i :: s1.cache.dropLast ∧
      s'.wdcache_count = s1.wdcache_count ∧
      s'.trace = s1.trace ++ [open_event env s1 curr, Event.close stale.fd] ∧
      s'.wd = (s1.wd.set i { curr with fd := open_ret env s1 curr }).set st { stale with fd := 0 })

/-- Every `openat` succeeds with a positive descriptor. -/
def Env.opens_positive (env : Env) : Prop :=
  ∀ (t : List Event) (d : Int) (n : List Char) (f : Nat), 0 < env.openat t d n f

/-- An index that may be passed to `chdir_do`: `0`, or a value returned by
`chdir_arg`. -/
def State.valid (s : State) (i : Nat) : Prop := i = 0 ∨ i < s.wd.length

/-- The states reachable from the initial state by completed calls of
`chdir_arg` and of `chdir_do` with a valid index. -/
inductive Reachable (env : Env) : State → Prop where
  | init : Reachable env State.init
  | arg (s s' : State) (dir : List Char) (idx : Nat) :
      Reachable env s → chdir_arg env dir s = .ok (idx, s') → Reachable env s'
  | chdir (s s' : State) (i : Nat) :
      Reachable env s → s.valid i → chdir_do env i s = .ok s' → Reachable env s'

/-- A descriptor larger than all descriptors of the list (and than 2). -/
def fresh_fd (l : List Int) : Int := l.foldr max 2 + 1

/-- An environment for the examples: `getcwd` gives "/", the vector grows by
half its capacity, and `openat` returns a descriptor larger than all open
ones. -/
def env0 : Env :=
  { open_searchdir_flags := 0
    xgetcwd := some ['/']
    x2nrealloc := fun n => n + (n + 1) / 2
    openat := fun t _ _ _ => fresh_fd (live t) }

/-- The state after `chdir_arg ("a")` in the environment `env0`. -/
def demo1 : State :=
  { wd := [{ name := ['.'], abspath := some ['/'], fd := AT_FDCWD },
           { name := ['a'], abspath := some ['/', 'a'], fd := 0 }]
    wd_alloc := 3
    wdcache := List.replicate CHDIR_CACHE_SIZE 0
    wdcache_count := 0
    chdir_current := 0
    chdir_fd := AT_FDCWD
    trace := [] }

/-- The state after `chdir_arg ("a")` and `chdir_do (1)` in the environment
`env0`. -/
def demo2 : State :=
  { wd := [{ name := ['.'], abspath := some ['/'], fd := AT_FDCWD },
           { name := ['a'], abspath := some ['/', 'a'], fd := 3 }]
    wd_alloc := 3
    wdcache := 1 :: List.replicate 15 0
    wdcache_count := 1
    chdir_current := 1
    chdir_fd := 3
    trace := [Event.openat AT_FDCWD ['a'] 0 3] }

/-- The states reached from the initial state by `chdir_arg` calls only: a
fresh table, nothing resolved yet. -/
inductive Registered (env : Env) : State → Prop where
  | init : Registered env State.init
  | arg (s s' : State) (dir : List Char) (idx : Nat) :
      Registered env s → chdir_arg env dir s = .ok (idx, s') → Registered env s'

/-- The calls `chdir_arg (dir)` for the names of a list, in order. -/
def chdir_arg_list (env : Env) : List (List Char) → State → Except Fault State
  | [], s => .ok s
  | dir :: dirs, s =>
    match chdir_arg env dir s with
    | .error e => .error e
    | .ok (_, s') => chdir_arg_list env dirs s'

/-- The calls `chdir_do (i)` for the indices of a list, in order. -/
def chdir_do_list (env : Env) : List Nat → State → Except Fault State
  | [], s => .ok s
  | i :: is, s =>
    match chdir_do env i s with
    | .error e => .error e
    | .ok s' => chdir_do_list env is s'

/-- The table after seventeen options `-C d`: a chain of seventeen relative
names, in the environment `env0`. -/
def chain17 : State :=
  match chdir_arg_list env0 (List.replicate 17 ['d']) State.init with
  | .ok s => s
  | .error _ => State.init

/-- The names that denote the directory itself: for each `k` of the list one
prefix "./" followed by `k` further slashes, then a final "." when `final` is
set, else nothing. With an empty list and `final` set this is ".". -/
def dot_name : List Nat → Bool → List Char
  | [], final => if final then ['.'] else []
  | k :: ks, final => '.' :: '/' :: (List.replicate k '/' ++ dot_name ks final)

/-- The state after the indices `1 .. k` of a fresh table of `n` entries were
resolved in order. -/
structure Resolved (n k : Nat) (s : State) : Prop where
  inv : Inv s
  current : s.chdir_current = k
  cache : s.cache = (List.range' (k + 1 - min k CHDIR_CACHE_SIZE) (min k CHDIR_CACHE_SIZE)).reverse
  count : s.wdcache_count = min k CHDIR_CACHE_SIZE
  opened : opens s.trace = k
  closed : closes s.trace = k - CHDIR_CACHE_SIZE
  above : ∀ j, k < j → s.fdOf j = 0
  length : s.wd.length = n

/-! ## `normalize_filename_x` -/

/-- The terminating NUL of a C string. -/
def NUL : Char := Char.ofNat 0

/-- A read `buf[i]` of the buffer; outside the buffer it is a fault. -/
def rd (buf : List Char) (i : Nat) : Except Fault Char :=
  match buf[i]? with
  | some c => .ok c
  | none => .error .out_of_bounds

/-- A write `buf[i] = c` to the buffer; outside the buffer it is a fault. -/
def wr (buf : List Char) (i : Nat) (c : Char) : Except Fault (List Char) :=
  if i < buf.length then .ok (buf.set i c) else .error .out_of_bounds

/-- The string held by a buffer: the characters before the first NUL. -/
def cstr (buf : List Char) : List Char := buf.takeWhile (fun c => c != NUL)

/-- The loop `for (...; ISSLASH (*q); q++) continue;`: the new `q`. -/
def skip_slashes_at (buf : List Char) : Nat → Nat → Except Fault Nat
  | 0, _ => .error .out_of_fuel
  | fuel + 1, q =>
    match rd buf q with
    | .error e => .error e
    | .ok c => if ISSLASH c then skip_slashes_at buf fuel (q + 1) else .ok q

/-- The loop "Omit redundant leading "." components":
`for (q = p = name; (*p = *q) == '.' && ISSLASH (q[1]); p += !*q) ...`.
The result is the buffer with the new `p` and `q`. -/
def leading_loop : Nat → List Char → Nat → Nat → Except Fault (List Char × Nat × Nat)
  | 0, _, _, _ => .error .out_of_fuel
  | fuel + 1, buf, p, q =>
    match rd buf q with
    | .error e => .error e
    | .ok c =>
      match wr buf p c with
      | .error e => .error e
      | .ok buf1 =>
        if c == '.' then
          match rd buf1 (q + 1) with
          | .error e => .error e
          | .ok c1 =>
            if ISSLASH c1 then
              match skip_slashes_at buf1 buf1.length (q + 2) with
              | .error e => .error e
              | .ok q1 =>
                match rd buf1 q1 with
                | .error e => .error e
                | .ok c2 => leading_loop fuel buf1 (p + (if c2 == NUL then 1 else 0)) q1
            else .ok (buf1, p, q)
        else .ok (buf1, p, q)

/-- The loop `while (ISSLASH (q[*q == '.'])) q += (*q == '.') + 1;`: the new
`q`. -/
def squeeze_loop (buf : List Char) : Nat → Nat → Except Fault Nat
  | 0, _ => .error .out_of_fuel
  | fuel + 1, q =>
    match rd buf q with
    | .error e => .error e
    | .ok c =>
      match rd buf (q + (if c == '.' then 1 else 0)) with
      | .error e => .error e
      | .ok c1 =>
        if ISSLASH c1 then squeeze_loop buf fuel (q + ((if c == '.' then 1 else 0) + 1))
        else .ok q

/-- The loop "Copy components from Q to P":
`while ((*p++ = c = *q++) != '\0') if (ISSLASH (c)) ...`. The result is the
buffer with the new `p`. -/
def copy_loop : Nat → List Char → Nat → Nat → Except Fault (List Char × Nat)
  | 0, _, _, _ => .error .out_of_fuel
  | fuel + 1, buf, p, q =>
    match rd buf q with
    | .error e => .error e
    | .ok c =>
      match wr buf p c with
      | .error e => .error e
      | .ok buf1 =>
        if c != NUL then
          if ISSLASH c then
            match squeeze_loop buf1 buf1.length (q + 1) with
            | .error e => .error e
            | .ok q1 => copy_loop fuel buf1 (p + 1) q1
          else copy_loop fuel buf1 (p + 1) (q + 1)
        else .ok (buf1, p + 1)

/-- A read `p[-k]` behind the pointer at offset `p`; in front of the buffer it
is a fault. -/
def rd_back (buf : List Char) (p k : Nat) : Except Fault Char :=
  if k ≤ p then rd buf (p - k) else .error .out_of_bounds

/-- A write `p[-k] = c` behind the pointer at offset `p`. -/
def wr_back (buf : List Char) (p k : Nat) (c : Char) : Except Fault (List Char) :=
  if k ≤ p then wr buf (p - k) c else .error .out_of_bounds

/-- The first statement of the last block:
`p -= p[-2] == '.' && ISSLASH (p[-3]);`. -/
def trailing_dot (buf : List Char) (p : Nat) : Except Fault Nat :=
  match rd_back buf p 2 with
  | .error e => .error e
  | .ok a =>
    if a == '.' then
      match rd_back buf p 3 with
      | .error e => .error e
      | .ok b => if ISSLASH b then .ok (p - 1) else .ok p
    else .ok p

/-- The second statement: `p -= 2 < p - name && ISSLASH (p[-2]);`. -/
def trailing_slash (buf : List Char) (p : Nat) : Except Fault Nat :=
  if 2 < p then
    match rd_back buf p 2 with
    | .error e => .error e
    | .ok c => if ISSLASH c then .ok (p - 1) else .ok p
  else .ok p

/-- The block "Omit redundant trailing "." component and slash". -/
def trailing (buf : List Char) (p : Nat) : Except Fault (List Char) :=
  if 2 < p then
    match trailing_dot buf p with
    | .error e => .error e
    | .ok p1 =>
      match trailing_slash buf p1 with
      | .error e => .error e
      | .ok p2 => wr_back buf p2 1 NUL
  else .ok buf

/-- The function `normalize_filename_x (file_name)` on the buffer that holds the string and
its terminator (`name` is offset 0: there is no file-system prefix and a
double slash is not a distinct root). The result is the buffer afterwards. -/
def normalize_filename_x (buf : List Char) : Except Fault (List Char) :=
  match leading_loop buf.length buf 0 0 with
  | .error e => .error e
  | .ok (buf1, p, q) =>
    match copy_loop buf1.length buf1 p q with
    | .error e => .error e
    | .ok (buf2, p2) => trailing buf2 p2

/-- The buffer of a C string: its characters and the terminator. -/
def buffer_of (s : List Char) : List Char := s ++ [NUL]

/-- The string that `normalize_filename_x` leaves in the buffer of the string
`s`. -/
def normalize (s : List Char) : Except Fault (List Char) :=
  match normalize_filename_x (buffer_of s) with
  | .error e => .error e
  | .ok b => .ok (cstr b)

/-- The components of a path: the pieces between the slashes. -/
def split_slash : List Char → List (List Char)
  | [] => [[]]
  | c :: rest =>
    if c = '/' then [] :: split_slash rest
    else
      match split_slash rest with
      | [] => [[c]]
      | comp :: comps => (c :: comp) :: comps

/-- The components that are kept: not empty and not ".". -/
def kept (s : List Char) : List (List Char) :=
  (split_slash s).filter (fun comp => comp ≠ [] ∧ comp ≠ ['.'])

/-- The reference form of a path: the kept components joined by single
slashes, after one leading slash iff the path starts with a slash; "." for a
non-empty relative path with no component left, "" for the empty path. -/
def normalize_ref (s : List Char) : List Char :=
  match s with
  | [] => []
  | c :: _ =>
    if c = '/' then '/' :: List.intercalate ['/'] (kept s)
    else if kept s = [] then ['.']
    else List.intercalate ['/'] (kept s)

/-! ### The loops of `normalize_filename_x` as functions on the unread input -/

/-- What the loop `while (ISSLASH (q[*q == '.'])) q += (*q == '.') + 1;` leaves
of the unread input: leading "/" and "./" are dropped. -/
def squeeze : List Char → List Char
  | [] => []
  | [c] => if c = '/' then [] else [c]
  | c :: d :: t =>
    if c = '/' then squeeze (d :: t)
    else if c = '.' ∧ d = '/' then squeeze t
    else c :: d :: t

/-- What the copy loop writes for the unread input; the flag says that the
last character written was a slash (the input is then squeezed first). -/
def emit : Bool → List Char → List Char
  | _, [] => []
  | false, c :: r => c :: emit (decide (c = '/')) r
  | true, [c] => if c = '/' then [] else [c]
  | true, c :: d :: t =>
    if c = '/' then emit true (d :: t)
    else if c = '.' ∧ d = '/' then emit true t
    else c :: emit false (d :: t)

/-- What the first two loops write for a string. -/
def copied (s : List Char) : List Char :=
  match s with
  | c :: d :: t =>
    if c = '.' ∧ d = '/' then
      (if squeeze t = [] then ['.'] else emit false (squeeze t))
    else emit false s
  | _ => emit false s

/-- The length of the copied string after
`p -= p[-2] == '.' && ISSLASH (p[-3]);`. -/
def length_after_dot (out : List Char) : Nat :=
  if out[out.length - 1]? = some '.' ∧ out[out.length - 2]? = some '/'
  then out.length - 1 else out.length

/-- The length `n` of the copied string after
`p -= 2 < p - name && ISSLASH (p[-2]);`. -/
def length_after_slash (out : List Char) (n : Nat) : Nat :=
  if 2 ≤ n ∧ out[n - 1]? = some '/' then n - 1 else n

/-- The length that the last block leaves of the copied string. -/
def trimmed_length (out : List Char) : Nat :=
  if 2 ≤ out.length then length_after_slash out (length_after_dot out) else out.length

/-- The three steps of `normalize_filename_x` on strings. -/
def normalize_fn (s : List Char) : List Char :=
  (copied s).take (trimmed_length (copied s))

/-- The run on component lists at a component start: components that are
empty or "." and are followed by a slash are dropped, the last component is
kept as it is. -/
def emit_comps : List (List Char) → List Char
  | [] => []
  | [c] => c
  | c :: c' :: cs =>
    if c = [] ∨ c = ['.'] then emit_comps (c' :: cs) else c ++ '/' :: emit_comps (c' :: cs)

/-- The copied string after the last block. -/
def trim (out : List Char) : List Char := out.take (trimmed_length out)

/-- The run on component lists inside a component: the first component is
copied as it is, the others as `emit_comps` says. -/
def emit_first : List (List Char) → List Char
  | [] => []
  | [c] => c
  | c :: c' :: cs => c ++ '/' :: emit_comps (c' :: cs)

/-- The components that are kept, of a list of components. -/
def kept_comps (cs : List (List Char)) : List (List Char) :=
  cs.filter (fun comp => comp ≠ [] ∧ comp ≠ ['.'])

/-- What the first loop leaves of the unread input: after a leading "./" the
input is squeezed, any other input is left as it is. -/
def lead_rest : List Char → List Char
  | c :: d :: t => if c = '.' ∧ d = '/' then squeeze t else c :: d :: t
  | s => s

/-- The first loop stops with `p = 1` exactly when a leading "./" was followed
by nothing but "/" and "./". -/
def ends_in_dot (r : List Char) : Prop := ∃ t, r = '.' :: '/' :: t ∧ squeeze t = []

/-! ## Views and examples for the registration of names -/

/-- The environment's `getcwd` succeeds with a non-empty string. -/
def Env.cwd_known (env : Env) : Prop := ∃ cwd, env.xgetcwd = some cwd ∧ cwd ≠ []

/-- Every entry of the table has an absolute path, and it is not empty. -/
def State.abspaths_known (s : State) : Prop := ∀ e ∈ s.wd, ∃ p, e.abspath = some p ∧ p ≠ []

/-- The separator that `namebuf_create` appends to a directory: nothing after
a slash, else a slash. -/
def dir_separator (dir : List Char) : List Char :=
  match dir.getLast? with
  | some c => if ISSLASH c then [] else ['/']
  | none => []

/-- The state after `chdir_arg ("/tmp/a")` in the environment `env0`. -/
def demo3 : State :=
  { wd := [{ name := ['.'], abspath := some ['/'], fd := AT_FDCWD },
           { name := "/tmp/a".toList, abspath := some "/tmp/a".toList, fd := 0 }]
    wd_alloc := 3
    wdcache := List.replicate CHDIR_CACHE_SIZE 0
    wdcache_count := 0
    chdir_current := 0
    chdir_fd := AT_FDCWD
    trace := [] }

/-- The calls `chdir_arg (dir)` for the names of a list, in order, with the
number of calls that created a new entry: the calls that returned an index
which is not 0 and which the table did not have before the call. -/
def chdir_arg_count (env : Env) : List (List Char) → State → Except Fault (Nat × State)
  | [], s => .ok (0, s)
  | dir :: dirs, s =>
    match chdir_arg env dir s with
    | .error e => .error e
    | .ok (idx, s') =>
      match chdir_arg_count env dirs s' with
      | .error e => .error e
      | .ok (n, s'') => .ok ((if 0 < idx ∧ s.wd.length ≤ idx then 1 else 0) + n, s'')

/-! ## `tar_getcdpath` and `normalize_filename` -/

/-- The function `tar_getcdpath (idx)`. The pointer `wd` is null exactly as
long as the table is empty: the first `chdir_arg` allocates the vector and
makes entry 0. The static `cwd` only saves a second call of `xgetcwd`, whose
result is one value of the environment. `none` is the null pointer. -/
def tar_getcdpath (env : Env) (s : State) (idx : Nat) : Except Fault (Option (List Char)) :=
  if s.wd = [] then
    match env.xgetcwd with
    | none => .error .getcwd_fatal
    | some cwd => .ok (some cwd)
  else
    match s.wd[idx]? with
    | none => .error .out_of_bounds
    | some e => .ok e.abspath

/-- The buffer that `xmalloc (n)` returns: `n` bytes whose content is not
specified; `fill` stands for it. -/
def xmalloc (n : Nat) (fill : Char) : List Char := List.replicate n fill

/-- The call `strcpy (buf + off, src)`: the characters of `src` and a NUL are
written from offset `off` on; a write outside the buffer is a fault. -/
def strcpy (buf : List Char) (off : Nat) : List Char → Except Fault (List Char)
  | [] => wr buf off NUL
  | c :: rest =>
    match wr buf off c with
    | .error e => .error e
    | .ok buf1 => strcpy buf1 (off + 1) rest

/-- The block under `if (IS_RELATIVE_FILE_NAME (name))` of
`normalize_filename`: the value of `copy` after it, `none` for the null
pointer it starts with. `need_separator` is 1, as a double slash is not a
distinct root; `strlen (cdpath)` of a null `cdpath` is a fault. -/
def normalize_filename_copy (env : Env) (fill : Char) (s : State) (cdidx : Nat)
    (name : List Char) : Except Fault (Option (List Char)) :=
  if !IS_ABSOLUTE_FILE_NAME name then
    match tar_getcdpath env s cdidx with
    | .error e => .error e
    | .ok none => .error .null_pointer
    | .ok (some cdpath) =>
      let copylen := cdpath.length
      let need_separator := 1
      match strcpy (xmalloc (copylen + need_separator + name.length + 1) fill) 0 cdpath with
      | .error e => .error e
      | .ok copy1 =>
        match wr copy1 copylen '/' with
        | .error e => .error e
        | .ok copy2 =>
          match strcpy copy2 (copylen + need_separator) name with
          | .error e => .error e
          | .ok copy3 => .ok (some copy3)
  else .ok none

/-- The function `normalize_filename (cdidx, name)`. The result is a pointer
to the string left in the buffer `copy`; `none` would be a null result. -/
def normalize_filename (env : Env) (fill : Char) (s : State) (cdidx : Nat) (name : List Char) :
    Except Fault (Option (List Char)) :=
  match normalize_filename_copy env fill s cdidx name with
  | .error e => .error e
  | .ok copy =>
    let copy1 := match copy with
      | none => buffer_of name
      | some b => b
    match normalize_filename_x copy1 with
    | .error e => .error e
    | .ok b => .ok (some (cstr b))

/-- An environment in which `getcwd` fails. -/
def env_nocwd : Env := { env0 with xgetcwd := none }

/-- A table whose entry 0 has no absolute path. -/
def demo_nopath : State :=
  { State.init with wd := [{ name := ['.'], abspath := none, fd := AT_FDCWD }], wd_alloc := 3 }

/-! ## Removal: `must_be_dot_or_slash`, `safer_rmdir`, `remove_any_file` -/

/-- The constant `EPERM` of `<errno.h>` (the Linux value). -/
def EPERM : Nat := 1

/-- The constant `EEXIST` of `<errno.h>` (the Linux value). -/
def EEXIST : Nat := 17

/-- The constant `ENOTDIR` of `<errno.h>` (the Linux value). -/
def ENOTDIR : Nat := 20

/-- The constant `EISDIR` of `<errno.h>` (the Linux value). -/
def EISDIR : Nat := 21

/-- The constant `ENOTEMPTY` of `<errno.h>` (the Linux value). -/
def ENOTEMPTY : Nat := 39

/-- The constant `AT_REMOVEDIR` of `<fcntl.h>` (the Linux value). -/
def AT_REMOVEDIR : Nat := 0x200

/-- The type `enum remove_option` of `common.h`. -/
inductive remove_option where
  | ORDINARY_REMOVE_OPTION
  | RECURSIVE_REMOVE_OPTION
  | WANT_DIRECTORY_REMOVE_OPTION
  deriving DecidableEq, Repr

/-- The calls that the removal code makes, with their results. `err` is 0
when `unlinkat` succeeds, else the `errno` it sets. The function `tar_savedir`
consists of calls to the system (`openat`, `fdopendir`, `streamsavedir`,
`closedir`) and to the diagnostics; it is recorded as one call, `ret = none`
for its null result. -/
inductive Call where
  | unlinkat (dirfd : Int) (name : List Char) (flag : Nat) (err : Nat)
  | tar_savedir (name : List Char) (ret : Option (List (List Char)))
  | remove_delayed_set_stat (name : List Char)
  deriving DecidableEq, Repr

/-- What the removal code cannot decide itself: the result of
`cannot_unlink_dir ()`, the result of each `unlinkat` (0, or the `errno` of the
failure, which is not 0), the result of each `tar_savedir` (the entries, or
null, and the `errno` it leaves), the function `make_file_name`, and what `free`
does to `errno` (`free_errno e` is the `errno` after a `free` entered with
`errno = e`); the results of the calls may depend on all calls made before. -/
structure RmEnv where
  cannot_unlink_dir : Bool
  unlinkat : List Call → Int → List Char → Nat → Nat
  tar_savedir : List Call → Int → List Char → Option (List (List Char)) × Nat
  make_file_name : List Char → List Char → List Char
  free_errno : Nat → Nat

/-- The variable `errno` and the calls made so far, in program order. -/
structure RmState where
  errno : Nat
  calls : List Call
  deriving DecidableEq, Repr

/-- The read `s[k]` of a C string: a character of the string, or the
terminating NUL at `k = strlen (s)`; behind the NUL it is a fault. -/
def cchar (s : List Char) (k : Nat) : Except Fault Char :=
  match s[k]? with
  | some c => .ok c
  | none => if k = s.length then .ok NUL else .error .out_of_bounds

/-- The loop `for (;;)` of `must_be_dot_or_slash` for a name that starts with
a slash; `f` is the string from the pointer `file_name` on. -/
def slash_loop : Nat → List Char → Except Fault Bool
  | 0, _ => .error .out_of_fuel
  | fuel + 1, f =>
    match cchar f 1 with
    | .error e => .error e
    | .ok c1 =>
      if ISSLASH c1 then slash_loop fuel (f.drop 1)
      else if c1 == '.' then
        match cchar f 2 with
        | .error e => .error e
        | .ok c2 =>
          match cchar f (2 + (if c2 == '.' then 1 else 0)) with
          | .error e => .error e
          | .ok c =>
            if ISSLASH c then slash_loop fuel (f.drop (2 + (if c2 == '.' then 1 else 0)))
            else .ok (c1 == NUL)
      else .ok (c1 == NUL)

/-- The value `! file_name[0] || (file_name[0] == '.' && ! file_name[1])`. -/
def empty_or_dot (f : List Char) : Except Fault Bool :=
  match cchar f 0 with
  | .error e => .error e
  | .ok c0 =>
    if c0 == NUL then .ok true
    else if c0 == '.' then
      match cchar f 1 with
      | .error e => .error e
      | .ok c1 => .ok (c1 == NUL)
    else .ok false

/-- The function `must_be_dot_or_slash (file_name)`. The loop of the `else`
branch is the loop of `chdir_arg`, `skip_dot_slash`. -/
def must_be_dot_or_slash (file_name : List Char) : Except Fault Bool :=
  match cchar file_name 0 with
  | .error e => .error e
  | .ok c0 =>
    if ISSLASH c0 then slash_loop (file_name.length + 1) file_name
    else
      match skip_dot_slash (file_name.length + 1) file_name with
      | .error e => .error e
      | .ok f => empty_or_dot f

/-- A call `unlinkat (chdir_fd, file_name, flag)`: its result, and the state
with the call recorded and `errno` set when it failed. -/
def call_unlinkat (env : RmEnv) (chdir_fd : Int) (file_name : List Char) (flag : Nat)
    (st : RmState) : Nat × RmState :=
  let err := env.unlinkat st.calls chdir_fd file_name flag
  (err, { errno := if err = 0 then st.errno else err,
          calls := st.calls ++ [Call.unlinkat chdir_fd file_name flag err] })

/-- The function `safer_rmdir (file_name)`: its result (0 or -1) and the new
state. -/
def safer_rmdir (env : RmEnv) (chdir_fd : Int) (file_name : List Char) (st : RmState) :
    Except Fault (Int × RmState) :=
  match must_be_dot_or_slash file_name with
  | .error e => .error e
  | .ok true => .ok (-1, { st with errno := 0 })
  | .ok false =>
    match call_unlinkat env chdir_fd file_name AT_REMOVEDIR st with
    | (0, st1) =>
      .ok (0, { st1 with calls := st1.calls ++ [Call.remove_delayed_set_stat file_name] })
    | (_, st1) => .ok (-1, st1)

/-- The loop over the entries of a directory in `remove_any_file`, with the
recursive call passed as `remove`: `true` when the loop ran to the end (an
empty entry ends the listing), `false` when the removal of an entry returned
0. After each removal come `int e = errno; free (file_name_buffer);`, and when
the removal returned 0, `free (directory); errno = e;`. -/
def remove_entries (env : RmEnv) (remove : List Char → RmState → Except Fault (Int × RmState))
    (file_name : List Char) : List (List Char) → RmState → Except Fault (Bool × RmState)
  | [], st => .ok (true, st)
  | entry :: rest, st =>
    if entry.length = 0 then .ok (true, st)
    else
      match remove (env.make_file_name file_name entry) st with
      | .error e => .error e
      | .ok (r, st1) =>
        if r = 0 then
          .ok (false, { { st1 with errno := env.free_errno (env.free_errno st1.errno) } with
                        errno := st1.errno })
        else
          remove_entries env remove file_name rest
            { st1 with errno := env.free_errno st1.errno }

/-- The first statement of `remove_any_file`, under `if (try_unlink_first)`:
the value it returns, if it returns, and the new state. -/
def unlink_first (env : RmEnv) (chdir_fd : Int) (file_name : List Char) (st : RmState) :
    Option Int × RmState :=
  if env.cannot_unlink_dir then
    match call_unlinkat env chdir_fd file_name 0 st with
    | (0, st1) => (some 1, st1)
    | (_, st1) => if st1.errno ≠ EPERM ∧ st1.errno ≠ EISDIR then (some 0, st1) else (none, st1)
  else (none, st)

/-- The function `remove_any_file (file_name, option)`: its result (1, 0 or
-1) and the new state. The first argument bounds the depth of the recursion. -/
def remove_any_file (env : RmEnv) (chdir_fd : Int) :
    Nat → List Char → remove_option → RmState → Except Fault (Int × RmState)
  | 0, _, _, _ => .error .out_of_fuel
  | fuel + 1, file_name, option, st =>
    match unlink_first env chdir_fd file_name st with
    | (some r, st1) => .ok (r, st1)
    | (none, st1) =>
      match safer_rmdir env chdir_fd file_name st1 with
      | .error e => .error e
      | .ok (r, st2) =>
        if r = 0 then .ok (1, st2)
        else if st2.errno = ENOTDIR then
          if !env.cannot_unlink_dir then
            match call_unlinkat env chdir_fd file_name 0 st2 with
            | (0, st3) => .ok (1, st3)
            | (_, st3) => .ok (0, st3)
          else .ok (0, st2)
        else if st2.errno = 0 ∨ st2.errno = EEXIST ∨ st2.errno = ENOTEMPTY then
          match option with
          | .ORDINARY_REMOVE_OPTION => .ok (0, st2)
          | .WANT_DIRECTORY_REMOVE_OPTION => .ok (-1, st2)
          | .RECURSIVE_REMOVE_OPTION =>
            match env.tar_savedir st2.calls chdir_fd file_name with
            | (none, e) =>
              .ok (0, { errno := e, calls := st2.calls ++ [Call.tar_savedir file_name none] })
            | (some directory, e) =>
              match remove_entries env
                  (fun n s => remove_any_file env chdir_fd fuel n .RECURSIVE_REMOVE_OPTION s)
                  file_name directory
                  { errno := e,
                    calls := st2.calls ++ [Call.tar_savedir file_name (some directory)] } with
              | .error e => .error e
              | .ok (false, st4) => .ok (0, st4)
              | .ok (true, st4) =>
                match safer_rmdir env chdir_fd file_name
                    { st4 with errno := env.free_errno st4.errno } with
                | .error e => .error e
                | .ok (r2, st5) => .ok (if r2 = 0 then 1 else 0, st5)
        else .ok (0, st2)

/-- The names that a sequence of calls removed: those of the `unlinkat` calls
that succeeded. -/
def removals : List Call → List (List Char)
  | [] => []
  | Call.unlinkat _ name _ err :: rest =>
    if err = 0 then name :: removals rest else removals rest
  | _ :: rest => removals rest

/-- An environment for the examples of removal: directories can be unlinked
(`cannot_unlink_dir ()` is false), "." lists the one entry "f", every other
name is a file that `unlinkat` removes (`rmdir` fails with `ENOTDIR`), and
`make_file_name` joins with a slash unless the directory ends in one. -/
def rm_env0 : RmEnv :=
  { cannot_unlink_dir := false
    unlinkat := fun _ _ _ flag => if flag = AT_REMOVEDIR then ENOTDIR else 0
    tar_savedir := fun _ _ name => if name = ['.'] then (some [['f']], 0) else (none, ENOTDIR)
    make_file_name := fun d n => d ++ dir_separator d ++ n
    free_errno := fun e => e }

/-- The environment `rm_env0` on a host where directories cannot be unlinked:
`unlinkat` of "." without `AT_REMOVEDIR` fails with `EISDIR`. -/
def rm_env1 : RmEnv :=
  { rm_env0 with
    cannot_unlink_dir := true
    unlinkat := fun _ _ name flag =>
      if flag = AT_REMOVEDIR then ENOTDIR else if name = ['.'] then EISDIR else 0 }

/-- The state before the first call: `errno` is 0, no call was made. -/
def RmState.init : RmState := { errno := 0, calls := [] }

/-- An environment in which every name is a directory that is not empty, on a
host where directories cannot be unlinked: `unlinkat` fails with `EISDIR`,
`rmdir` with `ENOTEMPTY`. -/
def rm_env2 : RmEnv :=
  { cannot_unlink_dir := true
    unlinkat := fun _ _ _ flag => if flag = AT_REMOVEDIR then ENOTEMPTY else EISDIR
    tar_savedir := fun _ _ _ => (some [], 0)
    make_file_name := fun d n => d ++ dir_separator d ++ n
    free_errno := fun e => e }

/-- A call that is no `rmdir` of a name that is obviously "." or "/": an
`unlinkat` with `AT_REMOVEDIR` has a name for which `must_be_dot_or_slash` is
false. -/
def Call.guarded (c : Call) : Prop :=
  ∀ d n e, c = Call.unlinkat d n AT_REMOVEDIR e → must_be_dot_or_slash n = .ok false

/-- The calls of `st'` are those of `st` followed by calls that all satisfy
`P`. -/
def RmState.extends_by (P : Call → Prop) (st st' : RmState) : Prop :=
  ∃ new, st'.calls = st.calls ++ new ∧ ∀ c ∈ new, P c

/-! ## More views of `chdir_do` -/

/-- No `openat` returns the descriptor 0 (the standard descriptors are open),
so that a stored descriptor 0 always means "not opened". -/
def Env.opens_nonzero (env : Env) : Prop :=
  ∀ (t : List Event) (d : Int) (n : List Char) (f : Nat), env.openat t d n f ≠ 0

/-- An `openat` event has the flags that `chdir_do` computes. -/
def Event.flags_ok (env : Env) : Event → Prop
  | Event.openat _ _ flags _ => flags = chdir_open_flags env
  | Event.close _ => True

/-- What `chdir_do (i)` does with the `openat` of entry `curr` from the state
`s1`: on a negative result the run `r` ends in `open_fatal` with the name of
the entry; on a positive result it completes, publishes `i` with the new
descriptor, and has made that one `openat`, relative to the handle published in
`s1`, followed at most by the `close` of an evicted descriptor. -/
def OpenOutcome (env : Env) (i : Nat) (curr : wd) (s1 : State) (r : Except Fault State) :
    Prop :=
  (open_ret env s1 curr < 0 → r = .error (.open_fatal curr.name)) ∧
  (0 < open_ret env s1 curr → ∃ s', r = .ok s' ∧ s'.chdir_current = i ∧
    s'.chdir_fd = open_ret env s1 curr ∧
    (s'.trace = s1.trace ++ [open_event env s1 curr] ∨
      ∃ fd, s'.trace = s1.trace ++ [open_event env s1 curr, Event.close fd]))

/-- The environment `env0` with `open_searchdir_flags` as on Linux when
`O_SEARCH` is not available: `O_RDONLY | O_DIRECTORY | O_NOFOLLOW`, where
`O_DIRECTORY` is `0o200000`. -/
def env_nofollow : Env :=
  { env0 with open_searchdir_flags := 0o200000 + O_NOFOLLOW }

/-! ## The diagnostics of the read path -/

/-- The calls that the seven `_diag` functions make: the `_error` and `_warn`
functions of `paxerror.c`, with their arguments. -/
inductive Report where
  | close_error (name : List Char)
  | close_warn (name : List Char)
  | open_error (name : List Char)
  | open_warn (name : List Char)
  | read_error_details (name : List Char) (offset : Int) (size : Nat)
  | read_warn_details (name : List Char) (offset : Int) (size : Nat)
  | readlink_error (name : List Char)
  | readlink_warn (name : List Char)
  | savedir_error (name : List Char)
  | savedir_warn (name : List Char)
  | seek_error_details (name : List Char) (offset : Int)
  | seek_warn_details (name : List Char) (offset : Int)
  | stat_error (name : List Char)
  | stat_warn (name : List Char)
  deriving DecidableEq, Repr

/-- The two globals that the `_diag` functions read: `ignore_failed_read_option`
and the value of `WARNING_ENABLED (WARN_FAILED_READ)`, a macro of `common.h` over
the global `warning_option`. -/
structure DiagEnv where
  ignore_failed_read_option : Bool
  WARNING_ENABLED_WARN_FAILED_READ : Bool

/-- The function `close_diag (name)`: the reports made so far, and after. -/
def close_diag (env : DiagEnv) (name : List Char) (log : List Report) : List Report :=
  if env.ignore_failed_read_option then
    if env.WARNING_ENABLED_WARN_FAILED_READ then log ++ [Report.close_warn name] else log
  else log ++ [Report.close_error name]

/-- The function `open_diag (name)`. -/
def open_diag (env : DiagEnv) (name : List Char) (log : List Report) : List Report :=
  if env.ignore_failed_read_option then
    if env.WARNING_ENABLED_WARN_FAILED_READ then log ++ [Report.open_warn name] else log
  else log ++ [Report.open_error name]

/-- The function `read_diag_details (name, offset, size)`. -/
def read_diag_details (env : DiagEnv) (name : List Char) (offset : Int) (size : Nat)
    (log : List Report) : List Report :=
  if env.ignore_failed_read_option then
    if env.WARNING_ENABLED_WARN_FAILED_READ then
      log ++ [Report.read_warn_details name offset size]
    else log
  else log ++ [Report.read_error_details name offset size]

/-- The function `readlink_diag (name)`. -/
def readlink_diag (env : DiagEnv) (name : List Char) (log : List Report) : List Report :=
  if env.ignore_failed_read_option then
    if env.WARNING_ENABLED_WARN_FAILED_READ then log ++ [Report.readlink_warn name] else log
  else log ++ [Report.readlink_error name]

/-- The function `savedir_diag (name)`. -/
def savedir_diag (env : DiagEnv) (name : List Char) (log : List Report) : List Report :=
  if env.ignore_failed_read_option then
    if env.WARNING_ENABLED_WARN_FAILED_READ then log ++ [Report.savedir_warn name] else log
  else log ++ [Report.savedir_error name]

/-- The function `seek_diag_details (name, offset)`. -/
def seek_diag_details (env : DiagEnv) (name : List Char) (offset : Int)
    (log : List Report) : List Report :=
  if env.ignore_failed_read_option then
    if env.WARNING_ENABLED_WARN_FAILED_READ then
      log ++ [Report.seek_warn_details name offset]
    else log
  else log ++ [Report.seek_error_details name offset]

/-- The function `stat_diag (name)`. -/
def stat_diag (env : DiagEnv) (name : List Char) (log : List Report) : List Report :=
  if env.ignore_failed_read_option then
    if env.WARNING_ENABLED_WARN_FAILED_READ then log ++ [Report.stat_warn name] else log
  else log ++ [Report.stat_error name]

/-- The reports that are errors. -/
def Report.is_error : Report → Bool
  | .close_error _ | .open_error _ | .read_error_details _ _ _ | .readlink_error _
  | .savedir_error _ | .seek_error_details _ _ | .stat_error _ => true
  | _ => false

/-- The reports that are warnings. -/
def Report.is_warning : Report → Bool
  | .close_warn _ | .open_warn _ | .read_warn_details _ _ _ | .readlink_warn _
  | .savedir_warn _ | .seek_warn_details _ _ | .stat_warn _ => true
  | _ => false

/-- The policy of the read path, for the reports `log` before a call and `out`
after it: one error is added iff `ignore_failed_read_option` is off, one warning
iff it is on and the warning `WARN_FAILED_READ` is enabled, and nothing is added
otherwise. -/
def read_policy (env : DiagEnv) (log out : List Report) : Prop :=
  ((∃ r, out = log ++ [r] ∧ r.is_error = true) ↔ env.ignore_failed_read_option = false) ∧
  ((∃ r, out = log ++ [r] ∧ r.is_warning = true) ↔
    (env.ignore_failed_read_option = true ∧ env.WARNING_ENABLED_WARN_FAILED_READ = true)) ∧
  (out = log ↔
    (env.ignore_failed_read_option = true ∧ env.WARNING_ENABLED_WARN_FAILED_READ = false))

/-! ## Backups: `maybe_backup_file` and `undo_last_backup` -/

/-- The constant `ENOENT` of `<errno.h>` (the Linux value). -/
def ENOENT : Nat := 2

/-- The constant `S_IFMT` of `<sys/stat.h>` (the Linux value). -/
def S_IFMT : Nat := 0o170000

/-- The constant `S_IFDIR` of `<sys/stat.h>` (the Linux value). -/
def S_IFDIR : Nat := 0o040000

/-- The constant `S_IFCHR` of `<sys/stat.h>` (the Linux value). -/
def S_IFCHR : Nat := 0o020000

/-- The constant `S_IFBLK` of `<sys/stat.h>` (the Linux value). -/
def S_IFBLK : Nat := 0o060000

/-- The macro `S_ISDIR (m)` of `<sys/stat.h>`. -/
def S_ISDIR (m : Nat) : Bool := m &&& S_IFMT == S_IFDIR

/-- The macro `S_ISBLK (m)` of `<sys/stat.h>`. -/
def S_ISBLK (m : Nat) : Bool := m &&& S_IFMT == S_IFBLK

/-- The macro `S_ISCHR (m)` of `<sys/stat.h>`. -/
def S_ISCHR (m : Nat) : Bool := m &&& S_IFMT == S_IFCHR

/-- A file as the backup code sees it: its `st_mode` and its content. -/
structure Node where
  st_mode : Nat
  content : List Nat
  deriving DecidableEq, Repr

/-- The files below the directory of `chdir_fd`, by the names that the calls
use for them; two names are two files, and nothing but the calls of the model
changes the files. -/
abbrev Files := List Char → Option Node

/-- The calls that the backup code makes, with their results; `err` is 0 for a
call that succeeds, else the `errno` it sets. `ERROR` is the report
"Cannot rename to", the two `fprintf` are the messages under `verbose_option`. -/
inductive BkCall where
  | fstatat (dirfd : Int) (name : List Char) (err : Nat)
  | renameat (olddirfd : Int) (old : List Char) (newdirfd : Int) (new : List Char) (err : Nat)
  | stat_error (name : List Char)
  | ERROR (errnum : Nat) (old new : List Char)
  | fprintf_renaming (old new : List Char)
  | fprintf_renaming_back (old new : List Char)
  deriving DecidableEq, Repr

/-- What the backup code cannot decide itself: the macro `_remdev` of `rmt.h`,
the function `find_backup_file_name` of `backupfile.c` with the global
`backup_type` (null when memory is exhausted), the global `verbose_option`, and
the `errno` with which the system refuses a `fstatat` or a `renameat` for a
reason that is not in the files named (0 when it does not refuse). -/
structure BkEnv where
  _remdev : List Char → Bool
  find_backup_file_name : Files → Int → List Char → Option (List Char)
  verbose_option : Bool
  fstatat_errno : List Char → Nat
  renameat_errno : List Char → List Char → Nat

/-- The globals `before_backup_name` and `after_backup_name` (`none` for null),
the files, and the calls made so far. -/
structure BkState where
  before_backup_name : Option (List Char)
  after_backup_name : Option (List Char)
  files : Files
  calls : List BkCall

/-- The system call `fstatat`: the `errno` of a failure, or the `st_mode` of the
file. -/
def fstatat (env : BkEnv) (files : Files) (name : List Char) : Except Nat Nat :=
  if env.fstatat_errno name ≠ 0 then .error (env.fstatat_errno name)
  else
    match files name with
    | none => .error ENOENT
    | some node => .ok node.st_mode

/-- The files after a successful rename of `old` (which is `node`) to `new`. -/
def moved (files : Files) (old new : List Char) (node : Node) : Files :=
  fun n => if n = new then some node else if n = old then none else files n

/-- The system call `renameat`: 0 or the `errno` of a failure, and the files
after it. It fails when the system refuses it, when `old` does not exist, and
when one of the two is a directory and the other exists and is not. -/
def renameat (env : BkEnv) (files : Files) (old new : List Char) : Nat × Files :=
  if env.renameat_errno old new ≠ 0 then (env.renameat_errno old new, files)
  else
    match files old with
    | none => (ENOENT, files)
    | some node =>
      if old = new then (0, files)
      else
        match files new with
        | none => (0, moved files old new node)
        | some target =>
          if S_ISDIR target.st_mode && !S_ISDIR node.st_mode then (EISDIR, files)
          else if !S_ISDIR target.st_mode && S_ISDIR node.st_mode then (ENOTDIR, files)
          else (0, moved files old new node)

/-- The function `maybe_backup_file (file_name, this_is_the_archive)`: its
result and the new state; `xalloc_die` ends the run. -/
def maybe_backup_file (env : BkEnv) (chdir_fd : Int) (file_name : List Char)
    (this_is_the_archive : Bool) (s : BkState) : Except Fault (Bool × BkState) :=
  if this_is_the_archive && env._remdev file_name then
    .ok (true, { s with before_backup_name := some file_name, after_backup_name := none })
  else
    match fstatat env s.files file_name with
    | .error err =>
      if err = ENOENT then
        .ok (true, { s with before_backup_name := some file_name, after_backup_name := none,
                            calls := s.calls ++ [BkCall.fstatat chdir_fd file_name err] })
      else
        .ok (false, { s with before_backup_name := some file_name, after_backup_name := none,
                             calls := s.calls ++ [BkCall.fstatat chdir_fd file_name err,
                                                  BkCall.stat_error file_name] })
    | .ok st_mode =>
      if S_ISDIR st_mode then
        .ok (true, { s with before_backup_name := some file_name, after_backup_name := none,
                            calls := s.calls ++ [BkCall.fstatat chdir_fd file_name 0] })
      else if this_is_the_archive && (S_ISBLK st_mode || S_ISCHR st_mode) then
        .ok (true, { s with before_backup_name := some file_name, after_backup_name := none,
                            calls := s.calls ++ [BkCall.fstatat chdir_fd file_name 0] })
      else
        match env.find_backup_file_name s.files chdir_fd file_name with
        | none => .error .xalloc_die
        | some after =>
          if (renameat env s.files file_name after).1 = 0 then
            .ok (true,
              { before_backup_name := some file_name, after_backup_name := some after,
                files := (renameat env s.files file_name after).2,
                calls := s.calls ++ [BkCall.fstatat chdir_fd file_name 0,
                                     BkCall.renameat chdir_fd file_name chdir_fd after 0]
                         ++ (if env.verbose_option then
                              [BkCall.fprintf_renaming file_name after] else []) })
          else
            .ok (false,
              { before_backup_name := some file_name, after_backup_name := none,
                files := (renameat env s.files file_name after).2,
                calls := s.calls ++ [BkCall.fstatat chdir_fd file_name 0,
                                     BkCall.renameat chdir_fd file_name chdir_fd after
                                       (renameat env s.files file_name after).1,
                                     BkCall.ERROR (renameat env s.files file_name after).1
                                       file_name after] })

/-- The function `undo_last_backup ()`. With `after_backup_name` set and
`before_backup_name` null it would pass a null pointer to `quote_n`. -/
def undo_last_backup (env : BkEnv) (chdir_fd : Int) (s : BkState) : Except Fault BkState :=
  match s.after_backup_name with
  | none => .ok s
  | some after =>
    match s.before_backup_name with
    | none => .error .null_pointer
    | some before =>
      .ok { s with
            after_backup_name := none
            files := (renameat env s.files after before).2
            calls := s.calls
              ++ [BkCall.renameat chdir_fd after chdir_fd before
                    (renameat env s.files after before).1]
              ++ (if (renameat env s.files after before).1 ≠ 0 then
                    [BkCall.ERROR (renameat env s.files after before).1 after before] else [])
              ++ (if env.verbose_option then
                    [BkCall.fprintf_renaming_back after before] else []) }

/-- The state of a program that never made a backup: both names are null. -/
def BkState.init (files : Files) : BkState :=
  { before_backup_name := none, after_backup_name := none, files := files, calls := [] }

/-- The names are as every call leaves them: `after_backup_name` is set only
when `before_backup_name` is. -/
def BkState.wf (s : BkState) : Prop :=
  s.after_backup_name ≠ none → s.before_backup_name ≠ none

/-- The number of `renameat` calls in a list of calls. -/
def renames (l : List BkCall) : Nat :=
  l.countP (fun c => match c with | BkCall.renameat _ _ _ _ _ => true | _ => false)

/-- A successful `renameat`. -/
def BkCall.renamed (c : BkCall) : Prop :=
  ∃ d1 old d2 new, c = BkCall.renameat d1 old d2 new 0

/-- The system refuses a rename in both directions or in none: what it looks
at besides the two files (the permissions of the directories, the file systems
of the two names) is the same for both directions. -/
def BkEnv.rename_symmetric (env : BkEnv) : Prop :=
  ∀ a b, env.renameat_errno a b = 0 → env.renameat_errno b a = 0

/-- An environment for the examples of backups: no name is remote, the backup
of a name is the name with a tilde, and the system refuses nothing. -/
def bk_env0 : BkEnv :=
  { _remdev := fun _ => false
    find_backup_file_name := fun _ _ name => some (name ++ ['~'])
    verbose_option := false
    fstatat_errno := fun _ => 0
    renameat_errno := fun _ _ => 0 }

/-- The files of the examples: a regular file "f" with content, a directory
"d", a block device "b". -/
def files0 : Files := fun n =>
  if n = ['f'] then some { st_mode := 0o100644, content := [1, 2, 3] }
  else if n = ['d'] then some { st_mode := 0o040755, content := [] }
  else if n = ['b'] then some { st_mode := 0o060660, content := [] }
  else none

/-! ## A file system for the removal code -/

/-- The constant `EACCES` of `<errno.h>` (the Linux value). -/
def EACCES : Nat := 13

/-- The constant `ENOMEM` of `<errno.h>` (the Linux value). -/
def ENOMEM : Nat := 12

/-- A file of a directory tree: not a directory, or a directory with the names
of its entries. -/
inductive FsNode where
  | file
  | dir (entries : List (List Char))
  deriving DecidableEq, Repr

/-- A directory tree, by the names that the removal code uses for the
files. -/
abbrev FsTree := List Char → Option FsNode

/-- The name of the entry `n` of the directory `d`, as `make_file_name` of the
examples builds it. -/
def fs_join (d n : List Char) : List Char := d ++ dir_separator d ++ n

/-- The removal environment of a directory tree in which nothing fails for
want of permission: a file is gone once an `unlinkat` of its name succeeded;
`unlinkat` without `AT_REMOVEDIR` removes a file that is no directory and fails
with `EISDIR` on a directory; with `AT_REMOVEDIR` it fails with `ENOTDIR` on a
file that is no directory, with `ENOTEMPTY` on a directory of which an entry is
left, and removes a directory without entries; `tar_savedir` lists the entries
that are left. -/
def fs_env (fs : FsTree) (cannot_unlink_dir : Bool) : RmEnv :=
  { cannot_unlink_dir := cannot_unlink_dir
    unlinkat := fun calls _ name flag =>
      match fs name with
      | none => ENOENT
      | some node =>
        if name ∈ removals calls then ENOENT
        else
          match node with
          | .file => if flag = AT_REMOVEDIR then ENOTDIR else 0
          | .dir entries =>
            if flag = AT_REMOVEDIR then
              if entries.all (fun c => decide (fs_join name c ∈ removals calls)) then 0
              else ENOTEMPTY
            else EISDIR
    tar_savedir := fun calls _ name =>
      match fs name with
      | none => (none, ENOENT)
      | some .file => (none, ENOTDIR)
      | some (.dir entries) =>
        if name ∈ removals calls then (none, ENOENT)
        else (some (entries.filter (fun c => decide (fs_join name c ∉ removals calls))), 0)
    make_file_name := fs_join
    free_errno := fun e => e }

/-- The files below `name` in the order in which a recursive removal removes
them: the files below each entry, entry by entry, then `name`. The first
argument bounds the depth. -/
def postorder (fs : FsTree) : Nat → List Char → List (List Char)
  | 0, _ => []
  | fuel + 1, name =>
    match fs name with
    | some (.dir entries) =>
      (entries.map (fun c => postorder fs fuel (fs_join name c))).flatten ++ [name]
    | _ => [name]

/-- The tree below `name` is complete to a depth less than the first argument:
`name` exists and is not obviously "." or "/", and the entries of a directory
have names that are not empty and are such files themselves. -/
def tree_ok (fs : FsTree) : Nat → List Char → Bool
  | 0, _ => false
  | fuel + 1, name =>
    (match must_be_dot_or_slash name with
      | .ok false => true
      | _ => false) &&
    (match fs name with
      | none => false
      | some .file => true
      | some (.dir entries) =>
        entries.all (fun c => c != [] && tree_ok fs fuel (fs_join name c)))

/-- The directory tree of the examples: the directory "d" with the file "f"
and the empty directory "e". -/
def fs0 : FsTree := fun n =>
  if n = ['d'] then some (.dir [['f'], ['e']])
  else if n = ['d', '/', 'f'] then some .file
  else if n = ['d', '/', 'e'] then some (.dir [])
  else none

/-- An environment in which the removal of an entry fails: "d" lists "a", "b"
and "c"; "d/b" cannot be removed (`EACCES`), the other entries are files that
`unlinkat` removes; `free` leaves `ENOMEM` in `errno` whatever it was. -/
def rm_env3 : RmEnv :=
  { cannot_unlink_dir := false
    unlinkat := fun _ _ name flag =>
      if name = ['d'] then (if flag = AT_REMOVEDIR then ENOTEMPTY else EISDIR)
      else if name = ['d', '/', 'b'] then EACCES
      else if flag = AT_REMOVEDIR then ENOTDIR else 0
    tar_savedir := fun _ _ name =>
      if name = ['d'] then (some [['a'], ['b'], ['c']], 0) else (none, ENOTDIR)
    make_file_name := fun d n => d ++ dir_separator d ++ n
    free_errno := fun _ => ENOMEM }

/-! ## `suffix.c`: the compression program of a file name -/

/-- The type `struct compression_suffix`. -/
structure compression_suffix where
  suffix : List Char
  length : Nat
  program : List Char
  deriving DecidableEq, Repr

/-- The macro `S(s,p)`, `#s, sizeof (#s) - 1, #p`: the suffix, its length and
the program. -/
def S (s p : String) : compression_suffix :=
  { suffix := s.toList, length := s.toList.length, program := p.toList }

/-- The table `compression_suffixes`. -/
def compression_suffixes : List compression_suffix :=
  [S "gz" "gzip", S "tgz" "gzip", S "taz" "gzip", S "Z" "compress", S "taZ" "compress",
   S "bz2" "bzip2", S "tbz" "bzip2", S "tbz2" "bzip2", S "tz2" "bzip2", S "lzma" "lzma",
   S "tlz" "lzma", S "lzo" "lzop", S "xz" "xz"]

/-- The variable `nsuffixes`: the number of entries of the table. -/
def nsuffixes : Nat := compression_suffixes.length

/-- The function `strrchr (s, c)` for a character `c` that is not NUL: the
string from the last `c` on, `none` for the null pointer. -/
def strrchr : List Char → Char → Option (List Char)
  | [], _ => none
  | x :: rest, c =>
    match strrchr rest c with
    | some r => some r
    | none => if x = c then some (x :: rest) else none

/-- The test `memcmp (a, b, len) == 0` on strings that have `len` bytes
each. -/
def memcmp_eq (a b : List Char) (len : Nat) : Bool := a.take len == b.take len

/-- The loop `for (i = 0; i < nsuffixes; i++)` of `find_compression_program`
from the entry `i` on: the program it returns, `none` when it runs to the end. -/
def find_suffix_loop (suf : List Char) (len : Nat) : Nat → Nat → Option (List Char)
  | 0, _ => none
  | fuel + 1, i =>
    if i < nsuffixes then
      match compression_suffixes[i]? with
      | none => none
      | some e =>
        if e.length = len && memcmp_eq e.suffix suf len then some e.program
        else find_suffix_loop suf len fuel (i + 1)
    else none

/-- The function `find_compression_program (name, defprog)`; `none` is the
null pointer. -/
def find_compression_program (name : List Char) (defprog : Option (List Char)) :
    Option (List Char) :=
  match strrchr name '.' with
  | some suf =>
    match find_suffix_loop (suf.drop 1) (suf.drop 1).length (nsuffixes + 1) 0 with
    | some program => some program
    | none => defprog
  | none => defprog

/-- The function `set_comression_program_by_suffix (name, defprog)`: the
value of `use_compress_program_option` after the call. -/
def set_comression_program_by_suffix (name : List Char) (defprog : Option (List Char))
    (use_compress_program_option : Option (List Char)) : Option (List Char) :=
  match find_compression_program name defprog with
  | some program => some program
  | none => use_compress_program_option

/-- The text after the last '.' of a name, `none` for a name without '.'. -/
def after_last_dot (name : List Char) : Option (List Char) :=
  if '.' ∈ name then some (name.reverse.takeWhile (fun c => c != '.')).reverse else none

/-- The program of a suffix as the table is described: gz, tgz, taz give
gzip; Z, taZ give compress; bz2, tbz, tbz2, tz2 give bzip2; lzma, tlz give lzma;
lzo gives lzop; xz gives xz; nothing else has a program. -/
def program_of_suffix (t : List Char) : Option (List Char) :=
  if t = "gz".toList ∨ t = "tgz".toList ∨ t = "taz".toList then some "gzip".toList
  else if t = "Z".toList ∨ t = "taZ".toList then some "compress".toList
  else if t = "bz2".toList ∨ t = "tbz".toList ∨ t = "tbz2".toList ∨ t = "tz2".toList then
    some "bzip2".toList
  else if t = "lzma".toList ∨ t = "tlz".toList then some "lzma".toList
  else if t = "lzo".toList then some "lzop".toList
  else if t = "xz".toList then some "xz".toList
  else none

/-! ## Views for the claims on the table, the calls of the removal and the names it refuses -/

/-- Every entry of the table has an absolute path: no `abspath` is null. -/
def State.abspaths_present (s : State) : Prop := ∀ e ∈ s.wd, e.abspath ≠ none

/-- The calls of `st'` are those of `st` followed by a list of calls that
satisfies `Q`. -/
def RmState.grows (Q : List Call → Prop) (st st' : RmState) : Prop :=
  ∃ new, st'.calls = st.calls ++ new ∧ Q new

/-- A list of calls in which `remove_delayed_set_stat (n)` comes right after
every successful `rmdir` of `n`, and nowhere else: not after a failed `rmdir`,
not after an `unlinkat` without `AT_REMOVEDIR`, not after a listing. -/
inductive Paired : List Call → Prop where
  | nil : Paired []
  | rmdir (d : Int) (n : List Char) (rest : List Call) : Paired rest →
      Paired (Call.unlinkat d n AT_REMOVEDIR 0 :: Call.remove_delayed_set_stat n :: rest)
  | other (d : Int) (n : List Char) (flag err : Nat) (rest : List Call) :
      (flag = AT_REMOVEDIR → err ≠ 0) → Paired rest →
      Paired (Call.unlinkat d n flag err :: rest)
  | listing (n : List Char) (r : Option (List (List Char))) (rest : List Call) :
      Paired rest → Paired (Call.tar_savedir n r :: rest)

/-- The number of successful `rmdir` calls in a list of calls. -/
def rmdirs : List Call → Nat
  | [] => 0
  | Call.unlinkat _ _ flag err :: rest =>
    (if flag = AT_REMOVEDIR ∧ err = 0 then 1 else 0) + rmdirs rest
  | _ :: rest => rmdirs rest

/-- The number of `remove_delayed_set_stat` calls in a list of calls. -/
def delayed_calls : List Call → Nat
  | [] => 0
  | Call.remove_delayed_set_stat _ :: rest => 1 + delayed_calls rest
  | _ :: rest => delayed_calls rest

/-- An environment for the examples of removal on a host where directories
cannot be unlinked: "d" is an empty directory, "f" a file, "p" cannot be
unlinked for want of permission (`EACCES`), and nothing else exists. -/
def rm_env4 : RmEnv :=
  { cannot_unlink_dir := true
    unlinkat := fun _ _ name flag =>
      if name = ['d'] then (if flag = AT_REMOVEDIR then 0 else EISDIR)
      else if name = ['f'] then (if flag = AT_REMOVEDIR then ENOTDIR else 0)
      else if name = ['p'] then EACCES
      else ENOENT
    tar_savedir := fun _ _ _ => (none, ENOENT)
    make_file_name := fun d n => d ++ dir_separator d ++ n
    free_errno := fun e => e }

/-- Every component of a path is empty or ".". -/
def trivial_components (s : List Char) : Bool :=
  (split_slash s).all (fun comp => comp == [] || comp == ['.'])

/-- Every component of a path is empty, "." or "..". -/
def dot_components (s : List Char) : Bool :=
  (split_slash s).all (fun comp => comp == [] || comp == ['.'] || comp == ['.', '.'])

/-- The names that are obviously "." or "/", as described by their
components: a relative name whose components are all empty or "."; or a rooted
name that ends with a slash and whose components are all empty, "." or "..". -/
def must_be_dot_or_slash_ref (name : List Char) : Bool :=
  if IS_ABSOLUTE_FILE_NAME name then name.getLast? == some '/' && dot_components name
  else trivial_components name

/-- What the loop of `must_be_dot_or_slash` decides for the text behind the
slash it stands on: the text is empty or ends with a slash, and its components
are all empty, "." or "..". -/
def slash_tail (rest : List Char) : Bool :=
  (rest.isEmpty || rest.getLast? == some '/') && dot_components rest

/-! ## `unquote_string` -/

/-- The test that `*source < '0' || *source > '7'` is false: an octal
digit. -/
def is_octal (c : Char) : Bool := decide ('0'.toNat ≤ c.toNat) && decide (c.toNat ≤ '7'.toNat)

/-- The conversion of an `int` to `char` in the assignment
`*destination++ = value`: the low eight bits. -/
def int_to_char (value : Nat) : Char := Char.ofNat (value % 256)

/-- The labels of the `switch` of `unquote_string` whose statement stores one
character and steps over the letter: the character stored. -/
def switch_stores (c : Char) : Option Char :=
  if c = '\\' then some '\\'
  else if c = 'a' then some (Char.ofNat 7)
  else if c = 'b' then some (Char.ofNat 8)
  else if c = 'f' then some (Char.ofNat 12)
  else if c = 'n' then some (Char.ofNat 10)
  else if c = 'r' then some (Char.ofNat 13)
  else if c = 't' then some (Char.ofNat 9)
  else if c = 'v' then some (Char.ofNat 11)
  else if c = '?' then some (Char.ofNat 0o177)
  else none

/-- The block of the labels '0' to '7': `source` is at the first digit. The
result is the buffer and the new `source` and `destination`. -/
def unquote_octal (buf : List Char) (source destination : Nat) :
    Except Fault (List Char × Nat × Nat) :=
  match rd buf source with
  | .error e => .error e
  | .ok c0 =>
    match rd buf (source + 1) with
    | .error e => .error e
    | .ok c1 =>
      if !is_octal c1 then
        match wr buf destination (int_to_char (c0.toNat - '0'.toNat)) with
        | .error e => .error e
        | .ok b => .ok (b, source + 1, destination + 1)
      else
        match rd buf (source + 2) with
        | .error e => .error e
        | .ok c2 =>
          if !is_octal c2 then
            match wr buf destination
                (int_to_char ((c0.toNat - '0'.toNat) * 8 + c1.toNat - '0'.toNat)) with
            | .error e => .error e
            | .ok b => .ok (b, source + 2, destination + 1)
          else
            match wr buf destination
                (int_to_char (((c0.toNat - '0'.toNat) * 8 + c1.toNat - '0'.toNat) * 8
                  + c2.toNat - '0'.toNat)) with
            | .error e => .error e
            | .ok b => .ok (b, source + 3, destination + 1)

/-- The `default` label: `result = 0`, the backslash is stored, and the
character after it too unless it is the NUL. `source` is at that character. -/
def unquote_default (buf : List Char) (source destination : Nat) :
    Except Fault (List Char × Nat × Nat) :=
  match wr buf destination '\\' with
  | .error e => .error e
  | .ok b1 =>
    match rd b1 source with
    | .error e => .error e
    | .ok c =>
      if c != NUL then
        match wr b1 (destination + 1) c with
        | .error e => .error e
        | .ok b2 => .ok (b2, source + 1, destination + 2)
      else .ok (b1, source, destination + 1)

/-- The loop `while (*source)` of `unquote_string`: the buffer, `source`,
`destination` and `result` when it ends. -/
def unquote_loop : Nat → List Char → Nat → Nat → Int →
    Except Fault (List Char × Nat × Nat × Int)
  | 0, _, _, _, _ => .error .out_of_fuel
  | fuel + 1, buf, source, destination, result =>
    match rd buf source with
    | .error e => .error e
    | .ok c =>
      if c == NUL then .ok (buf, source, destination, result)
      else if c == '\\' then
        match rd buf (source + 1) with
        | .error e => .error e
        | .ok x =>
          match switch_stores x with
          | some stored =>
            match wr buf destination stored with
            | .error e => .error e
            | .ok b => unquote_loop fuel b (source + 2) (destination + 1) result
          | none =>
            if is_octal x then
              match unquote_octal buf (source + 1) destination with
              | .error e => .error e
              | .ok (b, s, d) => unquote_loop fuel b s d result
            else
              match unquote_default buf (source + 1) destination with
              | .error e => .error e
              | .ok (b, s, d) => unquote_loop fuel b s d 0
      else if source ≠ destination then
        match wr buf destination c with
        | .error e => .error e
        | .ok b => unquote_loop fuel b (source + 1) (destination + 1) result
      else unquote_loop fuel buf (source + 1) (destination + 1) result

/-- The function `unquote_string (string)` on the buffer that holds the
string and its terminator: the result and the buffer afterwards. -/
def unquote_string (buf : List Char) : Except Fault (Int × List Char) :=
  match unquote_loop buf.length buf 0 0 1 with
  | .error e => .error e
  | .ok (b, source, destination, result) =>
    if source ≠ destination then
      match wr b destination NUL with
      | .error e => .error e
      | .ok b1 => .ok (result, b1)
    else .ok (result, b)

/-- The character that an escape letter denotes: the backslash itself, and
the control characters of `a`, `b`, `f`, `n`, `r`, `t`, `v`; `?` stands for
the character 0177. -/
def escape_denotes (c : Char) : Option Char :=
  [('\\', '\\'), ('a', Char.ofNat 7), ('b', Char.ofNat 8), ('f', Char.ofNat 12),
   ('n', Char.ofNat 10), ('r', Char.ofNat 13), ('t', Char.ofNat 9), ('v', Char.ofNat 11),
   ('?', Char.ofNat 127)].lookup c

/-- The octal digits of an octal escape: the one to three octal digits that
the text starts with. -/
def octal_digits (s : List Char) : List Char := (s.take 3).takeWhile is_octal

/-- The character that the digits of an octal escape denote: their value in
base 8, as a `char`. -/
def octal_denotes (digits : List Char) : Char :=
  int_to_char (digits.foldl (fun v d => v * 8 + (d.toNat - '0'.toNat)) 0)

/-- The first piece of a text: what it unquotes to, whether it is properly
quoted, and how many characters it takes. A recognised escape gives the
character it denotes; a backslash before any other character is kept with that
character, a backslash at the end is kept, and both are not properly quoted;
any other character is kept. -/
def unquote_piece (s : List Char) : List Char × Bool × Nat :=
  match s with
  | [] => ([], true, 0)
  | c :: rest =>
    if c = '\\' then
      match rest with
      | [] => (['\\'], false, 1)
      | x :: _ =>
        match escape_denotes x with
        | some ch => ([ch], true, 2)
        | none =>
          if is_octal x then ([octal_denotes (octal_digits rest)], true,
            1 + (octal_digits rest).length)
          else (['\\', x], false, 2)
    else ([c], true, 1)

/-- The scan of a text from left to right, piece by piece: the unquoted text
and whether every piece is properly quoted. The first argument counts the
characters still to skip, which belong to the piece before. -/
def unquote_scan : Nat → List Char → List Char × Bool
  | _, [] => ([], true)
  | skip + 1, _ :: rest => unquote_scan skip rest
  | 0, c :: rest =>
    ((unquote_piece (c :: rest)).1 ++
        (unquote_scan ((unquote_piece (c :: rest)).2.2 - 1) rest).1,
      (unquote_piece (c :: rest)).2.1 &&
        (unquote_scan ((unquote_piece (c :: rest)).2.2 - 1) rest).2)

/-- The unquoted form of a text. -/
def unquote_ref (s : List Char) : List Char := (unquote_scan 0 s).1

/-- A text is properly quoted: scanning from the left, every backslash is
followed by a backslash, one of the letters `a`, `b`, `f`, `n`, `r`, `t`, `v`,
a question mark or an octal digit. -/
def properly_quoted (s : List Char) : Bool := (unquote_scan 0 s).2

/-! ## Handling numbers: `sysinttostr`, `strtosysint` -/

def EINVAL : Nat := 22

def ERANGE : Nat := 34

/-- The constant `INTMAX_MAX` of a 64-bit `intmax_t`. -/
def INTMAX_MAX : Int := 2 ^ 63 - 1

/-- The constant `INTMAX_MIN` of a 64-bit `intmax_t`. -/
def INTMAX_MIN : Int := - 2 ^ 63

/-- The constant `UINTMAX_MAX` of a 64-bit `uintmax_t`. -/
def UINTMAX_MAX : Nat := 2 ^ 64 - 1

/-- The conversion `(uintmax_t) i` of an `intmax_t`: the value modulo 2^64. -/
def to_uintmax (i : Int) : Nat := (i % 2 ^ 64).toNat

/-- The conversion of a `uintmax_t` to `intmax_t`: the value of the same 64
bits in two's complement. -/
def to_intmax (u : Nat) : Int :=
  if u % 2 ^ 64 < 2 ^ 63 then ((u % 2 ^ 64 : Nat) : Int) else ((u % 2 ^ 64 : Nat) : Int) - 2 ^ 64

/-- The test `ISDIGIT (c)`, that is `(unsigned) (c) - '0' <= 9`. -/
def ISDIGIT (c : Char) : Bool := decide ('0'.toNat ≤ c.toNat) && decide (c.toNat - '0'.toNat ≤ 9)

/-- What `strtoimax` or `strtoumax` gives: the value, the offset of the
character that `*endptr` then points to, and the value that it stores into
`errno`, if it stores one. -/
structure Conversion (α : Type) where
  value : α
  endptr : Nat
  errno : Option Nat
  deriving DecidableEq, Repr

/-- The functions that the number handling of `misc.c` takes from gnulib
(`umaxtostr`, `imaxtostr`), from the C library (`strtoimax`, `strtoumax`, both
with base 10) and from `common.h` (`represent_uintmax`). The strings are the
characters before the terminator. -/
structure NumLib where
  umaxtostr : Nat → List Char
  imaxtostr : Int → List Char
  strtoimax : List Char → Conversion Int
  strtoumax : List Char → Conversion Nat
  represent_uintmax : Nat → Int

/-- The function `sysinttostr (value, minval, maxval, buf)`: the string that
the result points to. The sum `i + minval` is a sum of `intmax_t`. -/
def sysinttostr (lib : NumLib) (value : Nat) (minval : Int) (maxval : Nat) :
    Except Fault (List Char) :=
  if value ≤ maxval then .ok (lib.umaxtostr value)
  else
    let i := to_intmax ((value + (2 ^ 64 - to_uintmax minval)) % 2 ^ 64)
    if INTMAX_MIN ≤ i + minval ∧ i + minval ≤ INTMAX_MAX then .ok (lib.imaxtostr (i + minval))
    else .error .signed_overflow

/-- The result of `strtosysint`: the value returned, `errno`, and the offset
stored into `*arglim`, if one is stored. -/
structure SysInt where
  value : Int
  errno : Nat
  arglim : Option Nat
  deriving DecidableEq, Repr

/-- The function `strtosysint (arg, arglim, minval, maxval)` with a nonnull
`arglim`. -/
def strtosysint (lib : NumLib) (arg : List Char) (minval : Int) (maxval : Nat) :
    Except Fault SysInt :=
  if (maxval : Int) ≤ INTMAX_MAX then
    match cchar arg 0 with
    | .error e => .error e
    | .ok c0 =>
      match cchar arg (if c0 == '-' then 1 else 0) with
      | .error e => .error e
      | .ok d =>
        if ISDIGIT d then
          if minval ≤ (lib.strtoimax arg).value ∧ (lib.strtoimax arg).value ≤ to_intmax maxval then
            .ok ⟨(lib.strtoimax arg).value, ((lib.strtoimax arg).errno).getD 0,
              some (lib.strtoimax arg).endptr⟩
          else
            .ok ⟨if (lib.strtoimax arg).value < minval then to_intmax (to_uintmax minval)
                else to_intmax maxval,
              ERANGE, some (lib.strtoimax arg).endptr⟩
        else .ok ⟨0, EINVAL, none⟩
  else
    match cchar arg 0 with
    | .error e => .error e
    | .ok c0 =>
      if ISDIGIT c0 then
        if (lib.strtoumax arg).value ≤ maxval then
          .ok ⟨lib.represent_uintmax (lib.strtoumax arg).value,
            ((lib.strtoumax arg).errno).getD 0, some (lib.strtoumax arg).endptr⟩
        else .ok ⟨to_intmax maxval, ERANGE, some (lib.strtoumax arg).endptr⟩
      else .ok ⟨0, EINVAL, none⟩

/-! ### Decimal numerals and the contract of the library -/

/-- The character of a decimal digit. -/
def digit_char (d : Nat) : Char := Char.ofNat ('0'.toNat + d)

/-- The value of a decimal digit. -/
def digit_value (c : Char) : Nat := c.toNat - '0'.toNat

/-- The decimal numeral of a number, most significant digit first; the first
argument bounds the number of digits. -/
def decimal_upto : Nat → Nat → List Char
  | 0, _ => []
  | fuel + 1, n =>
    if n < 10 then [digit_char n] else decimal_upto fuel (n / 10) ++ [digit_char (n % 10)]

/-- The decimal numeral of a number, without sign and without leading zero. -/
def decimal (n : Nat) : List Char := decimal_upto (n + 1) n

/-- The number that a string of decimal digits stands for. -/
def decimal_value (digits : List Char) : Nat :=
  digits.foldl (fun v c => 10 * v + digit_value c) 0

/-- No digit follows: the text is empty or starts with a character that is
no digit. -/
def no_digit_ahead (rest : List Char) : Prop := ∀ c ∈ rest.head?, ISDIGIT c = false

/-- The contract of the library functions. `umaxtostr` and `imaxtostr` give
the decimal numeral, with a leading `-` for a negative number. `strtoumax` and
`strtoimax` read a decimal numeral that is in range, with a leading `-` for
`strtoimax`, up to the first character that is no digit, and leave `errno`
alone. `represent_uintmax (n)` is an `intmax_t` whose conversion to `uintmax_t`
is `n`. -/
def NumLib.standard (lib : NumLib) : Prop :=
  (∀ n : Nat, n ≤ UINTMAX_MAX → lib.umaxtostr n = decimal n) ∧
  (∀ i : Int, INTMAX_MIN ≤ i → i ≤ INTMAX_MAX →
    lib.imaxtostr i = if i < 0 then '-' :: decimal (-i).toNat else decimal i.toNat) ∧
  (∀ (n : Nat) (rest : List Char), n ≤ UINTMAX_MAX → no_digit_ahead rest →
    lib.strtoumax (decimal n ++ rest) = ⟨n, (decimal n).length, none⟩) ∧
  (∀ (n : Nat) (rest : List Char), (n : Int) ≤ INTMAX_MAX → no_digit_ahead rest →
    lib.strtoimax (decimal n ++ rest) = ⟨(n : Int), (decimal n).length, none⟩) ∧
  (∀ (n : Nat) (rest : List Char), - (n : Int) ≥ INTMAX_MIN → no_digit_ahead rest →
    lib.strtoimax ('-' :: (decimal n ++ rest)) = ⟨- (n : Int), (decimal n).length + 1, none⟩) ∧
  (∀ n : Nat, n ≤ UINTMAX_MAX →
    INTMAX_MIN ≤ lib.represent_uintmax n ∧ lib.represent_uintmax n ≤ INTMAX_MAX ∧
    to_uintmax (lib.represent_uintmax n) = n)

/-- The conversion of an unsigned decimal numeral at the start of a text,
as `strtoumax` does it: the value is `UINTMAX_MAX` with `ERANGE` when the
numeral is too large, and nothing is read when the text starts with no
digit. -/
def strtoumax_digits (s : List Char) : Conversion Nat :=
  if (s.takeWhile ISDIGIT).length = 0 then ⟨0, 0, none⟩
  else if decimal_value (s.takeWhile ISDIGIT) ≤ UINTMAX_MAX then
    ⟨decimal_value (s.takeWhile ISDIGIT), (s.takeWhile ISDIGIT).length, none⟩
  else ⟨UINTMAX_MAX, (s.takeWhile ISDIGIT).length, some ERANGE⟩

/-- The conversion of a signed decimal numeral at the start of a text, as
`strtoimax` does it: an optional `-`, then digits; the value is clamped with
`ERANGE` when it is out of range. -/
def strtoimax_digits (s : List Char) : Conversion Int :=
  match s with
  | '-' :: t =>
    if (t.takeWhile ISDIGIT).length = 0 then ⟨0, 0, none⟩
    else if - (decimal_value (t.takeWhile ISDIGIT) : Int) ≥ INTMAX_MIN then
      ⟨- (decimal_value (t.takeWhile ISDIGIT) : Int), (t.takeWhile ISDIGIT).length + 1, none⟩
    else ⟨INTMAX_MIN, (t.takeWhile ISDIGIT).length + 1, some ERANGE⟩
  | _ =>
    if (s.takeWhile ISDIGIT).length = 0 then ⟨0, 0, none⟩
    else if (decimal_value (s.takeWhile ISDIGIT) : Int) ≤ INTMAX_MAX then
      ⟨(decimal_value (s.takeWhile ISDIGIT) : Int), (s.takeWhile ISDIGIT).length, none⟩
    else ⟨INTMAX_MAX, (s.takeWhile ISDIGIT).length, some ERANGE⟩

/-- A library that keeps the contract: decimal numerals, and
`represent_uintmax` by two's complement. -/
def lib0 : NumLib where
  umaxtostr := decimal
  imaxtostr := fun i => if i < 0 then '-' :: decimal (-i).toNat else decimal i.toNat
  strtoimax := strtoimax_digits
  strtoumax := strtoumax_digits
  represent_uintmax := to_intmax

/-! ## Time stamps: `code_timespec`, `decode_timespec` -/

def BILLION : Int := 1000000000

def LOG10_BILLION : Nat := 9

/-- The bound `INT_STRLEN_BOUND (uintmax_t)` of a 64-bit `uintmax_t`: 20
digits. -/
def UINTMAX_STRLEN_BOUND : Nat := 20

/-- The bound `UINTMAX_STRSIZE_BOUND`, that is `INT_BUFSIZE_BOUND
(uintmax_t)`: the digits and the terminator. -/
def UINTMAX_STRSIZE_BOUND : Nat := UINTMAX_STRLEN_BOUND + 1

/-- The bound `TIMESPEC_STRSIZE_BOUND`, that is `UINTMAX_STRSIZE_BOUND +
LOG10_BILLION + sizeof "-." - 1`. -/
def TIMESPEC_STRSIZE_BOUND : Nat := UINTMAX_STRSIZE_BOUND + LOG10_BILLION + 2

/-- The value `TYPE_MINIMUM (time_t)` of a signed 64-bit `time_t`. -/
def TIME_T_MINIMUM : Int := - 2 ^ 63

/-- The value `TYPE_MAXIMUM (time_t)` of a signed 64-bit `time_t`. -/
def TIME_T_MAXIMUM : Int := 2 ^ 63 - 1

/-- The conversion to `int`, as in `int ns = t.tv_nsec`: the value of the low
32 bits in two's complement. -/
def to_int (x : Int) : Int := (x + 2 ^ 31) % 2 ^ 32 - 2 ^ 31

/-- The conversion of an `int` to `char` in an assignment such as
`p[--i] = '0' + ns % 10`: the low eight bits. -/
def char_of_int (v : Int) : Char := Char.ofNat (v % 256).toNat

/-- The loop `while (ns % 10 == 0) { ns /= 10; i--; }` of
`code_ns_fraction`: the new `ns` and `i`. -/
def strip_zeros : Nat → Int → Int → Except Fault (Int × Int)
  | 0, _, _ => .error .out_of_fuel
  | fuel + 1, ns, i =>
    if Int.tmod ns 10 == 0 then strip_zeros fuel (Int.tdiv ns 10) (i - 1) else .ok (ns, i)

/-- The store `p[i] = c` for a pointer `p` at the offset `p` of the buffer
and an `int` index. -/
def wr_at (buf : List Char) (p : Nat) (i : Int) (c : Char) : Except Fault (List Char) :=
  if 0 ≤ (p : Int) + i then wr buf ((p : Int) + i).toNat c else .error .out_of_bounds

/-- The loop `for (;;) { p[--i] = '0' + ns % 10; if (i == 0) break; ns /= 10; }`
of `code_ns_fraction`. -/
def fill_digits : Nat → List Char → Nat → Int → Int → Except Fault (List Char)
  | 0, _, _, _, _ => .error .out_of_fuel
  | fuel + 1, buf, p, ns, i =>
    match wr_at buf p (i - 1) (char_of_int (('0'.toNat : Int) + Int.tmod ns 10)) with
    | .error e => .error e
    | .ok b => if i - 1 == 0 then .ok b else fill_digits fuel b p (Int.tdiv ns 10) (i - 1)

/-- The function `code_ns_fraction (ns, p)` for the pointer `p` at the offset
`p` of the buffer: the buffer afterwards. -/
def code_ns_fraction (ns : Int) (buf : List Char) (p : Nat) : Except Fault (List Char) :=
  if ns == 0 then wr buf p NUL
  else
    match wr buf p '.' with
    | .error e => .error e
    | .ok b1 =>
      match strip_zeros (ns.natAbs + 1) ns 9 with
      | .error e => .error e
      | .ok (ns1, i) =>
        match wr_at b1 (p + 1) i NUL with
        | .error e => .error e
        | .ok b2 => fill_digits (buf.length + 10) b2 (p + 1) ns1 i

/-- The call `umaxtostr (value, buf + off)` of gnulib on the buffer: the
digits are stored so that their terminator is at the offset
`off + INT_STRLEN_BOUND (uintmax_t)`; the result is the buffer and the offset
of the first digit. -/
def umaxtostr_at (lib : NumLib) (value : Nat) (buf : List Char) (off : Nat) :
    Except Fault (List Char × Nat) :=
  if (lib.umaxtostr value).length ≤ UINTMAX_STRLEN_BOUND ∧
      off + UINTMAX_STRLEN_BOUND < buf.length then
    .ok (buf.take (off + UINTMAX_STRLEN_BOUND - (lib.umaxtostr value).length)
        ++ lib.umaxtostr value ++ NUL :: buf.drop (off + UINTMAX_STRLEN_BOUND + 1),
      off + UINTMAX_STRLEN_BOUND - (lib.umaxtostr value).length)
  else .error .out_of_bounds

/-- The seconds and nanoseconds that `code_timespec` writes, after
`if (BILLION <= ns || ns < 0) ns = 0;` and
`if (negative && ns != 0) { s++; ns = BILLION - ns; }`. -/
def code_timespec_parts (tv_sec tv_nsec : Int) : Int × Int :=
  if (decide (tv_sec < 0) &&
      (if BILLION ≤ to_int tv_nsec ∨ to_int tv_nsec < 0 then 0 else to_int tv_nsec) != 0) then
    (tv_sec + 1,
      BILLION - (if BILLION ≤ to_int tv_nsec ∨ to_int tv_nsec < 0 then 0 else to_int tv_nsec))
  else (tv_sec, if BILLION ≤ to_int tv_nsec ∨ to_int tv_nsec < 0 then 0 else to_int tv_nsec)

/-- The function `code_timespec (t, sbuf)`: the buffer afterwards and the
offset that the result points to. -/
def code_timespec (lib : NumLib) (tv_sec tv_nsec : Int) (sbuf : List Char) :
    Except Fault (List Char × Nat) :=
  match umaxtostr_at lib
      (if tv_sec < 0 then (2 ^ 64 - to_uintmax (code_timespec_parts tv_sec tv_nsec).1) % 2 ^ 64
        else to_uintmax (code_timespec_parts tv_sec tv_nsec).1) sbuf 1 with
  | .error e => .error e
  | .ok (b1, np) =>
    if tv_sec < 0 then
      if np = 0 then .error .out_of_bounds
      else
        match wr b1 (np - 1) '-' with
        | .error e => .error e
        | .ok b2 =>
          match code_ns_fraction (code_timespec_parts tv_sec tv_nsec).2 b2
              UINTMAX_STRSIZE_BOUND with
          | .error e => .error e
          | .ok b3 => .ok (b3, np - 1)
    else
      match code_ns_fraction (code_timespec_parts tv_sec tv_nsec).2 b1
          UINTMAX_STRSIZE_BOUND with
      | .error e => .error e
      | .ok b3 => .ok (b3, np)

/-- The result of `decode_timespec`: the time stamp returned, `errno`, and
the offset stored into `*arg_lim`. -/
structure Decoded where
  tv_sec : Int
  tv_nsec : Int
  errno : Nat
  arg_lim : Nat
  deriving DecidableEq, Repr

/-- The seconds of `decode_timespec`: `s`, `errno` and the offset in
`*arg_lim` after the call of `strtoimax` or `strtoumax`. -/
def decode_seconds (lib : NumLib) (arg : List Char) (negative : Bool) : Int × Nat × Nat :=
  if negative then
    if TIME_T_MINIMUM ≤ (lib.strtoimax arg).value then
      ((lib.strtoimax arg).value, ((lib.strtoimax arg).errno).getD 0, (lib.strtoimax arg).endptr)
    else (TIME_T_MINIMUM, ERANGE, (lib.strtoimax arg).endptr)
  else
    if ((lib.strtoumax arg).value : Int) ≤ TIME_T_MAXIMUM then
      (((lib.strtoumax arg).value : Int), ((lib.strtoumax arg).errno).getD 0,
        (lib.strtoumax arg).endptr)
    else (TIME_T_MINIMUM, ERANGE, (lib.strtoumax arg).endptr)

/-- The loop `while (ISDIGIT (*++p))` of `decode_timespec`: `p`, `digits`,
`ns` and `trailing_nonzero` when it ends. -/
def fraction_loop : Nat → List Char → Nat → Nat → Int → Bool →
    Except Fault (Nat × Nat × Int × Bool)
  | 0, _, _, _, _, _ => .error .out_of_fuel
  | fuel + 1, arg, p, digits, ns, trailing_nonzero =>
    match cchar arg (p + 1) with
    | .error e => .error e
    | .ok x =>
      if ISDIGIT x then
        if digits < LOG10_BILLION then
          fraction_loop fuel arg (p + 1) (digits + 1)
            (10 * ns + ((x.toNat : Int) - ('0'.toNat : Int))) trailing_nonzero
        else fraction_loop fuel arg (p + 1) digits ns (trailing_nonzero || x != '0')
      else .ok (p + 1, digits, ns, trailing_nonzero)

/-- The loop `while (digits < LOG10_BILLION) digits++, ns *= 10;`: the new
`ns`. -/
def pad_loop : Nat → Nat → Int → Except Fault Int
  | 0, _, _ => .error .out_of_fuel
  | fuel + 1, digits, ns =>
    if digits < LOG10_BILLION then pad_loop fuel (digits + 1) (ns * 10) else .ok ns

/-- The block `if (negative)` of the fraction of `decode_timespec`: the new
`s` and `ns`. -/
def negative_fraction (s ns : Int) (trailing_nonzero : Bool) : Int × Int :=
  if ns + (if trailing_nonzero then 1 else 0) != 0 then
    if s == TIME_T_MINIMUM then (s, -1)
    else (s - 1, BILLION - (ns + (if trailing_nonzero then 1 else 0)))
  else (s, ns + (if trailing_nonzero then 1 else 0))

/-- The function `decode_timespec (arg, arg_lim, parse_fraction)`. -/
def decode_timespec (lib : NumLib) (arg : List Char) (parse_fraction : Bool) :
    Except Fault Decoded :=
  match cchar arg 0 with
  | .error e => .error e
  | .ok c0 =>
    match cchar arg (if c0 == '-' then 1 else 0) with
    | .error e => .error e
    | .ok d =>
      if !ISDIGIT d then .ok ⟨TIME_T_MINIMUM, -1, EINVAL, 0⟩
      else
        match cchar arg (decode_seconds lib arg (c0 == '-')).2.2 with
        | .error e => .error e
        | .ok x =>
          if parse_fraction && x == '.' then
            match fraction_loop (arg.length + 1) arg (decode_seconds lib arg (c0 == '-')).2.2
                0 0 false with
            | .error e => .error e
            | .ok (p, digits, ns, trailing_nonzero) =>
              match pad_loop (LOG10_BILLION + 1) digits ns with
              | .error e => .error e
              | .ok ns1 =>
                if c0 == '-' then
                  .ok ⟨(negative_fraction (decode_seconds lib arg true).1 ns1
                        trailing_nonzero).1,
                    if (decode_seconds lib arg true).2.1 == ERANGE then -1
                    else (negative_fraction (decode_seconds lib arg true).1 ns1
                        trailing_nonzero).2,
                    (decode_seconds lib arg true).2.1, p⟩
                else
                  .ok ⟨(decode_seconds lib arg false).1,
                    if (decode_seconds lib arg false).2.1 == ERANGE then -1 else ns1,
                    (decode_seconds lib arg false).2.1, p⟩
          else
            .ok ⟨(decode_seconds lib arg (c0 == '-')).1,
              if (decode_seconds lib arg (c0 == '-')).2.1 == ERANGE then -1 else 0,
              (decode_seconds lib arg (c0 == '-')).2.1,
              (decode_seconds lib arg (c0 == '-')).2.2⟩

/-- The digits of a number in a field of a fixed width, most significant
digit first. -/
def fixed_digits : Nat → Nat → List Char
  | 0, _ => []
  | width + 1, m => fixed_digits width (m / 10) ++ [digit_char (m % 10)]

/-- The part of a text from its first `.` on: the fraction of a time
stamp. -/
def fraction_of (text : List Char) : List Char := text.dropWhile (fun x => x != '.')

/-! ## The move to the front of the cache -/

theorem move_loop_spec (i : Nat) :
    ∀ (ys xs : List Nat) (fuel ci prev : Nat), xs.length = ci → i ∈ ys → prev ≠ i →
      ys.length < fuel →
      move_loop i fuel ci prev (xs ++ ys) = .ok (xs ++ prev :: ys.erase i) := by
  intro ys
  induction ys with
  | nil => intro xs fuel ci prev _ hi; simp at hi
  | cons y ys ih =>
    intro xs fuel ci prev hlen hi hprev hfuel
    cases fuel with
    | zero => simp at hfuel
    | succ fuel =>
      have hget : (xs ++ y :: ys)[ci]? = some y := by
        subst hlen; rw [List.getElem?_append_right (le_refl _)]; simp
      have hset : (xs ++ y :: ys).set ci prev = xs ++ prev :: ys := by
        subst hlen; simp
      unfold move_loop
      rw [if_neg hprev, hget]
      simp only [hset]
      by_cases hy : y = i
      · subst hy; simp
      · rw [if_neg hy]
        have hi' : i ∈ ys := by
          rcases List.mem_cons.mp hi with h | h
          · exact absurd h.symm hy
          · exact h
        have := ih (xs ++ [prev]) fuel (ci + 1) y (by simp [hlen]) hi' hy
          (by simp at hfuel; omega)
        simp only [List.append_assoc, List.singleton_append] at this
        rw [this]
        simp [List.erase_cons, hy]

theorem move_to_front_spec (i : Nat) (c : List Nat) (hi : i ∈ c)
    (hlen : c.length ≤ CHDIR_CACHE_SIZE) :
    move_to_front i c = .ok (i :: c.erase i) := by
  cases c with
  | nil => simp at hi
  | cons a t =>
    unfold move_to_front
    simp only [List.getElem?_cons_zero]
    by_cases ha : a = i
    · subst ha
      simp [move_loop, CHDIR_CACHE_SIZE]
    · have hi' : i ∈ t := by
        rcases List.mem_cons.mp hi with h | h
        · exact absurd h.symm ha
        · exact h
      have := move_loop_spec i t [a] (CHDIR_CACHE_SIZE + 1) 1 a rfl hi' ha
        (by simp at hlen; omega)
      simp only [List.singleton_append] at this
      rw [this]
      simp [List.erase_cons, ha]

/-! ## The invariant of the descriptor cache -/

theorem Inv_init : Inv State.init := by
  refine ⟨by simp [State.init], by simp [State.init], ?_, ?_, ?_, ?_, ?_, ?_, ?_, ?_⟩ <;>
    simp [State.init, State.cache, State.fdOf, fdAt, live]

theorem Frame.refl (i : Nat) (s : State) : Frame i s s :=
  ⟨rfl, fun _ _ h => h, rfl, ⟨[], by simp⟩⟩

theorem Frame.length {i : Nat} {s s' : State} (h : Frame i s s') : s'.wd.length = s.wd.length := by
  have := congrArg List.length h.static
  simpa using this

theorem Frame.name {i : Nat} {s s' : State} (h : Frame i s s') (j : Nat) (e : wd)
    (he : s.wd[j]? = some e) : ∃ e', s'.wd[j]? = some e' ∧ e'.name = e.name ∧ e'.abspath = e.abspath := by
  have h1 : (s'.wd.map wd.static)[j]? = (s.wd.map wd.static)[j]? := by rw [h.static]
  simp only [List.getElem?_map, he, Option.map_some'] at h1
  cases h2 : s'.wd[j]? with
  | none => simp [h2] at h1
  | some e' =>
    refine ⟨e', rfl, ?_⟩
    simp [h2, wd.static] at h1
    exact h1

theorem fdAt_set (l : List wd) (k : Nat) (e : wd) (j : Nat) (hk : k < l.length) :
    fdAt (l.set k e) j = if j = k then e.fd else fdAt l j := by
  unfold fdAt
  by_cases h : j = k
  · subst h; simp [hk]
  · simp [h, List.getElem?_set_ne (Ne.symm h)]

theorem fdOf_of_get {s : State} {j : Nat} {e : wd} (h : s.wd[j]? = some e) : s.fdOf j = e.fd := by
  simp [State.fdOf, fdAt, h]

theorem cache_of_append {s : State} {c r : List Nat} (h1 : s.wdcache = c ++ r)
    (h2 : s.wdcache_count = c.length) : s.cache = c := by
  simp [State.cache, h1, h2]

theorem Inv.split {s : State} (h : Inv s) :
    s.wdcache = s.cache ++ s.wdcache.drop s.wdcache_count ∧ s.cache.length = s.wdcache_count := by
  refine ⟨(List.take_append_drop _ _).symm, ?_⟩
  simp [State.cache, h.cache_len, h.count_le]

theorem live_append (t : List Event) (e : Event) : live (t ++ [e]) = live_step (live t) e := by
  simp [live, List.foldl_append]

theorem live_room {t : List Event} {cache : List Nat} {f f' : Nat → Int} {fd : Int} {i : Nat}
    (d : Int) (n : List Char) (fl : Nat)
    (hl : (live t).Perm (cache.map f)) (hfd : 0 ≤ fd) (hf : ∀ j ∈ cache, f' j = f j)
    (hi : f' i = fd) :
    (live (t ++ [Event.openat d n fl fd])).Perm ((i :: cache).map f') := by
  rw [live_append]
  simp only [live_step, hfd, if_true, List.map_cons, hi]
  rw [List.map_congr_left hf]
  exact hl.cons fd

theorem live_evict {t : List Event} {dl : List Nat} {m : Nat} {f f' : Nat → Int} {fd x : Int}
    {i : Nat} (d : Int) (n : List Char) (fl : Nat)
    (hl : (live t).Perm ((dl ++ [m]).map f)) (hfd : 0 ≤ fd) (hf : ∀ j ∈ dl, f' j = f j)
    (hi : f' i = fd) (hx : x = f m) :
    (live (t ++ [Event.openat d n fl fd, Event.close x])).Perm ((i :: dl).map f') := by
  have e : t ++ [Event.openat d n fl fd, Event.close x]
      = (t ++ [Event.openat d n fl fd]) ++ [Event.close x] := by simp
  rw [e, live_append, live_append]
  simp only [live_step, hfd, if_true, List.map_cons, hi]
  rw [List.map_congr_left hf]
  have h1 : (fd :: live t).Perm (x :: fd :: dl.map f) := by
    have : (live t).Perm (x :: dl.map f) := by
      refine hl.trans ?_
      rw [List.map_append, hx]
      simp
    exact (this.cons fd).trans (List.Perm.swap _ _ _)
  have h2 := h1.erase x
  simpa using h2

theorem finish_cached {s : State} (h : Inv s) {i : Nat} (hi : i ∈ s.cache) {fd : Int}
    (hfd : 0 < fd) (hfd' : fd = s.fdOf i) :
    ∃ s', chdir_do_finish i fd s = .ok s' ∧ Inv s' ∧ s'.chdir_current = i ∧ s'.chdir_fd = fd ∧
      s'.cache = i :: s.cache.erase i ∧ s'.wd = s.wd ∧ s'.trace = s.trace ∧
      s'.wd_alloc = s.wd_alloc ∧ s'.wdcache_count = s.wdcache_count := by
  obtain ⟨hsplit, hclen⟩ := h.split
  have hmem : i ∈ s.wdcache := by rw [hsplit]; exact List.mem_append_left _ hi
  have hmtf := move_to_front_spec i s.wdcache hmem (by rw [h.cache_len])
  have herase : s.wdcache.erase i = s.cache.erase i ++ s.wdcache.drop s.wdcache_count := by
    conv_lhs => rw [hsplit]
    exact List.erase_append_left _ hi
  have hlen1 : (s.cache.erase i).length + 1 = s.wdcache_count := by
    rw [List.length_erase_of_mem hi, hclen]
    have : 0 < s.cache.length := List.length_pos_of_mem hi
    omega
  refine ⟨{ s with wdcache := i :: s.wdcache.erase i, chdir_current := i, chdir_fd := fd }, ?_, ?_,
    rfl, rfl, ?_, rfl, rfl, rfl, rfl⟩
  · simp [chdir_do_finish, hfd, hmtf]
  · have hc : ({ s with wdcache := i :: s.wdcache.erase i, chdir_current := i,
                        chdir_fd := fd } : State).cache = i :: s.cache.erase i := by
      apply cache_of_append (r := s.wdcache.drop s.wdcache_count)
      · simp [herase]
      · simp [hlen1]
    have hperm : (i :: s.cache.erase i).Perm s.cache := (List.perm_cons_erase hi).symm
    constructor
    · simp only [List.length_cons, List.length_erase_of_mem hmem, h.cache_len]
      simp [CHDIR_CACHE_SIZE]
    · exact h.count_le
    · rw [hc]; exact hperm.nodup_iff.mpr h.nodup
    · intro j hj
      rw [hc] at hj
      exact h.cached j (hperm.mem_iff.mp hj)
    · intro j hj hnj
      rw [hc] at hnj
      exact h.uncached j hj (fun hm => hnj (hperm.mem_iff.mpr hm))
    · exact h.entry0
    · right; rw [hc]; rfl
    · have hi0 : i ≠ 0 := by
        have := (h.cached i hi).1
        omega
      simp only [hi0, if_false]
      exact hfd'
    · exact h.alloc
    · rw [hc]
      exact h.live.trans (hperm.symm.map _)
  · apply cache_of_append (r := s.wdcache.drop s.wdcache_count)
    · simp [herase]
    · simp [hlen1]

theorem Inv_after_open {s1 s' : State} (h : Inv s1) {i : Nat} {d : Int} {c : List Nat}
    (hlen : s'.wdcache.length = CHDIR_CACHE_SIZE) (hcount : s'.wdcache_count ≤ CHDIR_CACHE_SIZE)
    (hcache : s'.cache = i :: c) (hsub : c.Sublist s1.cache) (hi : i ∉ s1.cache)
    (hi0 : 0 < i) (hilt : i < s1.wd.length) (hwdlen : s'.wd.length = s1.wd.length)
    (hfd : 0 < d)
    (hfds : ∀ j, s'.fdOf j = if j = i then d else if j ∈ s1.cache ∧ j ∉ c then 0 else s1.fdOf j)
    (hcur : s'.chdir_current = i) (hcfd : s'.chdir_fd = d)
    (hlive : (live s'.trace).Perm (s'.cache.map s'.fdOf)) :
    Inv s' := by
  have hic : i ∉ c := fun hm => hi (hsub.subset hm)
  constructor
  · exact hlen
  · exact hcount
  · rw [hcache]
    exact List.nodup_cons.mpr ⟨hic, h.nodup.sublist hsub⟩
  · intro j hj
    rw [hcache] at hj
    rcases List.mem_cons.mp hj with rfl | hjc
    · refine ⟨hi0, by rw [hwdlen]; exact hilt, ?_⟩
      rw [hfds]; simpa using hfd
    · have hj1 := h.cached j (hsub.subset hjc)
      have hne : j ≠ i := fun e => hic (e ▸ hjc)
      refine ⟨hj1.1, by rw [hwdlen]; exact hj1.2.1, ?_⟩
      rw [hfds]; simp only [hne, if_false, hjc, not_true_eq_false, and_false]
      exact hj1.2.2
  · intro j hj hnj
    rw [hcache] at hnj
    have hne : j ≠ i := fun e => hnj (e ▸ List.mem_cons_self _ _)
    have hjc : j ∉ c := fun hm => hnj (List.mem_cons_of_mem _ hm)
    rw [hfds]; simp only [hne, if_false, hjc, not_false_eq_true, and_true]
    by_cases hm : j ∈ s1.cache
    · simp [hm]
    · simp only [hm, if_false]; exact h.uncached j hj hm
  · intro hne
    have hne1 : s1.wd ≠ [] := by
      intro e; rw [e] at hilt; simp at hilt
    have h0 : (0 : Nat) ≠ i := by omega
    have h0c : 0 ∉ s1.cache := fun hm => by have := (h.cached 0 hm).1; omega
    rw [hfds]; simp only [h0, if_false, h0c, false_and]
    exact h.entry0 hne1
  · right; rw [hcache, hcur]; rfl
  · have : i ≠ 0 := by omega
    rw [hcur, hcfd, hfds]; simp [this]
  · intro e
    rw [e] at hwdlen
    simp at hwdlen
    rw [← hwdlen] at hilt
    omega
  · exact hlive

theorem open_finish_spec (env : Env) {s1 : State} (h : Inv s1) {i : Nat} (hi0 : 0 < i)
    {curr : wd} (hcurr : s1.wd[i]? = some curr) (hz : curr.fd = 0)
    (hpos : 0 < open_ret env s1 curr) :
    ∃ s2 s', chdir_do_open env i s1 = .ok (open_ret env s1 curr, s2) ∧
      chdir_do_finish i (open_ret env s1 curr) s2 = .ok s' ∧
      Inv s' ∧ s'.chdir_current = i ∧ s'.chdir_fd = open_ret env s1 curr ∧
      s'.wd_alloc = s1.wd_alloc ∧ OpenStep env i curr s1 s' := by
  unfold OpenStep
  have hev : open_event env s1 curr
      = Event.openat s1.chdir_fd curr.name (chdir_open_flags env) (open_ret env s1 curr) := rfl
  have hfd : env.openat s1.trace s1.chdir_fd curr.name (chdir_open_flags env)
      = open_ret env s1 curr := rfl
  generalize open_ret env s1 curr = fd at hpos hev hfd ⊢
  obtain ⟨hsplit, hclen⟩ := h.split
  have hilt : i < s1.wd.length := (List.getElem?_eq_some_iff.mp hcurr).1
  have hic : i ∉ s1.cache := by
    intro hm
    have := (h.cached i hm).2.2
    rw [fdOf_of_get hcurr, hz] at this
    exact lt_irrefl _ this
  have hnot : ¬ fd < 0 := by omega
  by_cases hcnt : s1.wdcache_count < CHDIR_CACHE_SIZE
  · -- room in the cache
    have hr : s1.wdcache.drop s1.wdcache_count ≠ [] := by
      intro e
      have := congrArg List.length e
      simp [h.cache_len] at this
      omega
    obtain ⟨r0, r, hr⟩ := List.exists_cons_of_ne_nil hr
    rw [hr] at hsplit
    have hset : s1.wdcache.set s1.wdcache_count i = s1.cache ++ i :: r := by
      conv_lhs => rw [hsplit]
      rw [← hclen]
      simp
    have hmtf : move_to_front i (s1.cache ++ i :: r) = .ok (i :: (s1.cache ++ r)) := by
      rw [move_to_front_spec i _ (by simp)]
      · congr 2
        rw [List.erase_append_right _ hic]
        simp
      · have := h.cache_len
        rw [hsplit] at this
        simp at this ⊢
        omega
    have hfds : ∀ j, fdAt (s1.wd.set i { curr with fd := fd }) j
        = if j = i then fd else if j ∈ s1.cache ∧ j ∉ s1.cache then 0 else s1.fdOf j := by
      intro j
      rw [fdAt_set _ i _ j hilt]
      by_cases hj : j = i
      · simp [hj]
      · simp [hj, State.fdOf]
    obtain ⟨s', hs'⟩ : ∃ s' : State, s' =
        { s1 with trace := s1.trace ++ [open_event env s1 curr],
                  wd := s1.wd.set i { curr with fd := fd },
                  wdcache := i :: (s1.cache ++ r),
                  wdcache_count := s1.wdcache_count + 1,
                  chdir_current := i, chdir_fd := fd } := ⟨_, rfl⟩
    have hc : s'.cache = i :: s1.cache := by
      apply cache_of_append (r := r)
      · rw [hs']; simp
      · rw [hs']; simp [hclen]
    refine ⟨{ s1 with trace := s1.trace ++ [open_event env s1 curr],
                      wd := s1.wd.set i { curr with fd := fd },
                      wdcache := s1.wdcache.set s1.wdcache_count i,
                      wdcache_count := s1.wdcache_count + 1 }, s', ?_, ?_, ?_,
            by rw [hs'], by rw [hs'], by rw [hs'], ?_⟩
    · have hlt2 : s1.wdcache_count < s1.wdcache.length := by rw [h.cache_len]; exact hcnt
      simp [chdir_do_open, hcurr, hfd, hnot, cache_add, hcnt, hlt2, hev]
    · rw [hs']; simp [chdir_do_finish, hpos, hset, hmtf]
    · apply Inv_after_open h (i := i) (d := fd) (c := s1.cache)
      · have := h.cache_len
        rw [hsplit] at this
        rw [hs']
        simp at this ⊢
        omega
      · rw [hs']
        show s1.wdcache_count + 1 ≤ CHDIR_CACHE_SIZE
        omega
      · exact hc
      · exact List.Sublist.refl _
      · exact hic
      · exact hi0
      · exact hilt
      · rw [hs']; simp
      · exact hpos
      · rw [hs']; exact hfds
      · rw [hs']
      · rw [hs']
      · rw [hc]
        have htr : s'.trace = s1.trace ++ [open_event env s1 curr] := by rw [hs']
        rw [htr, hev]
        refine live_room _ _ _ h.live (le_of_lt hpos) ?_ ?_
        · intro j hj
          have hne : j ≠ i := fun e => hic (e ▸ hj)
          rw [hs']
          show fdAt (s1.wd.set i { curr with fd := fd }) j = _
          rw [hfds]; simp [hne]
        · rw [hs']
          show fdAt (s1.wd.set i { curr with fd := fd }) i = _
          rw [hfds]; simp
    · left
      exact ⟨hcnt, hc, by rw [hs'], by rw [hs'], by rw [hs']⟩
  · -- the cache is full
    have hcnt' : s1.wdcache_count = CHDIR_CACHE_SIZE := le_antisymm h.count_le (not_lt.mp hcnt)
    have hfull : s1.cache = s1.wdcache := by
      simp [State.cache, hcnt', ← h.cache_len]
    have hne : s1.wdcache ≠ [] := by
      intro e
      have := h.cache_len
      rw [e] at this
      simp [CHDIR_CACHE_SIZE] at this
    obtain ⟨ini, st, hini⟩ := (List.eq_nil_or_concat s1.wdcache).resolve_left hne
    rw [List.concat_eq_append] at hini
    have hinilen : ini.length = CHDIR_CACHE_SIZE - 1 := by
      have := h.cache_len
      rw [hini] at this
      simp at this
      omega
    have hget : s1.wdcache[CHDIR_CACHE_SIZE - 1]? = some st := by
      rw [hini, ← hinilen, List.getElem?_append_right (le_refl _)]
      simp
    have hstmem : st ∈ s1.cache := by rw [hfull, hini]; simp
    have hst := h.cached st hstmem
    have hsti : st ≠ i := fun e => hic (e ▸ hstmem)
    obtain ⟨stale, hstale⟩ : ∃ stale, s1.wd[st]? = some stale :=
      ⟨s1.wd[st], List.getElem?_eq_getElem hst.2.1⟩
    have hstale2 : (s1.wd.set i { curr with fd := fd })[st]? = some stale := by
      rw [List.getElem?_set_ne (Ne.symm hsti)]; exact hstale
    have hset : s1.wdcache.set (CHDIR_CACHE_SIZE - 1) i = ini ++ [i] := by
      rw [hini, ← hinilen]
      simp
    have hiini : i ∉ ini := by
      intro hm
      apply hic
      rw [hfull, hini]
      exact List.mem_append_left _ hm
    have hmtf : move_to_front i (ini ++ [i]) = .ok (i :: ini) := by
      rw [move_to_front_spec i _ (by simp)]
      · congr 2
        rw [List.erase_append_right _ hiini]
        simp
      · simp [hinilen, CHDIR_CACHE_SIZE]
    have hdrop : s1.cache.dropLast = ini := by
      rw [hfull, hini]; simp
    have hnd : (ini ++ [st]).Nodup := by rw [← hini, ← hfull]; exact h.nodup
    have hstini : st ∉ ini := by
      intro hm
      have := List.nodup_append.mp hnd
      exact this.2.2 hm (List.mem_singleton_self _)
    have hfds : ∀ j, fdAt ((s1.wd.set i { curr with fd := fd }).set st { stale with fd := 0 }) j
        = if j = i then fd else if j ∈ s1.cache ∧ j ∉ ini then 0 else s1.fdOf j := by
      intro j
      have hl2 : st < (s1.wd.set i { curr with fd := fd }).length := by simpa using hst.2.1
      rw [fdAt_set _ st _ j hl2, fdAt_set _ i _ j hilt]
      by_cases hj : j = i
      · subst hj
        simp [Ne.symm hsti]
      · by_cases hjs : j = st
        · subst hjs
          simp [hj, hstmem, hstini]
        · simp only [hj, hjs, if_false, State.fdOf]
          have : ¬ (j ∈ s1.cache ∧ j ∉ ini) := by
            rintro ⟨hm, hn⟩
            rw [hfull, hini] at hm
            rcases List.mem_append.mp hm with hm | hm
            · exact hn hm
            · exact hjs (List.mem_singleton.mp hm)
          simp [this]
    obtain ⟨s', hs'⟩ : ∃ s' : State, s' =
        { s1 with trace := s1.trace ++ [open_event env s1 curr] ++ [Event.close stale.fd],
                  wd := (s1.wd.set i { curr with fd := fd }).set st { stale with fd := 0 },
                  wdcache := i :: ini,
                  chdir_current := i, chdir_fd := fd } := ⟨_, rfl⟩
    have hc : s'.cache = i :: ini := by
      apply cache_of_append (r := [])
      · rw [hs']; simp
      · rw [hs']
        show s1.wdcache_count = (i :: ini).length
        simp [hinilen, hcnt', CHDIR_CACHE_SIZE]
    refine ⟨{ s1 with trace := s1.trace ++ [open_event env s1 curr] ++ [Event.close stale.fd],
                      wd := (s1.wd.set i { curr with fd := fd }).set st { stale with fd := 0 },
                      wdcache := s1.wdcache.set (CHDIR_CACHE_SIZE - 1) i }, s', ?_, ?_, ?_,
            by rw [hs'], by rw [hs'], by rw [hs'], ?_⟩
    · simp [chdir_do_open, hcurr, hfd, hnot, cache_add, hcnt, hget, hstale2, hev]
    · rw [hs']; simp [chdir_do_finish, hpos, hset, hmtf]
    · apply Inv_after_open h (i := i) (d := fd) (c := ini)
      · rw [hs']; simp [hinilen, CHDIR_CACHE_SIZE]
      · rw [hs']; exact h.count_le
      · exact hc
      · rw [hfull, hini]; exact List.sublist_append_left _ _
      · exact hic
      · exact hi0
      · exact hilt
      · rw [hs']; simp
      · exact hpos
      · rw [hs']; exact hfds
      · rw [hs']
      · rw [hs']
      · rw [hc]
        have htr : s'.trace = s1.trace ++ [open_event env s1 curr] ++ [Event.close stale.fd] := by
          rw [hs']
        rw [htr, hev, List.append_assoc]
        have hl := h.live
        rw [hfull, hini] at hl
        refine live_evict (m := st) (f := s1.fdOf) _ _ _ hl (le_of_lt hpos) ?_ ?_ ?_
        · intro j hj
          have hne : j ≠ i := fun e => hiini (e ▸ hj)
          rw [hs']
          show fdAt ((s1.wd.set i { curr with fd := fd }).set st { stale with fd := 0 }) j = _
          rw [hfds]; simp [hne, hj]
        · rw [hs']
          show fdAt ((s1.wd.set i { curr with fd := fd }).set st { stale with fd := 0 }) i = _
          rw [hfds]; simp
        · exact (fdOf_of_get hstale).symm
    · right
      refine ⟨hcnt', st, stale, ?_, hstale, hsti, ?_, by rw [hs'], by rw [hs']; simp, by rw [hs']⟩
      · rw [hfull, hini]; simp
      · rw [hdrop]; exact hc

theorem map_static_set (l : List wd) (k : Nat) (e e' : wd) (h : l[k]? = some e)
    (hs : e'.static = e.static) : (l.set k e').map wd.static = l.map wd.static := by
  have hlt := (List.getElem?_eq_some_iff.mp h).1
  apply List.ext_getElem?
  intro n
  by_cases hn : n = k
  · subst hn
    have he := (List.getElem?_eq_some_iff.mp h).2
    simp [hlt, hs, ← he]
  · simp [List.getElem?_map, List.getElem?_set_ne (Ne.symm hn)]

theorem OpenStep.frame {env : Env} {i : Nat} {curr : wd} {s1 s' : State}
    (h : OpenStep env i curr s1 s') (hcurr : s1.wd[i]? = some curr) :
    s'.wd.map wd.static = s1.wd.map wd.static ∧
    (∀ j, j ≠ i → s1.fdOf j = 0 → s'.fdOf j = 0) ∧
    (∃ t, s'.trace = s1.trace ++ t) := by
  have hilt : i < s1.wd.length := (List.getElem?_eq_some_iff.mp hcurr).1
  have hmap1 : (s1.wd.set i { curr with fd := open_ret env s1 curr }).map wd.static
      = s1.wd.map wd.static := map_static_set _ _ curr _ hcurr rfl
  rcases h with ⟨_, _, _, htr, hwd⟩ | ⟨_, st, stale, _, hst, hsti, _, _, htr, hwd⟩
  · refine ⟨by rw [hwd, hmap1], ?_, ⟨_, htr⟩⟩
    intro j hj hz
    show fdAt s'.wd j = 0
    rw [hwd, fdAt_set _ _ _ _ hilt, if_neg hj]
    exact hz
  · have hstlt : st < (s1.wd.set i { curr with fd := open_ret env s1 curr }).length := by
      simpa using (List.getElem?_eq_some_iff.mp hst).1
    have hst2 : (s1.wd.set i { curr with fd := open_ret env s1 curr })[st]? = some stale := by
      rw [List.getElem?_set_ne (Ne.symm hsti)]; exact hst
    refine ⟨?_, ?_, ⟨_, htr⟩⟩
    · rw [hwd, ← hmap1]
      exact map_static_set _ _ stale _ hst2 rfl
    · intro j hj hz
      show fdAt s'.wd j = 0
      rw [hwd, fdAt_set _ _ _ _ hstlt, fdAt_set _ _ _ _ hilt, if_neg hj]
      by_cases hjs : j = st
      · simp [hjs]
      · simp only [hjs, if_false]; exact hz

theorem chdir_do_spec (env : Env) (hpos : env.opens_positive) :
    ∀ (i : Nat) (s : State), Inv s → (i = 0 ∨ i < s.wd.length) →
      ∃ s', chdir_do env i s = .ok s' ∧ Inv s' ∧ s'.chdir_current = i ∧ Frame i s s' := by
  intro i
  induction i with
  | zero =>
    intro s h _
    by_cases hc : s.chdir_current = 0
    · exact ⟨s, by simp [chdir_do, chdir_do_body, hc], h, hc, Frame.refl _ _⟩
    · have hhead := h.current.resolve_left hc
      have hmem : s.chdir_current ∈ s.cache := List.mem_of_mem_head? hhead
      have hlt := (h.cached _ hmem).2.1
      have hne : s.wd ≠ [] := by
        intro e; rw [e] at hlt; simp at hlt
      obtain ⟨e0, t, hwd⟩ := List.exists_cons_of_ne_nil hne
      have h0 : s.wd[0]? = some e0 := by rw [hwd]; simp
      have hfd0 : e0.fd = AT_FDCWD := by
        have := h.entry0 hne
        rw [fdOf_of_get h0] at this
        exact this
      refine ⟨{ s with chdir_current := 0, chdir_fd := AT_FDCWD }, ?_, ?_, rfl,
        ⟨rfl, fun _ _ hz => hz, rfl, ⟨[], by simp⟩⟩⟩
      · simp [chdir_do, chdir_do_body, hc, h0, hfd0, chdir_do_finish, AT_FDCWD]
      · exact ⟨h.cache_len, h.count_le, h.nodup, h.cached, h.uncached, h.entry0, Or.inl rfl,
          by simp, h.alloc, h.live⟩
  | succ k ih =>
    intro s h hv
    have hlt : k + 1 < s.wd.length := by
      rcases hv with hv | hv
      · omega
      · exact hv
    by_cases hc : s.chdir_current = k + 1
    · exact ⟨s, by simp [chdir_do, chdir_do_body, hc], h, hc, Frame.refl _ _⟩
    · obtain ⟨curr, hcurr⟩ : ∃ curr, s.wd[k + 1]? = some curr :=
        ⟨s.wd[k + 1], List.getElem?_eq_getElem hlt⟩
      by_cases hz : curr.fd = 0
      · -- the directory has to be opened, after its parent when the name is relative
        have hpar : ∃ s1, (if !IS_ABSOLUTE_FILE_NAME curr.name then chdir_do env k s else .ok s)
            = .ok s1 ∧ Inv s1 ∧ Frame k s s1 := by
          by_cases habs : IS_ABSOLUTE_FILE_NAME curr.name
          · exact ⟨s, by simp [habs], h, Frame.refl _ _⟩
          · obtain ⟨s1, h1, h2, _, h4⟩ := ih s h (Or.inr (by omega))
            exact ⟨s1, by simp [habs, h1], h2, h4⟩
        obtain ⟨s1, hs1, hinv1, hfr1⟩ := hpar
        obtain ⟨curr1, hcurr1, _, _⟩ := hfr1.name (k + 1) curr hcurr
        have hz1 : curr1.fd = 0 := by
          have := hfr1.above (k + 1) (by omega) (by rw [fdOf_of_get hcurr]; exact hz)
          rw [fdOf_of_get hcurr1] at this
          exact this
        obtain ⟨s2, s', ho, hf, hinv', hcur', _, halloc', hstep⟩ :=
          open_finish_spec env hinv1 (Nat.succ_pos k) hcurr1 hz1 (hpos _ _ _ _)
        obtain ⟨hst, hab, t2, htr⟩ := hstep.frame hcurr1
        refine ⟨s', ?_, hinv', hcur', ?_⟩
        · rw [chdir_do, chdir_do_body]
          simp only [hc, ne_eq, not_false_eq_true, if_true, hcurr, hz]
          rw [hs1]
          simp only [ho, hf]
        · obtain ⟨t1, htr1⟩ := hfr1.trace
          refine ⟨by rw [hst, hfr1.static], ?_, by rw [halloc', hfr1.alloc],
            ⟨t1 ++ t2, by rw [htr, htr1, List.append_assoc]⟩⟩
          intro j hj hzj
          exact hab j (by omega) (hfr1.above j (by omega) hzj)
      · -- the directory is open already
        have hmem : k + 1 ∈ s.cache := by
          by_contra hn
          have := h.uncached (k + 1) (Nat.succ_pos k) hn
          rw [fdOf_of_get hcurr] at this
          exact hz this
        have hfdpos : 0 < curr.fd := by
          have := (h.cached _ hmem).2.2
          rw [fdOf_of_get hcurr] at this
          exact this
        obtain ⟨s', hf, hinv', hcur', _, _, hwd', htr', halloc', _⟩ :=
          finish_cached h hmem hfdpos (fdOf_of_get hcurr).symm
        refine ⟨s', ?_, hinv', hcur', ?_⟩
        · rw [chdir_do, chdir_do_body]
          simp only [hc, ne_eq, not_false_eq_true, if_true, hcurr, hz, if_false]
          exact hf
        · refine ⟨by rw [hwd'], ?_, halloc', ⟨[], by simp [htr']⟩⟩
          intro j _ hzj
          show fdAt s'.wd j = 0
          rw [hwd']; exact hzj

/-! ## `chdir_arg` keeps the invariant -/

theorem fdAt_append (l : List wd) (e : wd) (j : Nat) :
    fdAt (l ++ [e]) j = if j < l.length then fdAt l j else if j = l.length then e.fd else 0 := by
  unfold fdAt
  by_cases h : j < l.length
  · simp [h, List.getElem?_append_left h]
  · by_cases h2 : j = l.length
    · subst h2; simp
    · have h3 : l.length < j := by omega
      have h4 : (l ++ [e]).length ≤ j := by simp; omega
      simp [h, h2, List.getElem?_eq_none h4]

theorem Inv_append {s s' : State} (h : Inv s) (e : wd) (hwd : s'.wd = s.wd ++ [e])
    (h0 : s.wd = [] → e.fd = AT_FDCWD) (h1 : s.wd ≠ [] → e.fd = 0)
    (hc : s'.wdcache = s.wdcache) (hn : s'.wdcache_count = s.wdcache_count)
    (hcur : s'.chdir_current = s.chdir_current) (hfd : s'.chdir_fd = s.chdir_fd)
    (htr : s'.trace = s.trace) : Inv s' := by
  have hcache : s'.cache = s.cache := by simp [State.cache, hc, hn]
  have hfds : ∀ j, s'.fdOf j
      = if j < s.wd.length then s.fdOf j else if j = s.wd.length then e.fd else 0 := by
    intro j
    show fdAt s'.wd j = _
    rw [hwd, fdAt_append]; rfl
  have hold : ∀ j ∈ s.cache, s'.fdOf j = s.fdOf j := by
    intro j hj
    rw [hfds, if_pos (h.cached j hj).2.1]
  constructor
  · rw [hc]; exact h.cache_len
  · rw [hn]; exact h.count_le
  · rw [hcache]; exact h.nodup
  · intro j hj
    rw [hcache] at hj
    have := h.cached j hj
    refine ⟨this.1, by rw [hwd]; simp; omega, ?_⟩
    rw [hold j hj]; exact this.2.2
  · intro j hj hnj
    rw [hcache] at hnj
    rw [hfds]
    by_cases hlt : j < s.wd.length
    · rw [if_pos hlt]; exact h.uncached j hj hnj
    · rw [if_neg hlt]
      by_cases hje : j = s.wd.length
      · rw [if_pos hje]
        apply h1
        intro hnil
        rw [hnil] at hje
        simp at hje
        omega
      · rw [if_neg hje]
  · intro _
    rw [hfds]
    by_cases hnil : s.wd = []
    · simp [hnil, h0 hnil]
    · have : 0 < s.wd.length := List.length_pos.mpr hnil
      simp [this, h.entry0 hnil]
  · rw [hcur, hcache]; exact h.current
  · rw [hfd, hcur, h.current_fd]
    by_cases hz : s.chdir_current = 0
    · simp [hz]
    · simp only [hz, if_false]
      have hm := List.mem_of_mem_head? (h.current.resolve_left hz)
      exact (hold _ hm).symm
  · intro hnil
    rw [hwd] at hnil
    simp at hnil
  · rw [htr, hcache, List.map_congr_left hold]
    exact h.live

theorem Inv_of_alloc {s : State} (h : Inv s) (a : Nat) (hne : s.wd ≠ []) :
    Inv { s with wd_alloc := a } :=
  ⟨h.cache_len, h.count_le, h.nodup, h.cached, h.uncached, h.entry0, h.current, h.current_fd,
    fun e => absurd e hne, h.live⟩

/-- The first part of `chdir_arg` on a state that satisfies the invariant. -/
theorem chdir_arg_grow_spec (env : Env) {s s1 : State} (h : Inv s)
    (hg : chdir_arg_grow env s = .ok s1) :
    Inv s1 ∧ s1.wd ≠ [] ∧ s1.wdcache = s.wdcache ∧ s1.wdcache_count = s.wdcache_count ∧
      s1.chdir_current = s.chdir_current ∧ s1.chdir_fd = s.chdir_fd ∧ s1.trace = s.trace ∧
      (s.wd ≠ [] → s1.wd = s.wd) ∧
      (s.wd = [] → ∃ cwd, env.xgetcwd = some cwd ∧
        s1.wd = [{ name := ['.'], abspath := some cwd, fd := AT_FDCWD }]) := by
  unfold chdir_arg_grow at hg
  by_cases hfull : s.wd_count = s.wd_alloc
  · by_cases hz : s.wd_count = 0
    · have hnil : s.wd = [] := List.length_eq_zero.mp hz
      cases hcwd : env.xgetcwd with
      | none =>
        rw [if_pos hfull] at hg
        simp only [if_pos hz, hcwd] at hg
        cases hg
      | some cwd =>
        rw [if_pos hfull] at hg
        simp only [if_pos hz, hcwd] at hg
        injection hg with hg
        subst hg
        refine ⟨?_, by simp, rfl, rfl, rfl, rfl, rfl, fun hne => absurd hnil hne,
          fun _ => ⟨cwd, rfl, by simp [hnil]⟩⟩
        exact Inv_append h _ rfl (fun _ => rfl) (fun hne => absurd hnil hne) rfl rfl rfl rfl rfl
    · have hne : s.wd ≠ [] := fun e => hz (by simp [State.wd_count, e])
      rw [if_pos hfull] at hg
      simp only [if_neg hz] at hg
      injection hg with hg
      subst hg
      exact ⟨Inv_of_alloc h _ hne, hne, rfl, rfl, rfl, rfl, rfl, fun _ => rfl,
        fun e => absurd e hne⟩
  · have hne : s.wd ≠ [] := by
      intro e
      apply hfull
      rw [h.alloc e]
      simp [State.wd_count, e]
    rw [if_neg hfull] at hg
    injection hg with hg
    subst hg
    exact ⟨h, hne, rfl, rfl, rfl, rfl, rfl, fun _ => rfl, fun e => absurd e hne⟩

/-- The last part of `chdir_arg` on a state that satisfies the invariant. -/
theorem chdir_arg_store_spec {s1 s' : State} {dir : List Char} {idx : Nat} (h : Inv s1)
    (hne : s1.wd ≠ []) (hs : chdir_arg_store s1 dir = .ok (idx, s')) :
    Inv s' ∧ idx = s1.wd.length ∧
      ∃ absdir, s'.wd = s1.wd ++ [{ name := dir, abspath := absdir, fd := 0 }] := by
  unfold chdir_arg_store at hs
  cases ha : chdir_arg_absdir s1 dir with
  | error e => simp [ha] at hs
  | ok absdir =>
    simp only [ha] at hs
    injection hs with hs
    injection hs with h1 h2
    subst h2
    refine ⟨?_, h1.symm, absdir, rfl⟩
    exact Inv_append h _ rfl (fun e => absurd e hne) (fun _ => rfl) rfl rfl rfl rfl rfl

theorem chdir_arg_inv (env : Env) {s s' : State} {dir : List Char} {idx : Nat} (h : Inv s)
    (hs : chdir_arg env dir s = .ok (idx, s')) : Inv s' := by
  unfold chdir_arg at hs
  cases hg : chdir_arg_grow env s with
  | error e => simp [hg] at hs
  | ok s1 =>
    obtain ⟨hinv1, hne, _⟩ := chdir_arg_grow_spec env h hg
    simp only [hg] at hs
    by_cases hd : dir = []
    · simp only [hd, ne_eq, not_true_eq_false, if_false] at hs
      exact (chdir_arg_store_spec hinv1 hne hs).1
    · simp only [hd, ne_eq, not_false_eq_true, if_true] at hs
      cases hk : skip_dot_slash (dir.length + 1) dir with
      | error e => simp [hk] at hs
      | ok dir1 =>
        simp only [hk] at hs
        by_cases hdot : dot_or_end dir1
        · simp only [hdot, if_true] at hs
          injection hs with hs
          injection hs with _ h2
          subst h2
          exact hinv1
        · simp only [hdot] at hs
          exact (chdir_arg_store_spec hinv1 hne hs).1

theorem Reachable.inv {env : Env} (hpos : env.opens_positive) {s : State}
    (hr : Reachable env s) : Inv s := by
  induction hr with
  | init => exact Inv_init
  | arg s s' dir idx _ hs ih => exact chdir_arg_inv env ih hs
  | chdir s s' i _ hv hs ih =>
    obtain ⟨s'', h1, h2, _⟩ := chdir_do_spec env hpos i s ih hv
    rw [hs] at h1
    injection h1 with h1
    subst h1
    exact h2

/-! ## The example environment and example states -/

theorem two_le_foldr_max (l : List Int) : 2 ≤ l.foldr max 2 := by
  induction l with
  | nil => simp
  | cons a l ih => simp only [List.foldr_cons]; exact le_trans ih (le_max_right _ _)

theorem le_foldr_max (l : List Int) (x : Int) (hx : x ∈ l) : x ≤ l.foldr max 2 := by
  induction l with
  | nil => simp at hx
  | cons a l ih =>
    simp only [List.foldr_cons]
    rcases List.mem_cons.mp hx with rfl | h
    · exact le_max_left _ _
    · exact le_trans (ih h) (le_max_right _ _)

theorem env0_positive : env0.opens_positive := by
  intro t d n f
  show 0 < fresh_fd (live t)
  have := two_le_foldr_max (live t)
  unfold fresh_fd
  omega

theorem demo1_reachable : Reachable env0 demo1 :=
  Reachable.arg State.init demo1 ['a'] 1 Reachable.init rfl

theorem demo2_reachable : Reachable env0 demo2 :=
  Reachable.chdir demo1 demo2 1 demo1_reachable (Or.inr (by decide)) rfl

/-! ## The descriptor cache: invariant, re-resolution, published handle -/

/-- C1. In every state reachable from the initial state by `chdir_arg` and
`chdir_do` calls with valid indices, every open succeeding with a positive
descriptor: the cache `wdcache[0 .. wdcache_count)` holds at most
`CHDIR_CACHE_SIZE = 16` indices, no index twice, never index 0, and exactly the
table indices whose descriptor is positive; every other entry above 0 has
descriptor 0 and entry 0 has `AT_FDCWD`. -/
theorem cache_invariant (env : Env) (s : State) (hpos : env.opens_positive)
    (hr : Reachable env s) :
    CHDIR_CACHE_SIZE = 16 ∧ s.wdcache_count ≤ CHDIR_CACHE_SIZE ∧
    s.cache.length = s.wdcache_count ∧ s.cache.Nodup ∧ 0 ∉ s.cache ∧
    (∀ j ∈ s.cache, j < s.wd.length) ∧
    (∀ (j : Nat) (e : wd), s.wd[j]? = some e →
      (j ∈ s.cache ↔ 0 < e.fd) ∧ (0 < j → j ∉ s.cache → e.fd = 0) ∧
      (j = 0 → e.fd = AT_FDCWD)) := by
  have h := hr.inv hpos
  refine ⟨rfl, h.count_le, h.split.2, h.nodup, ?_, fun j hj => (h.cached j hj).2.1, ?_⟩
  · intro h0
    have := (h.cached 0 h0).1
    omega
  · intro j e he
    have hfd : s.fdOf j = e.fd := fdOf_of_get he
    have hne : s.wd ≠ [] := by
      intro hnil
      rw [hnil] at he
      simp at he
    refine ⟨⟨fun hj => ?_, fun hfdpos => ?_⟩, fun hj hnj => ?_, fun hj => ?_⟩
    · rw [← hfd]; exact (h.cached j hj).2.2
    · by_contra hnj
      rcases Nat.eq_zero_or_pos j with hj | hj
      · subst hj
        have := h.entry0 hne
        rw [hfd] at this
        rw [this] at hfdpos
        simp [AT_FDCWD] at hfdpos
      · have := h.uncached j hj hnj
        rw [hfd] at this
        omega
    · rw [← hfd]; exact h.uncached j hj hnj
    · subst hj
      rw [← hfd]; exact h.entry0 hne

/-- C1, at the state reached by `chdir_arg ("a")` and `chdir_do (1)`. -/
theorem cache_invariant_witness :
    env0.opens_positive ∧ Reachable env0 demo2 ∧ demo2.cache = [1] ∧
    demo2.wdcache_count ≤ CHDIR_CACHE_SIZE ∧ demo2.cache.Nodup :=
  ⟨env0_positive, demo2_reachable, rfl,
    (cache_invariant env0 demo2 env0_positive demo2_reachable).2.1,
    (cache_invariant env0 demo2 env0_positive demo2_reachable).2.2.2.1⟩

theorem chdir_do_cached (env : Env) {s : State} (h : Inv s) {i : Nat} (hi : i ∈ s.cache)
    (hc : s.chdir_current ≠ i) :
    ∃ s', chdir_do env i s = .ok s' ∧ Inv s' ∧ s'.chdir_current = i ∧
      s'.cache = i :: s.cache.erase i ∧ s'.wd = s.wd ∧ s'.trace = s.trace := by
  have hi' := h.cached i hi
  obtain ⟨curr, hcurr⟩ : ∃ curr, s.wd[i]? = some curr :=
    ⟨s.wd[i], List.getElem?_eq_getElem hi'.2.1⟩
  have hfd : 0 < curr.fd := by rw [← fdOf_of_get hcurr]; exact hi'.2.2
  have hz : ¬ curr.fd = 0 := by omega
  obtain ⟨s', hf, hinv', hcur', _, hcache', hwd', htr', _, _⟩ :=
    finish_cached h hi hfd (fdOf_of_get hcurr).symm
  refine ⟨s', ?_, hinv', hcur', hcache', hwd', htr'⟩
  cases i with
  | zero => omega
  | succ k =>
    rw [chdir_do, chdir_do_body]
    simp only [hc, ne_eq, not_false_eq_true, if_true, hcurr, hz, if_false]
    exact hf

/-- C4. For every index `i` that is in the cache (its directory is open; such
an index is positive) and is not the current index, `chdir_do (i)` makes no system call (the trace
is unchanged, so no open and no close), leaves the table as it is, puts `i` at
position 0 of the cache, and the other cached indices follow in their old
order. -/
theorem chdir_do_cached_moves_to_front (env : Env) (s : State) (i : Nat)
    (hpos : env.opens_positive) (hr : Reachable env s) (hi : i ∈ s.cache)
    (hc : s.chdir_current ≠ i) :
    ∃ s', chdir_do env i s = .ok s' ∧ s'.trace = s.trace ∧ s'.wd = s.wd ∧
      s'.cache[0]? = some i ∧
      s'.cache = i :: s.cache.filter (fun j => j ≠ i) ∧
      s'.wdcache_count = s.wdcache_count := by
  have h := hr.inv hpos
  obtain ⟨s', h1, h2, _, h4, h5, h6⟩ := chdir_do_cached env h hi hc
  have hfilter : s.cache.erase i = s.cache.filter (fun j => j ≠ i) := by
    rw [h.nodup.erase_eq_filter]
    congr 1
    funext j
    by_cases hj : j = i <;> simp [hj]
  have hlen : s'.cache.length = s.cache.length := by
    rw [h4, List.length_cons, List.length_erase_of_mem hi]
    have := List.length_pos_of_mem hi
    omega
  refine ⟨s', h1, h6, h5, by rw [h4]; simp, by rw [h4, hfilter], ?_⟩
  rw [← h2.split.2, ← h.split.2, hlen]

/-- C4, at the state reached by `chdir_arg ("a")`, `chdir_do (1)` and
`chdir_do (0)`: entry 1 is cached and not current. -/
theorem chdir_do_cached_moves_to_front_witness :
    ∃ s', chdir_do env0 1 { demo2 with chdir_current := 0, chdir_fd := AT_FDCWD } = .ok s' ∧
      s'.trace = demo2.trace ∧ s'.cache[0]? = some 1 := by
  have hr : Reachable env0 { demo2 with chdir_current := 0, chdir_fd := AT_FDCWD } :=
    Reachable.chdir demo2 _ 0 demo2_reachable (Or.inl rfl) rfl
  obtain ⟨s', h1, h2, _, h4, _⟩ :=
    chdir_do_cached_moves_to_front env0 { demo2 with chdir_current := 0, chdir_fd := AT_FDCWD } 1
      env0_positive hr (by decide) (by decide)
  exact ⟨s', h1, h2, h4⟩

/-- C5. In the initial state the current index is 0 and the current handle is
the `AT_FDCWD` sentinel. From every reachable state, `chdir_do (i)` with a
valid index completes, and afterwards `chdir_current = i`, `chdir_fd` is the
descriptor stored in `wd[i]`, it is the sentinel when `i = 0`, and when
`i > 0` it is a positive descriptor that is open after the system calls made so
far (so no eviction of the call closed it). -/
theorem published_handle_is_open (env : Env) (s : State) (i : Nat)
    (hpos : env.opens_positive) (hr : Reachable env s) (hv : s.valid i) :
    (State.init.chdir_current = 0 ∧ State.init.chdir_fd = AT_FDCWD) ∧
    ∃ s', chdir_do env i s = .ok s' ∧ s'.chdir_current = i ∧
      (∀ e, s'.wd[i]? = some e → e.fd = s'.chdir_fd) ∧
      (i = 0 → s'.chdir_fd = AT_FDCWD) ∧
      (0 < i → (∃ e, s'.wd[i]? = some e) ∧ 0 < s'.chdir_fd ∧ s'.chdir_fd ≠ AT_FDCWD ∧
        s'.chdir_fd ∈ live s'.trace) := by
  refine ⟨⟨rfl, rfl⟩, ?_⟩
  obtain ⟨s', h1, h2, h3, _⟩ := chdir_do_spec env hpos i s (hr.inv hpos) hv
  have hfd := h2.current_fd
  rw [h3] at hfd
  refine ⟨s', h1, h3, ?_, ?_, ?_⟩
  · intro e he
    by_cases hi : i = 0
    · subst hi
      have hne : s'.wd ≠ [] := by
        intro hnil
        rw [hnil] at he
        simp at he
      rw [hfd, ← fdOf_of_get he]
      simpa using h2.entry0 hne
    · rw [hfd, if_neg hi, fdOf_of_get he]
  · intro hi
    rw [hfd, if_pos hi]
  · intro hi
    have hi' : i ≠ 0 := by omega
    rw [if_neg hi'] at hfd
    have hhead := h2.current.resolve_left (by rw [h3]; exact hi')
    rw [h3] at hhead
    have hmem : i ∈ s'.cache := List.mem_of_mem_head? hhead
    have hc := h2.cached i hmem
    refine ⟨⟨s'.wd[i], List.getElem?_eq_getElem hc.2.1⟩, by rw [hfd]; exact hc.2.2, ?_, ?_⟩
    · rw [hfd]
      intro e
      have := hc.2.2
      rw [e] at this
      simp [AT_FDCWD] at this
    · rw [hfd]
      exact h2.live.symm.subset (List.mem_map_of_mem _ hmem)

/-- C5, for `chdir_do (1)` after `chdir_arg ("a")`. -/
theorem published_handle_is_open_witness :
    env0.opens_positive ∧ Reachable env0 demo1 ∧ demo1.valid 1 ∧
    ∃ s', chdir_do env0 1 demo1 = .ok s' ∧ s'.chdir_current = 1 ∧
      s'.chdir_fd ∈ live s'.trace := by
  obtain ⟨s', h1, h2, _, _, h5⟩ :=
    (published_handle_is_open env0 demo1 1 env0_positive demo1_reachable (Or.inr (by decide))).2
  exact ⟨env0_positive, demo1_reachable, Or.inr (by decide), s', h1, h2, (h5 (by decide)).2.2.2⟩

theorem chdir_do_finish_current {i : Nat} {fd : Int} {s s' : State}
    (h : chdir_do_finish i fd s = .ok s') : s'.chdir_current = i := by
  unfold chdir_do_finish at h
  by_cases hfd : 0 < fd
  · simp only [hfd, if_true] at h
    cases hm : move_to_front i s.wdcache with
    | error e => simp [hm] at h
    | ok c =>
      simp only [hm] at h
      injection h with h
      subst h
      rfl
  · simp only [hfd, if_false] at h
    injection h with h
    subst h
    rfl

theorem chdir_do_body_current (env : Env) (parent : State → Except Fault State) {i : Nat}
    {s s' : State} (h : chdir_do_body env parent i s = .ok s') : s'.chdir_current = i := by
  unfold chdir_do_body at h
  by_cases hc : s.chdir_current = i
  · simp only [hc, ne_eq, not_true_eq_false, if_false] at h
    injection h with h
    subst h
    exact hc
  · simp only [hc, ne_eq, not_false_eq_true, if_true] at h
    cases hw : s.wd[i]? with
    | none => simp [hw] at h
    | some curr =>
      simp only [hw] at h
      by_cases hz : curr.fd = 0
      · rw [if_pos hz] at h
        split at h
        · cases h
        · split at h
          · cases h
          · exact chdir_do_finish_current h
      · simp only [hz, if_false] at h
        exact chdir_do_finish_current h

theorem chdir_do_current (env : Env) {i : Nat} {s s' : State}
    (h : chdir_do env i s = .ok s') : s'.chdir_current = i := by
  cases i with
  | zero => exact chdir_do_body_current env _ h
  | succ k => exact chdir_do_body_current env _ h

theorem chdir_do_same (env : Env) (i : Nat) (s : State) (h : s.chdir_current = i) :
    chdir_do env i s = .ok s := by
  cases i with
  | zero => simp [chdir_do, chdir_do_body, h]
  | succ k => simp [chdir_do, chdir_do_body, h]

/-- C6. `chdir_do` is idempotent. When `i` is the current index, `chdir_do (i)`
returns the state unchanged (table, cache, current index and handle, and the
trace of system calls). Whenever `chdir_do (i)` completes, a second
`chdir_do (i)` returns the state of the first unchanged; and from a reachable
state with a valid index the first call does complete. -/
theorem chdir_do_idempotent (env : Env) (s : State) (i : Nat) :
    (s.chdir_current = i → chdir_do env i s = .ok s) ∧
    (∀ s', chdir_do env i s = .ok s' → chdir_do env i s' = .ok s') ∧
    (env.opens_positive → Reachable env s → s.valid i →
      ∃ s', chdir_do env i s = .ok s' ∧ chdir_do env i s' = .ok s') := by
  refine ⟨chdir_do_same env i s, fun s' h => chdir_do_same env i s' (chdir_do_current env h), ?_⟩
  intro hpos hr hv
  obtain ⟨s', h1, _, h3, _⟩ := chdir_do_spec env hpos i s (hr.inv hpos) hv
  exact ⟨s', h1, chdir_do_same env i s' h3⟩

/-- C6, for `chdir_do (1)` after `chdir_arg ("a")`: the second call changes
nothing. -/
theorem chdir_do_idempotent_witness :
    chdir_do env0 1 demo1 = .ok demo2 ∧ chdir_do env0 1 demo2 = .ok demo2 :=
  ⟨rfl, (chdir_do_idempotent env0 demo1 1).2.1 demo2 rfl⟩

/-! ## Resolving the indices `1, 2, ..., N` of a fresh table in order -/

theorem chdir_arg_store_frame {s1 s' : State} {dir : List Char} {idx : Nat}
    (hs : chdir_arg_store s1 dir = .ok (idx, s')) :
    s'.wdcache = s1.wdcache ∧ s'.wdcache_count = s1.wdcache_count ∧
      s'.chdir_current = s1.chdir_current ∧ s'.chdir_fd = s1.chdir_fd ∧ s'.trace = s1.trace := by
  unfold chdir_arg_store at hs
  cases ha : chdir_arg_absdir s1 dir with
  | error e => simp [ha] at hs
  | ok absdir =>
    simp only [ha] at hs
    injection hs with hs
    injection hs with h1 h2
    subst h2
    exact ⟨rfl, rfl, rfl, rfl, rfl⟩

theorem chdir_arg_frame (env : Env) {s s' : State} {dir : List Char} {idx : Nat} (h : Inv s)
    (hs : chdir_arg env dir s = .ok (idx, s')) :
    s'.wdcache = s.wdcache ∧ s'.wdcache_count = s.wdcache_count ∧
      s'.chdir_current = s.chdir_current ∧ s'.chdir_fd = s.chdir_fd ∧ s'.trace = s.trace := by
  unfold chdir_arg at hs
  cases hg : chdir_arg_grow env s with
  | error e => simp [hg] at hs
  | ok s1 =>
    obtain ⟨_, _, g1, g2, g3, g4, g5, _⟩ := chdir_arg_grow_spec env h hg
    simp only [hg] at hs
    by_cases hd : dir = []
    · simp only [hd, ne_eq, not_true_eq_false, if_false] at hs
      obtain ⟨f1, f2, f3, f4, f5⟩ := chdir_arg_store_frame hs
      exact ⟨f1.trans g1, f2.trans g2, f3.trans g3, f4.trans g4, f5.trans g5⟩
    · simp only [hd, ne_eq, not_false_eq_true, if_true] at hs
      cases hk : skip_dot_slash (dir.length + 1) dir with
      | error e => simp [hk] at hs
      | ok dir1 =>
        simp only [hk] at hs
        by_cases hdot : dot_or_end dir1
        · simp only [hdot, if_true] at hs
          injection hs with hs
          injection hs with _ h2
          subst h2
          exact ⟨g1, g2, g3, g4, g5⟩
        · simp only [hdot] at hs
          obtain ⟨f1, f2, f3, f4, f5⟩ := chdir_arg_store_frame hs
          exact ⟨f1.trans g1, f2.trans g2, f3.trans g3, f4.trans g4, f5.trans g5⟩

theorem Registered.fresh {env : Env} {s : State} (hr : Registered env s) :
    Inv s ∧ s.wdcache_count = 0 ∧ s.chdir_current = 0 ∧ s.trace = [] := by
  induction hr with
  | init => exact ⟨Inv_init, rfl, rfl, rfl⟩
  | arg s s' dir idx _ hs ih =>
    obtain ⟨_, f2, f3, _, f5⟩ := chdir_arg_frame env ih.1 hs
    exact ⟨chdir_arg_inv env ih.1 hs, f2.trans ih.2.1, f3.trans ih.2.2.1, f5.trans ih.2.2.2⟩

/-- Opening entry `k + 1` when entry `k` is current: the parent call changes
nothing, then the directory is opened and put in front of the cache. -/
theorem chdir_do_unopened (env : Env) (hpos : env.opens_positive) {s : State} (h : Inv s)
    {k : Nat} (hcur : s.chdir_current = k) {curr : wd} (hcurr : s.wd[k + 1]? = some curr)
    (hz : curr.fd = 0) :
    ∃ s', chdir_do env (k + 1) s = .ok s' ∧ Inv s' ∧ s'.chdir_current = k + 1 ∧
      OpenStep env (k + 1) curr s s' := by
  obtain ⟨s2, s', ho, hf, hinv', hcur', _, _, hstep⟩ :=
    open_finish_spec env h (Nat.succ_pos k) hcurr hz (hpos _ _ _ _)
  refine ⟨s', ?_, hinv', hcur', hstep⟩
  have hc : s.chdir_current ≠ k + 1 := by omega
  have hpar : (if !IS_ABSOLUTE_FILE_NAME curr.name then chdir_do env k s else .ok s) = .ok s := by
    by_cases habs : IS_ABSOLUTE_FILE_NAME curr.name
    · simp [habs]
    · simp [habs, chdir_do_same env k s hcur]
  rw [chdir_do, chdir_do_body]
  simp only [hc, ne_eq, not_false_eq_true, if_true, hcurr, hz]
  rw [hpar]
  simp only [ho, hf]

theorem chdir_do_list_append (env : Env) (l1 l2 : List Nat) (s : State) :
    chdir_do_list env (l1 ++ l2) s =
      match chdir_do_list env l1 s with
      | .error e => .error e
      | .ok s1 => chdir_do_list env l2 s1 := by
  induction l1 generalizing s with
  | nil => rfl
  | cons i l1 ih =>
    simp only [List.cons_append, chdir_do_list]
    cases chdir_do env i s with
    | error e => rfl
    | ok s' => exact ih s'

theorem opens_append (t u : List Event) : opens (t ++ u) = opens t + opens u := by
  simp [opens, List.countP_append]

theorem closes_append (t u : List Event) : closes (t ++ u) = closes t + closes u := by
  simp [closes, List.countP_append]

theorem Resolved.step (env : Env) (hpos : env.opens_positive) {n k : Nat} {s : State}
    (h : Resolved n k s) (hk : k + 1 < n) :
    ∃ s' curr, chdir_do env (k + 1) s = .ok s' ∧ Resolved n (k + 1) s' ∧
      s.wd[k + 1]? = some curr ∧
      (k < CHDIR_CACHE_SIZE → s'.trace = s.trace ++ [open_event env s curr]) ∧
      (CHDIR_CACHE_SIZE ≤ k → ∃ stale, s.wd[k + 1 - CHDIR_CACHE_SIZE]? = some stale ∧
        0 < stale.fd ∧
        s'.trace = s.trace ++ [open_event env s curr, Event.close stale.fd]) := by
  have hb : k + 1 < s.wd.length := by rw [h.length]; exact hk
  obtain ⟨curr, hcurr⟩ : ∃ curr, s.wd[k + 1]? = some curr :=
    ⟨s.wd[k + 1], List.getElem?_eq_getElem hb⟩
  have hz : curr.fd = 0 := by
    rw [← fdOf_of_get hcurr]; exact h.above (k + 1) (by omega)
  obtain ⟨s', hdo, hinv', hcur', hstep⟩ := chdir_do_unopened env hpos h.inv h.current hcurr hz
  obtain ⟨hst, hab, _⟩ := hstep.frame hcurr
  have hlen' : s'.wd.length = n := by
    have := congrArg List.length hst
    simp at this
    rw [this, h.length]
  have habove' : ∀ j, k + 1 < j → s'.fdOf j = 0 := by
    intro j hj
    exact hab j (by omega) (h.above j (by omega))
  refine ⟨s', curr, hdo, ?_, hcurr, ?_, ?_⟩
  · rcases hstep with ⟨hlt, hc, hn, htr, _⟩ | ⟨heq, st, stale, hlast, _, _, hc, hn, htr, _⟩
    · rw [h.count] at hlt hn
      have hk16 : k < CHDIR_CACHE_SIZE := by
        by_contra hge
        rw [Nat.min_eq_right (not_lt.mp hge)] at hlt
        exact lt_irrefl _ hlt
      have hmin : min k CHDIR_CACHE_SIZE = k := Nat.min_eq_left (le_of_lt hk16)
      have hmin' : min (k + 1) CHDIR_CACHE_SIZE = k + 1 := Nat.min_eq_left hk16
      refine ⟨hinv', hcur', ?_, by rw [hn, hmin, hmin'], ?_, ?_, habove', hlen'⟩
      · rw [hc, h.cache, hmin, hmin']
        have e1 : k + 1 - k = 1 := by omega
        have e2 : k + 1 + 1 - (k + 1) = 1 := by omega
        rw [e1, e2, List.range'_concat, List.reverse_append]
        simp [Nat.add_comm]
      · rw [htr, opens_append, h.opened]; simp [opens, open_event]
      · rw [htr, closes_append, h.closed]
        simp [closes, open_event]
        omega
    · rw [h.count] at heq hn
      have hk16 : CHDIR_CACHE_SIZE ≤ k := by
        by_contra hlt
        rw [Nat.min_eq_left (le_of_lt (not_le.mp hlt))] at heq
        omega
      have hmin : min k CHDIR_CACHE_SIZE = CHDIR_CACHE_SIZE := Nat.min_eq_right hk16
      have hmin' : min (k + 1) CHDIR_CACHE_SIZE = CHDIR_CACHE_SIZE :=
        Nat.min_eq_right (by omega)
      refine ⟨hinv', hcur', ?_, by rw [hn, hmin, hmin'], ?_, ?_, habove', hlen'⟩
      · rw [hc, h.cache, hmin, hmin']
        simp only [CHDIR_CACHE_SIZE] at hk16 ⊢
        have e1 : k + 1 - 16 = (k - 16) + 1 := by omega
        have e2 : k + 1 + 1 - 16 = (k - 16) + 2 := by omega
        have e3 : (k - 16) + 2 + 15 = k + 1 := by omega
        rw [e1, e2]
        rw [show (16 : Nat) = 15 + 1 from rfl]
        rw [List.range'_succ, List.reverse_cons, List.dropLast_concat]
        rw [List.range'_concat (k - 16 + 2) 15, List.reverse_append]
        simp [e3]
      · rw [htr, opens_append, h.opened]; simp [opens, open_event]
      · rw [htr, closes_append, h.closed]
        simp [closes, open_event]
        simp only [CHDIR_CACHE_SIZE] at hk16 ⊢
        omega
  · intro hk16
    rcases hstep with ⟨_, _, _, htr, _⟩ | ⟨heq, _⟩
    · exact htr
    · rw [h.count, Nat.min_eq_left (le_of_lt hk16)] at heq
      omega
  · intro hk16
    rcases hstep with ⟨hlt, _⟩ | ⟨_, st, stale, hlast, hstale, _, _, _, htr, _⟩
    · rw [h.count, Nat.min_eq_right hk16] at hlt
      exact absurd hlt (lt_irrefl _)
    · have hsteq : st = k + 1 - CHDIR_CACHE_SIZE := by
        rw [h.cache, Nat.min_eq_right hk16] at hlast
        simp only [CHDIR_CACHE_SIZE] at hk16 hlast ⊢
        rw [List.getLast?_reverse] at hlast
        rw [show (16 : Nat) = 15 + 1 from rfl, List.range'_succ] at hlast
        simp at hlast
        omega
      subst hsteq
      refine ⟨stale, hstale, ?_, htr⟩
      have hm : k + 1 - CHDIR_CACHE_SIZE ∈ s.cache := List.mem_of_mem_getLast? hlast
      have := (h.inv.cached _ hm).2.2
      rw [fdOf_of_get hstale] at this
      exact this

theorem Resolved.start {env : Env} {s0 : State} (hr : Registered env s0) :
    Resolved s0.wd.length 0 s0 := by
  obtain ⟨hinv, hcnt, hcur, htr⟩ := hr.fresh
  have hc : s0.cache = [] := by simp [State.cache, hcnt]
  refine ⟨hinv, hcur, by simp [hc], by simp [hcnt], by simp [htr, opens], by simp [htr, closes],
    ?_, rfl⟩
  intro j hj
  exact hinv.uncached j hj (by simp [hc])

theorem Resolved.run (env : Env) (hpos : env.opens_positive) {s0 : State}
    (hr : Registered env s0) :
    ∀ k, k < s0.wd.length →
      ∃ s, chdir_do_list env (List.range' 1 k) s0 = .ok s ∧ Resolved s0.wd.length k s := by
  intro k
  induction k with
  | zero => intro _; exact ⟨s0, rfl, Resolved.start hr⟩
  | succ k ih =>
    intro hk
    obtain ⟨s, hs, hres⟩ := ih (by omega)
    obtain ⟨s', _, hdo, hres', _⟩ := hres.step env hpos hk
    refine ⟨s', ?_, hres'⟩
    rw [List.range'_concat, chdir_do_list_append, hs]
    simp [chdir_do_list, Nat.add_comm, hdo]

theorem Registered.of_list (env : Env) (dirs : List (List Char)) :
    ∀ (s s' : State), Registered env s → chdir_arg_list env dirs s = .ok s' →
      Registered env s' := by
  induction dirs with
  | nil =>
    intro s s' hr h
    simp only [chdir_arg_list] at h
    injection h with h
    subst h
    exact hr
  | cons dir dirs ih =>
    intro s s' hr h
    simp only [chdir_arg_list] at h
    cases ha : chdir_arg env dir s with
    | error e => simp [ha] at h
    | ok r =>
      obtain ⟨idx, s1⟩ := r
      simp only [ha] at h
      exact ih s1 s' (Registered.arg s s1 dir idx hr ha) h

theorem chain17_registered : Registered env0 chain17 :=
  Registered.of_list env0 (List.replicate 17 ['d']) State.init chain17 Registered.init rfl

/-- C2. Take a fresh table in which `N > 16` directories were registered and
resolve the indices `1, 2, ..., N` once each, in that order, every open
succeeding. The run completes with exactly `N` opens and exactly `N - 16`
closes. Resolving an index `i ≤ 16` makes one `openat` and no `close`.
Resolving an index `i > 16` finds the cache holding `i - 1, i - 2, ..., i - 16`
(most recently resolved first), makes one `openat` and then exactly one
`close`, of the descriptor stored in entry `i - 16`, the least recently
resolved index in the cache. -/
theorem resolve_in_order_evictions (env : Env) (s0 : State) (N : Nat)
    (hpos : env.opens_positive) (hreg : Registered env s0) (hN : chdir_count s0 = N)
    (h16 : CHDIR_CACHE_SIZE < N) :
    (∃ sN, chdir_do_list env (List.range' 1 N) s0 = .ok sN ∧
      opens sN.trace = N ∧ closes sN.trace = N - 16) ∧
    (∀ i, 1 ≤ i → i ≤ N →
      ∃ s s' curr, chdir_do_list env (List.range' 1 (i - 1)) s0 = .ok s ∧
        chdir_do env i s = .ok s' ∧ s.wd[i]? = some curr ∧
        (i ≤ 16 → s'.trace = s.trace ++ [open_event env s curr]) ∧
        (16 < i → s.cache = (List.range' (i - 16) 16).reverse ∧
          s.cache.getLast? = some (i - 16) ∧
          ∃ stale, s.wd[i - 16]? = some stale ∧ 0 < stale.fd ∧
            s'.trace = s.trace ++ [open_event env s curr, Event.close stale.fd])) := by
  have hlen : s0.wd.length = N + 1 := by
    unfold chdir_count State.wd_count at hN
    by_cases hz : s0.wd.length = 0
    · rw [if_pos hz] at hN
      simp only [CHDIR_CACHE_SIZE] at h16
      omega
    · rw [if_neg hz] at hN
      omega
  constructor
  · obtain ⟨sN, hrun, hres⟩ := Resolved.run env hpos hreg N (by omega)
    exact ⟨sN, hrun, hres.opened, hres.closed⟩
  · intro i hi1 hiN
    obtain ⟨s, hrun, hres⟩ := Resolved.run env hpos hreg (i - 1) (by omega)
    have hi : i - 1 + 1 = i := by omega
    obtain ⟨s', curr, hdo, _, hcurr, hlow, hhigh⟩ := hres.step env hpos (by omega)
    rw [hi] at hdo hcurr
    refine ⟨s, s', curr, hrun, hdo, hcurr, ?_, ?_⟩
    · intro hle
      exact hlow (by simp only [CHDIR_CACHE_SIZE]; omega)
    · intro hlt
      obtain ⟨stale, h1, h2, h3⟩ := hhigh (by simp only [CHDIR_CACHE_SIZE]; omega)
      rw [hi] at h1
      have hc := hres.cache
      rw [Nat.min_eq_right (by simp only [CHDIR_CACHE_SIZE]; omega), hi] at hc
      refine ⟨hc, ?_, stale, h1, h2, h3⟩
      rw [hc, List.getLast?_reverse]
      simp [CHDIR_CACHE_SIZE, List.range'_succ]

/-- C2, for a chain of seventeen registered directories: one eviction. -/
theorem resolve_in_order_evictions_witness :
    env0.opens_positive ∧ Registered env0 chain17 ∧ chdir_count chain17 = 17 ∧
    ∃ sN, chdir_do_list env0 (List.range' 1 17) chain17 = .ok sN ∧ closes sN.trace = 1 := by
  obtain ⟨sN, h1, _, h3⟩ :=
    (resolve_in_order_evictions env0 chain17 17 env0_positive chain17_registered rfl
      (by decide)).1
  exact ⟨env0_positive, chain17_registered, rfl, sN, h1, h3⟩

/-! ## A chain of seventeen directories: the number of open descriptors -/

set_option maxRecDepth 100000 in
/-- C3, at the chain of seventeen relative names: `chdir_do (17)` on the fresh
table completes with exactly seventeen `openat` calls and one `close`, and
sixteen descriptors are open when it returns; but right after the seventeenth
`openat`, before the evicted descriptor is closed, seventeen directory
descriptors are open, more than `CHDIR_CACHE_SIZE`. -/
theorem chain17_peak_open_descriptors :
    ∃ s', chdir_do env0 17 chain17 = .ok s' ∧ opens s'.trace = 17 ∧ closes s'.trace = 1 ∧
      (live s'.trace).length = 16 ∧ (live (s'.trace.take 17)).length = 17 ∧
      CHDIR_CACHE_SIZE < (live (s'.trace.take 17)).length :=
  ⟨_, rfl, by decide, by decide, by decide, by decide, by decide⟩

/-! ## `chdir_arg`: names that denote the directory itself -/

theorem skip_slashes_replicate (k : Nat) (rest : List Char) :
    skip_slashes (List.replicate k '/' ++ rest) = skip_slashes rest := by
  induction k with
  | zero => simp
  | succ k ih => simp [List.replicate_succ, skip_slashes, ISSLASH, ih]

theorem skip_slashes_dot_name (ks : List Nat) (final : Bool) :
    skip_slashes (dot_name ks final) = dot_name ks final := by
  cases ks with
  | nil => cases final <;> simp [dot_name, skip_slashes, ISSLASH]
  | cons k ks => simp [dot_name, skip_slashes, ISSLASH]

theorem skip_dot_slash_dot_name (ks : List Nat) (final : Bool) :
    ∀ fuel, ks.length < fuel →
      skip_dot_slash fuel (dot_name ks final) = .ok (if final then ['.'] else []) := by
  induction ks with
  | nil =>
    intro fuel hf
    cases fuel with
    | zero => simp at hf
    | succ fuel => cases final <;> simp [dot_name, skip_dot_slash]
  | cons k ks ih =>
    intro fuel hf
    cases fuel with
    | zero => simp at hf
    | succ fuel =>
      simp only [dot_name, skip_dot_slash]
      simp only [ISSLASH, beq_self_eq_true, Bool.and_self, if_true]
      rw [skip_slashes_replicate, skip_slashes_dot_name]
      exact ih fuel (by simp at hf; omega)

theorem dot_name_length (ks : List Nat) (final : Bool) :
    ks.length ≤ (dot_name ks final).length := by
  induction ks with
  | nil => simp
  | cons k ks ih => simp [dot_name]; omega

theorem dot_name_ne_nil (ks : List Nat) (final : Bool) (h : ks ≠ [] ∨ final = true) :
    dot_name ks final ≠ [] := by
  cases ks with
  | nil =>
    rcases h with h | h
    · exact absurd rfl h
    · subst h; simp [dot_name]
  | cons k ks => simp [dot_name]

/-- C10. Let the name be "." or one or more prefixes "./", each possibly
followed by further slashes, followed by nothing or by a final ".". From every
reachable state in which the table is not empty or `xgetcwd` succeeds,
`chdir_arg` of that name completes, creates no entry (the table is unchanged;
a table that was empty gets only the implicit entry 0), returns the index of
the most recently registered entry (0 when there was none), and leaves
`chdir_count ()` as it was. -/
theorem chdir_arg_dot_creates_nothing (env : Env) (s : State) (ks : List Nat) (final : Bool)
    (hname : ks ≠ [] ∨ final = true) (hpos : env.opens_positive) (hr : Reachable env s)
    (hcwd : s.wd ≠ [] ∨ env.xgetcwd ≠ none) :
    ∃ s', chdir_arg env (dot_name ks final) s = .ok (s.wd.length - 1, s') ∧
      chdir_count s' = chdir_count s ∧
      (s.wd ≠ [] → s'.wd = s.wd) ∧
      (s.wd = [] → ∃ cwd, env.xgetcwd = some cwd ∧
        s'.wd = [{ name := ['.'], abspath := some cwd, fd := AT_FDCWD }]) ∧
      s'.wdcache = s.wdcache ∧ s'.wdcache_count = s.wdcache_count ∧
      s'.chdir_current = s.chdir_current ∧ s'.chdir_fd = s.chdir_fd ∧ s'.trace = s.trace := by
  have h := hr.inv hpos
  have hgrow : ∃ s1, chdir_arg_grow env s = .ok s1 := by
    unfold chdir_arg_grow
    by_cases hfull : s.wd_count = s.wd_alloc
    · rw [if_pos hfull]
      by_cases hz : s.wd_count = 0
      · have hnil : s.wd = [] := List.length_eq_zero.mp hz
        have hsome := hcwd.resolve_left (by simp [hnil])
        cases hx : env.xgetcwd with
        | none => exact absurd hx hsome
        | some cwd => simp [hz]
      · simp [hz]
    · rw [if_neg hfull]; exact ⟨s, rfl⟩
  obtain ⟨s1, hg⟩ := hgrow
  obtain ⟨_, hne1, g1, g2, g3, g4, g5, g6, g7⟩ := chdir_arg_grow_spec env h hg
  have hskip := skip_dot_slash_dot_name ks final ((dot_name ks final).length + 1)
    (by have := dot_name_length ks final; omega)
  have hdot : dot_or_end (if final then ['.'] else []) = true := by
    cases final <;> simp [dot_or_end]
  have hidx : s1.wd_count - 1 = s.wd.length - 1 := by
    unfold State.wd_count
    by_cases hnil : s.wd = []
    · obtain ⟨cwd, _, hw⟩ := g7 hnil
      rw [hw, hnil]; rfl
    · rw [g6 hnil]
  refine ⟨s1, ?_, ?_, g6, g7, g1, g2, g3, g4, g5⟩
  · unfold chdir_arg
    rw [hg]
    simp only [dot_name_ne_nil ks final hname, ne_eq, not_false_eq_true, if_true, hskip, hdot,
      hidx]
  · unfold chdir_count State.wd_count
    by_cases hnil : s.wd = []
    · obtain ⟨cwd, _, hw⟩ := g7 hnil
      rw [hw, hnil]; rfl
    · rw [g6 hnil]

/-- C10, for the name "././/." registered after "a" and a `chdir_do (1)`. -/
theorem chdir_arg_dot_creates_nothing_witness :
    dot_name [0, 1] true = "././/.".toList ∧
    ∃ s', chdir_arg env0 "././/.".toList demo2 = .ok (1, s') ∧
      chdir_count s' = chdir_count demo2 ∧ s'.wd = demo2.wd := by
  obtain ⟨s', h1, h2, h3, _⟩ :=
    chdir_arg_dot_creates_nothing env0 demo2 [0, 1] true (Or.inr rfl) env0_positive
      demo2_reachable (Or.inl (by decide))
  exact ⟨by decide, s', h1, h2, h3 (by decide)⟩

/-! ## Normalisation on strings: the copied string and its components -/

theorem split_slash_ne_nil (s : List Char) : split_slash s ≠ [] := by
  cases s with
  | nil => simp [split_slash]
  | cons c r =>
    simp only [split_slash]
    split
    · simp
    · split <;> simp

theorem split_slash_cons_slash (r : List Char) :
    split_slash ('/' :: r) = [] :: split_slash r := by
  simp [split_slash]

theorem split_slash_cons_other (c : List Char) (cs : List (List Char)) (x : Char) (r : List Char)
    (hx : x ≠ '/') (h : split_slash r = c :: cs) :
    split_slash (x :: r) = (x :: c) :: cs := by
  simp [split_slash, hx, h]

/-- No component contains a slash. -/
theorem split_slash_no_slash (s : List Char) : ∀ c ∈ split_slash s, '/' ∉ c := by
  induction s with
  | nil => simp [split_slash]
  | cons x r ih =>
    by_cases hx : x = '/'
    · subst hx
      rw [split_slash_cons_slash]
      intro c hc
      rcases List.mem_cons.mp hc with rfl | hc
      · simp
      · exact ih c hc
    · obtain ⟨c0, cs, h⟩ := List.exists_cons_of_ne_nil (split_slash_ne_nil r)
      rw [split_slash_cons_other c0 cs x r hx h]
      rw [h] at ih
      intro c hc
      rcases List.mem_cons.mp hc with rfl | hc
      · intro hm
        rcases List.mem_cons.mp hm with e | hm
        · exact hx e.symm
        · exact ih c0 (List.mem_cons_self _ _) hm
      · exact ih c (List.mem_cons_of_mem _ hc)

/-- A string whose first component is empty starts with a slash. -/
theorem split_slash_head_nil (d : Char) (t : List Char) (cs : List (List Char))
    (h : split_slash (d :: t) = [] :: cs) : d = '/' := by
  by_contra hd
  obtain ⟨c0, cs0, h0⟩ := List.exists_cons_of_ne_nil (split_slash_ne_nil t)
  rw [split_slash_cons_other c0 cs0 d t hd h0] at h
  simp at h

theorem emit_false_cons (c : Char) (r : List Char) :
    emit false (c :: r) = c :: emit (decide (c = '/')) r := by
  simp [emit]

theorem emit_false_eq_nil (s : List Char) : emit false s = [] ↔ s = [] := by
  cases s with
  | nil => simp [emit]
  | cons c r => simp [emit]

/-- After a slash the copy loop first squeezes the input. -/
theorem emit_true_eq (s : List Char) : emit true s = emit false (squeeze s) := by
  induction s using squeeze.induct with
  | case1 => simp [emit, squeeze]
  | case2 => simp [emit, squeeze]
  | case3 c hc => simp [emit, squeeze, hc]
  | case4 d t ih =>
    simp only [emit, squeeze, if_true]
    exact ih
  | case5 c d t hc hcd ih =>
    simp only [emit, squeeze, if_neg hc, if_pos hcd]
    exact ih
  | case6 c d t hc hcd =>
    simp only [emit, squeeze, if_neg hc, if_neg hcd]
    simp [emit, hc]

theorem squeeze_eq_nil_iff (s : List Char) : squeeze s = [] ↔ emit true s = [] := by
  rw [emit_true_eq, emit_false_eq_nil]

/-- What the copy loop writes, in terms of the components of the input. -/
theorem emit_eq_comps (b : Bool) (s : List Char) :
    emit b s = if b then emit_comps (split_slash s) else emit_first (split_slash s) := by
  induction b, s using emit.induct with
  | case1 x => cases x <;> simp [emit, split_slash, emit_comps, emit_first]
  | case2 c r ih =>
    obtain ⟨c0, cs, h⟩ := List.exists_cons_of_ne_nil (split_slash_ne_nil r)
    rw [emit_false_cons, ih, h]
    by_cases hc : c = '/'
    · subst hc
      rw [split_slash_cons_slash, h]
      simp [emit_first]
    · rw [split_slash_cons_other c0 cs c r hc h]
      cases cs with
      | nil => simp [hc, emit_first]
      | cons c' cs' => simp [hc, emit_first]
  | case3 => simp [emit, split_slash, emit_comps]
  | case4 c hc => simp [emit, split_slash, emit_comps, hc]
  | case5 d t ih =>
    obtain ⟨c0, cs, h⟩ := List.exists_cons_of_ne_nil (split_slash_ne_nil (d :: t))
    simp only [emit, if_true] at ih ⊢
    rw [ih, split_slash_cons_slash, h]
    simp [emit_comps]
  | case6 c d t hc hcd ih =>
    obtain ⟨c0, cs, h⟩ := List.exists_cons_of_ne_nil (split_slash_ne_nil t)
    obtain ⟨hc1, hd1⟩ := hcd
    subst hc1; subst hd1
    have hs : split_slash ('.' :: '/' :: t) = ['.'] :: c0 :: cs := by
      rw [split_slash_cons_other [] (c0 :: cs) '.' ('/' :: t) hc
        (by rw [split_slash_cons_slash, h])]
    simp only [emit, if_neg hc, and_self, if_true] at ih ⊢
    rw [ih, hs, h]
    simp [emit_comps]
  | case7 c d t hc hcd ih =>
    obtain ⟨c0, cs, h⟩ := List.exists_cons_of_ne_nil (split_slash_ne_nil (d :: t))
    simp only [emit, if_neg hc, if_neg hcd, if_true] at ih ⊢
    simp only [Bool.false_eq_true, if_false] at ih
    rw [ih, split_slash_cons_other c0 cs c (d :: t) hc h, h]
    cases cs with
    | nil => simp [emit_first, emit_comps]
    | cons c' cs' =>
      have hnt : ¬ ((c :: c0) = [] ∨ (c :: c0) = ['.']) := by
        rintro (e | e)
        · simp at e
        · injection e with e1 e2
          subst e1; subst e2
          exact hcd ⟨rfl, split_slash_head_nil d t _ h⟩
      simp only [emit_first, emit_comps, if_neg hnt, List.cons_append]

/-! ## The last block on the copied string -/

theorem getElem?_append_length (X : List Char) (a : Char) (l : List Char) :
    (X ++ a :: l)[X.length]? = some a := by
  rw [List.getElem?_append_right (le_refl _)]
  simp

theorem getElem?_append_length_succ (X : List Char) (a b : Char) (l : List Char) :
    (X ++ a :: b :: l)[X.length + 1]? = some b := by
  rw [List.getElem?_append_right (by omega)]
  simp

/-- A string without slash is left as it is. -/
theorem trimmed_length_no_slash (w : List Char) (h : '/' ∉ w) : trimmed_length w = w.length := by
  unfold trimmed_length
  split
  · have h1 : length_after_dot w = w.length := by
      unfold length_after_dot
      rw [if_neg (fun e => h (List.getElem?_mem e.2))]
    rw [h1]
    unfold length_after_slash
    rw [if_neg (fun e => h (List.getElem?_mem e.2))]
  · rfl

/-- A trailing slash after a non-empty string is dropped. -/
theorem trimmed_length_slash (X : List Char) (hX : X ≠ []) :
    trimmed_length (X ++ ['/']) = X.length := by
  have hpos : 0 < X.length := List.length_pos.mpr hX
  have hlen : (X ++ ['/']).length = X.length + 1 := by simp
  have e1 : X.length + 1 - 1 = X.length := by omega
  have h1 : length_after_dot (X ++ ['/']) = X.length + 1 := by
    unfold length_after_dot
    rw [hlen, e1, getElem?_append_length]
    simp
  unfold trimmed_length
  rw [hlen, if_pos (by omega), h1]
  unfold length_after_slash
  rw [e1, getElem?_append_length]
  simp [hX]

/-- A trailing "/." is dropped, the slash too when something precedes it. -/
theorem trimmed_length_slash_dot (X : List Char) :
    trimmed_length (X ++ ['/', '.']) = if X = [] then 1 else X.length := by
  have hlen : (X ++ ['/', '.']).length = X.length + 2 := by simp
  have e1 : X.length + 2 - 1 = X.length + 1 := by omega
  have e2 : X.length + 2 - 2 = X.length := by omega
  have e3 : X.length + 1 - 1 = X.length := by omega
  have h1 : length_after_dot (X ++ ['/', '.']) = X.length + 1 := by
    unfold length_after_dot
    rw [hlen, e1, e2, getElem?_append_length, getElem?_append_length_succ]
    simp
  unfold trimmed_length
  rw [hlen, if_pos (by omega), h1]
  unfold length_after_slash
  rw [e3, getElem?_append_length]
  by_cases hX : X = []
  · subst hX; simp
  · have hpos : 0 < X.length := List.length_pos.mpr hX
    have : 2 ≤ X.length + 1 := by omega
    simp [hX, this]

/-- A string that ends in a character other than a slash, and not in "/.", is
left as it is. -/
theorem trimmed_length_keep (Y : List Char) (a : Char) (ha : a ≠ '/')
    (h : ¬ (a = '.' ∧ Y.getLast? = some '/')) :
    trimmed_length (Y ++ [a]) = Y.length + 1 := by
  have hlen : (Y ++ [a]).length = Y.length + 1 := by simp
  have e1 : Y.length + 1 - 1 = Y.length := by omega
  unfold trimmed_length
  rw [hlen]
  split
  · rename_i h2
    have hget : (Y ++ [a])[Y.length + 1 - 2]? = Y.getLast? := by
      have e2 : Y.length + 1 - 2 = Y.length - 1 := by omega
      rw [e2, List.getLast?_eq_getElem?, List.getElem?_append_left (by omega)]
    have h1 : length_after_dot (Y ++ [a]) = Y.length + 1 := by
      unfold length_after_dot
      rw [hlen, e1, getElem?_append_length, hget, if_neg]
      rintro ⟨e, e'⟩
      injection e with e
      exact h ⟨e, e'⟩
    rw [h1]
    unfold length_after_slash
    rw [e1, getElem?_append_length, if_neg]
    rintro ⟨_, e⟩
    injection e with e
    exact ha e
  · rfl

/-- A string that ends in a component that is neither empty nor "." is left
as it is. -/
theorem trimmed_length_comp (Z last : List Char) (hl : '/' ∉ last) (h1 : last ≠ [])
    (h2 : last ≠ ['.']) :
    trimmed_length (Z ++ last) = Z.length + last.length := by
  obtain ⟨l, a, hla⟩ := (List.eq_nil_or_concat last).resolve_left h1
  rw [List.concat_eq_append] at hla
  subst hla
  have ha : a ≠ '/' := fun e => hl (by simp [e])
  rw [← List.append_assoc, trimmed_length_keep (Z ++ l) a ha]
  · simp; omega
  · rintro ⟨e1, e2⟩
    subst e1
    cases l with
    | nil => exact h2 rfl
    | cons b t =>
      rw [List.getLast?_append_of_ne_nil _ (by simp)] at e2
      exact hl (List.mem_append_left _ (List.mem_of_mem_getLast? e2))

/-- The last block after `X/last`, for a non-empty `X` and a component
`last`. -/
theorem trim_after_slash (X last : List Char) (hX : X ≠ []) (hl : '/' ∉ last) :
    trim (X ++ '/' :: last) = if last = [] ∨ last = ['.'] then X else X ++ '/' :: last := by
  unfold trim
  by_cases h1 : last = []
  · subst h1
    rw [trimmed_length_slash X hX]
    simp
  · by_cases h2 : last = ['.']
    · subst h2
      rw [trimmed_length_slash_dot X]
      simp [hX]
    · simp only [h1, h2, or_self, if_false]
      have e : X ++ '/' :: last = (X ++ ['/']) ++ last := by simp
      rw [e, trimmed_length_comp (X ++ ['/']) last hl h1 h2]
      rw [← List.length_append, List.take_length]

/-- The last block after `/last`, for a component `last`. -/
theorem trim_root (last : List Char) (hl : '/' ∉ last) :
    trim ('/' :: last) = if last = [] ∨ last = ['.'] then ['/'] else '/' :: last := by
  unfold trim
  by_cases h1 : last = []
  · subst h1
    simp [trimmed_length]
  · by_cases h2 : last = ['.']
    · subst h2
      have := trimmed_length_slash_dot []
      simp only [List.nil_append, if_true] at this
      rw [this]
      simp
    · simp only [h1, h2, or_self, if_false]
      have e : '/' :: last = ['/'] ++ last := by simp
      rw [e, trimmed_length_comp ['/'] last hl h1 h2]
      rw [← List.length_append, List.take_length]

/-- The last block on a single component. -/
theorem trim_no_slash (w : List Char) (h : '/' ∉ w) : trim w = w := by
  unfold trim
  rw [trimmed_length_no_slash w h]
  simp

/-! ## The three steps on strings give the reference form -/

theorem intercalate_cons_cons (a b : List Char) (l : List (List Char)) :
    List.intercalate ['/'] (a :: b :: l) = a ++ '/' :: List.intercalate ['/'] (b :: l) := by
  simp [List.intercalate]

theorem intercalate_cons (a : List Char) (l : List (List Char)) :
    List.intercalate ['/'] (a :: l)
      = a ++ (if l = [] then [] else '/' :: List.intercalate ['/'] l) := by
  cases l with
  | nil => simp [List.intercalate]
  | cons b t => rw [intercalate_cons_cons]; simp

theorem kept_comps_cons_trivial (w : List Char) (cs : List (List Char))
    (h : w = [] ∨ w = ['.']) : kept_comps (w :: cs) = kept_comps cs := by
  unfold kept_comps
  rw [List.filter_cons_of_neg]
  rcases h with h | h <;> simp [h]

theorem kept_comps_cons_other (w : List Char) (cs : List (List Char))
    (h : ¬ (w = [] ∨ w = ['.'])) : kept_comps (w :: cs) = w :: kept_comps cs := by
  unfold kept_comps
  rw [List.filter_cons_of_pos]
  simpa [not_or] using h

/-- The last block after `X/` followed by the run on the components `cs`. -/
theorem trim_emit_comps (cs : List (List Char)) :
    cs ≠ [] → (∀ w ∈ cs, '/' ∉ w) → ∀ X : List Char, X ≠ [] →
      trim (X ++ '/' :: emit_comps cs)
        = X ++ (if kept_comps cs = [] then []
                else '/' :: List.intercalate ['/'] (kept_comps cs)) := by
  induction cs using emit_comps.induct with
  | case1 => intro h; exact absurd rfl h
  | case2 w =>
    intro _ hs X hX
    have hw : '/' ∉ w := hs w (List.mem_cons_self _ _)
    simp only [emit_comps]
    rw [trim_after_slash X w hX hw]
    by_cases ht : w = [] ∨ w = ['.']
    · rw [if_pos ht, kept_comps_cons_trivial w [] ht]
      simp [kept_comps]
    · rw [if_neg ht, kept_comps_cons_other w [] ht]
      simp [kept_comps, List.intercalate]
  | case3 w w' cs ht ih =>
    intro _ hs X hX
    simp only [emit_comps, if_pos ht]
    rw [kept_comps_cons_trivial w _ ht]
    exact ih (by simp) (fun v hv => hs v (List.mem_cons_of_mem _ hv)) X hX
  | case4 w w' cs ht ih =>
    intro _ hs X hX
    simp only [emit_comps, if_neg ht]
    rw [kept_comps_cons_other w _ ht]
    have e : X ++ '/' :: (w ++ '/' :: emit_comps (w' :: cs))
        = (X ++ '/' :: w) ++ '/' :: emit_comps (w' :: cs) := by simp
    rw [e, ih (by simp) (fun v hv => hs v (List.mem_cons_of_mem _ hv)) (X ++ '/' :: w) (by simp)]
    rw [intercalate_cons]
    simp

/-- The last block after the root slash followed by the run on the components
`cs`. -/
theorem trim_root_emit_comps (cs : List (List Char)) :
    cs ≠ [] → (∀ w ∈ cs, '/' ∉ w) →
      trim ('/' :: emit_comps cs) = '/' :: List.intercalate ['/'] (kept_comps cs) := by
  induction cs using emit_comps.induct with
  | case1 => intro h; exact absurd rfl h
  | case2 w =>
    intro _ hs
    have hw : '/' ∉ w := hs w (List.mem_cons_self _ _)
    simp only [emit_comps]
    rw [trim_root w hw]
    by_cases ht : w = [] ∨ w = ['.']
    · rw [if_pos ht, kept_comps_cons_trivial w [] ht]
      simp [kept_comps, List.intercalate]
    · rw [if_neg ht, kept_comps_cons_other w [] ht]
      simp [kept_comps, List.intercalate]
  | case3 w w' cs ht ih =>
    intro _ hs
    simp only [emit_comps, if_pos ht]
    rw [kept_comps_cons_trivial w _ ht]
    exact ih (by simp) (fun v hv => hs v (List.mem_cons_of_mem _ hv))
  | case4 w w' cs ht _ =>
    intro _ hs
    simp only [emit_comps, if_neg ht]
    rw [kept_comps_cons_other w _ ht]
    have e : '/' :: (w ++ '/' :: emit_comps (w' :: cs))
        = ('/' :: w) ++ '/' :: emit_comps (w' :: cs) := by simp
    rw [e, trim_emit_comps (w' :: cs) (by simp) (fun v hv => hs v (List.mem_cons_of_mem _ hv))
      ('/' :: w) (by simp)]
    rw [intercalate_cons]
    simp

/-- The last block after a stripped leading "./" and the run on the
components `cs`. -/
theorem trim_dot_emit_comps (cs : List (List Char)) :
    cs ≠ [] → (∀ w ∈ cs, '/' ∉ w) →
      trim (if emit_comps cs = [] then ['.'] else emit_comps cs)
        = if kept_comps cs = [] then ['.'] else List.intercalate ['/'] (kept_comps cs) := by
  induction cs using emit_comps.induct with
  | case1 => intro h; exact absurd rfl h
  | case2 w =>
    intro _ hs
    have hw : '/' ∉ w := hs w (List.mem_cons_self _ _)
    simp only [emit_comps]
    by_cases h1 : w = []
    · subst h1
      simp [kept_comps, trim, trimmed_length]
    · by_cases h2 : w = ['.']
      · subst h2
        simp [kept_comps, trim, trimmed_length]
      · rw [if_neg h1, trim_no_slash w hw, kept_comps_cons_other w [] (by simp [h1, h2])]
        simp [kept_comps, List.intercalate]
  | case3 w w' cs ht ih =>
    intro _ hs
    simp only [emit_comps, if_pos ht]
    rw [kept_comps_cons_trivial w _ ht]
    exact ih (by simp) (fun v hv => hs v (List.mem_cons_of_mem _ hv))
  | case4 w w' cs ht _ =>
    intro _ hs
    have hw : w ≠ [] := fun e => ht (Or.inl e)
    simp only [emit_comps, if_neg ht]
    rw [kept_comps_cons_other w _ ht]
    rw [if_neg (by simp), if_neg (by simp)]
    rw [trim_emit_comps (w' :: cs) (by simp) (fun v hv => hs v (List.mem_cons_of_mem _ hv)) w hw]
    rw [intercalate_cons]

theorem copied_dot_slash (t : List Char) :
    copied ('.' :: '/' :: t)
      = if emit_comps (split_slash t) = [] then ['.'] else emit_comps (split_slash t) := by
  have h := emit_eq_comps true t
  simp only [if_true] at h
  simp only [copied, and_self, if_true]
  by_cases hq : squeeze t = []
  · have := (squeeze_eq_nil_iff t).mp hq
    rw [if_pos hq, ← h, if_pos this]
  · have : emit true t ≠ [] := fun e => hq ((squeeze_eq_nil_iff t).mpr e)
    rw [if_neg hq, ← emit_true_eq, ← h, if_neg this]

theorem copied_other (s : List Char)
    (h : ∀ t, s ≠ '.' :: '/' :: t) : copied s = emit_first (split_slash s) := by
  have h2 := emit_eq_comps false s
  simp only [Bool.false_eq_true, if_false] at h2
  rw [← h2]
  unfold copied
  split
  · rename_i x d t
    rw [if_neg]
    rintro ⟨e1, e2⟩
    subst e1; subst e2
    exact h t rfl
  · rfl

/-- The three steps of `normalize_filename_x`, on strings, give the reference
form. -/
theorem normalize_fn_eq_ref (s : List Char) : normalize_fn s = normalize_ref s := by
  show trim (copied s) = normalize_ref s
  have hsf := split_slash_no_slash s
  cases s with
  | nil => simp [copied, emit, trim, trimmed_length, normalize_ref]
  | cons x r =>
    by_cases hds : ∃ t, x :: r = '.' :: '/' :: t
    · obtain ⟨t, ht⟩ := hds
      rw [ht] at hsf ⊢
      have hs : split_slash ('.' :: '/' :: t) = ['.'] :: split_slash t := by
        obtain ⟨c0, cs, h⟩ := List.exists_cons_of_ne_nil (split_slash_ne_nil t)
        rw [split_slash_cons_other [] (c0 :: cs) '.' ('/' :: t) (by decide)
          (by rw [split_slash_cons_slash, h]), h]
      rw [copied_dot_slash,
        trim_dot_emit_comps (split_slash t) (split_slash_ne_nil t) (split_slash_no_slash t)]
      have hk : kept ('.' :: '/' :: t) = kept_comps (split_slash t) := by
        show kept_comps (split_slash ('.' :: '/' :: t)) = _
        rw [hs, kept_comps_cons_trivial _ _ (Or.inr rfl)]
      have hne : ('.' : Char) ≠ '/' := by decide
      simp only [normalize_ref, hk, if_neg hne]
    · have hnd : ∀ t, x :: r ≠ '.' :: '/' :: t := fun t e => hds ⟨t, e⟩
      rw [copied_other (x :: r) hnd]
      obtain ⟨c0, cs, hsp⟩ := List.exists_cons_of_ne_nil (split_slash_ne_nil (x :: r))
      have hk : kept (x :: r) = kept_comps (c0 :: cs) := by
        show kept_comps (split_slash (x :: r)) = _
        rw [hsp]
      rw [hsp] at hsf ⊢
      have hcs : ∀ w ∈ cs, '/' ∉ w := fun w hw => hsf w (List.mem_cons_of_mem _ hw)
      have hc0 : '/' ∉ c0 := hsf c0 (List.mem_cons_self _ _)
      simp only [normalize_ref, hk]
      by_cases hx : x = '/'
      · subst hx
        rw [split_slash_cons_slash] at hsp
        injection hsp with e1 e2
        subst e1
        have hne : cs ≠ [] := by rw [← e2]; exact split_slash_ne_nil r
        obtain ⟨c', cs', hcs'⟩ := List.exists_cons_of_ne_nil hne
        subst hcs'
        simp only [emit_first, List.nil_append, if_true]
        rw [trim_root_emit_comps (c' :: cs') (by simp) hcs]
        rw [kept_comps_cons_trivial [] _ (Or.inl rfl)]
      · rw [if_neg hx]
        obtain ⟨r0, rs, hr⟩ := List.exists_cons_of_ne_nil (split_slash_ne_nil r)
        rw [split_slash_cons_other r0 rs x r hx hr] at hsp
        injection hsp with e1 e2
        subst e1; subst e2
        cases rs with
        | nil =>
          simp only [emit_first]
          rw [trim_no_slash _ hc0]
          by_cases hdot : x :: r0 = ['.']
          · rw [kept_comps_cons_trivial _ _ (Or.inr hdot)]
            simp [kept_comps, hdot]
          · rw [kept_comps_cons_other _ _ (by simp [hdot])]
            simp [kept_comps, List.intercalate]
        | cons c' cs' =>
          have hnt : ¬ (x :: r0 = [] ∨ x :: r0 = ['.']) := by
            rintro (e | e)
            · simp at e
            · injection e with e1 e2
              subst e1; subst e2
              cases r with
              | nil => simp [split_slash] at hr
              | cons d t =>
                have := split_slash_head_nil d t _ hr
                subst this
                exact hnd t rfl
          simp only [emit_first]
          rw [trim_emit_comps (c' :: cs') (by simp) hcs (x :: r0) (by simp)]
          rw [kept_comps_cons_other _ _ hnt, intercalate_cons]
          simp

/-! ## The buffer: reads, writes and the string it holds -/

theorem NUL_ne_slash : NUL ≠ '/' := by decide

theorem NUL_ne_dot : NUL ≠ '.' := by decide

theorem rd_of_drop {buf : List Char} {q : Nat} {x : Char} {l : List Char}
    (h : buf.drop q = x :: l) :
    rd buf q = .ok x ∧ buf.drop (q + 1) = l ∧ q < buf.length := by
  have hlt : q < buf.length := by
    by_contra hge
    rw [List.drop_eq_nil_of_le (not_lt.mp hge)] at h
    simp at h
  have hget : buf[q]? = some x := by
    have := List.getElem?_drop buf q 0
    rw [h] at this
    simpa using this.symm
  refine ⟨by simp [rd, hget], ?_, hlt⟩
  have := List.drop_drop 1 q buf
  rw [h] at this
  simpa [Nat.add_comm] using this.symm

theorem set_of_getElem? {buf : List Char} {p : Nat} {x : Char} (h : buf[p]? = some x) :
    buf.set p x = buf := by
  have hlt := (List.getElem?_eq_some_iff.mp h).1
  apply List.ext_getElem?
  intro k
  by_cases hk : k = p
  · subst hk; rw [List.getElem?_set_self hlt, h]
  · rw [List.getElem?_set_ne (Ne.symm hk)]

theorem wr_ok {buf : List Char} {p : Nat} (c : Char) (h : p < buf.length) :
    wr buf p c = .ok (buf.set p c) := by
  simp [wr, h]

/-- A write in front of the read position leaves the unread input alone; so
does the write of the character just read, at the read position. -/
theorem drop_set_read {buf : List Char} {p q : Nat} {x : Char} {l : List Char}
    (hpq : p ≤ q) (h : buf.drop q = x :: l) : (buf.set p x).drop q = x :: l := by
  rcases Nat.lt_or_ge p q with hlt | hge
  · rw [List.drop_set_of_lt _ _ hlt]; exact h
  · have hq : p = q := le_antisymm hpq hge
    subst hq
    obtain ⟨hr, _, hlt⟩ := rd_of_drop h
    have hget : buf[p]? = some x := by
      unfold rd at hr
      cases hb : buf[p]? with
      | none => simp [hb] at hr
      | some y => simp [hb] at hr; rw [hr]
    rw [set_of_getElem? hget]; exact h

theorem take_set_succ {buf : List Char} {p : Nat} (x : Char) (h : p < buf.length) :
    (buf.set p x).take (p + 1) = buf.take p ++ [x] := by
  apply List.ext_getElem?
  intro k
  rw [List.getElem?_take]
  by_cases hk : k < p
  · rw [if_pos (by omega), List.getElem?_set_ne (by omega),
      List.getElem?_append_left (by simp; omega), List.getElem?_take, if_pos hk]
  · by_cases hk2 : k = p
    · subst hk2
      rw [if_pos (by omega), List.getElem?_set_self h]
      rw [List.getElem?_append_right (by simp)]
      simp [Nat.min_eq_left (le_of_lt h)]
    · rw [if_neg (by omega), List.getElem?_eq_none]
      simp
      omega

theorem take_set_of_le {buf : List Char} {p k : Nat} (x : Char) (h : k ≤ p) :
    (buf.set p x).take k = buf.take k := by
  apply List.ext_getElem?
  intro j
  rw [List.getElem?_take, List.getElem?_take]
  by_cases hj : j < k
  · rw [if_pos hj, if_pos hj, List.getElem?_set_ne (by omega)]
  · rw [if_neg hj, if_neg hj]

/-- The string held by a buffer whose first characters are a NUL-free string
and then a NUL. -/
theorem cstr_of_take {buf out : List Char} (h : buf.take (out.length + 1) = out ++ [NUL])
    (hn : NUL ∉ out) : cstr buf = out := by
  have hb : buf = (out ++ [NUL]) ++ buf.drop (out.length + 1) := by
    rw [← h]; exact (List.take_append_drop _ _).symm
  rw [hb]
  unfold cstr
  rw [List.append_assoc, List.takeWhile_append_of_pos]
  · simp
  · intro x hx
    have : x ≠ NUL := fun e => hn (e ▸ hx)
    simpa using this

theorem getElem?_of_take {buf out : List Char} {k : Nat}
    (h : buf.take (out.length + 1) = out ++ [NUL]) (hk : k < out.length) :
    buf[k]? = out[k]? := by
  have h1 : (buf.take (out.length + 1))[k]? = buf[k]? := by
    rw [List.getElem?_take, if_pos (by omega)]
  rw [← h1, h, List.getElem?_append_left hk]

theorem rd_of_take {buf out : List Char} {k : Nat}
    (h : buf.take (out.length + 1) = out ++ [NUL]) (hk : k < out.length) :
    ∃ x, out[k]? = some x ∧ rd buf k = .ok x := by
  refine ⟨out[k], List.getElem?_eq_getElem hk, ?_⟩
  unfold rd
  rw [getElem?_of_take h hk, List.getElem?_eq_getElem hk]

/-! ## The loops of `normalize_filename_x` on the buffer -/

theorem skip_slashes_suffix (r : List Char) : skip_slashes r <:+ r := by
  induction r with
  | nil => simp [skip_slashes]
  | cons c r ih =>
    simp only [skip_slashes]
    split
    · exact ih.trans (List.suffix_cons c r)
    · exact List.suffix_refl _

theorem squeeze_suffix (r : List Char) : squeeze r <:+ r := by
  induction r using squeeze.induct with
  | case1 => simp [squeeze]
  | case2 => simp [squeeze]
  | case3 c hc => simp [squeeze, hc]
  | case4 d t ih =>
    simp only [squeeze, if_true]
    exact ih.trans (List.suffix_cons _ _)
  | case5 c d t hc hcd ih =>
    simp only [squeeze, if_neg hc, if_pos hcd]
    exact (ih.trans (List.suffix_cons _ _)).trans (List.suffix_cons _ _)
  | case6 c d t hc hcd =>
    simp only [squeeze, if_neg hc, if_neg hcd]
    exact List.suffix_refl _

/-- Squeezing is: skip the slashes, then what the first loop does. -/
theorem squeeze_eq_lead_rest (t : List Char) : squeeze t = lead_rest (skip_slashes t) := by
  induction t using squeeze.induct with
  | case1 => simp [squeeze, skip_slashes, lead_rest]
  | case2 => simp [squeeze, skip_slashes, lead_rest, ISSLASH]
  | case3 c hc => simp [squeeze, skip_slashes, lead_rest, ISSLASH, hc]
  | case4 d t ih =>
    simp only [squeeze, if_true]
    rw [ih]
    simp [skip_slashes, ISSLASH]
  | case5 c d t hc hcd ih =>
    simp only [squeeze, if_neg hc, if_pos hcd]
    simp [skip_slashes, ISSLASH, hc, lead_rest, hcd]
  | case6 c d t hc hcd =>
    simp only [squeeze, if_neg hc, if_neg hcd]
    simp [skip_slashes, ISSLASH, hc, lead_rest, hcd]

/-- The loop that skips slashes, on a buffer whose unread input is `r`. -/
theorem skip_slashes_at_spec (r : List Char) :
    ∀ (buf : List Char) (q fuel : Nat), buf.drop q = r ++ [NUL] → r.length < fuel →
      ∃ q', skip_slashes_at buf fuel q = .ok q' ∧ buf.drop q' = skip_slashes r ++ [NUL] ∧
        q ≤ q' := by
  induction r with
  | nil =>
    intro buf q fuel h hf
    obtain ⟨hr, _, _⟩ := rd_of_drop (x := NUL) (l := []) (by simpa using h)
    cases fuel with
    | zero => simp at hf
    | succ fuel =>
      refine ⟨q, ?_, by simpa [skip_slashes] using h, le_refl _⟩
      simp [skip_slashes_at, hr, ISSLASH, NUL_ne_slash]
  | cons c r ih =>
    intro buf q fuel h hf
    obtain ⟨hr, hd, _⟩ := rd_of_drop (x := c) (l := r ++ [NUL]) (by simpa using h)
    cases fuel with
    | zero => simp at hf
    | succ fuel =>
      by_cases hc : c = '/'
      · obtain ⟨q', h1, h2, h3⟩ := ih buf (q + 1) fuel hd (by simp at hf; omega)
        refine ⟨q', ?_, ?_, by omega⟩
        · simp [skip_slashes_at, hr, ISSLASH, hc, h1]
        · simp [skip_slashes, ISSLASH, hc, h2]
      · refine ⟨q, ?_, ?_, le_refl _⟩
        · simp [skip_slashes_at, hr, ISSLASH, hc]
        · simp [skip_slashes, ISSLASH, hc, h]

/-- The loop that squeezes, on a buffer whose unread input is `r`. -/
theorem squeeze_loop_spec (r : List Char) :
    ∀ (buf : List Char) (q fuel : Nat), buf.drop q = r ++ [NUL] → r.length < fuel →
      ∃ q', squeeze_loop buf fuel q = .ok q' ∧ buf.drop q' = squeeze r ++ [NUL] ∧ q ≤ q' := by
  induction r using squeeze.induct with
  | case1 =>
    intro buf q fuel h hf
    obtain ⟨hr, _, _⟩ := rd_of_drop (x := NUL) (l := []) (by simpa using h)
    cases fuel with
    | zero => simp at hf
    | succ fuel =>
      refine ⟨q, ?_, by simpa [squeeze] using h, le_refl _⟩
      simp [squeeze_loop, hr, ISSLASH, NUL_ne_slash, NUL_ne_dot]
  | case2 =>
    intro buf q fuel h hf
    obtain ⟨hr, hd, _⟩ := rd_of_drop (x := '/') (l := [NUL]) (by simpa using h)
    obtain ⟨hr1, _, _⟩ := rd_of_drop hd
    cases fuel with
    | zero => simp at hf
    | succ fuel =>
      cases fuel with
      | zero => simp at hf
      | succ fuel =>
        refine ⟨q + 1, ?_, by simpa [squeeze] using hd, by omega⟩
        simp [squeeze_loop, hr, hr1, ISSLASH, NUL_ne_slash, NUL_ne_dot]
  | case3 c hc =>
    intro buf q fuel h hf
    obtain ⟨hr, hd, _⟩ := rd_of_drop (x := c) (l := [NUL]) (by simpa using h)
    obtain ⟨hr1, _, _⟩ := rd_of_drop hd
    cases fuel with
    | zero => simp at hf
    | succ fuel =>
      refine ⟨q, ?_, by simpa [squeeze, hc] using h, le_refl _⟩
      by_cases hdot : c = '.'
      · simp [squeeze_loop, hr, hr1, ISSLASH, NUL_ne_slash, hdot]
      · simp [squeeze_loop, hr, ISSLASH, hc, hdot]
  | case4 d t ih =>
    intro buf q fuel h hf
    obtain ⟨hr, hd, _⟩ := rd_of_drop (x := '/') (l := d :: t ++ [NUL]) (by simpa using h)
    cases fuel with
    | zero => simp at hf
    | succ fuel =>
      obtain ⟨q', h1, h2, h3⟩ := ih buf (q + 1) fuel hd (by simp at hf ⊢; omega)
      refine ⟨q', ?_, ?_, by omega⟩
      · simp [squeeze_loop, hr, ISSLASH, h1]
      · simp only [squeeze, if_true]; exact h2
  | case5 c d t hc hcd ih =>
    intro buf q fuel h hf
    obtain ⟨hc1, hd1⟩ := hcd
    subst hc1; subst hd1
    obtain ⟨hr, hd, _⟩ := rd_of_drop (x := '.') (l := '/' :: t ++ [NUL]) (by simpa using h)
    obtain ⟨hr1, hd2, _⟩ := rd_of_drop hd
    cases fuel with
    | zero => simp at hf
    | succ fuel =>
      obtain ⟨q', h1, h2, h3⟩ := ih buf (q + 1 + 1) fuel hd2 (by simp at hf ⊢; omega)
      refine ⟨q', ?_, ?_, by omega⟩
      · simp [squeeze_loop, hr, hr1, ISSLASH]
        exact h1
      · simp only [squeeze, if_neg hc, and_self, if_true]; exact h2
  | case6 c d t hc hcd =>
    intro buf q fuel h hf
    obtain ⟨hr, hd, _⟩ := rd_of_drop (x := c) (l := d :: t ++ [NUL]) (by simpa using h)
    obtain ⟨hr1, _, _⟩ := rd_of_drop hd
    cases fuel with
    | zero => simp at hf
    | succ fuel =>
      refine ⟨q, ?_, by simpa [squeeze, hc, hcd] using h, le_refl _⟩
      by_cases hdot : c = '.'
      · have hds : d ≠ '/' := fun e => hcd ⟨hdot, e⟩
        simp [squeeze_loop, hr, hr1, ISSLASH, hdot, hds]
      · simp [squeeze_loop, hr, ISSLASH, hc, hdot]

/-! ## The copy loop and the first loop on the buffer -/

theorem length_of_drop {buf : List Char} {q : Nat} {r : List Char}
    (h : buf.drop q = r ++ [NUL]) : q + r.length + 1 = buf.length := by
  have := congrArg List.length h
  simp at this
  have hlt : q < buf.length := by
    by_contra hge
    rw [List.drop_eq_nil_of_le (not_lt.mp hge)] at h
    simp at h
  omega

/-- The copy loop on a buffer whose unread input is `r`: it writes the string
`emit false r` and a NUL from position `p` on. -/
theorem copy_loop_spec (n : Nat) :
    ∀ (r : List Char), r.length ≤ n → NUL ∉ r →
      ∀ (buf : List Char) (p q fuel : Nat), buf.drop q = r ++ [NUL] → p ≤ q →
        r.length < fuel →
        ∃ buf', copy_loop fuel buf p q = .ok (buf', p + (emit false r).length + 1) ∧
          buf'.length = buf.length ∧
          buf'.take (p + (emit false r).length + 1) = buf.take p ++ emit false r ++ [NUL] := by
  induction n with
  | zero =>
    intro r hr _ buf p q fuel h hpq hf
    have hnil : r = [] := List.length_eq_zero.mp (Nat.le_zero.mp hr)
    subst hnil
    obtain ⟨hrd, _, hq⟩ := rd_of_drop (x := NUL) (l := []) (by simpa using h)
    have hp : p < buf.length := by omega
    cases fuel with
    | zero => simp at hf
    | succ fuel =>
      refine ⟨buf.set p NUL, ?_, by simp, ?_⟩
      · simp [copy_loop, hrd, wr_ok NUL hp, emit]
      · simp only [emit, List.length_nil, Nat.add_zero, List.append_nil]
        exact take_set_succ NUL hp
  | succ n ih =>
    intro r hr hnul buf p q fuel h hpq hf
    cases r with
    | nil => exact ih [] (by simp) hnul buf p q fuel h hpq hf
    | cons c r =>
      have hc : c ≠ NUL := fun e => hnul (by simp [e])
      have hnul' : NUL ∉ r := fun e => hnul (List.mem_cons_of_mem _ e)
      have hlen := length_of_drop h
      obtain ⟨hrd, _, hq⟩ := rd_of_drop (x := c) (l := r ++ [NUL]) (by simpa using h)
      have hp : p < buf.length := by omega
      have hd1 : (buf.set p c).drop q = c :: (r ++ [NUL]) :=
        drop_set_read hpq (by simpa using h)
      obtain ⟨_, hd2, _⟩ := rd_of_drop hd1
      cases fuel with
      | zero => simp at hf
      | succ fuel =>
        by_cases hs : c = '/'
        · -- a slash: squeeze, then go on
          have hsq : (squeeze r).length ≤ r.length := (squeeze_suffix r).length_le
          have hnul2 : NUL ∉ squeeze r := fun e => hnul' ((squeeze_suffix r).subset e)
          obtain ⟨q1, hq1, hd3, hle⟩ :=
            squeeze_loop_spec r (buf.set p c) (q + 1) (buf.set p c).length hd2
              (by simp at hlen ⊢; omega)
          obtain ⟨buf', h1, h2, h3⟩ :=
            ih (squeeze r) (by simp at hr; omega) hnul2 (buf.set p c) (p + 1) q1 fuel hd3
              (by omega) (by simp at hf; omega)
          have he : emit false (c :: r) = c :: emit false (squeeze r) := by
            rw [emit_false_cons, hs]
            simp [emit_true_eq]
          refine ⟨buf', ?_, by rw [h2]; simp, ?_⟩
          · have harith : p + (emit false (c :: r)).length + 1
                = p + 1 + (emit false (squeeze r)).length + 1 := by
              rw [he]; simp; omega
            have hq1' : squeeze_loop (buf.set p c) buf.length (q + 1) = .ok q1 := by
              simpa using hq1
            rw [harith, ← h1]
            simp only [copy_loop, hrd, wr_ok c hp]
            simp [hc, ISSLASH, hq1', List.length_set]
            simp [hs]
          · have harith : p + (emit false (c :: r)).length + 1
                = p + 1 + (emit false (squeeze r)).length + 1 := by
              rw [he]; simp; omega
            rw [harith, h3, take_set_succ c hp, he]
            simp
        · -- another character
          obtain ⟨buf', h1, h2, h3⟩ :=
            ih r (by simp at hr; omega) hnul' (buf.set p c) (p + 1) (q + 1) fuel hd2
              (by omega) (by simp at hf; omega)
          have he : emit false (c :: r) = c :: emit false r := by
            rw [emit_false_cons]
            simp [hs]
          have harith : p + (emit false (c :: r)).length + 1
              = p + 1 + (emit false r).length + 1 := by
            rw [he]; simp; omega
          refine ⟨buf', ?_, by rw [h2]; simp, ?_⟩
          · rw [harith, ← h1]
            simp only [copy_loop, hrd, wr_ok c hp]
            simp [hc, hs, ISSLASH]
          · rw [harith, h3, take_set_succ c hp, he]
            simp

theorem lead_rest_dot_slash (t : List Char) : lead_rest ('.' :: '/' :: t) = squeeze t := by
  simp [lead_rest]

theorem lead_rest_other (r : List Char) (h : ∀ t, r ≠ '.' :: '/' :: t) : lead_rest r = r := by
  unfold lead_rest
  split
  · rename_i c d t
    rw [if_neg]
    rintro ⟨e1, e2⟩
    subst e1; subst e2
    exact h t rfl
  · rfl

/-- The first loop, entered with `p = 0` on a buffer whose unread input is
`r`. -/
theorem leading_loop_spec (n : Nat) :
    ∀ (r : List Char), r.length ≤ n → NUL ∉ r →
      ∀ (buf : List Char) (q fuel : Nat), buf.drop q = r ++ [NUL] → r.length < fuel →
        ∃ buf' p' q', leading_loop fuel buf 0 q = .ok (buf', p', q') ∧
          buf'.length = buf.length ∧ buf'.drop q' = lead_rest r ++ [NUL] ∧ p' ≤ q' ∧
          (ends_in_dot r → p' = 1 ∧ buf'.take 1 = ['.']) ∧ (¬ ends_in_dot r → p' = 0) := by
  induction n using Nat.strong_induction_on with
  | _ n ih =>
    intro r hr hnul buf q fuel h hf
    have hlen := length_of_drop h
    cases fuel with
    | zero => simp at hf
    | succ fuel =>
      -- the test `(*p = *q) == '.' && ISSLASH (q[1])` fails
      have hstop : ∀ (x : Char) (l : List Char), r ++ [NUL] = x :: l →
          (∀ t, r ≠ '.' :: '/' :: t) →
          (x ≠ '.' ∨ ∃ y l', l = y :: l' ∧ y ≠ '/') →
          ∃ buf' p' q', leading_loop (fuel + 1) buf 0 q = .ok (buf', p', q') ∧
            buf'.length = buf.length ∧ buf'.drop q' = lead_rest r ++ [NUL] ∧ p' ≤ q' ∧
            (ends_in_dot r → p' = 1 ∧ buf'.take 1 = ['.']) ∧ (¬ ends_in_dot r → p' = 0) := by
        intro x l hx hno hcase
        rw [hx] at h
        obtain ⟨hrd, _, hq⟩ := rd_of_drop h
        have hp : 0 < buf.length := by omega
        have hd1 : (buf.set 0 x).drop q = x :: l := drop_set_read (Nat.zero_le _) h
        obtain ⟨_, hd2, _⟩ := rd_of_drop hd1
        refine ⟨buf.set 0 x, 0, q, ?_, by simp, ?_, Nat.zero_le _, ?_, fun _ => rfl⟩
        · rcases hcase with hxd | ⟨y, l', hl, hy⟩
          · simp [leading_loop, hrd, wr_ok x hp, hxd]
          · rw [hl] at hd2
            obtain ⟨hrd2, _, _⟩ := rd_of_drop hd2
            by_cases hxd : x = '.'
            · subst hxd
              simp [leading_loop, hrd, wr_ok '.' hp, hrd2, ISSLASH, hy]
            · simp [leading_loop, hrd, wr_ok x hp, hxd]
        · rw [lead_rest_other r hno, hx]; exact hd1
        · rintro ⟨t, ht, _⟩
          exact absurd ht (hno t)
      cases r with
      | nil =>
        exact hstop NUL [] (by simp) (by simp) (Or.inl NUL_ne_dot)
      | cons c r =>
        by_cases hcd : c = '.'
        · subst hcd
          cases r with
          | nil =>
            exact hstop '.' [NUL] (by simp) (by simp) (Or.inr ⟨NUL, [], rfl, NUL_ne_slash⟩)
          | cons d t =>
            by_cases hds : d = '/'
            · subst hds
              -- one round of the loop
              have hnult : NUL ∉ t := fun e =>
                hnul (List.mem_cons_of_mem _ (List.mem_cons_of_mem _ e))
              have h' : buf.drop q = '.' :: ('/' :: (t ++ [NUL])) := by simpa using h
              obtain ⟨hrd, _, hq⟩ := rd_of_drop h'
              have hp : 0 < buf.length := by omega
              have hd1 : (buf.set 0 '.').drop q = '.' :: ('/' :: (t ++ [NUL])) :=
                drop_set_read (Nat.zero_le _) h'
              obtain ⟨_, hd2, _⟩ := rd_of_drop hd1
              obtain ⟨hrd2, hd3, _⟩ := rd_of_drop hd2
              obtain ⟨q1, hq1, hd4, hle⟩ :=
                skip_slashes_at_spec t (buf.set 0 '.') (q + 1 + 1) (buf.set 0 '.').length hd3
                  (by simp at hlen ⊢; omega)
              have hsklen : (skip_slashes t).length ≤ t.length :=
                (skip_slashes_suffix t).length_le
              have hsknul : NUL ∉ skip_slashes t := fun e =>
                hnult ((skip_slashes_suffix t).subset e)
              have hhead : (buf.set 0 '.').take 1 = ['.'] := by
                have := @take_set_succ buf 0 '.' hp
                simpa using this
              have hunfold : leading_loop (fuel + 1) buf 0 q
                  = (match rd (buf.set 0 '.') q1 with
                    | .error e => .error e
                    | .ok c2 => leading_loop fuel (buf.set 0 '.')
                        (0 + (if c2 == NUL then 1 else 0)) q1) := by
                have hq1' : skip_slashes_at (buf.set 0 '.') buf.length (q + 2) = .ok q1 := by
                  simpa using hq1
                simp only [leading_loop, hrd, wr_ok '.' hp]
                simp [hrd2, ISSLASH, hq1']
              rw [hunfold, lead_rest_dot_slash, squeeze_eq_lead_rest]
              cases hsk : skip_slashes t with
              | nil =>
                -- nothing is left: `p` becomes 1 and the loop stops
                rw [hsk] at hd4
                obtain ⟨hrd3, _, hq1lt⟩ := rd_of_drop (x := NUL) (l := []) (by simpa using hd4)
                have hp1 : 1 < (buf.set 0 '.').length := by omega
                have hq1ge : 1 < q1 := by omega
                cases fuel with
                | zero => simp at hf
                | succ fuel =>
                  refine ⟨(buf.set 0 '.').set 1 NUL, 1, q1, ?_, by simp, ?_, by omega, ?_, ?_⟩
                  · simp [hrd3, leading_loop, wr_ok NUL hp1, NUL_ne_dot]
                  · rw [List.drop_set_of_lt _ _ hq1ge]
                    simpa [lead_rest] using hd4
                  · intro _
                    refine ⟨rfl, ?_⟩
                    rw [take_set_of_le NUL (le_refl 1)]
                    exact hhead
                  · intro hne
                    exfalso
                    apply hne
                    refine ⟨t, rfl, ?_⟩
                    rw [squeeze_eq_lead_rest, hsk]
                    rfl
              | cons x l =>
                -- something is left: the loop goes on with `p = 0`
                rw [hsk] at hd4 hsklen hsknul
                obtain ⟨hrd3, _, _⟩ := rd_of_drop (x := x) (l := l ++ [NUL]) (by simpa using hd4)
                have hx : x ≠ NUL := fun e => hsknul (by simp [e])
                obtain ⟨buf', p', q', g1, g2, g3, g4, g5, g6⟩ :=
                  ih t.length (by simp at hr ⊢; omega) (x :: l) hsklen hsknul (buf.set 0 '.') q1
                    fuel hd4 (by simp at hf hsklen ⊢; omega)
                have hiff : ends_in_dot ('.' :: '/' :: t) ↔ ends_in_dot (x :: l) := by
                  constructor
                  · rintro ⟨t', ht', hsq⟩
                    injection ht' with _ ht'
                    injection ht' with _ ht'
                    subst ht'
                    rw [squeeze_eq_lead_rest, hsk] at hsq
                    by_cases hform : ∃ u, x :: l = '.' :: '/' :: u
                    · obtain ⟨u, hu⟩ := hform
                      refine ⟨u, hu, ?_⟩
                      rw [hu, lead_rest_dot_slash] at hsq
                      exact hsq
                    · rw [lead_rest_other _ (fun u e => hform ⟨u, e⟩)] at hsq
                      simp at hsq
                  · rintro ⟨u, hu, hsq⟩
                    refine ⟨t, rfl, ?_⟩
                    rw [squeeze_eq_lead_rest, hsk, hu, lead_rest_dot_slash]
                    exact hsq
                refine ⟨buf', p', q', ?_, by rw [g2]; simp, g3, g4, ?_, ?_⟩
                · simp [hrd3, hx]
                  exact g1
                · intro he; exact g5 (hiff.mp he)
                · intro he; exact g6 (fun e => he (hiff.mpr e))
            · exact hstop '.' (d :: (t ++ [NUL])) (by simp)
                (fun u e => by
                  injection e with _ e
                  injection e with e _
                  exact hds e)
                (Or.inr ⟨d, t ++ [NUL], rfl, hds⟩)
        · exact hstop c (r ++ [NUL]) (by simp)
            (fun u e => by
              injection e with e _
              exact hcd e)
            (Or.inl hcd)

/-! ## The last block on the buffer, and the whole function -/

theorem emit_sublist (b : Bool) (r : List Char) : (emit b r).Sublist r := by
  induction b, r using emit.induct with
  | case1 x => cases x <;> simp [emit]
  | case2 c r ih =>
    rw [emit_false_cons]
    exact ih.cons₂ c
  | case3 => simp [emit]
  | case4 c hc => simp [emit, hc]
  | case5 d t ih =>
    simp only [emit, if_true]
    exact ih.cons _
  | case6 c d t hc hcd ih =>
    simp only [emit, if_neg hc, if_pos hcd]
    exact (ih.cons _).cons _
  | case7 c d t hc hcd ih =>
    simp only [emit, if_neg hc, if_neg hcd]
    exact ih.cons₂ c

/-- The block "Omit redundant trailing "." component and slash" on a buffer
that starts with the copied string `out` and its NUL; `p` is one past that
NUL. -/
theorem trailing_spec (buf out : List Char) (h : buf.take (out.length + 1) = out ++ [NUL])
    (hn : NUL ∉ out) :
    ∃ b, trailing buf (out.length + 1) = .ok b ∧ b.length = buf.length ∧
      cstr b = out.take (trimmed_length out) := by
  have hblen : out.length + 1 ≤ buf.length := by
    have := congrArg List.length h
    simp at this
    omega
  by_cases h2 : 2 ≤ out.length
  · -- the block is entered
    have hdot : trailing_dot buf (out.length + 1) = .ok (length_after_dot out + 1) := by
      obtain ⟨a, ha, hra⟩ := rd_of_take (k := out.length - 1) h (by omega)
      obtain ⟨b, hb, hrb⟩ := rd_of_take (k := out.length - 2) h (by omega)
      have e1 : out.length + 1 - 2 = out.length - 1 := by omega
      have e2 : out.length + 1 - 3 = out.length - 2 := by omega
      unfold trailing_dot length_after_dot rd_back
      rw [if_pos (by omega), if_pos (by omega), e1, e2, hra, ha, hb]
      by_cases had : a = '.'
      · by_cases hbs : b = '/'
        · have e3 : out.length - 1 + 1 = out.length := by omega
          simp [had, hbs, hrb, ISSLASH, e3]
        · simp [had, hbs, hrb, ISSLASH]
      · simp [had]
    have hn1 : length_after_dot out ≤ out.length ∧ 1 ≤ length_after_dot out := by
      unfold length_after_dot
      split <;> omega
    have hslash : trailing_slash buf (length_after_dot out + 1)
        = .ok (length_after_slash out (length_after_dot out) + 1) := by
      unfold trailing_slash length_after_slash rd_back
      by_cases h3 : 2 ≤ length_after_dot out
      · obtain ⟨a, ha, hra⟩ := rd_of_take (k := length_after_dot out - 1) h (by omega)
        have e1 : length_after_dot out + 1 - 2 = length_after_dot out - 1 := by omega
        rw [if_pos (by omega), if_pos (by omega), e1, hra, ha]
        by_cases has : a = '/'
        · have e3 : length_after_dot out - 1 + 1 = length_after_dot out := by omega
          simp [has, ISSLASH, h3, e3]
        · simp [has, ISSLASH]
      · rw [if_neg (by omega), if_neg (fun e => h3 e.1)]
    have hn2 : trimmed_length out ≤ out.length := by
      unfold trimmed_length length_after_slash
      rw [if_pos h2]
      split <;> omega
    have htl : trimmed_length out = length_after_slash out (length_after_dot out) := by
      unfold trimmed_length
      rw [if_pos h2]
    refine ⟨buf.set (trimmed_length out) NUL, ?_, by simp, ?_⟩
    · unfold trailing
      rw [if_pos (by omega), hdot]
      simp only [hslash]
      rw [← htl]
      unfold wr_back
      rw [if_pos (by omega)]
      simp only [Nat.add_sub_cancel]
      exact wr_ok NUL (by omega)
    · have htake : (buf.set (trimmed_length out) NUL).take ((out.take (trimmed_length out)).length + 1)
          = out.take (trimmed_length out) ++ [NUL] := by
        rw [List.length_take, Nat.min_eq_left hn2, take_set_succ NUL (by omega)]
        congr 1
        have : buf.take (trimmed_length out)
            = (buf.take (out.length + 1)).take (trimmed_length out) := by
          rw [List.take_take, Nat.min_eq_left (by omega)]
        rw [this, h, List.take_append_of_le_length hn2]
      exact cstr_of_take htake (fun e => hn (List.mem_of_mem_take e))
  · -- the block is skipped
    refine ⟨buf, ?_, rfl, ?_⟩
    · unfold trailing
      rw [if_neg (by omega)]
    · unfold trimmed_length
      rw [if_neg h2, List.take_length]
      exact cstr_of_take h hn

theorem copied_eq_emit (s pre : List Char) (h1 : ends_in_dot s → pre = ['.'])
    (h2 : ¬ ends_in_dot s → pre = []) : pre ++ emit false (lead_rest s) = copied s := by
  by_cases hform : ∃ t, s = '.' :: '/' :: t
  · obtain ⟨t, ht⟩ := hform
    subst ht
    rw [lead_rest_dot_slash]
    simp only [copied, and_self, if_true]
    by_cases hq : squeeze t = []
    · have : ends_in_dot ('.' :: '/' :: t) := ⟨t, rfl, hq⟩
      rw [if_pos hq, h1 this, hq]
      simp [emit]
    · have : ¬ ends_in_dot ('.' :: '/' :: t) := by
        rintro ⟨u, hu, hsq⟩
        injection hu with _ hu
        injection hu with _ hu
        subst hu
        exact hq hsq
      rw [if_neg hq, h2 this]
      simp
  · have hno : ∀ t, s ≠ '.' :: '/' :: t := fun t e => hform ⟨t, e⟩
    have : ¬ ends_in_dot s := by
      rintro ⟨u, hu, _⟩
      exact hno u hu
    rw [h2 this, lead_rest_other s hno]
    simp only [List.nil_append]
    unfold copied
    split
    · rename_i x d t
      rw [if_neg]
      rintro ⟨e1, e2⟩
      subst e1; subst e2
      exact hno t rfl
    · rfl

theorem lead_rest_suffix (s : List Char) : lead_rest s <:+ s := by
  by_cases hform : ∃ t, s = '.' :: '/' :: t
  · obtain ⟨t, ht⟩ := hform
    subst ht
    rw [lead_rest_dot_slash]
    exact ((squeeze_suffix t).trans (List.suffix_cons _ _)).trans (List.suffix_cons _ _)
  · rw [lead_rest_other s (fun t e => hform ⟨t, e⟩)]

/-- The run of `normalize_filename_x` on the buffer of a string: it completes without a
fault, the buffer keeps its length, and the string it holds afterwards is the
result of the three steps on strings. -/
theorem normalize_filename_x_spec (s : List Char) (hn : NUL ∉ s) :
    ∃ b, normalize_filename_x (buffer_of s) = .ok b ∧ b.length = s.length + 1 ∧
      cstr b = normalize_fn s ∧ (copied s).length ≤ s.length ∧ NUL ∉ copied s := by
  have hlen0 : (buffer_of s).length = s.length + 1 := by simp [buffer_of]
  obtain ⟨buf1, p, q, h1, h2, h3, h4, h5, h6⟩ :=
    leading_loop_spec s.length s (le_refl _) hn (buffer_of s) 0 (buffer_of s).length
      (by simp [buffer_of]) (by rw [hlen0]; omega)
  have hrl : (lead_rest s).length ≤ s.length := (lead_rest_suffix s).length_le
  have hrn : NUL ∉ lead_rest s := fun e => hn ((lead_rest_suffix s).subset e)
  obtain ⟨buf2, g1, g2, g3⟩ :=
    copy_loop_spec (lead_rest s).length (lead_rest s) (le_refl _) hrn buf1 p q buf1.length h3 h4
      (by rw [h2, hlen0]; omega)
  have hout : buf1.take p ++ emit false (lead_rest s) = copied s := by
    apply copied_eq_emit
    · intro he
      obtain ⟨hp, ht⟩ := h5 he
      rw [hp, ht]
    · intro he
      rw [h6 he]
      simp
  have hplen : p = (buf1.take p).length := by
    have := length_of_drop h3
    rw [List.length_take, Nat.min_eq_left (by omega)]
  have hp2 : p + (emit false (lead_rest s)).length + 1 = (copied s).length + 1 := by
    rw [← hout, List.length_append, ← hplen]
  rw [hp2, hout] at g3
  rw [hp2] at g1
  have hcn : NUL ∉ copied s := by
    rw [← hout]
    intro e
    rcases List.mem_append.mp e with e | e
    · by_cases he : ends_in_dot s
      · obtain ⟨hp, ht⟩ := h5 he
        rw [hp, ht] at e
        simp at e
        exact NUL_ne_dot e
      · rw [h6 he] at e
        simp at e
    · exact hrn ((emit_sublist false _).subset e)
  obtain ⟨b, t1, t2, t3⟩ := trailing_spec buf2 (copied s) g3 hcn
  have hcl : (copied s).length ≤ s.length := by
    have := congrArg List.length g3
    rw [List.length_take, List.length_append, g2, h2, hlen0] at this
    simp at this
    omega
  refine ⟨b, ?_, by rw [t2, g2, h2, hlen0], t3, hcl, hcn⟩
  unfold normalize_filename_x
  rw [h1]
  simp only [g1, t1]

/-! ## `normalize_filename_x`: reference form, idempotence, the buffer -/

theorem normalize_eq_ref (s : List Char) (hn : NUL ∉ s) :
    normalize s = .ok (normalize_ref s) := by
  obtain ⟨b, h1, _, h3, _⟩ := normalize_filename_x_spec s hn
  unfold normalize
  rw [h1]
  simp only [h3, normalize_fn_eq_ref]

theorem normalize_ref_no_NUL (s : List Char) (hn : NUL ∉ s) : NUL ∉ normalize_ref s := by
  obtain ⟨_, _, _, _, _, h5⟩ := normalize_filename_x_spec s hn
  rw [← normalize_fn_eq_ref]
  intro e
  exact h5 (List.mem_of_mem_take e)

theorem split_slash_of_no_slash (w : List Char) (h : '/' ∉ w) : split_slash w = [w] := by
  induction w with
  | nil => simp [split_slash]
  | cons x r ih =>
    have hx : x ≠ '/' := fun e => h (by simp [e])
    have hr : '/' ∉ r := fun e => h (List.mem_cons_of_mem _ e)
    rw [split_slash_cons_other r [] x r hx (ih hr)]

theorem split_slash_append_slash (w X : List Char) (h : '/' ∉ w) :
    split_slash (w ++ '/' :: X) = w :: split_slash X := by
  induction w with
  | nil => simp [split_slash]
  | cons x r ih =>
    have hx : x ≠ '/' := fun e => h (by simp [e])
    have hr : '/' ∉ r := fun e => h (List.mem_cons_of_mem _ e)
    rw [List.cons_append, split_slash_cons_other r (split_slash X) x _ hx (ih hr)]

/-- Splitting the join of components gives the components back. -/
theorem split_slash_intercalate (K : List (List Char)) :
    K ≠ [] → (∀ w ∈ K, '/' ∉ w) → split_slash (List.intercalate ['/'] K) = K := by
  induction K with
  | nil => intro h; exact absurd rfl h
  | cons w K ih =>
    intro _ hs
    have hw : '/' ∉ w := hs w (List.mem_cons_self _ _)
    cases K with
    | nil =>
      simp only [List.intercalate, List.intersperse, List.flatten, List.append_nil]
      exact split_slash_of_no_slash w hw
    | cons w' K' =>
      rw [intercalate_cons_cons, split_slash_append_slash w _ hw,
        ih (by simp) (fun v hv => hs v (List.mem_cons_of_mem _ hv))]

theorem kept_comps_props (cs : List (List Char)) (hs : ∀ w ∈ cs, '/' ∉ w) :
    ∀ w ∈ kept_comps cs, '/' ∉ w ∧ w ≠ [] ∧ w ≠ ['.'] := by
  intro w hw
  unfold kept_comps at hw
  rw [List.mem_filter] at hw
  obtain ⟨h1, h2⟩ := hw
  simp only [ne_eq, decide_eq_true_eq] at h2
  exact ⟨hs w h1, h2.1, h2.2⟩

theorem kept_comps_of_kept (K : List (List Char)) (h : ∀ w ∈ K, w ≠ [] ∧ w ≠ ['.']) :
    kept_comps K = K := by
  unfold kept_comps
  rw [List.filter_eq_self]
  intro w hw
  simpa using h w hw

/-- The reference form of a reference form is the same string. -/
theorem normalize_ref_idem (s : List Char) : normalize_ref (normalize_ref s) = normalize_ref s := by
  have hprops := kept_comps_props (split_slash s) (split_slash_no_slash s)
  have hK : ∀ w ∈ kept s, '/' ∉ w ∧ w ≠ [] ∧ w ≠ ['.'] := hprops
  have hkk : kept_comps (kept s) = kept s :=
    kept_comps_of_kept _ (fun w hw => (hK w hw).2)
  cases s with
  | nil => simp [normalize_ref]
  | cons c r =>
    by_cases hc : c = '/'
    · -- rooted
      have h1 : normalize_ref (c :: r) = '/' :: List.intercalate ['/'] (kept (c :: r)) := by
        simp [normalize_ref, hc]
      rw [h1]
      have hk : kept ('/' :: List.intercalate ['/'] (kept (c :: r))) = kept (c :: r) := by
        show kept_comps (split_slash _) = _
        rw [split_slash_cons_slash, kept_comps_cons_trivial _ _ (Or.inl rfl)]
        by_cases hnil : kept (c :: r) = []
        · rw [hnil]
          simp [List.intercalate, split_slash, kept_comps]
        · rw [split_slash_intercalate _ hnil (fun w hw => (hK w hw).1), hkk]
      simp only [normalize_ref, if_true, hk]
    · by_cases hnil : kept (c :: r) = []
      · have h1 : normalize_ref (c :: r) = ['.'] := by
          simp [normalize_ref, hc, hnil]
        rw [h1]
        decide
      · have h1 : normalize_ref (c :: r) = List.intercalate ['/'] (kept (c :: r)) := by
          simp [normalize_ref, hc, hnil]
        rw [h1]
        have hk : kept (List.intercalate ['/'] (kept (c :: r))) = kept (c :: r) := by
          show kept_comps (split_slash _) = _
          rw [split_slash_intercalate _ hnil (fun w hw => (hK w hw).1), hkk]
        obtain ⟨w, K, hwK⟩ := List.exists_cons_of_ne_nil hnil
        obtain ⟨hw1, hw2, _⟩ := hK w (by rw [hwK]; exact List.mem_cons_self _ _)
        obtain ⟨x, w', hxw⟩ := List.exists_cons_of_ne_nil hw2
        have hx : x ≠ '/' := fun e => hw1 (by rw [hxw, e]; exact List.mem_cons_self _ _)
        have hform : List.intercalate ['/'] (kept (c :: r))
            = x :: (w' ++ (if K = [] then [] else '/' :: List.intercalate ['/'] K)) := by
          rw [hwK, intercalate_cons, hxw]
          rfl
        have hgoal : normalize_ref (x :: (w' ++ (if K = [] then []
            else '/' :: List.intercalate ['/'] K)))
            = List.intercalate ['/'] (kept (x :: (w' ++ (if K = [] then []
            else '/' :: List.intercalate ['/'] K)))) := by
          rw [← hform, hk]
          rw [hform]
          simp only [normalize_ref, if_neg hx]
          rw [← hform, hk, if_neg hnil]
        rw [hform, hgoal, ← hform, hk]

/-- C8. For every path `p` (a C string: no NUL; POSIX build: no file-system
prefix, a double slash is not a distinct root), `normalize_filename_x`
completes and leaves the reference form in the buffer: `p` split at '/', the
empty components and the components "." dropped, every other component kept
in its place, the kept components joined by single slashes after one leading
slash iff `p` starts with a slash; "." for a non-empty relative path with no
component left and "" for the empty path. The components ".." of the result
are those of `p`, in the same order, and "a//b/./c/" and "a/b/c" give the same
result. -/
theorem normalize_is_reference (p : List Char) (hn : NUL ∉ p) :
    normalize p = .ok (normalize_ref p) ∧
    (kept p).filter (fun w => w = ['.', '.']) = (split_slash p).filter (fun w => w = ['.', '.']) ∧
    normalize "a//b/./c/".toList = normalize "a/b/c".toList := by
  refine ⟨normalize_eq_ref p hn, ?_, ?_⟩
  · show (kept_comps (split_slash p)).filter _ = _
    unfold kept_comps
    rw [List.filter_filter]
    apply List.filter_congr
    intro w _
    by_cases hw : w = ['.', '.']
    · subst hw; decide
    · simp [hw]
  · rw [normalize_eq_ref _ (by decide), normalize_eq_ref _ (by decide)]
    exact congrArg Except.ok (by decide)

/-- C8, for "/../a/./b//": the result is "/../a/b". -/
theorem normalize_is_reference_witness :
    NUL ∉ "/../a/./b//".toList ∧ normalize "/../a/./b//".toList = .ok "/../a/b".toList :=
  ⟨by decide, (normalize_is_reference "/../a/./b//".toList (by decide)).1.trans
    (congrArg Except.ok (by decide))⟩

/-- C7. `normalize_filename_x` is idempotent: for every path `p` it completes
with a result `r`, and run on `r` it completes with `r` again. -/
theorem normalize_idempotent (p : List Char) (hn : NUL ∉ p) :
    ∃ r, normalize p = .ok r ∧ normalize r = .ok r := by
  refine ⟨normalize_ref p, normalize_eq_ref p hn, ?_⟩
  rw [normalize_eq_ref _ (normalize_ref_no_NUL p hn), normalize_ref_idem]

/-- C7, for ".//a/../b/.". -/
theorem normalize_idempotent_witness :
    NUL ∉ ".//a/../b/.".toList ∧
    ∃ r, normalize ".//a/../b/.".toList = .ok r ∧ normalize r = .ok r :=
  ⟨by decide, normalize_idempotent ".//a/../b/.".toList (by decide)⟩

/-- C9. For every path `p`, `normalize_filename_x` run on the buffer that
holds `p` and its terminator completes without reading or writing outside that
buffer (the look-backs `p[-2]` and `p[-3]` included), the buffer keeps its
size, and the string left in it is not longer than `p`. -/
theorem normalize_in_place (p : List Char) (hn : NUL ∉ p) :
    ∃ b, normalize_filename_x (buffer_of p) = .ok b ∧ b.length = (buffer_of p).length ∧
      (cstr b).length ≤ p.length := by
  obtain ⟨b, h1, h2, h3, h4, _⟩ := normalize_filename_x_spec p hn
  refine ⟨b, h1, by rw [h2]; simp [buffer_of], ?_⟩
  rw [h3]
  unfold normalize_fn
  rw [List.length_take]
  omega

/-- C9, for "a/./": the buffer keeps its five bytes and holds "a". -/
theorem normalize_in_place_witness :
    NUL ∉ "a/./".toList ∧
    ∃ b, normalize_filename_x (buffer_of "a/./".toList) = .ok b ∧ b.length = 5 ∧
      (cstr b).length ≤ 4 := by
  obtain ⟨b, h1, h2, h3⟩ := normalize_in_place "a/./".toList (by decide)
  exact ⟨by decide, b, h1, h2, h3⟩

/-! ## `chdir_arg`: what a call stores -/

theorem skip_slashes_length (r : List Char) : (skip_slashes r).length ≤ r.length :=
  (skip_slashes_suffix r).length_le

theorem kept_cons_slash (r : List Char) : kept ('/' :: r) = kept r := by
  show kept_comps (split_slash _) = kept_comps (split_slash _)
  rw [split_slash_cons_slash, kept_comps_cons_trivial _ _ (Or.inl rfl)]

theorem kept_dot_slash (r : List Char) : kept ('.' :: '/' :: r) = kept r := by
  show kept_comps (split_slash _) = kept_comps (split_slash _)
  rw [split_slash_cons_other [] (split_slash r) '.' _ (by decide) (split_slash_cons_slash r),
    kept_comps_cons_trivial _ _ (Or.inr rfl)]

theorem kept_skip_slashes (r : List Char) : kept (skip_slashes r) = kept r := by
  induction r with
  | nil => rfl
  | cons c r ih =>
    simp only [skip_slashes]
    by_cases hc : c = '/'
    · subst hc
      simp only [ISSLASH, beq_self_eq_true, if_true]
      rw [ih, kept_cons_slash]
    · simp [ISSLASH, hc]

theorem skip_slashes_relative (r : List Char) : IS_ABSOLUTE_FILE_NAME (skip_slashes r) = false := by
  induction r with
  | nil => rfl
  | cons c r ih =>
    simp only [skip_slashes]
    by_cases hc : ISSLASH c = true
    · simp [hc, ih]
    · simp [hc, IS_ABSOLUTE_FILE_NAME]

/-- The prefix loop of `chdir_arg` ends for every name; what it leaves is a
relative name with the same kept components, or the name itself. -/
theorem skip_dot_slash_spec : ∀ (fuel : Nat) (dir : List Char), dir.length < fuel →
    ∃ d1, skip_dot_slash fuel dir = .ok d1 ∧ d1 <:+ dir ∧ kept d1 = kept dir ∧
      IS_ABSOLUTE_FILE_NAME d1 = IS_ABSOLUTE_FILE_NAME dir := by
  intro fuel
  induction fuel with
  | zero => intro dir h; omega
  | succ fuel ih =>
    intro dir h
    match dir, h with
    | [], _ => exact ⟨[], rfl, List.suffix_refl _, rfl, rfl⟩
    | [c], _ => exact ⟨[c], rfl, List.suffix_refl _, rfl, rfl⟩
    | c0 :: c1 :: rest, h =>
      by_cases hc : (c0 == '.' && ISSLASH c1) = true
      · have h0 : c0 = '.' := by simp at hc; exact hc.1
        have h1 : c1 = '/' := by simp [ISSLASH] at hc; exact hc.2
        subst h0; subst h1
        have hl := skip_slashes_length rest
        obtain ⟨d1, e1, e2, e3, e4⟩ := ih (skip_slashes rest) (by simp at h; omega)
        refine ⟨d1, ?_, ?_, ?_, ?_⟩
        · simp only [skip_dot_slash, hc, if_true]; exact e1
        · exact ((e2.trans (skip_slashes_suffix rest)).trans (List.suffix_cons _ _)).trans
            (List.suffix_cons _ _)
        · rw [e3, kept_skip_slashes, kept_dot_slash]
        · rw [e4, skip_slashes_relative]; rfl
      · refine ⟨c0 :: c1 :: rest, ?_, List.suffix_refl _, rfl, rfl⟩
        simp only [skip_dot_slash, hc]
        simp

theorem dir_separator_getLast (P : List Char) (hP : P ≠ []) :
    (P ++ dir_separator P).getLast? = some '/' := by
  obtain ⟨Q, c, rfl⟩ : ∃ Q c, P = Q ++ [c] := by
    rcases List.eq_nil_or_concat P with h | ⟨Q, c, h⟩
    · exact absurd h hP
    · exact ⟨Q, c, by rw [h, List.concat_eq_append]⟩
  unfold dir_separator
  by_cases hc : c = '/'
  · subst hc
    simp [ISSLASH]
  · simp [ISSLASH, hc]

/-- The three `namebuf` calls of `chdir_arg` on a non-empty directory: the
result is the directory, a slash unless it ends in one, and the name. -/
theorem namebuf_path (P d : List Char) (hP : P ≠ []) :
    ∃ b1 b2, namebuf_create P = .ok b1 ∧ namebuf_add_dir b1 d = .ok b2 ∧
      namebuf_finish b2 = .ok (P ++ dir_separator P ++ d) := by
  obtain ⟨Q, c, hQ⟩ : ∃ Q c, P = Q ++ [c] := by
    rcases List.eq_nil_or_concat P with h | ⟨Q, c, h⟩
    · exact absurd h hP
    · exact ⟨Q, c, by rw [h, List.concat_eq_append]⟩
  have hlast := dir_separator_getLast P hP
  have hb1 : namebuf_create P
      = .ok { buffer := P ++ dir_separator P, dir_length := (P ++ dir_separator P).length } := by
    unfold namebuf_create dir_separator
    subst hQ
    by_cases hc : c = '/'
    · subst hc; simp [ISSLASH]
    · simp [ISSLASH, hc]
  have hb2 : namebuf_add_dir
      { buffer := P ++ dir_separator P, dir_length := (P ++ dir_separator P).length } d
      = .ok { buffer := P ++ dir_separator P ++ d,
              dir_length := (P ++ dir_separator P).length + d.length } := by
    unfold namebuf_add_dir
    simp only [List.take_length, hlast]
    simp only [ISSLASH, beq_self_eq_true, Bool.not_true, Bool.false_eq_true, if_false,
      namebuf_name, List.take_length]
  refine ⟨_, _, hb1, hb2, ?_⟩
  unfold namebuf_finish
  have hl : (P ++ dir_separator P).length + d.length = (P ++ dir_separator P ++ d).length := by
    rw [List.length_append (P ++ dir_separator P) d]
  simp only [hl, List.take_length]
  have hne : P ++ dir_separator P ++ d ≠ [] := by simp [hP]
  obtain ⟨x, hx⟩ : ∃ x, (P ++ dir_separator P ++ d).getLast? = some x := by
    cases h : (P ++ dir_separator P ++ d).getLast? with
    | none => exact absurd (List.getLast?_eq_none_iff.mp h) hne
    | some x => exact ⟨x, rfl⟩
  rw [hx]
  simp only [ite_self]

/-- The absolute path that `chdir_arg` computes for a new entry. -/
theorem chdir_arg_absdir_spec (s : State) (dir : List Char) :
    (IS_ABSOLUTE_FILE_NAME dir = true → chdir_arg_absdir s dir = .ok (some dir)) ∧
    (IS_ABSOLUTE_FILE_NAME dir = false → ∀ last P, s.wd.getLast? = some last →
      last.abspath = some P → P ≠ [] →
      chdir_arg_absdir s dir = .ok (some (P ++ dir_separator P ++ dir))) := by
  constructor
  · intro h
    simp [chdir_arg_absdir, h]
  · intro h last P hlast hP hne
    have hlen : 0 < s.wd.length := by
      cases hw : s.wd with
      | nil => rw [hw] at hlast; simp at hlast
      | cons a l => simp
    have hget : s.wd[s.wd_count - 1]? = some last := by
      unfold State.wd_count
      rw [← List.getLast?_eq_getElem?]
      exact hlast
    obtain ⟨b1, b2, h1, h2, h3⟩ := namebuf_path P dir hne
    unfold chdir_arg_absdir
    rw [if_neg (by simp [h]), hget]
    have hc : s.wd_count = (s.wd_count - 1) + 1 := by unfold State.wd_count; omega
    rw [hc]
    simp only [hP, h1, h2, h3]

theorem chdir_arg_grow_ok (env : Env) {s : State}
    (hcwd : s.wd ≠ [] ∨ env.xgetcwd ≠ none) : ∃ s1, chdir_arg_grow env s = .ok s1 := by
  unfold chdir_arg_grow
  by_cases hfull : s.wd_count = s.wd_alloc
  · rw [if_pos hfull]
    by_cases hz : s.wd_count = 0
    · have hnil : s.wd = [] := List.length_eq_zero.mp hz
      have hsome := hcwd.resolve_left (by simp [hnil])
      cases hx : env.xgetcwd with
      | none => exact absurd hx hsome
      | some cwd => simp [hz]
    · simp [hz]
  · rw [if_neg hfull]; exact ⟨s, rfl⟩

/-- The two ways in which a call of `chdir_arg` completes: through the fast
path, which leaves the table as the first part made it, or by storing a new
entry behind it. -/
theorem chdir_arg_cases (env : Env) {s s' : State} {dir : List Char} {idx : Nat}
    (hs : chdir_arg env dir s = .ok (idx, s')) :
    ∃ s1 d1, chdir_arg_grow env s = .ok s1 ∧ skip_dot_slash (dir.length + 1) dir = .ok d1 ∧
      ((dir ≠ [] ∧ dot_or_end d1 = true ∧ s' = s1 ∧ idx = s1.wd.length - 1) ∨
       ((dir = [] ∨ dot_or_end d1 = false) ∧ ∃ absdir, chdir_arg_absdir s1 d1 = .ok absdir ∧
          s'.wd = s1.wd ++ [{ name := d1, abspath := absdir, fd := 0 }] ∧
          idx = s1.wd.length)) := by
  unfold chdir_arg at hs
  cases hg : chdir_arg_grow env s with
  | error e => simp [hg] at hs
  | ok s1 =>
    simp only [hg] at hs
    have hstore : ∀ d, chdir_arg_store s1 d = .ok (idx, s') →
        ∃ absdir, chdir_arg_absdir s1 d = .ok absdir ∧
          s'.wd = s1.wd ++ [{ name := d, abspath := absdir, fd := 0 }] ∧ idx = s1.wd.length := by
      intro d hd
      unfold chdir_arg_store at hd
      cases ha : chdir_arg_absdir s1 d with
      | error e => simp [ha] at hd
      | ok absdir =>
        simp only [ha] at hd
        injection hd with hd
        injection hd with h1 h2
        subst h2
        exact ⟨absdir, rfl, rfl, h1.symm⟩
    by_cases hd : dir = []
    · simp only [hd, ne_eq, not_true_eq_false, if_false] at hs
      subst hd
      exact ⟨s1, [], rfl, rfl, Or.inr ⟨Or.inl rfl, hstore [] hs⟩⟩
    · simp only [hd, ne_eq, not_false_eq_true, if_true] at hs
      cases hk : skip_dot_slash (dir.length + 1) dir with
      | error e => simp [hk] at hs
      | ok dir1 =>
        simp only [hk] at hs
        by_cases hdot : dot_or_end dir1 = true
        · simp only [hdot, if_true] at hs
          injection hs with hs
          injection hs with h1 h2
          exact ⟨s1, dir1, rfl, rfl, Or.inl ⟨hd, hdot, h2.symm, h1.symm⟩⟩
        · simp only [hdot] at hs
          exact ⟨s1, dir1, rfl, rfl, Or.inr ⟨Or.inr (by simpa using hdot), hstore dir1 hs⟩⟩

/-- A name that is empty, or that the prefix loop does not reduce to nothing
or ".", is stored as a new entry behind the table that the first part made. -/
theorem chdir_arg_stores (env : Env) {s s1 : State} {dir d1 : List Char}
    {absdir : Option (List Char)} (hg : chdir_arg_grow env s = .ok s1)
    (hk : skip_dot_slash (dir.length + 1) dir = .ok d1)
    (hnew : dir = [] ∨ dot_or_end d1 = false) (ha : chdir_arg_absdir s1 d1 = .ok absdir) :
    chdir_arg env dir s = .ok (s1.wd.length,
      { s1 with wd := s1.wd ++ [{ name := d1, abspath := absdir, fd := 0 }] }) := by
  unfold chdir_arg
  rw [hg]
  by_cases hd : dir = []
  · subst hd
    have : d1 = [] := by
      simp [skip_dot_slash] at hk
      exact hk
    subst this
    simp [chdir_arg_store, ha, State.wd_count]
  · have hdot : dot_or_end d1 = false := hnew.resolve_left hd
    simp [hd, hk, hdot, chdir_arg_store, ha, State.wd_count]

theorem chdir_count_eq (s : State) : chdir_count s = s.wd.length - 1 := by
  unfold chdir_count State.wd_count
  split
  · omega
  · rfl

theorem absolute_ne_nil {d : List Char} (h : IS_ABSOLUTE_FILE_NAME d = true) : d ≠ [] := by
  intro e
  subst e
  simp [IS_ABSOLUTE_FILE_NAME] at h

/-- The table that the first part of `chdir_arg` makes has known absolute
paths when the table before had them and `getcwd` gives a non-empty string. -/
theorem chdir_arg_grow_abspaths (env : Env) (hcwd : env.cwd_known) {s s1 : State} (h : Inv s)
    (hk : s.abspaths_known) (hg : chdir_arg_grow env s = .ok s1) : s1.abspaths_known := by
  obtain ⟨_, _, _, _, _, _, _, g6, g7⟩ := chdir_arg_grow_spec env h hg
  by_cases hnil : s.wd = []
  · obtain ⟨cwd, hc, hw⟩ := g7 hnil
    obtain ⟨cwd', hc', hne⟩ := hcwd
    rw [hc] at hc'
    injection hc' with hc'
    subst hc'
    intro e he
    rw [hw] at he
    simp at he
    subst he
    exact ⟨cwd, rfl, hne⟩
  · intro e he
    rw [g6 hnil] at he
    exact hk e he

/-- The absolute path of a new entry, when the table has known absolute
paths: the name itself when it is absolute, else the last entry's path, a slash
unless that path ends in one, and the name. -/
theorem chdir_arg_absdir_known {s1 : State} (hk : s1.abspaths_known) (hne : s1.wd ≠ [])
    (d1 : List Char) :
    ∃ p, chdir_arg_absdir s1 d1 = .ok (some p) ∧ p ≠ [] ∧
      (IS_ABSOLUTE_FILE_NAME d1 = true → p = d1) ∧
      (IS_ABSOLUTE_FILE_NAME d1 = false → ∃ last P, s1.wd.getLast? = some last ∧
        last.abspath = some P ∧ p = P ++ dir_separator P ++ d1) := by
  by_cases ha : IS_ABSOLUTE_FILE_NAME d1 = true
  · exact ⟨d1, (chdir_arg_absdir_spec s1 d1).1 ha, absolute_ne_nil ha, fun _ => rfl,
      fun hf => by rw [ha] at hf; cases hf⟩
  · have ha' : IS_ABSOLUTE_FILE_NAME d1 = false := by simpa using ha
    obtain ⟨last, hlast⟩ : ∃ last, s1.wd.getLast? = some last := by
      cases hl : s1.wd.getLast? with
      | none => exact absurd (List.getLast?_eq_none_iff.mp hl) hne
      | some last => exact ⟨last, rfl⟩
    obtain ⟨P, hP, hPne⟩ := hk last (List.mem_of_mem_getLast? hlast)
    refine ⟨P ++ dir_separator P ++ d1, (chdir_arg_absdir_spec s1 d1).2 ha' last P hlast hP hPne,
      by simp [hPne], fun hf => absurd hf ha, fun _ => ⟨last, P, hlast, hP, rfl⟩⟩

/-- A call of `chdir_arg` completes when the table has known absolute paths
and `getcwd` gives a non-empty string. -/
theorem chdir_arg_total (env : Env) (hcwd : env.cwd_known) {s : State} (h : Inv s)
    (hk : s.abspaths_known) (dir : List Char) :
    ∃ idx s', chdir_arg env dir s = .ok (idx, s') := by
  obtain ⟨cwd, hc, _⟩ := hcwd
  obtain ⟨s1, hg⟩ := chdir_arg_grow_ok env (s := s) (Or.inr (by rw [hc]; simp))
  have hk1 := chdir_arg_grow_abspaths env ⟨cwd, hc, by assumption⟩ h hk hg
  obtain ⟨_, hne1, _⟩ := chdir_arg_grow_spec env h hg
  obtain ⟨d1, hd1, _⟩ := skip_dot_slash_spec (dir.length + 1) dir (Nat.lt_succ_self _)
  by_cases hnew : dir = [] ∨ dot_or_end d1 = false
  · obtain ⟨p, hp, _⟩ := chdir_arg_absdir_known hk1 hne1 d1
    exact ⟨_, _, chdir_arg_stores env hg hd1 hnew hp⟩
  · have hd : dir ≠ [] := fun e => hnew (Or.inl e)
    have hdot : dot_or_end d1 = true := by
      cases hx : dot_or_end d1 with
      | true => rfl
      | false => exact absurd (Or.inr hx) hnew
    refine ⟨s1.wd_count - 1, s1, ?_⟩
    unfold chdir_arg
    rw [hg]
    simp [hd, hd1, hdot]

theorem chdir_arg_abspaths (env : Env) (hcwd : env.cwd_known) {s s' : State} {dir : List Char}
    {idx : Nat} (h : Inv s) (hk : s.abspaths_known) (hs : chdir_arg env dir s = .ok (idx, s')) :
    s'.abspaths_known := by
  obtain ⟨s1, d1, hg, hd1, hcase⟩ := chdir_arg_cases env hs
  have hk1 := chdir_arg_grow_abspaths env hcwd h hk hg
  obtain ⟨_, hne1, _⟩ := chdir_arg_grow_spec env h hg
  rcases hcase with ⟨_, _, he, _⟩ | ⟨_, absdir, ha, hw, _⟩
  · rw [he]; exact hk1
  · obtain ⟨p, hp, hpne, _⟩ := chdir_arg_absdir_known hk1 hne1 d1
    rw [hp] at ha
    injection ha with ha
    intro e he
    rw [hw] at he
    rcases List.mem_append.mp he with he | he
    · exact hk1 e he
    · simp at he
      subst he
      exact ⟨p, ha.symm ▸ rfl, hpne⟩

/-- In every reachable state the absolute path of every entry is known and
not empty, when `getcwd` gives a non-empty string. -/
theorem Reachable.abspaths {env : Env} (hpos : env.opens_positive) (hcwd : env.cwd_known)
    {s : State} (hr : Reachable env s) : s.abspaths_known := by
  induction hr with
  | init => intro e he; simp [State.init] at he
  | arg s s' dir idx hr hs ih => exact chdir_arg_abspaths env hcwd (hr.inv hpos) ih hs
  | chdir s s' i hr hv hs ih =>
    obtain ⟨s'', h1, _, _, hf⟩ := chdir_do_spec env hpos i s (hr.inv hpos) hv
    rw [hs] at h1
    injection h1 with h1
    subst h1
    intro e he
    have hm : wd.static e ∈ s.wd.map wd.static := by
      rw [← hf.static]
      exact List.mem_map_of_mem _ he
    obtain ⟨e0, he0, hst⟩ := List.mem_map.mp hm
    obtain ⟨p, hp, hpne⟩ := ih e0 he0
    have : e.abspath = e0.abspath := by
      have := congrArg Prod.snd hst
      exact this.symm
    exact ⟨p, by rw [this, hp], hpne⟩

theorem demo3_reachable : Reachable env0 demo3 :=
  Reachable.arg State.init demo3 "/tmp/a".toList 1 Reachable.init rfl

theorem env0_cwd_known : env0.cwd_known := ⟨['/'], rfl, by decide⟩

theorem getElem?_append_of_some {α : Type} (l : List α) (x : α) {j : Nat} {e : α}
    (h : l[j]? = some e) : (l ++ [x])[j]? = some e := by
  have hlt := (List.getElem?_eq_some_iff.mp h).1
  rw [List.getElem?_append_left hlt, h]

/-- A call of `chdir_arg` that stores a new entry, from a state with the
invariant and known absolute paths. -/
theorem chdir_arg_new_entry (env : Env) (hcwd : env.cwd_known) {s : State} (h : Inv s)
    (hk : s.abspaths_known) {dir d1 : List Char}
    (hd1 : skip_dot_slash (dir.length + 1) dir = .ok d1)
    (hnew : dir = [] ∨ dot_or_end d1 = false) :
    ∃ s' p, chdir_arg env dir s = .ok (chdir_count s + 1, s') ∧
      s'.wd.length = chdir_count s + 2 ∧
      s'.wd[chdir_count s + 1]? = some { name := d1, abspath := some p, fd := 0 } ∧
      chdir_count s' = chdir_count s + 1 ∧
      (∀ (j : Nat) (e : wd), s.wd[j]? = some e → s'.wd[j]? = some e) ∧
      (IS_ABSOLUTE_FILE_NAME d1 = true → p = d1) ∧
      (IS_ABSOLUTE_FILE_NAME d1 = false → ∃ prev P, s'.wd[chdir_count s]? = some prev ∧
        prev.abspath = some P ∧ p = P ++ dir_separator P ++ d1) := by
  obtain ⟨cwd, hc, hcne⟩ := hcwd
  obtain ⟨s1, hg⟩ := chdir_arg_grow_ok env (s := s) (Or.inr (by rw [hc]; simp))
  have hk1 := chdir_arg_grow_abspaths env ⟨cwd, hc, hcne⟩ h hk hg
  obtain ⟨_, hne1, _, _, _, _, _, g6, g7⟩ := chdir_arg_grow_spec env h hg
  obtain ⟨p, hp, _, hp1, hp2⟩ := chdir_arg_absdir_known hk1 hne1 d1
  have hlen : s1.wd.length = chdir_count s + 1 := by
    rw [chdir_count_eq]
    by_cases hnil : s.wd = []
    · obtain ⟨_, _, hw⟩ := g7 hnil
      rw [hw, hnil]; rfl
    · rw [g6 hnil]
      have := List.length_pos.mpr hnil
      omega
  have hold : ∀ (j : Nat) (e : wd), s.wd[j]? = some e → s1.wd[j]? = some e := by
    intro j e he
    by_cases hnil : s.wd = []
    · rw [hnil] at he; simp at he
    · rw [g6 hnil]; exact he
  refine ⟨_, p, by rw [← hlen]; exact chdir_arg_stores env hg hd1 hnew hp, ?_, ?_, ?_, ?_, hp1, ?_⟩
  · simp [hlen]
  · show (s1.wd ++ [_])[chdir_count s + 1]? = _
    rw [← hlen]
    simp
  · rw [chdir_count_eq]
    simp [hlen]
  · intro j e he
    exact getElem?_append_of_some _ _ (hold j e he)
  · intro hrel
    obtain ⟨last, P, hlast, hP, hpe⟩ := hp2 hrel
    refine ⟨last, P, ?_, hP, hpe⟩
    show (s1.wd ++ [_])[chdir_count s]? = _
    apply getElem?_append_of_some
    rw [List.getLast?_eq_getElem?, hlen] at hlast
    exact hlast

theorem skip_dot_slash_absolute {d : List Char} (h : IS_ABSOLUTE_FILE_NAME d = true)
    (fuel : Nat) : skip_dot_slash (fuel + 1) d = .ok d ∧ dot_or_end d = false := by
  match d, h with
  | [c], h =>
    have hc : c = '/' := by simpa [IS_ABSOLUTE_FILE_NAME, ISSLASH] using h
    subst hc
    exact ⟨rfl, rfl⟩
  | c0 :: c1 :: rest, h =>
    have hc : c0 = '/' := by simpa [IS_ABSOLUTE_FILE_NAME, ISSLASH] using h
    subst hc
    exact ⟨rfl, rfl⟩

theorem split_slash_append (A B : List Char) :
    split_slash (A ++ '/' :: B) = split_slash A ++ split_slash B := by
  induction A with
  | nil => simp [split_slash]
  | cons x A ih =>
    by_cases hx : x = '/'
    · subst hx
      rw [List.cons_append, split_slash_cons_slash, split_slash_cons_slash, ih]
      rfl
    · obtain ⟨c0, cs0, h0⟩ := List.exists_cons_of_ne_nil (split_slash_ne_nil A)
      rw [List.cons_append, split_slash_cons_other c0 (cs0 ++ split_slash B) x _ hx
        (by rw [ih, h0]; rfl), split_slash_cons_other c0 cs0 x A hx h0]
      rfl

theorem kept_append (A B : List Char) : kept (A ++ '/' :: B) = kept A ++ kept B := by
  show kept_comps (split_slash _) = kept_comps (split_slash _) ++ kept_comps (split_slash _)
  rw [split_slash_append]
  unfold kept_comps
  rw [List.filter_append]

/-- The reference form of a non-empty path is decided by whether it starts
with a slash and by its kept components. -/
theorem normalize_ref_congr {X Y : List Char} (hX : X ≠ []) (hY : Y ≠ [])
    (hh : IS_ABSOLUTE_FILE_NAME X = IS_ABSOLUTE_FILE_NAME Y) (hk : kept X = kept Y) :
    normalize_ref X = normalize_ref Y := by
  obtain ⟨x, X', rfl⟩ := List.exists_cons_of_ne_nil hX
  obtain ⟨y, Y', rfl⟩ := List.exists_cons_of_ne_nil hY
  have hxy : (x = '/') ↔ (y = '/') := by
    simp only [IS_ABSOLUTE_FILE_NAME, ISSLASH] at hh
    constructor
    · intro e
      have : (x == '/') = true := by simp [e]
      rw [hh] at this
      simpa using this
    · intro e
      have : (y == '/') = true := by simp [e]
      rw [← hh] at this
      simpa using this
  simp only [normalize_ref, hk]
  by_cases hx : x = '/'
  · rw [if_pos hx, if_pos (hxy.mp hx)]
  · rw [if_neg hx, if_neg (fun e => hx (hxy.mpr e))]

theorem IS_ABSOLUTE_append {P : List Char} (hP : P ≠ []) (R : List Char) :
    IS_ABSOLUTE_FILE_NAME (P ++ R) = IS_ABSOLUTE_FILE_NAME P := by
  obtain ⟨x, P', rfl⟩ := List.exists_cons_of_ne_nil hP
  rfl

/-- The path that `chdir_arg` stores for a relative name has the same
reference form as the directory, a slash and the name as it was given. -/
theorem stored_path_ref (P dir d1 : List Char) (hP : P ≠ []) (hk : kept d1 = kept dir) :
    normalize_ref (P ++ dir_separator P ++ d1) = normalize_ref (P ++ '/' :: dir) := by
  apply normalize_ref_congr (by simp [hP]) (by simp [hP])
  · rw [List.append_assoc, IS_ABSOLUTE_append hP, IS_ABSOLUTE_append hP]
  · rw [kept_append, ← hk]
    obtain ⟨Q, c, rfl⟩ : ∃ Q c, P = Q ++ [c] := by
      rcases List.eq_nil_or_concat P with h | ⟨Q, c, h⟩
      · exact absurd h hP
      · exact ⟨Q, c, by rw [h, List.concat_eq_append]⟩
    by_cases hc : c = '/'
    · subst hc
      have hs : dir_separator (Q ++ ['/']) = [] := by simp [dir_separator, ISSLASH]
      rw [hs, List.append_nil, List.append_assoc]
      show kept (Q ++ '/' :: d1) = kept (Q ++ '/' :: []) ++ kept d1
      rw [kept_append, kept_append]
      simp [kept, split_slash]
    · have hs : dir_separator (Q ++ [c]) = ['/'] := by simp [dir_separator, ISSLASH, hc]
      rw [hs, List.append_assoc]
      show kept ((Q ++ [c]) ++ '/' :: d1) = _
      rw [kept_append]

theorem chdir_arg_grow_length (env : Env) {s s1 : State} (h : Inv s)
    (hg : chdir_arg_grow env s = .ok s1) : s1.wd.length = chdir_count s + 1 := by
  obtain ⟨_, _, _, _, _, _, _, g6, g7⟩ := chdir_arg_grow_spec env h hg
  rw [chdir_count_eq]
  by_cases hnil : s.wd = []
  · obtain ⟨_, _, hw⟩ := g7 hnil
    rw [hw, hnil]; rfl
  · rw [g6 hnil]
    have := List.length_pos.mpr hnil
    omega

/-- A completed call of `chdir_arg` that returns `chdir_count () + 1` went
through the part that stores a new entry. -/
theorem chdir_arg_new_of_index (env : Env) {s s' : State} {dir : List Char} {idx : Nat}
    (h : Inv s) (hs : chdir_arg env dir s = .ok (idx, s')) (hidx : idx = chdir_count s + 1) :
    ∃ d1, skip_dot_slash (dir.length + 1) dir = .ok d1 ∧ (dir = [] ∨ dot_or_end d1 = false) := by
  obtain ⟨s1, d1, hg, hd1, hcase⟩ := chdir_arg_cases env hs
  have hlen := chdir_arg_grow_length env h hg
  rcases hcase with ⟨_, _, _, hi⟩ | ⟨hnew, _⟩
  · omega
  · exact ⟨d1, hd1, hnew⟩

/-- C11 fails: after "a", `chdir_arg ("")` returns the new index 2, the table
has one more entry, named "" with the path "/a/", and `chdir_count ()` goes
from 1 to 2. -/
theorem chdir_arg_empty_grows_table :
    ∃ s', chdir_arg env0 [] demo1 = .ok (2, s') ∧ s'.wd.length = demo1.wd.length + 1 ∧
      s'.wd[2]? = some { name := [], abspath := some "/a/".toList, fd := 0 } ∧
      chdir_count demo1 = 1 ∧ chdir_count s' = 2 :=
  ⟨_, rfl, by decide, by decide, by decide, by decide⟩

/-- C11, amended. The empty name does not take the fast path (it is behind
`if (dir[0])`): from every reachable state, `getcwd` giving a non-empty
string, `chdir_arg ("")` completes, stores a new entry named "" with
descriptor 0 and a known absolute path, returns its index
`chdir_count () + 1`, raises `chdir_count ()` by one and leaves the older
entries as they were. -/
theorem chdir_arg_empty_registers (env : Env) (s : State) (hpos : env.opens_positive)
    (hcwd : env.cwd_known) (hr : Reachable env s) :
    ∃ s' p, chdir_arg env [] s = .ok (chdir_count s + 1, s') ∧
      s'.wd.length = chdir_count s + 2 ∧
      s'.wd[chdir_count s + 1]? = some { name := [], abspath := some p, fd := 0 } ∧
      chdir_count s' = chdir_count s + 1 ∧
      (∀ (j : Nat) (e : wd), s.wd[j]? = some e → s'.wd[j]? = some e) := by
  obtain ⟨s', p, h1, h2, h3, h4, h5, _⟩ :=
    @chdir_arg_new_entry env hcwd s (hr.inv hpos) (hr.abspaths hpos hcwd) [] []
      rfl (Or.inl rfl)
  exact ⟨s', p, h1, h2, h3, h4, h5⟩

/-- C11 amended, on the initial state: the implicit entry 0 and the entry for
"" are made. -/
theorem chdir_arg_empty_registers_witness :
    ∃ s' p, chdir_arg env0 [] State.init = .ok (1, s') ∧ s'.wd.length = 2 ∧
      s'.wd[1]? = some { name := [], abspath := some p, fd := 0 } ∧ chdir_count s' = 1 := by
  obtain ⟨s', p, h1, h2, h3, h4, _⟩ :=
    chdir_arg_empty_registers env0 State.init env0_positive env0_cwd_known Reachable.init
  exact ⟨s', p, h1, h2, h3, h4⟩

/-- C12 fails: `chdir_arg ("/tmp//a/")` stores the path "/tmp//a/", while
`normalize_filename_x` makes "/tmp/a" of it. -/
theorem chdir_arg_absolute_not_normalized :
    ∃ s', chdir_arg env0 "/tmp//a/".toList State.init = .ok (1, s') ∧
      s'.wd[1]? = some { name := "/tmp//a/".toList, abspath := some "/tmp//a/".toList, fd := 0 } ∧
      normalize "/tmp//a/".toList = .ok "/tmp/a".toList ∧
      "/tmp//a/".toList ≠ "/tmp/a".toList :=
  ⟨_, rfl, by decide, (normalize_eq_ref _ (by decide)).trans (congrArg Except.ok (by decide)),
    by decide⟩

/-- C12, amended. For every absolute name `d`, from every reachable state
(`getcwd` giving a non-empty string), `chdir_arg (d)` completes and stores a
new entry whose name and absolute path are both `d` itself, copied unchanged
and not normalised. -/
theorem chdir_arg_absolute_copies (env : Env) (s : State) (d : List Char)
    (hpos : env.opens_positive) (hcwd : env.cwd_known) (hr : Reachable env s)
    (habs : IS_ABSOLUTE_FILE_NAME d = true) :
    ∃ s', chdir_arg env d s = .ok (chdir_count s + 1, s') ∧
      s'.wd.length = chdir_count s + 2 ∧
      s'.wd[chdir_count s + 1]? = some { name := d, abspath := some d, fd := 0 } := by
  obtain ⟨hd1, hdot⟩ := skip_dot_slash_absolute habs d.length
  obtain ⟨s', p, h1, h2, h3, _, _, h6, _⟩ :=
    chdir_arg_new_entry env hcwd (hr.inv hpos) (hr.abspaths hpos hcwd) hd1 (Or.inr hdot)
  have hp := h6 habs
  subst hp
  exact ⟨s', h1, h2, h3⟩

/-- C12 amended, for "/tmp//a/" after "a" and `chdir_do (1)`. -/
theorem chdir_arg_absolute_copies_witness :
    IS_ABSOLUTE_FILE_NAME "/tmp//a/".toList = true ∧
    ∃ s', chdir_arg env0 "/tmp//a/".toList demo2 = .ok (2, s') ∧
      s'.wd[2]? = some { name := "/tmp//a/".toList, abspath := some "/tmp//a/".toList, fd := 0 } := by
  obtain ⟨s', h1, _, h3⟩ :=
    chdir_arg_absolute_copies env0 demo2 "/tmp//a/".toList env0_positive env0_cwd_known
      demo2_reachable (by decide)
  exact ⟨by decide, s', h1, h3⟩

/-- C13 fails: after "/tmp/a", `chdir_arg ("b/")` stores the path "/tmp/a/b/",
with its trailing slash, while `normalize_filename_x` makes "/tmp/a/b" of
"/tmp/a" + "/" + "b/". -/
theorem chdir_arg_relative_not_normalized :
    ∃ s', chdir_arg env0 "b/".toList demo3 = .ok (2, s') ∧
      s'.wd[1]? = some { name := "/tmp/a".toList, abspath := some "/tmp/a".toList, fd := 0 } ∧
      s'.wd[2]? = some { name := "b/".toList, abspath := some "/tmp/a/b/".toList, fd := 0 } ∧
      normalize ("/tmp/a".toList ++ '/' :: "b/".toList) = .ok "/tmp/a/b".toList ∧
      "/tmp/a/b/".toList ≠ "/tmp/a/b".toList :=
  ⟨_, rfl, by decide, by decide,
    (normalize_eq_ref _ (by decide)).trans (congrArg Except.ok (by decide)), by decide⟩

/-- C13, amended. When `chdir_arg` stores a new entry for a relative name `d`
(it returns `chdir_count () + 1`), the entry before it has a known absolute
path `P`, and the path of the new entry is the plain concatenation of `P`, a
slash unless `P` ends in one, and `d` without its leading "./" prefixes. The
stored path is not normalised, but `normalize_filename_x` makes the same
string of it as of `P` + "/" + `d`. -/
theorem chdir_arg_relative_concatenates (env : Env) (s s' : State) (d : List Char) (idx : Nat)
    (hpos : env.opens_positive) (hcwd : env.cwd_known) (hr : Reachable env s)
    (hrel : IS_ABSOLUTE_FILE_NAME d = false)
    (hs : chdir_arg env d s = .ok (idx, s')) (hidx : idx = chdir_count s + 1) :
    ∃ prev P d1, skip_dot_slash (d.length + 1) d = .ok d1 ∧
      s'.wd[idx - 1]? = some prev ∧ prev.abspath = some P ∧
      s'.wd[idx]? = some { name := d1, abspath := some (P ++ dir_separator P ++ d1), fd := 0 } ∧
      (NUL ∉ P → NUL ∉ d → ∃ r, normalize (P ++ dir_separator P ++ d1) = .ok r ∧
        normalize (P ++ '/' :: d) = .ok r) := by
  have hinv := hr.inv hpos
  have hk := hr.abspaths hpos hcwd
  obtain ⟨d1, hd1, hnew⟩ := chdir_arg_new_of_index env hinv hs hidx
  obtain ⟨s'', p, h1, _, h3, _, _, _, h7⟩ := chdir_arg_new_entry env hcwd hinv hk hd1 hnew
  rw [hs] at h1
  injection h1 with h1
  injection h1 with _ h1
  subst h1
  obtain ⟨d1', e1, e2, e3, e4⟩ := skip_dot_slash_spec (d.length + 1) d (Nat.lt_succ_self _)
  rw [hd1] at e1
  injection e1 with e1
  subst e1
  obtain ⟨prev, P, hprev, hP, hp⟩ := h7 (by rw [e4, hrel])
  subst hp
  have hPne : P ≠ [] := by
    have hmem : prev ∈ s'.wd := List.mem_iff_getElem?.mpr ⟨_, hprev⟩
    obtain ⟨P', hP', hne⟩ := chdir_arg_abspaths env hcwd hinv hk hs prev hmem
    rw [hP] at hP'
    injection hP' with hP'
    rw [hP']
    exact hne
  refine ⟨prev, P, d1, hd1, by rw [hidx]; exact hprev, hP, by rw [hidx]; exact h3, ?_⟩
  intro hnP hnd
  have hsep : NUL ∉ dir_separator P := by
    unfold dir_separator
    split
    · split
      · simp
      · simp; exact NUL_ne_slash
    · simp
  have hn1 : NUL ∉ P ++ dir_separator P ++ d1 := by
    intro hm
    rcases List.mem_append.mp hm with hm | hm
    · rcases List.mem_append.mp hm with hm | hm
      · exact hnP hm
      · exact hsep hm
    · exact hnd (e2.subset hm)
  have hn2 : NUL ∉ P ++ '/' :: d := by
    intro hm
    rcases List.mem_append.mp hm with hm | hm
    · exact hnP hm
    · rcases List.mem_cons.mp hm with hm | hm
      · exact NUL_ne_slash hm
      · exact hnd hm
  exact ⟨normalize_ref (P ++ '/' :: d),
    by rw [normalize_eq_ref _ hn1, stored_path_ref P d d1 hPne e3], normalize_eq_ref _ hn2⟩

/-- C13 amended, for the names "/tmp/a" and then "b": the stored path is
"/tmp/a/b", the example of the specification. -/
theorem chdir_arg_relative_concatenates_witness :
    IS_ABSOLUTE_FILE_NAME "b".toList = false ∧
    chdir_arg env0 "b".toList demo3 = .ok (2, { demo3 with wd := demo3.wd ++
      [{ name := "b".toList, abspath := some "/tmp/a/b".toList, fd := 0 }] }) ∧
    ∃ prev P d1, skip_dot_slash ("b".toList.length + 1) "b".toList = .ok d1 ∧
      (demo3.wd ++ [{ name := "b".toList, abspath := some "/tmp/a/b".toList, fd := 0 }])[2 - 1]?
        = some prev ∧ prev.abspath = some P ∧
      (demo3.wd ++ [{ name := "b".toList, abspath := some "/tmp/a/b".toList, fd := 0 }])[2]?
        = some { name := d1, abspath := some (P ++ dir_separator P ++ d1), fd := 0 } ∧
      (NUL ∉ P → NUL ∉ "b".toList → ∃ r, normalize (P ++ dir_separator P ++ d1) = .ok r ∧
        normalize (P ++ '/' :: "b".toList) = .ok r) :=
  ⟨by decide, rfl,
    chdir_arg_relative_concatenates env0 demo3 _ "b".toList 2 env0_positive env0_cwd_known
      demo3_reachable (by decide) rfl (by decide)⟩

/-- One completed call of `chdir_arg`: either it made a new entry, at the
index `chdir_count () + 1`, or it made none and returned `chdir_count ()`; the
entries that were in the table are unchanged. -/
theorem chdir_arg_step (env : Env) {s s' : State} {dir : List Char} {idx : Nat} (h : Inv s)
    (hs : chdir_arg env dir s = .ok (idx, s')) :
    ((0 < idx ∧ s.wd.length ≤ idx) ∧ idx = chdir_count s + 1 ∧ s'.wd.length = idx + 1 ∧
        chdir_count s' = chdir_count s + 1 ∨
      ¬ (0 < idx ∧ s.wd.length ≤ idx) ∧ idx = chdir_count s ∧
        chdir_count s' = chdir_count s) ∧
    (∀ (j : Nat) (e : wd), s.wd[j]? = some e → s'.wd[j]? = some e) := by
  obtain ⟨s1, d1, hg, hd1, hcase⟩ := chdir_arg_cases env hs
  have hlen := chdir_arg_grow_length env h hg
  obtain ⟨_, _, _, _, _, _, _, g6, _⟩ := chdir_arg_grow_spec env h hg
  have hc := chdir_count_eq s
  have hold : ∀ (j : Nat) (e : wd), s.wd[j]? = some e → s1.wd[j]? = some e := by
    intro j e he
    by_cases hnil : s.wd = []
    · rw [hnil] at he; simp at he
    · rw [g6 hnil]; exact he
  rcases hcase with ⟨_, _, he, hi⟩ | ⟨_, absdir, _, hw, hi⟩
  · subst he
    refine ⟨Or.inr ⟨?_, by omega, ?_⟩, hold⟩
    · intro hcon; omega
    · rw [chdir_count_eq s', hlen]; rfl
  · refine ⟨Or.inl ⟨by omega, by omega, ?_, ?_⟩, ?_⟩
    · rw [hw]; simp; omega
    · rw [chdir_count_eq s', hw]; simp; omega
    · intro j e he
      rw [hw]
      exact getElem?_append_of_some _ _ (hold j e he)

theorem chdir_arg_count_spec (env : Env) : ∀ (dirs : List (List Char)) (s s' : State) (n : Nat),
    Inv s → chdir_arg_count env dirs s = .ok (n, s') → chdir_count s' = chdir_count s + n := by
  intro dirs
  induction dirs with
  | nil =>
    intro s s' n _ hr
    simp only [chdir_arg_count] at hr
    injection hr with hr
    injection hr with h1 h2
    subst h1; subst h2
    rfl
  | cons dir dirs ih =>
    intro s s' n h hr
    simp only [chdir_arg_count] at hr
    cases hs : chdir_arg env dir s with
    | error e => simp [hs] at hr
    | ok r =>
      obtain ⟨idx, s1⟩ := r
      simp only [hs] at hr
      cases hrest : chdir_arg_count env dirs s1 with
      | error e => simp [hrest] at hr
      | ok r2 =>
        obtain ⟨m, s2⟩ := r2
        simp only [hrest] at hr
        injection hr with hr
        injection hr with h1 h2
        subst h2
        have hm := ih s1 s2 m (chdir_arg_inv env h hs) hrest
        obtain ⟨hstep, _⟩ := chdir_arg_step env h hs
        rcases hstep with ⟨hnew, _, _, hcnt⟩ | ⟨hold, _, hcnt⟩
        · rw [if_pos hnew] at h1
          omega
        · rw [if_neg hold] at h1
          omega

theorem chdir_arg_count_total (env : Env) (hcwd : env.cwd_known) :
    ∀ (dirs : List (List Char)) (s : State), Inv s → s.abspaths_known →
      ∃ n s', chdir_arg_count env dirs s = .ok (n, s') := by
  intro dirs
  induction dirs with
  | nil => intro s _ _; exact ⟨0, s, rfl⟩
  | cons dir dirs ih =>
    intro s h hk
    obtain ⟨idx, s1, hs⟩ := chdir_arg_total env hcwd h hk dir
    obtain ⟨n, s', hr⟩ := ih s1 (chdir_arg_inv env h hs) (chdir_arg_abspaths env hcwd h hk hs)
    exact ⟨(if 0 < idx ∧ s.wd.length ≤ idx then 1 else 0) + n, s',
      by simp only [chdir_arg_count, hs, hr]⟩

/-- C14. `chdir_count ()` is 0 before any registration. Every sequence of
`chdir_arg` calls from the initial state completes when `getcwd` gives a
non-empty string, and after it `chdir_count ()` is the number of calls that
created a new entry, which is the table length minus the implicit entry 0. In
every reachable state, a completed `chdir_arg` that creates an entry returns
`chdir_count () + 1` (the value before the call) and raises `chdir_count ()`
by one, one that creates none leaves it as it was, and no call changes an
entry that was in the table: name, absolute path and descriptor stay. -/
theorem chdir_count_counts_new_entries :
    chdir_count State.init = 0 ∧
    (∀ (env : Env) (dirs : List (List Char)), env.cwd_known →
      ∃ n s', chdir_arg_count env dirs State.init = .ok (n, s')) ∧
    (∀ (env : Env) (dirs : List (List Char)) (n : Nat) (s' : State),
      chdir_arg_count env dirs State.init = .ok (n, s') →
      chdir_count s' = n ∧ s'.wd.length - 1 = n) ∧
    (∀ (env : Env) (s s' : State) (dir : List Char) (idx : Nat),
      env.opens_positive → Reachable env s → chdir_arg env dir s = .ok (idx, s') →
      ((0 < idx ∧ s.wd.length ≤ idx) →
        idx = chdir_count s + 1 ∧ chdir_count s' = chdir_count s + 1) ∧
      (¬ (0 < idx ∧ s.wd.length ≤ idx) → chdir_count s' = chdir_count s) ∧
      (∀ (j : Nat) (e : wd), s.wd[j]? = some e → s'.wd[j]? = some e)) := by
  refine ⟨rfl, ?_, ?_, ?_⟩
  · intro env dirs hcwd
    exact chdir_arg_count_total env hcwd dirs State.init Inv_init
      (fun e he => by simp [State.init] at he)
  · intro env dirs n s' hr
    have := chdir_arg_count_spec env dirs State.init s' n Inv_init hr
    have h0 : chdir_count State.init = 0 := rfl
    rw [h0, Nat.zero_add] at this
    exact ⟨this, by rw [← chdir_count_eq]; exact this⟩
  · intro env s s' dir idx hpos hr hs
    obtain ⟨hstep, hold⟩ := chdir_arg_step env (hr.inv hpos) hs
    refine ⟨?_, ?_, hold⟩
    · intro hnew
      rcases hstep with ⟨_, h1, _, h2⟩ | ⟨hno, _⟩
      · exact ⟨h1, h2⟩
      · exact absurd hnew hno
    · intro hno
      rcases hstep with ⟨hnew, _⟩ | ⟨_, _, h2⟩
      · exact absurd hnew hno
      · exact h2

/-- C14, for the names "a", ".", "", "./" and "/b" in `env0`: three of the
five calls create an entry, and `chdir_count ()` is 3. -/
theorem chdir_count_counts_new_entries_witness :
    ∃ s', chdir_arg_count env0 ["a".toList, ".".toList, [], "./".toList, "/b".toList] State.init
        = .ok (3, s') ∧ chdir_count s' = 3 ∧ s'.wd.length - 1 = 3 := by
  have hr : chdir_arg_count env0 ["a".toList, ".".toList, [], "./".toList, "/b".toList] State.init
      = .ok (3, { State.init with
          wd := [{ name := ['.'], abspath := some ['/'], fd := AT_FDCWD },
                 { name := ['a'], abspath := some "/a".toList, fd := 0 },
                 { name := [], abspath := some "/a/".toList, fd := 0 },
                 { name := "/b".toList, abspath := some "/b".toList, fd := 0 }],
          wd_alloc := 5 }) := rfl
  exact ⟨_, hr, chdir_count_counts_new_entries.2.2.1 env0 _ 3 _ hr⟩

/-! ## `normalize_filename`: the name under a base directory -/

theorem wr_append (A B : List Char) (x c : Char) :
    wr (A ++ x :: B) A.length c = .ok (A ++ c :: B) := by
  unfold wr
  rw [if_pos (by simp)]
  simp

/-- The call `strcpy (buf + off, src)` when the buffer has room: the bytes from
`off` on are the string and its NUL, the others stay. -/
theorem strcpy_append : ∀ (src A R : List Char), src.length + 1 ≤ R.length →
    strcpy (A ++ R) A.length src = .ok (A ++ src ++ [NUL] ++ R.drop (src.length + 1)) := by
  intro src
  induction src with
  | nil =>
    intro A R h
    obtain ⟨x, R', rfl⟩ := List.exists_cons_of_ne_nil
      (List.ne_nil_of_length_pos (Nat.lt_of_lt_of_le (Nat.succ_pos _) h))
    simp only [strcpy, wr_append]
    simp
  | cons c src ih =>
    intro A R h
    obtain ⟨x, R', rfl⟩ := List.exists_cons_of_ne_nil
      (List.ne_nil_of_length_pos (Nat.lt_of_lt_of_le (Nat.succ_pos _) h))
    simp only [strcpy, wr_append]
    have := ih (A ++ [c]) R' (by simp at h; omega)
    simp only [List.length_append, List.length_singleton, List.append_assoc,
      List.singleton_append] at this
    rw [this]
    simp

/-- The buffer `copy` that `normalize_filename` fills for a relative name: the
directory, one slash, the name and the NUL. -/
theorem copy_buffer (fill : Char) (P n : List Char) :
    ∃ c1 c2, strcpy (xmalloc (P.length + 1 + n.length + 1) fill) 0 P = .ok c1 ∧
      wr c1 P.length '/' = .ok c2 ∧
      strcpy c2 (P.length + 1) n = .ok (buffer_of (P ++ '/' :: n)) := by
  have h1 := strcpy_append P [] (xmalloc (P.length + 1 + n.length + 1) fill)
    (by simp [xmalloc]; omega)
  simp only [List.nil_append, List.length_nil] at h1
  have hd : (xmalloc (P.length + 1 + n.length + 1) fill).drop (P.length + 1)
      = fill :: List.replicate n.length fill := by
    simp only [xmalloc, List.drop_replicate]
    have : P.length + 1 + n.length + 1 - (P.length + 1) = n.length + 1 := by omega
    rw [this]
    rfl
  rw [hd] at h1
  refine ⟨_, P ++ '/' :: fill :: List.replicate n.length fill, h1, ?_, ?_⟩
  · rw [List.append_assoc]
    exact wr_append P _ NUL '/'
  · have h3 := strcpy_append n (P ++ ['/']) (fill :: List.replicate n.length fill) (by simp)
    simp only [List.length_append, List.length_singleton, List.append_assoc,
      List.singleton_append] at h3
    rw [h3]
    simp [buffer_of]

theorem tar_getcdpath_entry (env : Env) {s : State} {c : Nat} {e : wd}
    (he : s.wd[c]? = some e) : tar_getcdpath env s c = .ok e.abspath := by
  have hne : s.wd ≠ [] := by
    intro h
    rw [h] at he
    simp at he
  simp [tar_getcdpath, hne, he]

/-- The function `normalize_filename` when the block for a relative name ends
with a directory `P`: the result is what `normalize_filename_x` makes of `P`,
one slash and the name. -/
theorem normalize_filename_relative (env : Env) (fill : Char) (s : State) (c : Nat)
    (n P : List Char) (hrel : IS_ABSOLUTE_FILE_NAME n = false)
    (hg : tar_getcdpath env s c = .ok (some P)) (hn : NUL ∉ n) (hP : NUL ∉ P) :
    normalize_filename env fill s c n = .ok (some (normalize_ref (P ++ '/' :: n))) ∧
      normalize (P ++ '/' :: n) = .ok (normalize_ref (P ++ '/' :: n)) := by
  have hnul : NUL ∉ P ++ '/' :: n := by
    intro hm
    rcases List.mem_append.mp hm with hm | hm
    · exact hP hm
    · rcases List.mem_cons.mp hm with hm | hm
      · exact NUL_ne_slash hm
      · exact hn hm
  obtain ⟨b, hb, _, hc, _⟩ := normalize_filename_x_spec _ hnul
  obtain ⟨c1, c2, h1, h2, h3⟩ := copy_buffer fill P n
  refine ⟨?_, normalize_eq_ref _ hnul⟩
  unfold normalize_filename normalize_filename_copy
  simp only [hrel, Bool.not_false, if_true, hg, h1, h2, h3, hb, hc, normalize_fn_eq_ref]

theorem normalize_filename_absolute (env : Env) (fill : Char) (s : State) (c : Nat)
    (n : List Char) (habs : IS_ABSOLUTE_FILE_NAME n = true) (hn : NUL ∉ n) :
    normalize_filename env fill s c n = .ok (some (normalize_ref n)) ∧
      normalize n = .ok (normalize_ref n) := by
  obtain ⟨b, hb, _, hc, _⟩ := normalize_filename_x_spec _ hn
  refine ⟨?_, normalize_eq_ref _ hn⟩
  unfold normalize_filename normalize_filename_copy
  simp only [habs, Bool.not_true, Bool.false_eq_true, if_false, hb, hc, normalize_fn_eq_ref]

/-- C15. For every relative name `n` and every index `c` whose table entry
has the absolute path `P`, `normalize_filename (c, n)` completes and returns
what `normalize_filename_x` makes of `P`, exactly one slash, and `n`; for
every absolute name `n` it returns what `normalize_filename_x` makes of `n`,
whatever `c` and the table are. (The strings are C strings: no NUL; `fill` is
the content of the fresh buffer.) -/
theorem normalize_filename_joins (env : Env) (fill : Char) (s : State) (c : Nat)
    (n : List Char) (hn : NUL ∉ n) :
    (IS_ABSOLUTE_FILE_NAME n = false → ∀ (e : wd) (P : List Char), s.wd[c]? = some e →
      e.abspath = some P → NUL ∉ P →
      ∃ r, normalize_filename env fill s c n = .ok (some r) ∧
        normalize (P ++ '/' :: n) = .ok r) ∧
    (IS_ABSOLUTE_FILE_NAME n = true →
      ∃ r, normalize_filename env fill s c n = .ok (some r) ∧ normalize n = .ok r) := by
  constructor
  · intro hrel e P he hP hnP
    have hg : tar_getcdpath env s c = .ok (some P) := by rw [tar_getcdpath_entry env he, hP]
    exact ⟨_, normalize_filename_relative env fill s c n P hrel hg hn hnP⟩
  · intro habs
    exact ⟨_, normalize_filename_absolute env fill s c n habs hn⟩

/-- C15, for the name "b/./c//" under entry 1 of the table made by
"/tmp/a": the result is "/tmp/a/b/c". -/
theorem normalize_filename_joins_witness :
    NUL ∉ "b/./c//".toList ∧ IS_ABSOLUTE_FILE_NAME "b/./c//".toList = false ∧
    demo3.wd[1]? = some { name := "/tmp/a".toList, abspath := some "/tmp/a".toList, fd := 0 } ∧
    NUL ∉ "/tmp/a".toList ∧
    ∃ r, normalize_filename env0 'x' demo3 1 "b/./c//".toList = .ok (some r) ∧
      normalize ("/tmp/a".toList ++ '/' :: "b/./c//".toList) = .ok r :=
  ⟨by decide, by decide, by decide, by decide,
    (normalize_filename_joins env0 'x' demo3 1 "b/./c//".toList (by decide)).1 (by decide)
      { name := "/tmp/a".toList, abspath := some "/tmp/a".toList, fd := 0 } "/tmp/a".toList
      (by decide) rfl (by decide)⟩

theorem normalize_filename_ne_none (env : Env) (fill : Char) (s : State) (c : Nat)
    (n : List Char) : normalize_filename env fill s c n ≠ .ok none := by
  intro h
  unfold normalize_filename at h
  cases hcopy : normalize_filename_copy env fill s c n with
  | error e => simp [hcopy] at h
  | ok copy =>
    simp only [hcopy] at h
    split at h
    · cases h
    · injection h with h
      cases h

/-- In a reachable state the base path of every valid index is known, when
`getcwd` gives a non-empty string. -/
theorem tar_getcdpath_known {env : Env} (hpos : env.opens_positive) (hcwd : env.cwd_known)
    {s : State} (hr : Reachable env s) (c : Nat) (hc : s.wd = [] ∨ c < s.wd.length) :
    ∃ P, tar_getcdpath env s c = .ok (some P) ∧ P ≠ [] := by
  by_cases hnil : s.wd = []
  · obtain ⟨cwd, h1, h2⟩ := hcwd
    exact ⟨cwd, by simp [tar_getcdpath, hnil, h1], h2⟩
  · have hlt := hc.resolve_left hnil
    have he : s.wd[c]? = some s.wd[c] := List.getElem?_eq_getElem hlt
    obtain ⟨P, hP, hPne⟩ := hr.abspaths hpos hcwd s.wd[c] (List.getElem_mem hlt)
    exact ⟨P, by rw [tar_getcdpath_entry env he, hP], hPne⟩

/-- C16 fails: with no table and a failing `getcwd` the run for a relative
name ends in the fatal error of `call_arg_fatal`, which is no absent result;
and for an entry without an absolute path the function applies `strlen` to the
null pointer instead of returning an absent result. -/
theorem normalize_filename_no_absent_result :
    normalize_filename env_nocwd 'x' State.init 0 "a".toList = .error .getcwd_fatal ∧
    demo_nopath.wd[0]? = some { name := ['.'], abspath := none, fd := AT_FDCWD } ∧
    normalize_filename env0 'x' demo_nopath 0 "a".toList = .error .null_pointer ∧
    normalize_filename env0 'x' demo_nopath 0 "a".toList ≠ .ok none :=
  ⟨rfl, by decide, rfl, normalize_filename_ne_none _ _ _ _ _⟩

/-- C16, amended. `normalize_filename` has no absent result. For an absolute
name it returns a path. For a relative name it returns a path whenever
`tar_getcdpath` gives the base path, and that is so for every valid index in
every reachable state when `getcwd` gives a non-empty string. Its one failure
is fatal: with an empty table and a failing `getcwd`, the run for a relative
name ends in `call_arg_fatal`. -/
theorem normalize_filename_returns_path (env : Env) (fill : Char) (s : State) (c : Nat)
    (n : List Char) (hn : NUL ∉ n) :
    normalize_filename env fill s c n ≠ .ok none ∧
    (IS_ABSOLUTE_FILE_NAME n = true → ∃ r, normalize_filename env fill s c n = .ok (some r)) ∧
    (IS_ABSOLUTE_FILE_NAME n = false → ∀ P, tar_getcdpath env s c = .ok (some P) → NUL ∉ P →
      ∃ r, normalize_filename env fill s c n = .ok (some r)) ∧
    (env.opens_positive → env.cwd_known → Reachable env s → s.wd = [] ∨ c < s.wd.length →
      ∃ P, tar_getcdpath env s c = .ok (some P)) ∧
    (IS_ABSOLUTE_FILE_NAME n = false → s.wd = [] → env.xgetcwd = none →
      normalize_filename env fill s c n = .error .getcwd_fatal) := by
  refine ⟨normalize_filename_ne_none env fill s c n, ?_, ?_, ?_, ?_⟩
  · intro habs
    exact ⟨_, (normalize_filename_absolute env fill s c n habs hn).1⟩
  · intro hrel P hg hP
    exact ⟨_, (normalize_filename_relative env fill s c n P hrel hg hn hP).1⟩
  · intro hpos hcwd hr hc
    obtain ⟨P, hP, _⟩ := tar_getcdpath_known hpos hcwd hr c hc
    exact ⟨P, hP⟩
  · intro hrel hnil hx
    unfold normalize_filename normalize_filename_copy tar_getcdpath
    simp [hrel, hnil, hx]

/-- C16 amended, for the name "b" under entry 1 of the table made by "a" and a
`chdir_do (1)`: the base path is known and a path is returned. -/
theorem normalize_filename_returns_path_witness :
    NUL ∉ "b".toList ∧ IS_ABSOLUTE_FILE_NAME "b".toList = false ∧
    tar_getcdpath env0 demo2 1 = .ok (some "/a".toList) ∧
    ∃ r, normalize_filename env0 'x' demo2 1 "b".toList = .ok (some r) :=
  ⟨by decide, by decide, rfl,
    (normalize_filename_returns_path env0 'x' demo2 1 "b".toList (by decide)).2.2.1 (by decide)
      "/a".toList rfl (by decide)⟩

/-! ## Removal: the names that `safer_rmdir` refuses, and the calls made -/

theorem cchar_cons_succ (c : Char) (f : List Char) (k : Nat) :
    cchar (c :: f) (k + 1) = cchar f k := by
  simp [cchar]

theorem slash_loop_slashes : ∀ (n fuel : Nat), n < fuel →
    slash_loop fuel (List.replicate (n + 1) '/') = .ok true := by
  intro n
  induction n with
  | zero =>
    intro fuel h
    obtain ⟨m, rfl⟩ : ∃ m, fuel = m + 1 := ⟨fuel - 1, by omega⟩
    rfl
  | succ n ih =>
    intro fuel h
    obtain ⟨m, rfl⟩ : ∃ m, fuel = m + 1 := ⟨fuel - 1, by omega⟩
    have h1 : cchar (List.replicate (n + 1 + 1) '/') 1 = .ok '/' := by
      simp [cchar, List.replicate]
    have h2 : (List.replicate (n + 1 + 1) '/').drop 1 = List.replicate (n + 1) '/' := by
      simp [List.replicate]
    simp only [slash_loop, h1, h2, ISSLASH, beq_self_eq_true, if_true]
    exact ih m (by omega)

/-- The names "." and "/", "//", ... are obviously the working directory or
the root. -/
theorem must_be_dot_or_slash_obvious (name : List Char)
    (h : name = ['.'] ∨ ∃ k, name = List.replicate (k + 1) '/') :
    must_be_dot_or_slash name = .ok true := by
  rcases h with h | ⟨k, h⟩
  · subst h; rfl
  · subst h
    have h0 : cchar (List.replicate (k + 1) '/') 0 = .ok '/' := by
      simp [cchar, List.replicate]
    simp only [must_be_dot_or_slash, h0, ISSLASH, beq_self_eq_true, if_true]
    exact slash_loop_slashes k _ (by rw [List.length_replicate]; omega)

theorem safer_rmdir_refused (env : RmEnv) (fd : Int) {name : List Char} (st : RmState)
    (hm : must_be_dot_or_slash name = .ok true) :
    safer_rmdir env fd name st = .ok (-1, { st with errno := 0 }) := by
  simp [safer_rmdir, hm]

/-- The first statement of `remove_any_file`: it is skipped when directories
can be unlinked; else `unlinkat` is called, and the function goes on only
when that fails with `EPERM` or `EISDIR`. -/
theorem unlink_first_spec (env : RmEnv) (fd : Int) (name : List Char) (st : RmState) :
    (env.cannot_unlink_dir = false → unlink_first env fd name st = (none, st)) ∧
    (env.cannot_unlink_dir = true → env.unlinkat st.calls fd name 0 = 0 →
      unlink_first env fd name st = (some 1, (call_unlinkat env fd name 0 st).2)) ∧
    (env.cannot_unlink_dir = true →
      env.unlinkat st.calls fd name 0 = EPERM ∨ env.unlinkat st.calls fd name 0 = EISDIR →
      unlink_first env fd name st = (none, (call_unlinkat env fd name 0 st).2)) ∧
    (env.cannot_unlink_dir = true → env.unlinkat st.calls fd name 0 ≠ 0 →
      env.unlinkat st.calls fd name 0 ≠ EPERM → env.unlinkat st.calls fd name 0 ≠ EISDIR →
      unlink_first env fd name st = (some 0, (call_unlinkat env fd name 0 st).2)) := by
  refine ⟨?_, ?_, ?_, ?_⟩
  · intro h
    simp [unlink_first, h]
  · intro h h0
    simp [unlink_first, h, call_unlinkat, h0]
  · intro h h0
    have hne : env.unlinkat st.calls fd name 0 ≠ 0 := by
      rcases h0 with h0 | h0 <;> rw [h0] <;> decide
    unfold unlink_first call_unlinkat
    rw [if_pos h]
    cases herr : env.unlinkat st.calls fd name 0 with
    | zero => exact absurd herr hne
    | succ m =>
      rw [herr] at h0
      simp only [Nat.succ_ne_zero, if_false]
      rcases h0 with h0 | h0 <;> simp [h0]
  · intro h h0 h1 h2
    unfold unlink_first call_unlinkat
    rw [if_pos h]
    cases herr : env.unlinkat st.calls fd name 0 with
    | zero => exact absurd herr h0
    | succ m =>
      rw [herr] at h1 h2
      simp only [Nat.succ_ne_zero, if_false]
      simp [h1, h2]

theorem remove_any_file_unlinked (env : RmEnv) (fd : Int) (fuel : Nat) (name : List Char)
    (option : remove_option) (st st1 : RmState) (r : Int)
    (hu : unlink_first env fd name st = (some r, st1)) :
    remove_any_file env fd (fuel + 1) name option st = .ok (r, st1) := by
  simp only [remove_any_file, hu]

/-- The function `remove_any_file` for a name that `safer_rmdir` refuses, once
the first statement is past: `errno` is 0, which the `switch` treats like a
directory that is not empty. -/
theorem remove_any_file_refused (env : RmEnv) (fd : Int) (fuel : Nat) (name : List Char)
    (st st1 : RmState) (hm : must_be_dot_or_slash name = .ok true)
    (hu : unlink_first env fd name st = (none, st1)) :
    remove_any_file env fd (fuel + 1) name .ORDINARY_REMOVE_OPTION st
      = .ok (0, { st1 with errno := 0 }) ∧
    remove_any_file env fd (fuel + 1) name .WANT_DIRECTORY_REMOVE_OPTION st
      = .ok (-1, { st1 with errno := 0 }) ∧
    remove_any_file env fd (fuel + 1) name .RECURSIVE_REMOVE_OPTION st
      = (match env.tar_savedir st1.calls fd name with
        | (none, e) =>
          .ok (0, { errno := e, calls := st1.calls ++ [Call.tar_savedir name none] })
        | (some directory, e) =>
          match remove_entries env
              (fun n s => remove_any_file env fd fuel n .RECURSIVE_REMOVE_OPTION s)
              name directory
              { errno := e, calls := st1.calls ++ [Call.tar_savedir name (some directory)] } with
          | .error e => .error e
          | .ok (false, st4) => .ok (0, st4)
          | .ok (true, st4) => .ok (0, { st4 with errno := 0 })) := by
  have h20 : ¬ (0 : Nat) = ENOTDIR := by decide
  refine ⟨?_, ?_, ?_⟩
  · simp [remove_any_file, hu, safer_rmdir_refused env fd _ hm, h20]
  · simp [remove_any_file, hu, safer_rmdir_refused env fd _ hm, h20]
  · simp only [remove_any_file, hu, safer_rmdir_refused env fd _ hm]
    simp only [h20, if_false, true_or, if_true]
    have hneg : ¬ ((-1 : Int) = 0) := by decide
    simp only [hneg, if_false]

theorem extends_by_refl (P : Call → Prop) (st : RmState) : st.extends_by P st :=
  ⟨[], by simp, by simp⟩

theorem extends_by_trans {P : Call → Prop} {a b c : RmState} (h1 : a.extends_by P b)
    (h2 : b.extends_by P c) : a.extends_by P c := by
  obtain ⟨n1, e1, p1⟩ := h1
  obtain ⟨n2, e2, p2⟩ := h2
  refine ⟨n1 ++ n2, by rw [e2, e1, List.append_assoc], ?_⟩
  intro x hx
  rcases List.mem_append.mp hx with hx | hx
  · exact p1 x hx
  · exact p2 x hx

theorem extends_by_errno {P : Call → Prop} {a b : RmState} (h : a.extends_by P b) (e : Nat) :
    a.extends_by P { b with errno := e } := h

theorem extends_by_call {P : Call → Prop} (st : RmState) (c : Call) (e : Nat) (h : P c) :
    st.extends_by P { errno := e, calls := st.calls ++ [c] } :=
  ⟨[c], rfl, by simpa using h⟩

theorem call_unlinkat_ext {P : Call → Prop} (env : RmEnv) (fd : Int) (name : List Char)
    (flag : Nat) (st : RmState)
    (h : P (Call.unlinkat fd name flag (env.unlinkat st.calls fd name flag))) :
    st.extends_by P (call_unlinkat env fd name flag st).2 :=
  extends_by_call st _ _ h

theorem unlink_first_ext {P : Call → Prop} (env : RmEnv) (fd : Int) (name : List Char)
    (st st1 : RmState) (o : Option Int)
    (h : P (Call.unlinkat fd name 0 (env.unlinkat st.calls fd name 0)))
    (hu : unlink_first env fd name st = (o, st1)) : st.extends_by P st1 := by
  have hc := call_unlinkat_ext env fd name 0 st h
  unfold unlink_first at hu
  split at hu
  · split at hu
    · rename_i st2 heq
      injection hu with _ h2
      rw [← h2]
      have : (call_unlinkat env fd name 0 st).2 = st2 := by rw [heq]
      rw [← this]; exact hc
    · rename_i x st2 _ heq
      have : (call_unlinkat env fd name 0 st).2 = st2 := by rw [heq]
      split at hu <;>
      · injection hu with _ h2
        rw [← h2, ← this]; exact hc
  · injection hu with _ h2
    rw [← h2]; exact extends_by_refl P st

theorem flag_zero_guarded (fd : Int) (name : List Char) (e : Nat) :
    (Call.unlinkat fd name 0 e).guarded := by
  intro d n e' h
  injection h with _ _ h3 _
  exact absurd h3 (by decide)

theorem safer_rmdir_guarded (env : RmEnv) (fd : Int) (name : List Char) (st st1 : RmState)
    (r : Int) (h : safer_rmdir env fd name st = .ok (r, st1)) :
    st.extends_by Call.guarded st1 := by
  unfold safer_rmdir at h
  split at h
  · cases h
  · injection h with h
    injection h with _ h2
    rw [← h2]
    exact extends_by_errno (extends_by_refl _ st) 0
  · rename_i hm
    have hg : (Call.unlinkat fd name AT_REMOVEDIR
        (env.unlinkat st.calls fd name AT_REMOVEDIR)).guarded := by
      intro d n e hc
      injection hc with _ h2 _ _
      rw [← h2]; exact hm
    have hc := call_unlinkat_ext (P := Call.guarded) env fd name AT_REMOVEDIR st hg
    split at h
    · rename_i st2 heq
      have : (call_unlinkat env fd name AT_REMOVEDIR st).2 = st2 := by rw [heq]
      injection h with h
      injection h with _ h2
      rw [← h2]
      rw [this] at hc
      refine extends_by_trans hc ⟨[Call.remove_delayed_set_stat name], rfl, ?_⟩
      intro c hcm
      simp at hcm
      subst hcm
      intro d n e hx
      cases hx
    · rename_i x st2 _ heq
      have : (call_unlinkat env fd name AT_REMOVEDIR st).2 = st2 := by rw [heq]
      injection h with h
      injection h with _ h2
      rw [← h2, ← this]; exact hc

theorem remove_entries_ext {P : Call → Prop} (env : RmEnv)
    (remove : List Char → RmState → Except Fault (Int × RmState)) (name : List Char)
    (hrem : ∀ n s r s', remove n s = .ok (r, s') → s.extends_by P s') :
    ∀ (entries : List (List Char)) (st st' : RmState) (b : Bool),
      remove_entries env remove name entries st = .ok (b, st') → st.extends_by P st' := by
  intro entries
  induction entries with
  | nil =>
    intro st st' b h
    simp only [remove_entries] at h
    injection h with h
    injection h with _ h2
    rw [← h2]; exact extends_by_refl P st
  | cons entry rest ih =>
    intro st st' b h
    simp only [remove_entries] at h
    split at h
    · injection h with h
      injection h with _ h2
      rw [← h2]; exact extends_by_refl P st
    · split at h
      · cases h
      · rename_i r st1 heq
        have h1 := hrem _ _ _ _ heq
        split at h
        · injection h with h
          injection h with _ h2
          rw [← h2]; exact h1
        · exact extends_by_trans (extends_by_errno h1 _) (ih _ st' b h)

/-- No call of `remove_any_file`, at any depth of the recursion, is an `rmdir`
of a name that is obviously "." or "/". -/
theorem remove_any_file_guarded (env : RmEnv) (fd : Int) :
    ∀ (fuel : Nat) (name : List Char) (option : remove_option) (st st' : RmState) (r : Int),
      remove_any_file env fd fuel name option st = .ok (r, st') →
      st.extends_by Call.guarded st' := by
  intro fuel
  induction fuel with
  | zero => intro name option st st' r h; cases h
  | succ fuel ih =>
    intro name option st st' r h
    simp only [remove_any_file] at h
    split at h
    · rename_i r1 st1 heq
      injection h with h
      injection h with _ h2
      rw [← h2]
      exact unlink_first_ext env fd name st st1 _ (flag_zero_guarded _ _ _) heq
    · rename_i st1 heq
      have h1 := unlink_first_ext env fd name st st1 _ (flag_zero_guarded _ _ _) heq
      split at h
      · cases h
      · rename_i r2 st2 heq2
        have h2 := extends_by_trans h1 (safer_rmdir_guarded env fd name st1 st2 r2 heq2)
        split at h
        · injection h with h
          injection h with _ h3
          rw [← h3]; exact h2
        · split at h
          · split at h
            · have hc := call_unlinkat_ext (P := Call.guarded) env fd name 0 st2
                (flag_zero_guarded _ _ _)
              split at h
              · rename_i st3 heq3
                have : (call_unlinkat env fd name 0 st2).2 = st3 := by rw [heq3]
                injection h with h
                injection h with _ h3
                rw [← h3, ← this]; exact extends_by_trans h2 hc
              · rename_i x st3 _ heq3
                have : (call_unlinkat env fd name 0 st2).2 = st3 := by rw [heq3]
                injection h with h
                injection h with _ h3
                rw [← h3, ← this]; exact extends_by_trans h2 hc
            · injection h with h
              injection h with _ h3
              rw [← h3]; exact h2
          · split at h
            · split at h
              · injection h with h
                injection h with _ h3
                rw [← h3]; exact h2
              · injection h with h
                injection h with _ h3
                rw [← h3]; exact h2
              · have hsv : ∀ (ret : Option (List (List Char))) (e : Nat),
                    st.extends_by Call.guarded
                      { errno := e, calls := st2.calls ++ [Call.tar_savedir name ret] } := by
                  intro ret e
                  refine extends_by_trans h2 (extends_by_call st2 _ e ?_)
                  intro d n e' hx
                  cases hx
                split at h
                · injection h with h
                  injection h with _ h3
                  rw [← h3]; exact hsv _ _
                · rename_i directory e heq3
                  split at h
                  · cases h
                  · rename_i st4 heq4
                    have h4 := remove_entries_ext env _ name
                      (fun n s r s' hr => ih n _ s s' r hr) directory _ st4 false heq4
                    injection h with h
                    injection h with _ h3
                    rw [← h3]; exact extends_by_trans (hsv _ _) h4
                  · rename_i st4 heq4
                    have h4 := remove_entries_ext env _ name
                      (fun n s r s' hr => ih n _ s s' r hr) directory _ st4 true heq4
                    split at h
                    · cases h
                    · rename_i r5 st5 heq5
                      injection h with h
                      injection h with _ h3
                      rw [← h3]
                      exact extends_by_trans (extends_by_trans (hsv _ _) (extends_by_errno h4 _))
                        (safer_rmdir_guarded env fd name _ st5 r5 heq5)
            · injection h with h
              injection h with _ h3
              rw [← h3]; exact h2

theorem removals_append (a b : List Call) : removals (a ++ b) = removals a ++ removals b := by
  induction a with
  | nil => rfl
  | cons c a ih =>
    cases c with
    | unlinkat d n f e =>
      by_cases he : e = 0
      · simp [removals, he, ih]
      · simp [removals, he, ih]
    | tar_savedir n r => simp [removals, ih]
    | remove_delayed_set_stat n => simp [removals, ih]

theorem call_unlinkat_calls (env : RmEnv) (fd : Int) (name : List Char) (flag : Nat)
    (st : RmState) :
    (call_unlinkat env fd name flag st).2.calls
      = st.calls ++ [Call.unlinkat fd name flag (env.unlinkat st.calls fd name flag)] := rfl

/-- The first statement of `remove_any_file` always has one of its outcomes. -/
theorem unlink_first_total (env : RmEnv) (fd : Int) (name : List Char) (st : RmState) :
    (env.cannot_unlink_dir = false ∧ unlink_first env fd name st = (none, st)) ∨
    (env.cannot_unlink_dir = true ∧
      ∃ o, unlink_first env fd name st = (o, (call_unlinkat env fd name 0 st).2)) := by
  obtain ⟨h1, h2, h3, h4⟩ := unlink_first_spec env fd name st
  cases hc : env.cannot_unlink_dir with
  | false => exact Or.inl ⟨rfl, h1 hc⟩
  | true =>
    refine Or.inr ⟨rfl, ?_⟩
    by_cases h0 : env.unlinkat st.calls fd name 0 = 0
    · exact ⟨_, h2 hc h0⟩
    · by_cases hp : env.unlinkat st.calls fd name 0 = EPERM
      · exact ⟨_, h3 hc (Or.inl hp)⟩
      · by_cases hi : env.unlinkat st.calls fd name 0 = EISDIR
        · exact ⟨_, h3 hc (Or.inr hi)⟩
        · exact ⟨_, h4 hc h0 hp hi⟩

/-- Under the ordinary and the want-directory option, a name that
`safer_rmdir` refuses costs no call but the first `unlinkat`, if that is
tried. -/
theorem remove_any_file_refused_calls (env : RmEnv) (fd : Int) (fuel : Nat) (name : List Char)
    (option : remove_option) (st : RmState) (hm : must_be_dot_or_slash name = .ok true)
    (ho : option ≠ .RECURSIVE_REMOVE_OPTION) :
    ∃ r st', remove_any_file env fd (fuel + 1) name option st = .ok (r, st') ∧
      (env.cannot_unlink_dir = false → st'.calls = st.calls) ∧
      (env.cannot_unlink_dir = true →
        st'.calls = st.calls ++ [Call.unlinkat fd name 0 (env.unlinkat st.calls fd name 0)]) := by
  rcases unlink_first_total env fd name st with ⟨hc, hu⟩ | ⟨hc, o, hu⟩
  · obtain ⟨h1, h2, _⟩ := remove_any_file_refused env fd fuel name st st hm hu
    have hf : ¬ env.cannot_unlink_dir = true := by rw [hc]; decide
    cases option with
    | ORDINARY_REMOVE_OPTION => exact ⟨_, _, h1, fun _ => rfl, fun h => absurd h hf⟩
    | WANT_DIRECTORY_REMOVE_OPTION => exact ⟨_, _, h2, fun _ => rfl, fun h => absurd h hf⟩
    | RECURSIVE_REMOVE_OPTION => exact absurd rfl ho
  · have hf : ¬ env.cannot_unlink_dir = false := by rw [hc]; decide
    have hcalls := call_unlinkat_calls env fd name 0 st
    cases o with
    | some r =>
      exact ⟨_, _, remove_any_file_unlinked env fd fuel name option st _ r hu,
        fun h => absurd h hf, fun _ => hcalls⟩
    | none =>
      obtain ⟨h1, h2, _⟩ := remove_any_file_refused env fd fuel name st _ hm hu
      cases option with
      | ORDINARY_REMOVE_OPTION => exact ⟨_, _, h1, fun h => absurd h hf, fun _ => hcalls⟩
      | WANT_DIRECTORY_REMOVE_OPTION => exact ⟨_, _, h2, fun h => absurd h hf, fun _ => hcalls⟩
      | RECURSIVE_REMOVE_OPTION => exact absurd rfl ho

theorem extends_by_subset {P : Call → Prop} {st st' : RmState} (h : st.extends_by P st')
    (c : Call) (hc : c ∈ st.calls) : c ∈ st'.calls := by
  obtain ⟨new, e, _⟩ := h
  rw [e]
  exact List.mem_append_left _ hc

/-- The calls of a completed `remove_any_file` hold the call of `tar_savedir`
for a refused name under the recursive option, once the first statement is
past. -/
theorem remove_any_file_refused_lists (env : RmEnv) (fd : Int) (fuel : Nat) (name : List Char)
    (st st1 st' : RmState) (r : Int) (hm : must_be_dot_or_slash name = .ok true)
    (hu : unlink_first env fd name st = (none, st1))
    (h : remove_any_file env fd (fuel + 1) name .RECURSIVE_REMOVE_OPTION st = .ok (r, st')) :
    r = 0 ∧ Call.tar_savedir name (env.tar_savedir st1.calls fd name).1 ∈ st'.calls := by
  rw [(remove_any_file_refused env fd fuel name st st1 hm hu).2.2] at h
  split at h
  · rename_i e heq
    injection h with h
    injection h with h1 h2
    rw [← h2, heq]
    exact ⟨h1.symm, by simp⟩
  · rename_i directory e heq
    rw [heq]
    have hmem : Call.tar_savedir name (some directory) ∈
        ({ errno := e, calls := st1.calls ++ [Call.tar_savedir name (some directory)] }
          : RmState).calls := by simp
    split at h
    · cases h
    · rename_i st4 heq4
      injection h with h
      injection h with h1 h2
      rw [← h2]
      have hx := remove_entries_ext (P := fun _ => True) env _ name
        (fun n s r s' hr => by
          obtain ⟨new, e1, _⟩ := remove_any_file_guarded env fd fuel n _ s s' r hr
          exact ⟨new, e1, fun _ _ => trivial⟩) directory _ st4 false heq4
      exact ⟨h1.symm, extends_by_subset hx _ hmem⟩
    · rename_i st4 heq4
      injection h with h
      injection h with h1 h2
      rw [← h2]
      have hx := remove_entries_ext (P := fun _ => True) env _ name
        (fun n s r s' hr => by
          obtain ⟨new, e1, _⟩ := remove_any_file_guarded env fd fuel n _ s s' r hr
          exact ⟨new, e1, fun _ _ => trivial⟩) directory _ st4 true heq4
      exact ⟨h1.symm, extends_by_subset hx _ hmem⟩

/-- The values that `remove_any_file` returns: 1, 0, and -1 only under the
want-directory option. -/
theorem remove_any_file_result (env : RmEnv) (fd : Int) (fuel : Nat) (name : List Char)
    (option : remove_option) (st st' : RmState) (r : Int)
    (h : remove_any_file env fd fuel name option st = .ok (r, st')) :
    r = 1 ∨ r = 0 ∨ (r = -1 ∧ option = .WANT_DIRECTORY_REMOVE_OPTION) := by
  cases fuel with
  | zero => cases h
  | succ fuel =>
    simp only [remove_any_file] at h
    split at h
    · rename_i r1 st1 heq
      injection h with h
      injection h with h1 _
      rw [← h1]
      unfold unlink_first at heq
      split at heq
      · split at heq
        · injection heq with h3 _
          injection h3 with h3
          exact Or.inl h3.symm
        · split at heq
          · injection heq with h3 _
            injection h3 with h3
            exact Or.inr (Or.inl h3.symm)
          · injection heq with h3 _
            cases h3
      · injection heq with h3 _
        cases h3
    · split at h
      · cases h
      · split at h
        · injection h with h
          injection h with h1 _
          exact Or.inl h1.symm
        · split at h
          · split at h
            · split at h
              · injection h with h
                injection h with h1 _
                exact Or.inl h1.symm
              · injection h with h
                injection h with h1 _
                exact Or.inr (Or.inl h1.symm)
            · injection h with h
              injection h with h1 _
              exact Or.inr (Or.inl h1.symm)
          · split at h
            · split at h
              · injection h with h
                injection h with h1 _
                exact Or.inr (Or.inl h1.symm)
              · injection h with h
                injection h with h1 _
                exact Or.inr (Or.inr ⟨h1.symm, rfl⟩)
              · split at h
                · injection h with h
                  injection h with h1 _
                  exact Or.inr (Or.inl h1.symm)
                · split at h
                  · cases h
                  · injection h with h
                    injection h with h1 _
                    exact Or.inr (Or.inl h1.symm)
                  · split at h
                    · cases h
                    · injection h with h
                      injection h with h1 _
                      rw [← h1]
                      split
                      · exact Or.inl rfl
                      · exact Or.inr (Or.inl rfl)
            · injection h with h
              injection h with h1 _
              exact Or.inr (Or.inl h1.symm)

/-- The function `remove_any_file` for a name that `safer_rmdir` does not
refuse and whose `rmdir` fails with `EEXIST` or `ENOTEMPTY`, once the first
statement is past. -/
theorem remove_any_file_rmdir_fails (env : RmEnv) (fd : Int) (fuel : Nat) (name : List Char)
    (st st1 : RmState) (e : Nat) (hm : must_be_dot_or_slash name = .ok false)
    (hu : unlink_first env fd name st = (none, st1))
    (he : env.unlinkat st1.calls fd name AT_REMOVEDIR = e) (hne : e = EEXIST ∨ e = ENOTEMPTY) :
    remove_any_file env fd (fuel + 1) name .ORDINARY_REMOVE_OPTION st
      = .ok (0, { errno := e, calls := st1.calls ++ [Call.unlinkat fd name AT_REMOVEDIR e] }) ∧
    remove_any_file env fd (fuel + 1) name .WANT_DIRECTORY_REMOVE_OPTION st
      = .ok (-1, { errno := e, calls := st1.calls ++ [Call.unlinkat fd name AT_REMOVEDIR e] }) := by
  have hs : safer_rmdir env fd name st1
      = .ok (-1, { errno := e, calls := st1.calls ++ [Call.unlinkat fd name AT_REMOVEDIR e] }) := by
    unfold safer_rmdir call_unlinkat
    rw [hm, he]
    rcases hne with hne | hne <;> subst hne <;> rfl
  have h1 : ¬ ((-1 : Int) = 0) := by decide
  have h2 : ¬ e = ENOTDIR := by rcases hne with hne | hne <;> subst hne <;> decide
  have h3 : e = 0 ∨ e = EEXIST ∨ e = ENOTEMPTY := Or.inr hne
  constructor
  · simp only [remove_any_file, hu, hs, h1, h2, h3, if_false, if_true]
  · simp only [remove_any_file, hu, hs, h1, h2, h3, if_false, if_true]

theorem cchar_zero (f : List Char) :
    ∃ c, cchar f 0 = .ok c ∧ ((f = [] ∧ c = NUL) ∨ ∃ r, f = c :: r) := by
  cases f with
  | nil => exact ⟨NUL, rfl, Or.inl ⟨rfl, rfl⟩⟩
  | cons c r => exact ⟨c, by simp [cchar], Or.inr ⟨r, rfl⟩⟩

theorem cchar_cons_two (a b : Char) (f : List Char) : cchar (a :: b :: f) 2 = cchar f 0 :=
  (cchar_cons_succ a (b :: f) 1).trans (cchar_cons_succ b f 0)

theorem cchar_cons_three (a b c : Char) (f : List Char) :
    cchar (a :: b :: c :: f) 3 = cchar f 0 :=
  (cchar_cons_succ a (b :: c :: f) 2).trans (cchar_cons_two b c f)

/-- The loop of `must_be_dot_or_slash` for a name that starts with a slash
ends, within the bounds of the string. -/
theorem slash_loop_total : ∀ (fuel : Nat) (f : List Char), f ≠ [] → f.length ≤ fuel →
    ∃ b, slash_loop fuel f = .ok b := by
  intro fuel
  induction fuel with
  | zero =>
    intro f hne hlen
    exact absurd (List.length_eq_zero.mp (Nat.le_zero.mp hlen)) hne
  | succ fuel ih =>
    intro f hne hlen
    obtain ⟨c0, rest, rfl⟩ := List.exists_cons_of_ne_nil hne
    simp only [List.length_cons] at hlen
    unfold slash_loop
    obtain ⟨c1, h1, hc1⟩ := cchar_zero rest
    rw [cchar_cons_succ, h1]
    simp only
    by_cases hs1 : ISSLASH c1 = true
    · rw [if_pos hs1]
      rcases hc1 with ⟨_, hn⟩ | ⟨r, hr⟩
      · rw [hn] at hs1; exact absurd hs1 (by decide)
      · exact ih _ (by simp [hr]) (by simp; omega)
    · rw [if_neg hs1]
      by_cases hd1 : (c1 == '.') = true
      · rw [if_pos hd1]
        rcases hc1 with ⟨_, hn⟩ | ⟨rest2, hr⟩
        · rw [hn] at hd1; exact absurd hd1 (by decide)
        · subst hr
          obtain ⟨c2, h2, hc2⟩ := cchar_zero rest2
          rw [cchar_cons_two, h2]
          simp only
          by_cases hd2 : (c2 == '.') = true
          · rw [if_pos hd2]
            rcases hc2 with ⟨_, hn⟩ | ⟨rest3, hr⟩
            · rw [hn] at hd2; exact absurd hd2 (by decide)
            · subst hr
              obtain ⟨c3, h3, hc3⟩ := cchar_zero rest3
              rw [cchar_cons_three, h3]
              simp only
              by_cases hs3 : ISSLASH c3 = true
              · rw [if_pos hs3]
                rcases hc3 with ⟨_, hn⟩ | ⟨r, hr⟩
                · rw [hn] at hs3; exact absurd hs3 (by decide)
                · exact ih _ (by simp [hr]) (by simp at hlen ⊢; omega)
              · rw [if_neg hs3]; exact ⟨_, rfl⟩
          · rw [if_neg hd2, Nat.add_zero, cchar_cons_two, h2]
            simp only
            by_cases hs2 : ISSLASH c2 = true
            · rw [if_pos hs2]
              rcases hc2 with ⟨_, hn⟩ | ⟨r, hr⟩
              · rw [hn] at hs2; exact absurd hs2 (by decide)
              · exact ih _ (by simp [hr]) (by simp at hlen ⊢; omega)
            · rw [if_neg hs2]; exact ⟨_, rfl⟩
      · rw [if_neg hd1]; exact ⟨_, rfl⟩

theorem empty_or_dot_total (f : List Char) : ∃ b, empty_or_dot f = .ok b := by
  unfold empty_or_dot
  obtain ⟨c0, h0, hc0⟩ := cchar_zero f
  rw [h0]
  simp only
  by_cases hn0 : (c0 == NUL) = true
  · rw [if_pos hn0]; exact ⟨_, rfl⟩
  · rw [if_neg hn0]
    by_cases hd0 : (c0 == '.') = true
    · rw [if_pos hd0]
      rcases hc0 with ⟨_, hn⟩ | ⟨r, hr⟩
      · rw [hn] at hd0; exact absurd hd0 (by decide)
      · subst hr
        obtain ⟨c1, h1, _⟩ := cchar_zero r
        rw [cchar_cons_succ, h1]
        exact ⟨_, rfl⟩
    · rw [if_neg hd0]; exact ⟨_, rfl⟩

/-- The function `must_be_dot_or_slash` returns for every name, without a read
behind the terminating NUL. -/
theorem must_be_dot_or_slash_total (name : List Char) :
    ∃ b, must_be_dot_or_slash name = .ok b := by
  unfold must_be_dot_or_slash
  obtain ⟨c0, h0, hc0⟩ := cchar_zero name
  rw [h0]
  simp only
  split
  · rename_i hs
    rcases hc0 with ⟨_, hn⟩ | ⟨r, hr⟩
    · rw [hn] at hs; exact absurd hs (by decide)
    · exact slash_loop_total _ _ (by simp [hr]) (Nat.le_succ _)
  · obtain ⟨d1, hd1, _⟩ := skip_dot_slash_spec (name.length + 1) name (Nat.lt_succ_self _)
    rw [hd1]
    exact empty_or_dot_total d1

/-- Under the ordinary and the want-directory option `remove_any_file` returns
for every name, without a recursive call. -/
theorem remove_any_file_total (env : RmEnv) (fd : Int) (fuel : Nat) (name : List Char)
    (option : remove_option) (st : RmState) (ho : option ≠ .RECURSIVE_REMOVE_OPTION) :
    ∃ r st', remove_any_file env fd (fuel + 1) name option st = .ok (r, st') := by
  obtain ⟨b, hb⟩ := must_be_dot_or_slash_total name
  have hs : ∀ st1, ∃ r st2, safer_rmdir env fd name st1 = .ok (r, st2) := by
    intro st1
    unfold safer_rmdir
    rw [hb]
    cases b with
    | true => exact ⟨_, _, rfl⟩
    | false =>
      simp only
      split <;> exact ⟨_, _, rfl⟩
  simp only [remove_any_file]
  split
  · exact ⟨_, _, rfl⟩
  · rename_i st1 _
    obtain ⟨r, st2, h2⟩ := hs st1
    rw [h2]
    simp only
    split
    · exact ⟨_, _, rfl⟩
    · split
      · split
        · split <;> exact ⟨_, _, rfl⟩
        · exact ⟨_, _, rfl⟩
      · split
        · cases option with
          | ORDINARY_REMOVE_OPTION => exact ⟨_, _, rfl⟩
          | WANT_DIRECTORY_REMOVE_OPTION => exact ⟨_, _, rfl⟩
          | RECURSIVE_REMOVE_OPTION => exact absurd rfl ho
        · exact ⟨_, _, rfl⟩

/-- C17 fails: on a host where directories cannot be unlinked,
`remove_any_file (".")` first calls `unlinkat (chdir_fd, ".", 0)`; and under
the recursive option it lists "." and removes the entry "./f". -/
theorem remove_any_file_dot_makes_calls :
    must_be_dot_or_slash ['.'] = .ok true ∧
    remove_any_file rm_env1 AT_FDCWD 1 ['.'] .ORDINARY_REMOVE_OPTION RmState.init
      = .ok (0, { errno := 0, calls := [Call.unlinkat AT_FDCWD ['.'] 0 EISDIR] }) ∧
    remove_any_file rm_env0 AT_FDCWD 2 ['.'] .RECURSIVE_REMOVE_OPTION RmState.init
      = .ok (0, { errno := 0, calls :=
          [Call.tar_savedir ['.'] (some [['f']]),
           Call.unlinkat AT_FDCWD "./f".toList AT_REMOVEDIR ENOTDIR,
           Call.unlinkat AT_FDCWD "./f".toList 0 0] }) :=
  ⟨rfl, rfl, rfl⟩

/-- C17, amended. Let the name be "." or consist only of slashes. Under the
ordinary and the want-directory option `remove_any_file` completes and makes
no call at all when `cannot_unlink_dir ()` is false, and exactly one call, the
`unlinkat (chdir_fd, name, 0)` that is tried first, when it is true; `rmdir`
and the directory listing are not called. Under the recursive option, once
that first `unlinkat` is past (not tried, or failed with `EPERM` or `EISDIR`),
a completed call has listed the directory. -/
theorem remove_any_file_dot_calls (env : RmEnv) (fd : Int) (fuel : Nat) (name : List Char)
    (st : RmState) (hname : name = ['.'] ∨ ∃ k, name = List.replicate (k + 1) '/') :
    (∀ option, option ≠ remove_option.RECURSIVE_REMOVE_OPTION →
      ∃ r st', remove_any_file env fd (fuel + 1) name option st = .ok (r, st') ∧
        (env.cannot_unlink_dir = false → st'.calls = st.calls) ∧
        (env.cannot_unlink_dir = true →
          st'.calls = st.calls ++ [Call.unlinkat fd name 0 (env.unlinkat st.calls fd name 0)])) ∧
    (∀ r st', (env.cannot_unlink_dir = false ∨ env.unlinkat st.calls fd name 0 = EPERM ∨
        env.unlinkat st.calls fd name 0 = EISDIR) →
      remove_any_file env fd (fuel + 1) name .RECURSIVE_REMOVE_OPTION st = .ok (r, st') →
      ∃ ret, Call.tar_savedir name ret ∈ st'.calls) := by
  have hm := must_be_dot_or_slash_obvious name hname
  refine ⟨fun option ho => remove_any_file_refused_calls env fd fuel name option st hm ho, ?_⟩
  intro r st' hu h
  obtain ⟨h1, _, h3, _⟩ := unlink_first_spec env fd name st
  have hu' : ∃ st1, unlink_first env fd name st = (none, st1) := by
    cases hc : env.cannot_unlink_dir with
    | false => exact ⟨_, h1 hc⟩
    | true =>
      rcases hu with hu | hu
      · rw [hc] at hu; cases hu
      · exact ⟨_, h3 hc hu⟩
  obtain ⟨st1, hu1⟩ := hu'
  exact ⟨_, (remove_any_file_refused_lists env fd fuel name st st1 st' r hm hu1 h).2⟩

/-- C17 amended, for the name "//" under the want-directory option on a host
where directories can be unlinked: no call is made. -/
theorem remove_any_file_dot_calls_witness :
    ∃ r st', remove_any_file rm_env0 AT_FDCWD 1 "//".toList .WANT_DIRECTORY_REMOVE_OPTION
        RmState.init = .ok (r, st') ∧ st'.calls = [] := by
  obtain ⟨r, st', h1, h2, _⟩ :=
    (remove_any_file_dot_calls rm_env0 AT_FDCWD 0 "//".toList RmState.init
      (Or.inr ⟨1, rfl⟩)).1 .WANT_DIRECTORY_REMOVE_OPTION (by decide)
  exact ⟨r, st', h1, h2 rfl⟩

/-- C18 fails: `remove_any_file (".", WANT_DIRECTORY_REMOVE_OPTION)` returns
-1, not 0. -/
theorem remove_any_file_dot_want_directory :
    must_be_dot_or_slash ['.'] = .ok true ∧
    remove_any_file rm_env0 AT_FDCWD 1 ['.'] .WANT_DIRECTORY_REMOVE_OPTION RmState.init
      = .ok (-1, { errno := 0, calls := [] }) :=
  ⟨rfl, rfl⟩

/-- C18, amended. Let `must_be_dot_or_slash` be true for the name, and let the
`unlinkat` that is tried first be past (not tried, or failed with `EPERM` or
`EISDIR`). Then `remove_any_file` returns 0 with `errno` 0 under the ordinary
option and -1 with `errno` 0 under the want-directory option; under the
recursive option a completed call returns 0, and with `errno` 0 when the
directory was listed and had no entry. -/
theorem remove_any_file_refused_result (env : RmEnv) (fd : Int) (fuel : Nat) (name : List Char)
    (st : RmState) (hm : must_be_dot_or_slash name = .ok true)
    (hu : env.cannot_unlink_dir = false ∨ env.unlinkat st.calls fd name 0 = EPERM ∨
      env.unlinkat st.calls fd name 0 = EISDIR) :
    (∃ st', remove_any_file env fd (fuel + 1) name .ORDINARY_REMOVE_OPTION st = .ok (0, st') ∧
      st'.errno = 0) ∧
    (∃ st', remove_any_file env fd (fuel + 1) name .WANT_DIRECTORY_REMOVE_OPTION st
        = .ok (-1, st') ∧ st'.errno = 0) ∧
    (∀ r st', remove_any_file env fd (fuel + 1) name .RECURSIVE_REMOVE_OPTION st = .ok (r, st') →
      r = 0) ∧
    (∀ e, env.tar_savedir (unlink_first env fd name st).2.calls fd name = (some [], e) →
      ∃ st', remove_any_file env fd (fuel + 1) name .RECURSIVE_REMOVE_OPTION st = .ok (0, st') ∧
        st'.errno = 0) := by
  obtain ⟨h1, _, h3, _⟩ := unlink_first_spec env fd name st
  have hu' : ∃ st1, unlink_first env fd name st = (none, st1) := by
    cases hc : env.cannot_unlink_dir with
    | false => exact ⟨_, h1 hc⟩
    | true =>
      rcases hu with hu | hu
      · rw [hc] at hu; cases hu
      · exact ⟨_, h3 hc hu⟩
  obtain ⟨st1, hu1⟩ := hu'
  obtain ⟨r1, r2, r3⟩ := remove_any_file_refused env fd fuel name st st1 hm hu1
  refine ⟨⟨_, r1, rfl⟩, ⟨_, r2, rfl⟩, ?_, ?_⟩
  · intro r st' h
    exact (remove_any_file_refused_lists env fd fuel name st st1 st' r hm hu1 h).1
  · intro e he
    rw [hu1] at he
    rw [r3]
    simp only [he, remove_entries]
    exact ⟨_, rfl, rfl⟩

/-- C18 amended, for the name "." on a host where directories cannot be
unlinked and the first `unlinkat` fails with `EISDIR`. -/
theorem remove_any_file_refused_result_witness :
    must_be_dot_or_slash ['.'] = .ok true ∧
    rm_env1.unlinkat RmState.init.calls AT_FDCWD ['.'] 0 = EISDIR ∧
    (∃ st', remove_any_file rm_env1 AT_FDCWD 1 ['.'] .ORDINARY_REMOVE_OPTION RmState.init
        = .ok (0, st') ∧ st'.errno = 0) ∧
    (∃ st', remove_any_file rm_env1 AT_FDCWD 1 ['.'] .WANT_DIRECTORY_REMOVE_OPTION RmState.init
        = .ok (-1, st') ∧ st'.errno = 0) :=
  ⟨rfl, rfl,
    (remove_any_file_refused_result rm_env1 AT_FDCWD 0 ['.'] RmState.init rfl
      (Or.inr (Or.inr rfl))).1,
    (remove_any_file_refused_result rm_env1 AT_FDCWD 0 ['.'] RmState.init rfl
      (Or.inr (Or.inr rfl))).2.1⟩

/-- C19 fails: under the recursive option `remove_any_file (".")` lists "."
and removes its entry "./f". -/
theorem remove_any_file_dot_recursive_removes :
    ∃ st', remove_any_file rm_env0 AT_FDCWD 2 ['.'] .RECURSIVE_REMOVE_OPTION RmState.init
        = .ok (0, st') ∧ removals RmState.init.calls = [] ∧
      removals st'.calls = ["./f".toList] :=
  ⟨_, rfl, rfl, rfl⟩

/-- C19, amended. Let the name be "." or consist only of slashes. Under the
ordinary and the want-directory option `remove_any_file` removes nothing and
does not return 1, provided the `unlinkat` that is tried first when
`cannot_unlink_dir ()` is true fails, as it does for a directory on such a
host. Under every option, the recursive one included, no call at any depth is
an `rmdir` of a name for which `must_be_dot_or_slash` is true: the entries of
the directory may be removed, the directory itself is not. -/
theorem remove_any_file_dot_removes_nothing (env : RmEnv) (fd : Int) (fuel : Nat)
    (name : List Char) (st : RmState)
    (hname : name = ['.'] ∨ ∃ k, name = List.replicate (k + 1) '/') :
    (∀ option, option ≠ remove_option.RECURSIVE_REMOVE_OPTION →
      (env.cannot_unlink_dir = true → env.unlinkat st.calls fd name 0 ≠ 0) →
      ∃ r st', remove_any_file env fd (fuel + 1) name option st = .ok (r, st') ∧
        removals st'.calls = removals st.calls ∧ r ≠ 1) ∧
    (∀ option r st', remove_any_file env fd (fuel + 1) name option st = .ok (r, st') →
      st.extends_by Call.guarded st' ∧
      ∀ d e, Call.unlinkat d name AT_REMOVEDIR e ∈ st'.calls →
        Call.unlinkat d name AT_REMOVEDIR e ∈ st.calls) := by
  have hm := must_be_dot_or_slash_obvious name hname
  constructor
  · intro option ho hfail
    obtain ⟨r, st', h1, h2, h3⟩ := remove_any_file_refused_calls env fd fuel name option st hm ho
    refine ⟨r, st', h1, ?_, ?_⟩
    · cases hc : env.cannot_unlink_dir with
      | false => rw [h2 hc]
      | true =>
        rw [h3 hc, removals_append]
        simp [removals, hfail hc]
    · intro hr1
      subst hr1
      rcases unlink_first_total env fd name st with ⟨hc, hu⟩ | ⟨hc, o, hu⟩
      · obtain ⟨e1, e2, _⟩ := remove_any_file_refused env fd fuel name st st hm hu
        cases option with
        | ORDINARY_REMOVE_OPTION => rw [e1] at h1; cases h1
        | WANT_DIRECTORY_REMOVE_OPTION => rw [e2] at h1; cases h1
        | RECURSIVE_REMOVE_OPTION => exact ho rfl
      · obtain ⟨_, u2, u3, u4⟩ := unlink_first_spec env fd name st
        have hne := hfail hc
        by_cases hp : env.unlinkat st.calls fd name 0 = EPERM ∨
            env.unlinkat st.calls fd name 0 = EISDIR
        · obtain ⟨e1, e2, _⟩ := remove_any_file_refused env fd fuel name st _ hm (u3 hc hp)
          cases option with
          | ORDINARY_REMOVE_OPTION => rw [e1] at h1; cases h1
          | WANT_DIRECTORY_REMOVE_OPTION => rw [e2] at h1; cases h1
          | RECURSIVE_REMOVE_OPTION => exact ho rfl
        · have := remove_any_file_unlinked env fd fuel name option st _ 0
            (u4 hc hne (fun e => hp (Or.inl e)) (fun e => hp (Or.inr e)))
          rw [this] at h1
          cases h1
  · intro option r st' h
    have hg := remove_any_file_guarded env fd (fuel + 1) name option st st' r h
    refine ⟨hg, ?_⟩
    intro d e hmem
    obtain ⟨new, e1, hnew⟩ := hg
    rw [e1] at hmem
    rcases List.mem_append.mp hmem with hmem | hmem
    · exact hmem
    · have := hnew _ hmem d name e rfl
      rw [hm] at this
      cases this

/-- C19 amended, for the name "." under the ordinary option on a host where
directories cannot be unlinked: the first `unlinkat` fails and nothing is
removed. -/
theorem remove_any_file_dot_removes_nothing_witness :
    ∃ r st', remove_any_file rm_env1 AT_FDCWD 1 ['.'] .ORDINARY_REMOVE_OPTION RmState.init
        = .ok (r, st') ∧ removals st'.calls = removals RmState.init.calls ∧ r ≠ 1 :=
  (remove_any_file_dot_removes_nothing rm_env1 AT_FDCWD 0 ['.'] RmState.init (Or.inl rfl)).1
    .ORDINARY_REMOVE_OPTION (by decide) (fun _ => by decide)

/-- C20. Let `file_name` be a name that `safer_rmdir` does not refuse and whose
`rmdir` fails with `EEXIST` or `ENOTEMPTY`, the `unlinkat` that is tried first
being past (not tried, or failed with `EPERM` or `EISDIR`). Then
`remove_any_file` returns -1 under the want-directory option and 0 under the
ordinary option; in both cases the calls are those up to the failed `rmdir`,
`errno` is the one of the `rmdir`, nothing is listed and nothing is removed.
Under the ordinary and the recursive option `remove_any_file` never returns
-1. -/
theorem remove_any_file_not_empty (env : RmEnv) (fd : Int) (fuel : Nat) (name : List Char)
    (st : RmState) (e : Nat) (hm : must_be_dot_or_slash name = .ok false)
    (hu : env.cannot_unlink_dir = false ∨ env.unlinkat st.calls fd name 0 = EPERM ∨
      env.unlinkat st.calls fd name 0 = EISDIR)
    (he : env.unlinkat (unlink_first env fd name st).2.calls fd name AT_REMOVEDIR = e)
    (hne : e = EEXIST ∨ e = ENOTEMPTY) :
    (∃ st', remove_any_file env fd (fuel + 1) name .WANT_DIRECTORY_REMOVE_OPTION st
        = .ok (-1, st') ∧
      remove_any_file env fd (fuel + 1) name .ORDINARY_REMOVE_OPTION st = .ok (0, st') ∧
      st'.errno = e ∧
      st'.calls = (unlink_first env fd name st).2.calls ++ [Call.unlinkat fd name AT_REMOVEDIR e] ∧
      removals st'.calls = removals st.calls ∧
      ∀ n ret, Call.tar_savedir n ret ∈ st'.calls → Call.tar_savedir n ret ∈ st.calls) ∧
    (∀ (fuel' : Nat) (name' : List Char) (option : remove_option) (st0 st' : RmState) (r : Int),
      option ≠ .WANT_DIRECTORY_REMOVE_OPTION →
      remove_any_file env fd fuel' name' option st0 = .ok (r, st') → r ≠ -1) := by
  obtain ⟨h1, _, h3, _⟩ := unlink_first_spec env fd name st
  have hu' : ∃ st1, unlink_first env fd name st = (none, st1) ∧
      (st1.calls = st.calls ∨ ∃ x, x ≠ 0 ∧ st1.calls = st.calls ++ [Call.unlinkat fd name 0 x]) := by
    cases hc : env.cannot_unlink_dir with
    | false => exact ⟨_, h1 hc, Or.inl rfl⟩
    | true =>
      rcases hu with hu | hu
      · rw [hc] at hu; cases hu
      · refine ⟨_, h3 hc hu, Or.inr ⟨env.unlinkat st.calls fd name 0, ?_, rfl⟩⟩
        rcases hu with hu | hu <;> rw [hu] <;> decide
  obtain ⟨st1, hu1, hcalls⟩ := hu'
  rw [hu1] at he
  obtain ⟨r1, r2⟩ := remove_any_file_rmdir_fails env fd fuel name st st1 e hm hu1 he hne
  have he0 : e ≠ 0 := by rcases hne with hne | hne <;> subst hne <;> decide
  have hrem : removals (st1.calls ++ [Call.unlinkat fd name AT_REMOVEDIR e]) = removals st.calls := by
    rw [removals_append]
    rcases hcalls with hc | ⟨x, hx, hc⟩
    · rw [hc]; simp [removals, he0]
    · rw [hc, removals_append]; simp [removals, he0, hx]
  refine ⟨⟨_, r2, r1, rfl, by rw [hu1], hrem, ?_⟩, ?_⟩
  · intro n ret hmem
    simp only [List.mem_append, List.mem_singleton] at hmem
    rcases hmem with hmem | hmem
    · rcases hcalls with hc | ⟨x, _, hc⟩
      · rw [hc] at hmem; exact hmem
      · rw [hc] at hmem
        simp only [List.mem_append, List.mem_singleton] at hmem
        rcases hmem with hmem | hmem
        · exact hmem
        · cases hmem
    · cases hmem
  · intro fuel' name' option st0 st' r ho h
    rcases remove_any_file_result env fd fuel' name' option st0 st' r h with hr | hr | ⟨_, hr⟩
    · rw [hr]; decide
    · rw [hr]; decide
    · exact absurd hr ho

/-- C20, for the directory "d" in an environment where it is not empty. -/
theorem remove_any_file_not_empty_witness :
    must_be_dot_or_slash ['d'] = .ok false ∧
    ∃ st', remove_any_file rm_env2 AT_FDCWD 1 ['d'] .WANT_DIRECTORY_REMOVE_OPTION RmState.init
        = .ok (-1, st') ∧
      remove_any_file rm_env2 AT_FDCWD 1 ['d'] .ORDINARY_REMOVE_OPTION RmState.init
        = .ok (0, st') ∧
      st'.errno = ENOTEMPTY ∧ removals st'.calls = removals RmState.init.calls := by
  obtain ⟨st', h1, h2, h3, _, h5, _⟩ :=
    (remove_any_file_not_empty rm_env2 AT_FDCWD 0 ['d'] RmState.init ENOTEMPTY rfl
      (Or.inr (Or.inr rfl)) rfl (Or.inr rfl)).1
  exact ⟨rfl, st', h1, h2, h3, h5⟩

/-! ## Claims on `chdir_do`: termination, order of the opens, flags -/

/-- A call `chdir_do (i)` from a state with the invariant, in an environment
whose `openat` may fail: it completes, with the invariant kept, or it ends in
`open_fatal` with the name of the entry whose open failed. -/
theorem chdir_do_run (env : Env) (hnz : env.opens_nonzero) :
    ∀ (i : Nat) (s : State), Inv s → (i = 0 ∨ i < s.wd.length) →
      (∃ s', chdir_do env i s = .ok s' ∧ Inv s' ∧ s'.chdir_current = i ∧ Frame i s s') ∨
      (∃ j e, j ≤ i ∧ s.wd[j]? = some e ∧ e.fd = 0 ∧
        chdir_do env i s = .error (.open_fatal e.name)) := by
  intro i
  induction i with
  | zero =>
    intro s h _
    left
    by_cases hc : s.chdir_current = 0
    · exact ⟨s, by simp [chdir_do, chdir_do_body, hc], h, hc, Frame.refl _ _⟩
    · have hhead := h.current.resolve_left hc
      have hmem : s.chdir_current ∈ s.cache := List.mem_of_mem_head? hhead
      have hlt := (h.cached _ hmem).2.1
      have hne : s.wd ≠ [] := by
        intro e; rw [e] at hlt; simp at hlt
      obtain ⟨e0, t, hwd⟩ := List.exists_cons_of_ne_nil hne
      have h0 : s.wd[0]? = some e0 := by rw [hwd]; simp
      have hfd0 : e0.fd = AT_FDCWD := by
        have := h.entry0 hne
        rw [fdOf_of_get h0] at this
        exact this
      refine ⟨{ s with chdir_current := 0, chdir_fd := AT_FDCWD }, ?_, ?_, rfl,
        ⟨rfl, fun _ _ hz => hz, rfl, ⟨[], by simp⟩⟩⟩
      · simp [chdir_do, chdir_do_body, hc, h0, hfd0, chdir_do_finish, AT_FDCWD]
      · exact ⟨h.cache_len, h.count_le, h.nodup, h.cached, h.uncached, h.entry0, Or.inl rfl,
          by simp, h.alloc, h.live⟩
  | succ k ih =>
    intro s h hv
    have hlt : k + 1 < s.wd.length := by
      rcases hv with hv | hv
      · omega
      · exact hv
    by_cases hc : s.chdir_current = k + 1
    · exact Or.inl ⟨s, by simp [chdir_do, chdir_do_body, hc], h, hc, Frame.refl _ _⟩
    · obtain ⟨curr, hcurr⟩ : ∃ curr, s.wd[k + 1]? = some curr :=
        ⟨s.wd[k + 1], List.getElem?_eq_getElem hlt⟩
      by_cases hz : curr.fd = 0
      · have hunf : ∀ r, (if !IS_ABSOLUTE_FILE_NAME curr.name then chdir_do env k s else .ok s)
            = r → chdir_do env (k + 1) s = (match r with
              | .error e => .error e
              | .ok s1 =>
                match chdir_do_open env (k + 1) s1 with
                | .error e => .error e
                | .ok (fd, s2) => chdir_do_finish (k + 1) fd s2) := by
          intro r hr
          rw [chdir_do, chdir_do_body]
          simp only [hc, ne_eq, not_false_eq_true, if_true, hcurr, hz]
          rw [hr]
        have hpar : (∃ s1, (if !IS_ABSOLUTE_FILE_NAME curr.name then chdir_do env k s else .ok s)
            = .ok s1 ∧ Inv s1 ∧ Frame k s s1) ∨
            (∃ j e, j ≤ k ∧ s.wd[j]? = some e ∧ e.fd = 0 ∧
              (if !IS_ABSOLUTE_FILE_NAME curr.name then chdir_do env k s else .ok s)
                = .error (.open_fatal e.name)) := by
          by_cases habs : IS_ABSOLUTE_FILE_NAME curr.name
          · exact Or.inl ⟨s, by simp [habs], h, Frame.refl _ _⟩
          · rcases ih s h (Or.inr (by omega)) with ⟨s1, h1, h2, _, h4⟩ | ⟨j, e, hj, he, hez, herr⟩
            · exact Or.inl ⟨s1, by simp [habs, h1], h2, h4⟩
            · exact Or.inr ⟨j, e, hj, he, hez, by simp [habs, herr]⟩
        rcases hpar with ⟨s1, hs1, hinv1, hfr1⟩ | ⟨j, e, hj, he, hez, herr⟩
        · obtain ⟨curr1, hcurr1, hname1, _⟩ := hfr1.name (k + 1) curr hcurr
          have hz1 : curr1.fd = 0 := by
            have := hfr1.above (k + 1) (by omega) (by rw [fdOf_of_get hcurr]; exact hz)
            rw [fdOf_of_get hcurr1] at this
            exact this
          by_cases hpos : 0 < open_ret env s1 curr1
          · obtain ⟨s2, s', ho, hf, hinv', hcur', _, halloc', hstep⟩ :=
              open_finish_spec env hinv1 (Nat.succ_pos k) hcurr1 hz1 hpos
            obtain ⟨hst, hab, t2, htr⟩ := hstep.frame hcurr1
            refine Or.inl ⟨s', ?_, hinv', hcur', ?_⟩
            · rw [hunf _ hs1]
              simp only [ho, hf]
            · obtain ⟨t1, htr1⟩ := hfr1.trace
              refine ⟨by rw [hst, hfr1.static], ?_, by rw [halloc', hfr1.alloc],
                ⟨t1 ++ t2, by rw [htr, htr1, List.append_assoc]⟩⟩
              intro j hj hzj
              exact hab j (by omega) (hfr1.above j (by omega) hzj)
          · have hneg : open_ret env s1 curr1 < 0 := by
              have := hnz s1.trace s1.chdir_fd curr1.name (chdir_open_flags env)
              have e : open_ret env s1 curr1
                  = env.openat s1.trace s1.chdir_fd curr1.name (chdir_open_flags env) := rfl
              omega
            refine Or.inr ⟨k + 1, curr, le_refl _, hcurr, hz, ?_⟩
            rw [hunf _ hs1]
            have : chdir_do_open env (k + 1) s1 = .error (.open_fatal curr1.name) := by
              unfold chdir_do_open
              simp only [hcurr1]
              have e : env.openat s1.trace s1.chdir_fd curr1.name (chdir_open_flags env)
                  = open_ret env s1 curr1 := rfl
              rw [e, if_pos hneg]
            simp only [this, hname1]
        · exact Or.inr ⟨j, e, by omega, he, hez, by rw [hunf _ herr]⟩
      · have hmem : k + 1 ∈ s.cache := by
          by_contra hn
          have := h.uncached (k + 1) (Nat.succ_pos k) hn
          rw [fdOf_of_get hcurr] at this
          exact hz this
        have hfdpos : 0 < curr.fd := by
          have := (h.cached _ hmem).2.2
          rw [fdOf_of_get hcurr] at this
          exact this
        obtain ⟨s', hf, hinv', hcur', _, _, hwd', htr', halloc', _⟩ :=
          finish_cached h hmem hfdpos (fdOf_of_get hcurr).symm
        refine Or.inl ⟨s', ?_, hinv', hcur', ?_⟩
        · rw [chdir_do, chdir_do_body]
          simp only [hc, ne_eq, not_false_eq_true, if_true, hcurr, hz, if_false]
          exact hf
        · refine ⟨by rw [hwd'], ?_, halloc', ⟨[], by simp [htr']⟩⟩
          intro j _ hzj
          show fdAt s'.wd j = 0
          rw [hwd']; exact hzj

/-- The invariant holds in every reachable state also when `openat` may fail,
as long as it does not return 0. -/
theorem Reachable.inv_of_nonzero {env : Env} (hnz : env.opens_nonzero) {s : State}
    (hr : Reachable env s) : Inv s := by
  induction hr with
  | init => exact Inv_init
  | arg s s' dir idx _ hs ih => exact chdir_arg_inv env ih hs
  | chdir s s' i _ hv hs ih =>
    rcases chdir_do_run env hnz i s ih hv with ⟨s'', h1, h2, _⟩ | ⟨_, _, _, _, _, herr⟩
    · rw [hs] at h1
      injection h1 with h1
      subst h1
      exact h2
    · rw [hs] at herr
      cases herr

/-- The loop of the move to the front stops within `CHDIR_CACHE_SIZE` tests of
its condition, reading inside the array, when `i` is in the array. -/
theorem move_loop_bound (i : Nat) (w : List Nat) (prev : Nat)
    (hlen : w.length = CHDIR_CACHE_SIZE) (hi : i ∈ w) (h0 : w[0]? = some prev) :
    ∃ r, move_loop i CHDIR_CACHE_SIZE 1 prev w = .ok r ∧ r.length = CHDIR_CACHE_SIZE := by
  obtain ⟨a, t, rfl⟩ : ∃ a t, w = a :: t := by
    cases w with
    | nil => simp at hi
    | cons a t => exact ⟨a, t, rfl⟩
  simp only [List.getElem?_cons_zero, Option.some.injEq] at h0
  subst h0
  by_cases ha : a = i
  · subst ha
    exact ⟨a :: t, by simp [move_loop, CHDIR_CACHE_SIZE], hlen⟩
  · have hi' : i ∈ t := by
      rcases List.mem_cons.mp hi with h | h
      · exact absurd h.symm ha
      · exact h
    have := move_loop_spec i t [a] CHDIR_CACHE_SIZE 1 a rfl hi' ha
      (by simp at hlen; omega)
    simp only [List.singleton_append] at this
    refine ⟨_, this, ?_⟩
    simp only [List.length_cons, List.length_erase_of_mem hi'] at hlen ⊢
    have := List.length_pos_of_mem hi'
    omega

/-- C27. In every reachable state (no `openat` returning 0) and for every
valid index `i`, `chdir_do (i)` ends: it completes, or it ends in `open_fatal`
when an open fails; it never indexes `wd` below 0 or reads past the cache
array, and needs no more rounds than the model allows. It completes when every
open succeeds. The recursion on `i - 1` stops at entry 0 at the latest, whose
descriptor is `AT_FDCWD` and never 0; and when `i` is in the cache array the loop
of the move to the front stops within `CHDIR_CACHE_SIZE` tests, inside the
array. After a completed call for `i > 0`, `i` is in the cache. -/
theorem chdir_do_terminates (env : Env) (s : State) (i : Nat) (hnz : env.opens_nonzero)
    (hr : Reachable env s) (hv : s.valid i) :
    ((∃ s', chdir_do env i s = .ok s' ∧ (0 < i → s'.cache.head? = some i)) ∨
      (∃ name, chdir_do env i s = .error (.open_fatal name))) ∧
    (env.opens_positive → ∃ s', chdir_do env i s = .ok s') ∧
    (∀ e, s.wd[0]? = some e → e.fd = AT_FDCWD ∧ e.fd ≠ 0) ∧
    (∀ (w : List Nat) (prev : Nat), w.length = CHDIR_CACHE_SIZE → i ∈ w → w[0]? = some prev →
      ∃ r, move_loop i CHDIR_CACHE_SIZE 1 prev w = .ok r ∧ r.length = CHDIR_CACHE_SIZE) := by
  have hinv := hr.inv_of_nonzero hnz
  refine ⟨?_, ?_, ?_, fun w prev h1 h2 h3 => move_loop_bound i w prev h1 h2 h3⟩
  · rcases chdir_do_run env hnz i s hinv hv with ⟨s', h1, h2, h3, _⟩ | ⟨_, e, _, _, _, herr⟩
    · refine Or.inl ⟨s', h1, ?_⟩
      intro hi
      have := h2.current
      rw [h3] at this
      exact this.resolve_left (by omega)
    · exact Or.inr ⟨e.name, herr⟩
  · intro hpos
    obtain ⟨s', h1, _⟩ := chdir_do_spec env hpos i s hinv hv
    exact ⟨s', h1⟩
  · intro e he
    have hne : s.wd ≠ [] := by
      intro hnil
      rw [hnil] at he
      simp at he
    have := hinv.entry0 hne
    rw [fdOf_of_get he] at this
    rw [this]
    exact ⟨rfl, by decide⟩

theorem env0_nonzero : env0.opens_nonzero :=
  fun t d n f => ne_of_gt (env0_positive t d n f)

/-- C27, for `chdir_do (1)` after `chdir_arg ("a")`: it completes, with 1 in
front of the cache. -/
theorem chdir_do_terminates_witness :
    demo1.valid 1 ∧ ∃ s', chdir_do env0 1 demo1 = .ok s' :=
  ⟨Or.inr (by decide),
    (chdir_do_terminates env0 demo1 1 env0_nonzero demo1_reachable (Or.inr (by decide))).2.1
      env0_positive⟩

/-- The open of entry `i` and what follows it, from a state with the
invariant in which the entry is not opened. -/
theorem open_outcome (env : Env) {s1 : State} (h : Inv s1) {i : Nat} (hi0 : 0 < i)
    {curr : wd} (hcurr : s1.wd[i]? = some curr) (hz : curr.fd = 0) :
    OpenOutcome env i curr s1
      (match chdir_do_open env i s1 with
        | .error e => .error e
        | .ok (fd, s2) => chdir_do_finish i fd s2) := by
  constructor
  · intro hneg
    have : chdir_do_open env i s1 = .error (.open_fatal curr.name) := by
      unfold chdir_do_open
      simp only [hcurr]
      have e : env.openat s1.trace s1.chdir_fd curr.name (chdir_open_flags env)
          = open_ret env s1 curr := rfl
      rw [e, if_pos hneg]
    simp only [this]
  · intro hpos
    obtain ⟨s2, s', ho, hf, _, hcur', hfd', _, hstep⟩ :=
      open_finish_spec env h hi0 hcurr hz hpos
    refine ⟨s', by simp only [ho, hf], hcur', hfd', ?_⟩
    rcases hstep with ⟨_, _, _, htr, _⟩ | ⟨_, st, stale, _, _, _, _, _, htr, _⟩
    · exact Or.inl htr
    · exact Or.inr ⟨stale.fd, htr⟩

/-- C29. Let entry `i` of a reachable state be not opened (descriptor 0) and
not current. Then `i > 0`. If its name is relative, `chdir_do (i)` first runs
`chdir_do (i - 1)`: when that ends in `open_fatal`, so does the call; when it
completes, `i - 1` is current, `chdir_fd` is the handle of entry `i - 1`, and the
`openat` of entry `i` is made relative to that handle. If the name is absolute,
the `openat` of entry `i` is the only open of the call. In both cases a failed
open ends the call in `open_fatal` with the name of entry `i`, without a state
in which `i` is current, and a successful one makes `i` current with the new
descriptor. -/
theorem chdir_do_opens_after_parent (env : Env) (s : State) (i : Nat) (curr : wd)
    (hnz : env.opens_nonzero) (hr : Reachable env s) (hc : s.chdir_current ≠ i)
    (hcurr : s.wd[i]? = some curr) (hz : curr.fd = 0) :
    0 < i ∧
    (IS_ABSOLUTE_FILE_NAME curr.name = false →
      (∃ name, chdir_do env (i - 1) s = .error (.open_fatal name) ∧
        chdir_do env i s = .error (.open_fatal name)) ∨
      (∃ s1, chdir_do env (i - 1) s = .ok s1 ∧ s1.chdir_current = i - 1 ∧
        s1.chdir_fd = (if i - 1 = 0 then AT_FDCWD else s1.fdOf (i - 1)) ∧
        OpenOutcome env i curr s1 (chdir_do env i s))) ∧
    (IS_ABSOLUTE_FILE_NAME curr.name = true → OpenOutcome env i curr s (chdir_do env i s)) := by
  have h := hr.inv_of_nonzero hnz
  have hlt : i < s.wd.length := (List.getElem?_eq_some_iff.mp hcurr).1
  have hi0 : 0 < i := by
    rcases Nat.eq_zero_or_pos i with h0 | h0
    · subst h0
      have hne : s.wd ≠ [] := by
        intro hnil; rw [hnil] at hlt; simp at hlt
      have := h.entry0 hne
      rw [fdOf_of_get hcurr, hz] at this
      exact absurd this (by decide)
    · exact h0
  obtain ⟨k, rfl⟩ : ∃ k, i = k + 1 := ⟨i - 1, by omega⟩
  have hunf : ∀ r, (if !IS_ABSOLUTE_FILE_NAME curr.name then chdir_do env k s else .ok s)
      = r → chdir_do env (k + 1) s = (match r with
        | .error e => .error e
        | .ok s1 =>
          match chdir_do_open env (k + 1) s1 with
          | .error e => .error e
          | .ok (fd, s2) => chdir_do_finish (k + 1) fd s2) := by
    intro r hr
    rw [chdir_do, chdir_do_body]
    simp only [hc, ne_eq, not_false_eq_true, if_true, hcurr, hz]
    rw [hr]
  refine ⟨hi0, ?_, ?_⟩
  · intro hrel
    have hpar : (if !IS_ABSOLUTE_FILE_NAME curr.name then chdir_do env k s else .ok s)
        = chdir_do env k s := by simp [hrel]
    simp only [Nat.add_sub_cancel]
    rcases chdir_do_run env hnz k s h (Or.inr (by omega)) with
      ⟨s1, h1, hinv1, hcur1, hfr1⟩ | ⟨_, e, _, _, _, herr⟩
    · right
      obtain ⟨curr1, hcurr1, hname1, habs1⟩ := hfr1.name (k + 1) curr hcurr
      have hz1 : curr1.fd = 0 := by
        have := hfr1.above (k + 1) (by omega) (by rw [fdOf_of_get hcurr]; exact hz)
        rw [fdOf_of_get hcurr1] at this
        exact this
      have heq : curr1 = curr := by
        cases curr1; cases curr
        simp only at hname1 habs1 hz1 hz
        simp [hname1, habs1, hz1, hz]
      rw [heq] at hcurr1
      refine ⟨s1, h1, hcur1, ?_, ?_⟩
      · have := hinv1.current_fd
        rw [hcur1] at this
        exact this
      · rw [hunf _ (hpar.trans h1)]
        exact open_outcome env hinv1 (Nat.succ_pos k) hcurr1 hz
    · left
      exact ⟨e.name, herr, by rw [hunf _ (hpar.trans herr)]⟩
  · intro habs
    have hpar : (if !IS_ABSOLUTE_FILE_NAME curr.name then chdir_do env k s else .ok s)
        = .ok s := by simp [habs]
    rw [hunf _ hpar]
    exact open_outcome env h (Nat.succ_pos k) hcurr hz

/-- C29, for entry 1 ("a", relative) of the table made by `chdir_arg ("a")`:
`chdir_do (0)` changes nothing, and the open of "a" is made relative to
`AT_FDCWD`. -/
theorem chdir_do_opens_after_parent_witness :
    demo1.chdir_current ≠ 1 ∧
    demo1.wd[1]? = some { name := ['a'], abspath := some ['/', 'a'], fd := 0 } ∧
    ∃ s1, chdir_do env0 (1 - 1) demo1 = .ok s1 ∧ s1.chdir_fd = AT_FDCWD ∧
      ∃ s', chdir_do env0 1 demo1 = .ok s' ∧ s'.chdir_current = 1 ∧
        s'.trace = s1.trace ++ [Event.openat AT_FDCWD ['a'] 0 3] := by
  obtain ⟨_, hrel, _⟩ := chdir_do_opens_after_parent env0 demo1 1
    { name := ['a'], abspath := some ['/', 'a'], fd := 0 } env0_nonzero demo1_reachable
    (by decide) (by decide) rfl
  exact ⟨by decide, by decide, demo1, rfl, rfl, demo2, rfl, rfl, rfl⟩

/-- The mask `~ O_NOFOLLOW` clears the bit `O_NOFOLLOW` of the flags. -/
theorem chdir_open_flags_nofollow (env : Env) : chdir_open_flags env &&& O_NOFOLLOW = 0 := by
  unfold chdir_open_flags
  rw [Nat.land_assoc]
  have : (2 ^ 32 - 1 - O_NOFOLLOW) &&& O_NOFOLLOW = 0 := by decide
  rw [this]
  exact Nat.and_zero _

/-- The mask `~ O_NOFOLLOW` keeps every other bit of a 32-bit word. -/
theorem chdir_open_flags_bits (env : Env) (k : Nat) (hk : k < 32) (h17 : k ≠ 17) :
    (chdir_open_flags env).testBit k = env.open_searchdir_flags.testBit k := by
  unfold chdir_open_flags
  rw [Nat.testBit_land]
  have : (2 ^ 32 - 1 - O_NOFOLLOW).testBit k = true := by
    interval_cases k <;> first | exact absurd rfl h17 | decide
  rw [this, Bool.and_true]

theorem cache_add_events (env : Env) (i : Nat) (s s' : State) (h : cache_add i s = .ok s') :
    ∃ t, s'.trace = s.trace ++ t ∧ ∀ ev ∈ t, Event.flags_ok env ev := by
  unfold cache_add at h
  split at h
  · split at h
    · injection h with h
      subst h
      exact ⟨[], by simp, by simp⟩
    · cases h
  · split at h
    · cases h
    · split at h
      · cases h
      · injection h with h
        subst h
        refine ⟨[Event.close _], rfl, ?_⟩
        intro ev hev
        rw [List.mem_singleton] at hev
        subst hev
        trivial

theorem chdir_do_finish_trace (i : Nat) (fd : Int) (s s' : State)
    (h : chdir_do_finish i fd s = .ok s') : s'.trace = s.trace := by
  unfold chdir_do_finish at h
  split at h
  · split at h
    · cases h
    · injection h with h
      subst h
      rfl
  · injection h with h
    subst h
    rfl

theorem chdir_do_open_events (env : Env) (i : Nat) (s s' : State) (fd : Int)
    (h : chdir_do_open env i s = .ok (fd, s')) :
    ∃ t, s'.trace = s.trace ++ t ∧ ∀ ev ∈ t, Event.flags_ok env ev := by
  unfold chdir_do_open at h
  split at h
  · cases h
  · rename_i curr _
    simp only at h
    split at h
    · cases h
    · split at h
      · cases h
      · rename_i s2 hc
        injection h with h
        injection h with _ h2
        subst h2
        obtain ⟨t, ht, hf⟩ := cache_add_events env _ _ _ hc
        refine ⟨Event.openat s.chdir_fd curr.name (chdir_open_flags env)
          (env.openat s.trace s.chdir_fd curr.name (chdir_open_flags env)) :: t, ?_, ?_⟩
        · rw [ht]
          simp
        · intro ev hev
          rcases List.mem_cons.mp hev with hev | hev
          · subst hev
            rfl
          · exact hf ev hev

/-- Every `openat` that a completed `chdir_do` makes, at any depth of the
recursion, has the flags `open_searchdir_flags & ~ O_NOFOLLOW`. -/
theorem chdir_do_events (env : Env) : ∀ (i : Nat) (s s' : State),
    chdir_do env i s = .ok s' →
    ∃ t, s'.trace = s.trace ++ t ∧ ∀ ev ∈ t, Event.flags_ok env ev := by
  have body : ∀ (parent : State → Except Fault State) (i : Nat) (s s' : State),
      (∀ s1 s2, parent s1 = .ok s2 →
        ∃ t, s2.trace = s1.trace ++ t ∧ ∀ ev ∈ t, Event.flags_ok env ev) →
      chdir_do_body env parent i s = .ok s' →
      ∃ t, s'.trace = s.trace ++ t ∧ ∀ ev ∈ t, Event.flags_ok env ev := by
    intro parent i s s' hp h
    unfold chdir_do_body at h
    split at h
    · split at h
      · cases h
      · rename_i curr _
        split at h
        · split at h
          · cases h
          · rename_i s1 hs1
            have h1 : ∃ t, s1.trace = s.trace ++ t ∧ ∀ ev ∈ t, Event.flags_ok env ev := by
              split at hs1
              · exact hp _ _ hs1
              · injection hs1 with hs1
                subst hs1
                exact ⟨[], by simp, by simp⟩
            split at h
            · cases h
            · rename_i fd s2 ho
              obtain ⟨t1, ht1, hf1⟩ := h1
              obtain ⟨t2, ht2, hf2⟩ := chdir_do_open_events env _ _ _ _ ho
              refine ⟨t1 ++ t2, ?_, ?_⟩
              · rw [chdir_do_finish_trace _ _ _ _ h, ht2, ht1, List.append_assoc]
              · intro ev hev
                rcases List.mem_append.mp hev with hev | hev
                · exact hf1 ev hev
                · exact hf2 ev hev
        · exact ⟨[], by rw [chdir_do_finish_trace _ _ _ _ h]; simp, by simp⟩
    · injection h with h
      subst h
      exact ⟨[], by simp, by simp⟩
  intro i
  induction i with
  | zero =>
    intro s s' h
    rw [chdir_do] at h
    exact body _ 0 s s' (fun _ _ hx => by cases hx) h
  | succ i ih =>
    intro s s' h
    rw [chdir_do] at h
    exact body _ (i + 1) s s' (fun s1 s2 hx => ih s1 s2 hx) h

/-- C30, as the code has it. A completed `chdir_do (i)` adds to the trace only
`openat` calls whose flags are `open_searchdir_flags & ~ O_NOFOLLOW`: in these
flags the bit `O_NOFOLLOW` is clear, whatever `open_searchdir_flags` is, and
every other bit of the 32-bit word is that of `open_searchdir_flags`. -/
theorem chdir_do_open_flags (env : Env) (i : Nat) (s s' : State)
    (h : chdir_do env i s = .ok s') :
    (∃ t, s'.trace = s.trace ++ t ∧ ∀ ev ∈ t, Event.flags_ok env ev) ∧
    chdir_open_flags env &&& O_NOFOLLOW = 0 ∧
    ∀ k, k < 32 → k ≠ 17 →
      (chdir_open_flags env).testBit k = env.open_searchdir_flags.testBit k :=
  ⟨chdir_do_events env i s s' h, chdir_open_flags_nofollow env,
    fun k hk h17 => chdir_open_flags_bits env k hk h17⟩

/-- C30, for `chdir_do (1)` after `chdir_arg ("a")` where `open_searchdir_flags`
has `O_NOFOLLOW`: the one `openat` has the flags without it. -/
theorem chdir_do_open_flags_witness :
    ∃ s', chdir_do env_nofollow 1 demo1 = .ok s' ∧
      (∃ t, s'.trace = demo1.trace ++ t ∧ ∀ ev ∈ t, Event.flags_ok env_nofollow ev) ∧
      chdir_open_flags env_nofollow &&& O_NOFOLLOW = 0 :=
  ⟨{ demo2 with trace := [Event.openat AT_FDCWD ['a'] 0o200000 3] }, rfl,
    (chdir_do_open_flags env_nofollow 1 demo1 _ rfl).1,
    (chdir_do_open_flags env_nofollow 1 demo1 _ rfl).2.1⟩

/-- C30 fails: with `open_searchdir_flags = O_DIRECTORY | O_NOFOLLOW`, the
`openat` that `chdir_do (1)` makes for the registered name "a" has the flags
`O_DIRECTORY` alone: `O_NOFOLLOW` is not set in them. -/
theorem chdir_do_open_without_nofollow :
    env_nofollow.open_searchdir_flags &&& O_NOFOLLOW = O_NOFOLLOW ∧
    ∃ s', chdir_do env_nofollow 1 demo1 = .ok s' ∧
      s'.trace = [Event.openat AT_FDCWD ['a'] 0o200000 3] ∧
      0o200000 &&& O_NOFOLLOW = 0 :=
  ⟨by decide, { demo2 with trace := [Event.openat AT_FDCWD ['a'] 0o200000 3] }, rfl, rfl,
    by decide⟩

/-! ## Claims on the diagnostics of the read path -/

/-- A function that adds `err` when `ignore_failed_read_option` is off, `warn`
when it is on and the warning is enabled, and nothing otherwise, follows the
policy. -/
theorem read_policy_of (env : DiagEnv) (log : List Report) (err warn : Report)
    (he : err.is_error = true) (hw : warn.is_warning = true)
    (hne : warn.is_error = false) (hnw : err.is_warning = false) :
    read_policy env log
      (if env.ignore_failed_read_option then
        if env.WARNING_ENABLED_WARN_FAILED_READ then log ++ [warn] else log
      else log ++ [err]) := by
  obtain ⟨a, b⟩ := env
  cases a <;> cases b <;> simp [read_policy, he, hw, hne, hnw]

/-- C28. Each of the seven diagnostic functions of the read path follows the
same policy: it reports one error iff `ignore_failed_read_option` is off, one
warning iff `ignore_failed_read_option` is on and `WARN_FAILED_READ` is enabled,
and nothing otherwise. -/
theorem diag_functions_policy (env : DiagEnv) (name : List Char) (offset : Int) (size : Nat)
    (log : List Report) :
    read_policy env log (close_diag env name log) ∧
    read_policy env log (open_diag env name log) ∧
    read_policy env log (read_diag_details env name offset size log) ∧
    read_policy env log (readlink_diag env name log) ∧
    read_policy env log (savedir_diag env name log) ∧
    read_policy env log (seek_diag_details env name offset log) ∧
    read_policy env log (stat_diag env name log) :=
  ⟨read_policy_of env log _ _ rfl rfl rfl rfl, read_policy_of env log _ _ rfl rfl rfl rfl,
    read_policy_of env log _ _ rfl rfl rfl rfl, read_policy_of env log _ _ rfl rfl rfl rfl,
    read_policy_of env log _ _ rfl rfl rfl rfl, read_policy_of env log _ _ rfl rfl rfl rfl,
    read_policy_of env log _ _ rfl rfl rfl rfl⟩

/-! ## Claims on backups -/

/-- A successful `renameat` was not refused, and its source exists. -/
theorem renameat_ok (env : BkEnv) (files : Files) (old new : List Char)
    (h : (renameat env files old new).1 = 0) :
    env.renameat_errno old new = 0 ∧ ∃ node, files old = some node := by
  unfold renameat at h
  split at h
  · rename_i hne
    exact absurd h hne
  · rename_i hz
    refine ⟨not_not.mp hz, ?_⟩
    split at h
    · simp [ENOENT] at h
    · rename_i node hn
      exact ⟨node, hn⟩

/-- A `renameat` that is not refused, from a file to a name that does not
exist, moves the file. -/
theorem renameat_fresh (env : BkEnv) (files : Files) (old new : List Char) (node : Node)
    (he : env.renameat_errno old new = 0) (ho : files old = some node)
    (hn : files new = none) :
    renameat env files old new = (0, moved files old new node) := by
  have hne : old ≠ new := by
    intro h
    rw [h, hn] at ho
    cases ho
  unfold renameat
  simp only [he, ne_eq, not_true_eq_false, if_false, ho, hne, hn]

/-- A move and the move back leave the files as they were, when the new name
did not exist. -/
theorem moved_back (files : Files) (old new : List Char) (node : Node)
    (ho : files old = some node) (hn : files new = none) :
    moved (moved files old new node) new old node = files := by
  have hne : old ≠ new := by
    intro h
    rw [h, hn] at ho
    cases ho
  funext n
  unfold moved
  by_cases h1 : n = old
  · subst h1
    simp [ho]
  · by_cases h2 : n = new
    · subst h2
      simp [h1, hn]
    · simp [h1, h2]

/-- The function `undo_last_backup` when no backup is pending. -/
theorem undo_last_backup_none (env : BkEnv) (fd : Int) (s : BkState)
    (h : s.after_backup_name = none) : undo_last_backup env fd s = .ok s := by
  unfold undo_last_backup
  rw [h]

/-- The state after `maybe_backup_file` has `before_backup_name` set. -/
theorem maybe_backup_file_before (env : BkEnv) (fd : Int) (name : List Char) (archive : Bool)
    (s s1 : BkState) (b : Bool) (h : maybe_backup_file env fd name archive s = .ok (b, s1)) :
    s1.before_backup_name = some name := by
  unfold maybe_backup_file at h
  repeat' split at h
  all_goals first
    | (injection h with h; injection h with _ h; subst h; rfl)
    | cases h

/-- The initial state and the states after `maybe_backup_file` are as
`BkState.wf` says. -/
theorem maybe_backup_file_wf (env : BkEnv) (fd : Int) (name : List Char) (archive : Bool)
    (s s1 : BkState) (b : Bool) (h : maybe_backup_file env fd name archive s = .ok (b, s1)) :
    s1.wf := by
  intro _
  rw [maybe_backup_file_before env fd name archive s s1 b h]
  exact Option.some_ne_none _

theorem init_wf (files : Files) : (BkState.init files).wf := fun h => absurd rfl h

/-- C24. In each of these cases `maybe_backup_file` returns true, makes no
`renameat`, changes no file and leaves `after_backup_name` null, so that a
following `undo_last_backup` does nothing, whatever the two names were before:
`this_is_the_archive` is set and the name is remote; `fstatat` fails with
`ENOENT`; the target is a directory; `this_is_the_archive` is set and the target
is a block or character device. -/
theorem maybe_backup_file_unneeded (env : BkEnv) (fd : Int) (name : List Char)
    (archive : Bool) (s : BkState)
    (h : (archive = true ∧ env._remdev name = true) ∨
      fstatat env s.files name = .error ENOENT ∨
      (∃ m, fstatat env s.files name = .ok m ∧
        (S_ISDIR m = true ∨ (archive = true ∧ (S_ISBLK m = true ∨ S_ISCHR m = true))))) :
    ∃ s1, maybe_backup_file env fd name archive s = .ok (true, s1) ∧
      s1.after_backup_name = none ∧ s1.before_backup_name = some name ∧
      s1.files = s.files ∧
      (∃ t, s1.calls = s.calls ++ t ∧ renames t = 0) ∧
      undo_last_backup env fd s1 = .ok s1 := by
  have key : ∀ (t : List BkCall), renames t = 0 →
      maybe_backup_file env fd name archive s = .ok (true,
        { s with before_backup_name := some name, after_backup_name := none,
                 calls := s.calls ++ t }) →
      ∃ s1, maybe_backup_file env fd name archive s = .ok (true, s1) ∧
        s1.after_backup_name = none ∧ s1.before_backup_name = some name ∧
        s1.files = s.files ∧
        (∃ t, s1.calls = s.calls ++ t ∧ renames t = 0) ∧
        undo_last_backup env fd s1 = .ok s1 :=
    fun t ht hm => ⟨_, hm, rfl, rfl, rfl, ⟨t, rfl, ht⟩, undo_last_backup_none env fd _ rfl⟩
  by_cases hr : (archive && env._remdev name) = true
  · refine key [] rfl ?_
    rw [maybe_backup_file, if_pos hr, List.append_nil]
  · have h' : fstatat env s.files name = .error ENOENT ∨
        (∃ m, fstatat env s.files name = .ok m ∧
          (S_ISDIR m = true ∨ (archive = true ∧ (S_ISBLK m = true ∨ S_ISCHR m = true)))) := by
      rcases h with ⟨ha, hd⟩ | h | h
      · exact absurd (by rw [ha, hd]; rfl) hr
      · exact Or.inl h
      · exact Or.inr h
    rcases h' with he | ⟨m, hm, hk⟩
    · refine key [BkCall.fstatat fd name ENOENT] rfl ?_
      rw [maybe_backup_file, if_neg hr, he]
      simp only [if_true]
    · by_cases hdir : S_ISDIR m = true
      · refine key [BkCall.fstatat fd name 0] rfl ?_
        rw [maybe_backup_file, if_neg hr, hm]
        simp only [hdir, if_true]
      · have hdev : (archive && (S_ISBLK m || S_ISCHR m)) = true := by
          rcases hk with hk | ⟨ha, hk⟩
          · exact absurd hk hdir
          · rw [ha]
            rcases hk with hk | hk <;> simp [hk]
        refine key [BkCall.fstatat fd name 0] rfl ?_
        rw [maybe_backup_file, if_neg hr, hm]
        simp only [hdir, hdev, if_true, if_false]
        simp

/-- C24, for a name that does not exist, after a backup of "f" that is still
pending. -/
theorem maybe_backup_file_unneeded_witness :
    ∃ s1, maybe_backup_file bk_env0 3 ['x'] false
        { before_backup_name := some ['f'], after_backup_name := some ['f', '~'],
          files := files0, calls := [] } = .ok (true, s1) ∧
      s1.after_backup_name = none ∧ undo_last_backup bk_env0 3 s1 = .ok s1 := by
  obtain ⟨s1, h1, h2, _, _, _, h6⟩ := maybe_backup_file_unneeded bk_env0 3 ['x'] false
    { before_backup_name := some ['f'], after_backup_name := some ['f', '~'],
      files := files0, calls := [] } (Or.inr (Or.inl rfl))
  exact ⟨s1, h1, h2, h6⟩

/-- C25. Unless it ends in `xalloc_die` (the null result of
`find_backup_file_name`), `maybe_backup_file` returns, and it returns false
exactly when its `fstatat` failed with an `errno` other than `ENOENT` or its
`renameat` failed. When it returns false, `after_backup_name` is null and a
following `undo_last_backup` does nothing. When it returns true, either the
pair (`file_name`, backup name) is recorded and the `renameat` to that name was
made and succeeded, or `after_backup_name` is null and no `renameat` was made. -/
theorem maybe_backup_file_result (env : BkEnv) (fd : Int) (name : List Char) (archive : Bool)
    (s : BkState) :
    (maybe_backup_file env fd name archive s = .error .xalloc_die ∧
      env.find_backup_file_name s.files fd name = none) ∨
    ∃ b s1 t, maybe_backup_file env fd name archive s = .ok (b, s1) ∧
      s1.calls = s.calls ++ t ∧
      (b = false ↔
        ((∃ e, BkCall.fstatat fd name e ∈ t ∧ e ≠ 0 ∧ e ≠ ENOENT) ∨
          (∃ a e, BkCall.renameat fd name fd a e ∈ t ∧ e ≠ 0))) ∧
      (b = false → s1.after_backup_name = none ∧ undo_last_backup env fd s1 = .ok s1) ∧
      (b = true →
        ((∃ a, s1.before_backup_name = some name ∧ s1.after_backup_name = some a ∧
            BkCall.renameat fd name fd a 0 ∈ t) ∨
          (s1.after_backup_name = none ∧ renames t = 0))) := by
  unfold maybe_backup_file
  split
  · right
    exact ⟨true, _, [], rfl, by simp, by simp, by simp, fun _ => Or.inr ⟨rfl, rfl⟩⟩
  · split
    · rename_i err herr
      have hne : err ≠ 0 := by
        intro h0
        subst h0
        unfold fstatat at herr
        split at herr
        · rename_i hx
          injection herr with herr
          exact hx herr
        · split at herr
          · injection herr with herr
            exact absurd herr (by decide)
          · cases herr
      split
      · rename_i hen
        right
        refine ⟨true, _, [BkCall.fstatat fd name err], rfl, rfl, ?_, by simp,
          fun _ => Or.inr ⟨rfl, rfl⟩⟩
        simp [hen]
      · rename_i hen
        right
        refine ⟨false, _, [BkCall.fstatat fd name err, BkCall.stat_error name], rfl, rfl, ?_,
          fun _ => ⟨rfl, undo_last_backup_none env fd _ rfl⟩, by simp⟩
        simp only [true_iff]
        exact Or.inl ⟨err, by simp, hne, hen⟩
    · rename_i st_mode hst
      split
      · right
        exact ⟨true, _, [BkCall.fstatat fd name 0], rfl, rfl, by simp, by simp,
          fun _ => Or.inr ⟨rfl, rfl⟩⟩
      · split
        · right
          exact ⟨true, _, [BkCall.fstatat fd name 0], rfl, rfl, by simp, by simp,
            fun _ => Or.inr ⟨rfl, rfl⟩⟩
        · split
          · rename_i hf
            exact Or.inl ⟨rfl, hf⟩
          · rename_i after hf
            split
            · right
              refine ⟨true, _, [BkCall.fstatat fd name 0, BkCall.renameat fd name fd after 0]
                ++ (if env.verbose_option then [BkCall.fprintf_renaming name after] else []),
                rfl, by simp, ?_, by simp, fun _ => Or.inl ⟨after, rfl, rfl, by simp⟩⟩
              cases env.verbose_option <;> simp
            · rename_i hren
              right
              refine ⟨false, _, [BkCall.fstatat fd name 0,
                BkCall.renameat fd name fd after (renameat env s.files name after).1,
                BkCall.ERROR (renameat env s.files name after).1 name after], rfl, rfl, ?_,
                fun _ => ⟨rfl, undo_last_backup_none env fd _ rfl⟩, by simp⟩
              simp only [true_iff]
              exact Or.inr ⟨after, _, by simp, hren⟩

/-- C26. In a state as the calls leave it, `undo_last_backup` returns and
leaves `after_backup_name` null, whether its `renameat` succeeds or fails; it
makes at most one `renameat`; with `after_backup_name` null it changes nothing;
and a second `undo_last_backup` changes nothing. -/
theorem undo_last_backup_clears (env : BkEnv) (fd : Int) (s : BkState) (hwf : s.wf) :
    ∃ s1, undo_last_backup env fd s = .ok s1 ∧ s1.after_backup_name = none ∧ s1.wf ∧
      (∃ t, s1.calls = s.calls ++ t ∧ renames t ≤ 1 ∧
        (s.after_backup_name = none → t = [])) ∧
      (s.after_backup_name = none → s1 = s) ∧
      undo_last_backup env fd s1 = .ok s1 := by
  cases ha : s.after_backup_name with
  | none =>
    exact ⟨s, undo_last_backup_none env fd s ha, ha, hwf, ⟨[], by simp, by decide, fun _ => rfl⟩,
      fun _ => rfl, undo_last_backup_none env fd s ha⟩
  | some after =>
    cases hb : s.before_backup_name with
    | none => exact absurd hb (hwf (by rw [ha]; exact Option.some_ne_none _))
    | some before =>
      have hu : undo_last_backup env fd s = .ok
          { s with after_backup_name := none, files := (renameat env s.files after before).2,
                   calls := s.calls ++ ([BkCall.renameat fd after fd before
                        (renameat env s.files after before).1]
                      ++ (if (renameat env s.files after before).1 ≠ 0 then
                            [BkCall.ERROR (renameat env s.files after before).1 after before]
                          else [])
                      ++ (if env.verbose_option then
                            [BkCall.fprintf_renaming_back after before] else [])) } := by
        rw [undo_last_backup]
        simp only [ha, hb, List.append_assoc]
      refine ⟨_, hu, rfl, fun h => absurd rfl h, ⟨_, rfl, ?_, ?_⟩, ?_,
        undo_last_backup_none env fd _ rfl⟩
      · by_cases hr : (renameat env s.files after before).1 = 0 <;>
          cases env.verbose_option <;> simp [renames, hr]
      · intro h
        cases h
      · intro h
        cases h

/-- C26, for the state after the backup of "f" when the rename back is
refused: the pair is cleared, and the second call changes nothing. -/
theorem undo_last_backup_clears_witness :
    ∃ s1, undo_last_backup { bk_env0 with renameat_errno := fun _ _ => 13 } 3
        { before_backup_name := some ['f'], after_backup_name := some ['f', '~'],
          files := files0, calls := [] } = .ok s1 ∧
      s1.after_backup_name = none ∧
      undo_last_backup { bk_env0 with renameat_errno := fun _ _ => 13 } 3 s1 = .ok s1 := by
  obtain ⟨s1, h1, h2, _, _, _, h6⟩ :=
    undo_last_backup_clears { bk_env0 with renameat_errno := fun _ _ => 13 } 3
      { before_backup_name := some ['f'], after_backup_name := some ['f', '~'],
        files := files0, calls := [] } (fun _ => Option.some_ne_none _)
  exact ⟨s1, h1, h2, h6⟩

/-- C23. Let `maybe_backup_file (name, ...)` return true after a successful
`renameat` of `name` to a backup name that did not exist, where the system
refuses a rename in both directions or in none. Then the file has moved to the
backup name, and the `undo_last_backup` that follows returns with the files as
they were before the backup: `name` is the file again, mode and content, the
backup name does not exist, and every other name is unchanged. -/
theorem backup_then_undo_restores (env : BkEnv) (fd : Int) (name : List Char) (archive : Bool)
    (s s1 : BkState) (backup : List Char) (hsym : env.rename_symmetric)
    (h : maybe_backup_file env fd name archive s = .ok (true, s1))
    (hren : ∃ t, s1.calls = s.calls ++ t ∧ BkCall.renameat fd name fd backup 0 ∈ t)
    (hnew : s.files backup = none) :
    ∃ node s2, s.files name = some node ∧
      s1.files name = none ∧ s1.files backup = some node ∧
      s1.before_backup_name = some name ∧ s1.after_backup_name = some backup ∧
      undo_last_backup env fd s1 = .ok s2 ∧
      s2.files = s.files ∧ s2.files name = some node ∧ s2.files backup = none ∧
      s2.after_backup_name = none := by
  obtain ⟨t, ht, hmem⟩ := hren
  have hcase : s1.after_backup_name = some backup ∧ s1.before_backup_name = some name ∧
      s1.files = (renameat env s.files name backup).2 ∧
      (renameat env s.files name backup).1 = 0 := by
    have hno : ∀ l : List BkCall, s.calls ++ l = s.calls ++ t →
        BkCall.renameat fd name fd backup 0 ∉ l → False := by
      intro l hl hn
      rw [List.append_cancel_left hl] at hn
      exact hn hmem
    unfold maybe_backup_file at h
    split at h
    · cases h
      exact (hno [] (by rw [List.append_nil]; exact ht) (by simp)).elim
    · split at h
      · split at h
        · cases h
          exact (hno _ ht (by simp)).elim
        · cases h
      · split at h
        · cases h
          exact (hno _ ht (by simp)).elim
        · split at h
          · cases h
            exact (hno _ ht (by simp)).elim
          · split at h
            · cases h
            · rename_i after _
              split at h
              · rename_i hz
                cases h
                simp only [List.append_assoc] at ht
                have ht2 := List.append_cancel_left ht
                have hb : backup = after := by
                  rw [← ht2] at hmem
                  cases env.verbose_option <;> simp at hmem <;> exact hmem
                subst hb
                exact ⟨rfl, rfl, rfl, hz⟩
              · cases h
  obtain ⟨ha, hb, hf, hz⟩ := hcase
  obtain ⟨he, node, hn⟩ := renameat_ok env s.files name backup hz
  have hne : name ≠ backup := by
    intro hx
    rw [hx, hnew] at hn
    cases hn
  have hf1 : s1.files = moved s.files name backup node := by
    rw [hf, renameat_fresh env s.files name backup node he hn hnew]
  have h1b : s1.files backup = some node := by
    rw [hf1]
    simp [moved]
  have h1n : s1.files name = none := by
    rw [hf1]
    simp [moved, hne]
  have hback : renameat env s1.files backup name = (0, s.files) := by
    rw [renameat_fresh env s1.files backup name node (hsym _ _ he) h1b h1n, hf1,
      moved_back s.files name backup node hn hnew]
  have hu : undo_last_backup env fd s1 = .ok
      { s1 with after_backup_name := none, files := s.files, calls := s1.calls ++
          [BkCall.renameat fd backup fd name 0] ++
          (if env.verbose_option then [BkCall.fprintf_renaming_back backup name] else []) } := by
    rw [undo_last_backup]
    simp only [ha, hb, hback, ne_eq, not_true_eq_false, if_false, List.append_nil]
  exact ⟨node, _, hn, h1n, h1b, hb, ha, hu, rfl, hn, hnew, rfl⟩

/-- C23, for the backup of the file "f" to "f~". -/
theorem backup_then_undo_restores_witness :
    ∃ s1 s2, maybe_backup_file bk_env0 3 ['f'] false (BkState.init files0) = .ok (true, s1) ∧
      s1.files ['f'] = none ∧
      s1.files ['f', '~'] = some { st_mode := 0o100644, content := [1, 2, 3] } ∧
      undo_last_backup bk_env0 3 s1 = .ok s2 ∧ s2.files = files0 := by
  obtain ⟨node, s2, h1, h2, h3, _, _, h6, h7, _⟩ :=
    backup_then_undo_restores bk_env0 3 ['f'] false (BkState.init files0)
      { before_backup_name := some ['f'], after_backup_name := some ['f', '~'],
        files := moved files0 ['f'] ['f', '~'] { st_mode := 0o100644, content := [1, 2, 3] },
        calls := [BkCall.fstatat 3 ['f'] 0, BkCall.renameat 3 ['f'] 3 ['f', '~'] 0] }
      ['f', '~'] (fun _ _ _ => rfl) rfl ⟨_, rfl, by decide⟩ rfl
  have hnode : node = { st_mode := 0o100644, content := [1, 2, 3] } := by
    have : files0 ['f'] = some node := h1
    injection this.symm.trans (by rfl : files0 ['f'] = some _)
  exact ⟨_, s2, rfl, h2, by rw [← hnode]; exact h3, h6, h7⟩

/-! ## Claims on the recursive removal -/

/-- The loop over the entries, past entries that are not empty and whose
removal did not return 0. -/
theorem remove_entries_append (env : RmEnv)
    (remove : List Char → RmState → Except Fault (Int × RmState)) (name : List Char) :
    ∀ (pre rest : List (List Char)) (st stp : RmState), (∀ x ∈ pre, x ≠ []) →
      remove_entries env remove name pre st = .ok (true, stp) →
      remove_entries env remove name (pre ++ rest) st = remove_entries env remove name rest stp := by
  intro pre
  induction pre with
  | nil =>
    intro rest st stp _ h
    simp only [remove_entries] at h
    injection h with h
    injection h with _ h
    subst h
    rfl
  | cons x pre ih =>
    intro rest st stp hne h
    have hx : ¬ x.length = 0 := by
      intro h0
      exact hne x (List.mem_cons_self _ _) (List.length_eq_zero.mp h0)
    simp only [List.cons_append, remove_entries, hx, if_false] at h ⊢
    split at h
    · cases h
    · rename_i r st1 heq
      split at h
      · cases h
      · rename_i hr
        simp only [hr, if_false]
        exact ih rest _ stp (fun y hy => hne y (List.mem_cons_of_mem _ hy)) h

/-- C22. Let a recursive removal of `name` reach the loop over the listing
`pre ++ c :: post`, where the entries of `pre` are removed (the loop over them
runs to its end), and the removal of the entry `c` returns 0 in the state `stc`.
Then `remove_any_file` returns 0 in a state with the `errno` of `stc`, though
`free` was called twice in between, and with the calls of `stc`: no call is made
for an entry of `post`, and none to remove `name`. -/
theorem remove_any_file_child_fails (env : RmEnv) (fd : Int) (fuel : Nat) (name : List Char)
    (st st1 st2 stp stc : RmState) (r : Int) (e : Nat) (pre post : List (List Char))
    (entry : List Char)
    (hu : unlink_first env fd name st = (none, st1))
    (hr : safer_rmdir env fd name st1 = .ok (r, st2)) (hr0 : r ≠ 0)
    (herr : st2.errno = 0 ∨ st2.errno = EEXIST ∨ st2.errno = ENOTEMPTY)
    (hl : env.tar_savedir st2.calls fd name = (some (pre ++ entry :: post), e))
    (hpre : ∀ x ∈ pre, x ≠ [])
    (hp : remove_entries env
      (fun n s => remove_any_file env fd fuel n .RECURSIVE_REMOVE_OPTION s) name pre
      { errno := e, calls := st2.calls ++ [Call.tar_savedir name (some (pre ++ entry :: post))] }
        = .ok (true, stp))
    (hc : entry ≠ [])
    (hch : remove_any_file env fd fuel (env.make_file_name name entry)
      .RECURSIVE_REMOVE_OPTION stp = .ok (0, stc)) :
    ∃ st', remove_any_file env fd (fuel + 1) name .RECURSIVE_REMOVE_OPTION st = .ok (0, st') ∧
      st'.errno = stc.errno ∧ st'.calls = stc.calls ∧
      st' = { { stc with errno := env.free_errno (env.free_errno stc.errno) } with
              errno := stc.errno } := by
  have hnd : ¬ st2.errno = ENOTDIR := by
    rcases herr with h | h | h <;> rw [h] <;> decide
  have hlen : ¬ entry.length = 0 := fun h0 => hc (List.length_eq_zero.mp h0)
  have hloop : remove_entries env
      (fun n s => remove_any_file env fd fuel n .RECURSIVE_REMOVE_OPTION s) name
      (pre ++ entry :: post)
      { errno := e, calls := st2.calls ++ [Call.tar_savedir name (some (pre ++ entry :: post))] }
      = .ok (false, { { stc with errno := env.free_errno (env.free_errno stc.errno) } with
                      errno := stc.errno }) := by
    rw [remove_entries_append env _ name pre (entry :: post) _ stp hpre hp]
    simp only [remove_entries, hlen, if_false, hch, if_true]
  refine ⟨_, ?_, rfl, rfl, rfl⟩
  rw [remove_any_file]
  simp only [hu, hr, hr0, if_false, hnd, herr, if_true, hl, hloop]

/-- C22, for the directory "d" with the entries "a", "b" and "c", where "d/b"
cannot be removed and `free` leaves `ENOMEM` in `errno`: the result is 0 with
`errno = EACCES`, and the last call is the failed `rmdir` of "d/b". -/
theorem remove_any_file_child_fails_witness :
    ∃ st', remove_any_file rm_env3 3 2 ['d'] .RECURSIVE_REMOVE_OPTION RmState.init
        = .ok (0, st') ∧ st'.errno = EACCES ∧
      st'.calls = [Call.unlinkat 3 ['d'] AT_REMOVEDIR ENOTEMPTY,
        Call.tar_savedir ['d'] (some [['a'], ['b'], ['c']]),
        Call.unlinkat 3 ['d', '/', 'a'] AT_REMOVEDIR ENOTDIR,
        Call.unlinkat 3 ['d', '/', 'a'] 0 0,
        Call.unlinkat 3 ['d', '/', 'b'] AT_REMOVEDIR EACCES] := by
  obtain ⟨st', h1, h2, h3, _⟩ := remove_any_file_child_fails rm_env3 3 1 ['d'] RmState.init
    RmState.init
    { errno := ENOTEMPTY, calls := [Call.unlinkat 3 ['d'] AT_REMOVEDIR ENOTEMPTY] }
    { errno := ENOMEM, calls := [Call.unlinkat 3 ['d'] AT_REMOVEDIR ENOTEMPTY,
        Call.tar_savedir ['d'] (some [['a'], ['b'], ['c']]),
        Call.unlinkat 3 ['d', '/', 'a'] AT_REMOVEDIR ENOTDIR,
        Call.unlinkat 3 ['d', '/', 'a'] 0 0] }
    { errno := EACCES, calls := [Call.unlinkat 3 ['d'] AT_REMOVEDIR ENOTEMPTY,
        Call.tar_savedir ['d'] (some [['a'], ['b'], ['c']]),
        Call.unlinkat 3 ['d', '/', 'a'] AT_REMOVEDIR ENOTDIR,
        Call.unlinkat 3 ['d', '/', 'a'] 0 0,
        Call.unlinkat 3 ['d', '/', 'b'] AT_REMOVEDIR EACCES] }
    (-1) 0 [['a']] [['c']] ['b'] rfl rfl (by decide) (Or.inr (Or.inr rfl)) rfl
    (by decide) rfl (by decide) rfl
  exact ⟨st', h1, h2, h3⟩

theorem removals_snoc_unlinkat (calls : List Call) (fd : Int) (n : List Char) (f e : Nat) :
    removals (calls ++ [Call.unlinkat fd n f e])
      = if e = 0 then removals calls ++ [n] else removals calls := by
  rw [removals_append]
  by_cases he : e = 0 <;> simp [removals, he]

theorem removals_snoc_savedir (calls : List Call) (n : List Char)
    (r : Option (List (List Char))) :
    removals (calls ++ [Call.tar_savedir n r]) = removals calls := by
  rw [removals_append]
  simp [removals]

theorem removals_snoc_delayed (calls : List Call) (n : List Char) :
    removals (calls ++ [Call.remove_delayed_set_stat n]) = removals calls := by
  rw [removals_append]
  simp [removals]

/-- The function `safer_rmdir` when the `rmdir` succeeds. -/
theorem safer_rmdir_done (env : RmEnv) (fd : Int) (name : List Char) (st : RmState)
    (hm : must_be_dot_or_slash name = .ok false)
    (h0 : env.unlinkat st.calls fd name AT_REMOVEDIR = 0) :
    safer_rmdir env fd name st = .ok (0, { errno := st.errno, calls := st.calls ++
      [Call.unlinkat fd name AT_REMOVEDIR 0] ++ [Call.remove_delayed_set_stat name] }) := by
  unfold safer_rmdir call_unlinkat
  rw [hm, h0]
  rfl

/-- The function `safer_rmdir` when the `rmdir` fails. -/
theorem safer_rmdir_failed (env : RmEnv) (fd : Int) (name : List Char) (st : RmState) (e : Nat)
    (hm : must_be_dot_or_slash name = .ok false)
    (he : env.unlinkat st.calls fd name AT_REMOVEDIR = e) (hne : e ≠ 0) :
    safer_rmdir env fd name st = .ok (-1, { errno := e, calls := st.calls ++
      [Call.unlinkat fd name AT_REMOVEDIR e] }) := by
  unfold safer_rmdir call_unlinkat
  rw [hm, he]
  cases e with
  | zero => exact absurd rfl hne
  | succ m => rfl

/-- The function `remove_any_file` when the `rmdir` succeeds at once. -/
theorem remove_any_file_rmdir_done (env : RmEnv) (fd : Int) (fuel : Nat) (name : List Char)
    (option : remove_option) (st st1 : RmState)
    (hm : must_be_dot_or_slash name = .ok false)
    (hu : unlink_first env fd name st = (none, st1))
    (h0 : env.unlinkat st1.calls fd name AT_REMOVEDIR = 0) :
    remove_any_file env fd (fuel + 1) name option st
      = .ok (1, { errno := st1.errno, calls := st1.calls ++
          [Call.unlinkat fd name AT_REMOVEDIR 0] ++ [Call.remove_delayed_set_stat name] }) := by
  simp only [remove_any_file, hu, safer_rmdir_done env fd name st1 hm h0, if_true]

/-- The function `remove_any_file` for a file that is no directory, where
directories can be unlinked: the `rmdir` fails with `ENOTDIR`, then `unlinkat`
is called. -/
theorem remove_any_file_not_dir (env : RmEnv) (fd : Int) (fuel : Nat) (name : List Char)
    (option : remove_option) (st : RmState)
    (hm : must_be_dot_or_slash name = .ok false)
    (hc : env.cannot_unlink_dir = false)
    (he : env.unlinkat st.calls fd name AT_REMOVEDIR = ENOTDIR)
    (h0 : env.unlinkat (st.calls ++ [Call.unlinkat fd name AT_REMOVEDIR ENOTDIR]) fd name 0 = 0) :
    remove_any_file env fd (fuel + 1) name option st
      = .ok (1, { errno := ENOTDIR, calls := st.calls ++
          [Call.unlinkat fd name AT_REMOVEDIR ENOTDIR] ++ [Call.unlinkat fd name 0 0] }) := by
  have hu := (unlink_first_spec env fd name st).1 hc
  have hs := safer_rmdir_failed env fd name st ENOTDIR hm he (by decide)
  have h1 : ¬ ((-1 : Int) = 0) := by decide
  simp only [remove_any_file, hu, hs, h1, if_false, if_true, hc, Bool.not_false, call_unlinkat, h0]

/-- The function `remove_any_file` under the recursive option for a directory
that is not empty, when the loop over its entries runs to the end and the
second `rmdir` succeeds. -/
theorem remove_any_file_recursive_done (env : RmEnv) (fd : Int) (fuel : Nat)
    (name : List Char) (st st1 st4 : RmState) (e e1 : Nat) (directory : List (List Char))
    (hm : must_be_dot_or_slash name = .ok false)
    (hu : unlink_first env fd name st = (none, st1))
    (he : env.unlinkat st1.calls fd name AT_REMOVEDIR = e) (hne : e = EEXIST ∨ e = ENOTEMPTY)
    (hl : env.tar_savedir (st1.calls ++ [Call.unlinkat fd name AT_REMOVEDIR e]) fd name
      = (some directory, e1))
    (hloop : remove_entries env
      (fun n s => remove_any_file env fd fuel n .RECURSIVE_REMOVE_OPTION s) name directory
      { errno := e1, calls := st1.calls ++ [Call.unlinkat fd name AT_REMOVEDIR e]
          ++ [Call.tar_savedir name (some directory)] } = .ok (true, st4))
    (h0 : env.unlinkat st4.calls fd name AT_REMOVEDIR = 0) :
    remove_any_file env fd (fuel + 1) name .RECURSIVE_REMOVE_OPTION st
      = .ok (1, { errno := env.free_errno st4.errno, calls := st4.calls ++
          [Call.unlinkat fd name AT_REMOVEDIR 0] ++ [Call.remove_delayed_set_stat name] }) := by
  have hne0 : e ≠ 0 := by rcases hne with h | h <;> rw [h] <;> decide
  have hs := safer_rmdir_failed env fd name st1 e hm he hne0
  have h1 : ¬ ((-1 : Int) = 0) := by decide
  have h2 : ¬ e = ENOTDIR := by rcases hne with h | h <;> rw [h] <;> decide
  have h3 : e = 0 ∨ e = EEXIST ∨ e = ENOTEMPTY := Or.inr hne
  have hd := safer_rmdir_done env fd name
    { st4 with errno := env.free_errno st4.errno } hm h0
  simp only [remove_any_file, hu, hs, h1, h2, h3, if_false, if_true, hl, hloop, hd]

/-- The result of `unlinkat` for a file of the tree that is no directory and
is not removed. -/
theorem fs_unlinkat_file (fs : FsTree) (cud : Bool) (calls : List Call) (fd : Int)
    (name : List Char) (flag : Nat) (hf : fs name = some .file)
    (hn : name ∉ removals calls) :
    (fs_env fs cud).unlinkat calls fd name flag
      = if flag = AT_REMOVEDIR then ENOTDIR else 0 := by
  show (match fs name with
    | none => ENOENT
    | some node =>
      if name ∈ removals calls then ENOENT
      else
        match node with
        | .file => if flag = AT_REMOVEDIR then ENOTDIR else 0
        | .dir entries =>
          if flag = AT_REMOVEDIR then
            if entries.all (fun c => decide (fs_join name c ∈ removals calls)) then 0
            else ENOTEMPTY
          else EISDIR) = _
  rw [hf]
  simp only [if_neg hn]

/-- The result of `unlinkat` for a directory of the tree that is not
removed. -/
theorem fs_unlinkat_dir (fs : FsTree) (cud : Bool) (calls : List Call) (fd : Int)
    (name : List Char) (flag : Nat) (entries : List (List Char))
    (hf : fs name = some (.dir entries)) (hn : name ∉ removals calls) :
    (fs_env fs cud).unlinkat calls fd name flag
      = if flag = AT_REMOVEDIR then
          if entries.all (fun c => decide (fs_join name c ∈ removals calls)) then 0
          else ENOTEMPTY
        else EISDIR := by
  show (match fs name with
    | none => ENOENT
    | some node =>
      if name ∈ removals calls then ENOENT
      else
        match node with
        | .file => if flag = AT_REMOVEDIR then ENOTDIR else 0
        | .dir entries =>
          if flag = AT_REMOVEDIR then
            if entries.all (fun c => decide (fs_join name c ∈ removals calls)) then 0
            else ENOTEMPTY
          else EISDIR) = _
  rw [hf]
  simp only [if_neg hn]

/-- A file that is removed, or is not in the tree, is not there for
`unlinkat`. -/
theorem fs_unlinkat_gone (fs : FsTree) (cud : Bool) (calls : List Call) (fd : Int)
    (name : List Char) (flag : Nat) (hn : name ∈ removals calls) :
    (fs_env fs cud).unlinkat calls fd name flag = ENOENT := by
  show (match fs name with
    | none => ENOENT
    | some node =>
      if name ∈ removals calls then ENOENT
      else
        match node with
        | .file => if flag = AT_REMOVEDIR then ENOTDIR else 0
        | .dir entries =>
          if flag = AT_REMOVEDIR then
            if entries.all (fun c => decide (fs_join name c ∈ removals calls)) then 0
            else ENOTEMPTY
          else EISDIR) = _
  cases fs name with
  | none => rfl
  | some node => simp only [if_pos hn]

/-- The listing of a directory of the tree of which nothing is removed. -/
theorem fs_savedir_dir (fs : FsTree) (cud : Bool) (calls : List Call) (fd : Int)
    (name : List Char) (entries : List (List Char))
    (hf : fs name = some (.dir entries)) (hn : name ∉ removals calls)
    (hall : ∀ c ∈ entries, fs_join name c ∉ removals calls) :
    (fs_env fs cud).tar_savedir calls fd name = (some entries, 0) := by
  show (match fs name with
    | none => (none, ENOENT)
    | some .file => (none, ENOTDIR)
    | some (.dir entries) =>
      if name ∈ removals calls then (none, ENOENT)
      else (some (entries.filter (fun c => decide (fs_join name c ∉ removals calls))), 0)) = _
  rw [hf]
  simp only [if_neg hn]
  have : entries.filter (fun c => decide (fs_join name c ∉ removals calls)) = entries := by
    rw [List.filter_eq_self]
    intro c hc
    exact decide_eq_true (hall c hc)
  rw [this]

/-- The files below a name end with the name. -/
theorem postorder_last (fs : FsTree) (fuel : Nat) (name : List Char)
    (hok : tree_ok fs fuel name = true) : ∃ P, postorder fs fuel name = P ++ [name] := by
  cases fuel with
  | zero => simp [tree_ok] at hok
  | succ fuel =>
    unfold postorder
    split
    · exact ⟨_, rfl⟩
    · exact ⟨[], rfl⟩

/-- What `tree_ok` says of a name. -/
theorem tree_ok_succ (fs : FsTree) (fuel : Nat) (name : List Char)
    (hok : tree_ok fs (fuel + 1) name = true) :
    must_be_dot_or_slash name = .ok false ∧
    (fs name = some .file ∨ ∃ entries, fs name = some (.dir entries) ∧
      ∀ c ∈ entries, c ≠ [] ∧ tree_ok fs fuel (fs_join name c) = true) := by
  unfold tree_ok at hok
  rw [Bool.and_eq_true] at hok
  obtain ⟨h1, h2⟩ := hok
  constructor
  · split at h1
    · assumption
    · cases h1
  · split at h2
    · cases h2
    · exact Or.inl (by assumption)
    · rename_i entries hfs
      refine Or.inr ⟨entries, hfs, ?_⟩
      intro c hc
      have := List.all_eq_true.mp h2 c hc
      rw [Bool.and_eq_true] at this
      exact ⟨by simpa using this.1, this.2⟩

/-- The loop over the entries of a directory of the tree, given that the
removal of a complete subtree succeeds and removes it in postorder. -/
theorem remove_entries_tree (fs : FsTree) (cud : Bool) (fd : Int) (fuel : Nat)
    (name : List Char)
    (ih : ∀ (n : List Char) (st : RmState), tree_ok fs fuel n = true →
      (postorder fs fuel n).Nodup → (∀ q ∈ postorder fs fuel n, q ∉ removals st.calls) →
      ∃ st', remove_any_file (fs_env fs cud) fd fuel n .RECURSIVE_REMOVE_OPTION st
          = .ok (1, st') ∧
        removals st'.calls = removals st.calls ++ postorder fs fuel n) :
    ∀ (es : List (List Char)) (st : RmState),
      (∀ x ∈ es, x ≠ [] ∧ tree_ok fs fuel (fs_join name x) = true) →
      ((es.map (fun x => postorder fs fuel (fs_join name x))).flatten).Nodup →
      (∀ q ∈ (es.map (fun x => postorder fs fuel (fs_join name x))).flatten,
        q ∉ removals st.calls) →
      ∃ st', remove_entries (fs_env fs cud)
          (fun n s => remove_any_file (fs_env fs cud) fd fuel n .RECURSIVE_REMOVE_OPTION s)
          name es st = .ok (true, st') ∧
        removals st'.calls = removals st.calls
          ++ (es.map (fun x => postorder fs fuel (fs_join name x))).flatten := by
  intro es
  induction es with
  | nil =>
    intro st _ _ _
    exact ⟨st, rfl, by simp⟩
  | cons x es ihes =>
    intro st hok hnd hnot
    simp only [List.map_cons, List.flatten_cons] at hnd hnot ⊢
    obtain ⟨hnd1, hnd2, hdis⟩ := List.nodup_append.mp hnd
    obtain ⟨hx, hokx⟩ := hok x (List.mem_cons_self _ _)
    obtain ⟨st1, h1, hr1⟩ := ih (fs_join name x) st hokx hnd1
      (fun q hq => hnot q (List.mem_append_left _ hq))
    obtain ⟨st2, h2, hr2⟩ := ihes { st1 with errno := (fs_env fs cud).free_errno st1.errno }
      (fun y hy => hok y (List.mem_cons_of_mem _ hy)) hnd2
      (by
        intro q hq
        show q ∉ removals st1.calls
        rw [hr1]
        intro hmem
        rcases List.mem_append.mp hmem with hm | hm
        · exact hnot q (List.mem_append_right _ hq) hm
        · exact hdis hm hq)
    have hlen : ¬ x.length = 0 := fun h0 => hx (List.length_eq_zero.mp h0)
    have hmk : (fs_env fs cud).make_file_name name x = fs_join name x := rfl
    have h10 : ¬ ((1 : Int) = 0) := by decide
    refine ⟨st2, ?_, ?_⟩
    · simp only [remove_entries, hlen, if_false, hmk, h1, h10]
      exact h2
    · rw [hr2]
      show removals st1.calls ++ _ = _
      rw [hr1, List.append_assoc]

/-- The recursive removal of a complete tree, of which nothing is removed
yet, in the environment of that tree: it returns 1, and the files it removes
are those of the tree, in postorder. -/
theorem remove_any_file_tree (fs : FsTree) (cud : Bool) (fd : Int) :
    ∀ (fuel : Nat) (name : List Char) (st : RmState), tree_ok fs fuel name = true →
      (postorder fs fuel name).Nodup → (∀ q ∈ postorder fs fuel name, q ∉ removals st.calls) →
      ∃ st', remove_any_file (fs_env fs cud) fd fuel name .RECURSIVE_REMOVE_OPTION st
          = .ok (1, st') ∧
        removals st'.calls = removals st.calls ++ postorder fs fuel name := by
  intro fuel
  induction fuel with
  | zero =>
    intro name st hok
    simp [tree_ok] at hok
  | succ fuel ih =>
    intro name st hok hnd hnot
    obtain ⟨hm, hnode⟩ := tree_ok_succ fs fuel name hok
    have hcud : (fs_env fs cud).cannot_unlink_dir = cud := rfl
    rcases hnode with hf | ⟨entries, hf, hes⟩
    · -- a file that is no directory
      have hpo : postorder fs (fuel + 1) name = [name] := by
        simp only [postorder, hf]
      rw [hpo] at hnot ⊢
      have hname : name ∉ removals st.calls := hnot name (List.mem_singleton.mpr rfl)
      cases cud with
      | true =>
        have h0 : (fs_env fs true).unlinkat st.calls fd name 0 = 0 := by
          rw [fs_unlinkat_file fs true st.calls fd name 0 hf hname]
          rfl
        have hu := (unlink_first_spec (fs_env fs true) fd name st).2.1 hcud h0
        refine ⟨_, remove_any_file_unlinked _ fd fuel name _ st _ 1 hu, ?_⟩
        rw [call_unlinkat_calls, h0, removals_snoc_unlinkat, if_pos rfl]
      | false =>
        have he : (fs_env fs false).unlinkat st.calls fd name AT_REMOVEDIR = ENOTDIR := by
          rw [fs_unlinkat_file fs false st.calls fd name _ hf hname, if_pos rfl]
        have h0 : (fs_env fs false).unlinkat
            (st.calls ++ [Call.unlinkat fd name AT_REMOVEDIR ENOTDIR]) fd name 0 = 0 := by
          rw [fs_unlinkat_file fs false _ fd name 0 hf]
          · rfl
          · rw [removals_snoc_unlinkat, if_neg (by decide)]
            exact hname
        refine ⟨_, remove_any_file_not_dir _ fd fuel name _ st hm hcud he h0, ?_⟩
        show removals (st.calls ++ [Call.unlinkat fd name AT_REMOVEDIR ENOTDIR]
          ++ [Call.unlinkat fd name 0 0]) = _
        rw [removals_snoc_unlinkat, if_pos rfl, removals_snoc_unlinkat, if_neg (by decide)]
    · -- a directory
      have hpo : postorder fs (fuel + 1) name
          = (entries.map (fun x => postorder fs fuel (fs_join name x))).flatten ++ [name] := by
        simp only [postorder, hf]
      rw [hpo] at hnot hnd ⊢
      obtain ⟨hndF, _, hdis⟩ := List.nodup_append.mp hnd
      have hname : name ∉ removals st.calls :=
        hnot name (List.mem_append_right _ (List.mem_singleton.mpr rfl))
      have hnameF : name ∉ (entries.map (fun x => postorder fs fuel (fs_join name x))).flatten :=
        fun h => hdis h (List.mem_singleton.mpr rfl)
      have hchild : ∀ x ∈ entries, fs_join name x
          ∈ (entries.map (fun x => postorder fs fuel (fs_join name x))).flatten := by
        intro x hx
        obtain ⟨P, hP⟩ := postorder_last fs fuel (fs_join name x) (hes x hx).2
        rw [List.mem_flatten]
        exact ⟨_, List.mem_map.mpr ⟨x, hx, rfl⟩, by rw [hP]; simp⟩
      -- the first statement
      obtain ⟨st1, hu, hr1⟩ : ∃ st1, unlink_first (fs_env fs cud) fd name st = (none, st1) ∧
          removals st1.calls = removals st.calls := by
        cases cud with
        | false => exact ⟨st, (unlink_first_spec _ fd name st).1 hcud, rfl⟩
        | true =>
          have he : (fs_env fs true).unlinkat st.calls fd name 0 = EISDIR := by
            rw [fs_unlinkat_dir fs true st.calls fd name 0 entries hf hname,
              if_neg (by decide)]
          refine ⟨_, (unlink_first_spec _ fd name st).2.2.1 hcud (Or.inr he), ?_⟩
          rw [call_unlinkat_calls, he, removals_snoc_unlinkat, if_neg (by decide)]
      have hname1 : name ∉ removals st1.calls := by rw [hr1]; exact hname
      cases entries with
      | nil =>
        have h0 : (fs_env fs cud).unlinkat st1.calls fd name AT_REMOVEDIR = 0 := by
          rw [fs_unlinkat_dir fs cud st1.calls fd name _ [] hf hname1, if_pos rfl]
          rfl
        refine ⟨_, remove_any_file_rmdir_done _ fd fuel name _ st st1 hm hu h0, ?_⟩
        show removals (st1.calls ++ [Call.unlinkat fd name AT_REMOVEDIR 0]
          ++ [Call.remove_delayed_set_stat name]) = _
        rw [removals_snoc_delayed, removals_snoc_unlinkat, if_pos rfl, hr1]
        simp
      | cons x es =>
        have hx1 : fs_join name x ∉ removals st1.calls := by
          rw [hr1]
          exact hnot _ (List.mem_append_left _ (hchild x (List.mem_cons_self _ _)))
        have he : (fs_env fs cud).unlinkat st1.calls fd name AT_REMOVEDIR = ENOTEMPTY := by
          rw [fs_unlinkat_dir fs cud st1.calls fd name _ (x :: es) hf hname1, if_pos rfl]
          have : (x :: es).all (fun c => decide (fs_join name c ∈ removals st1.calls))
              = false := by
            rw [List.all_cons, decide_eq_false hx1, Bool.false_and]
          rw [this]
          rfl
        have hr2 : removals (st1.calls ++ [Call.unlinkat fd name AT_REMOVEDIR ENOTEMPTY])
            = removals st.calls := by
          rw [removals_snoc_unlinkat, if_neg (by decide), hr1]
        have hl : (fs_env fs cud).tar_savedir
            (st1.calls ++ [Call.unlinkat fd name AT_REMOVEDIR ENOTEMPTY]) fd name
            = (some (x :: es), 0) := by
          apply fs_savedir_dir fs cud _ fd name (x :: es) hf
          · rw [hr2]; exact hname
          · intro y hy
            rw [hr2]
            exact hnot _ (List.mem_append_left _ (hchild y hy))
        have hr3 : removals (st1.calls ++ [Call.unlinkat fd name AT_REMOVEDIR ENOTEMPTY]
            ++ [Call.tar_savedir name (some (x :: es))]) = removals st.calls := by
          rw [removals_snoc_savedir, hr2]
        obtain ⟨st4, hloop, hr4⟩ := remove_entries_tree fs cud fd fuel name ih (x :: es)
          { errno := 0, calls := st1.calls ++ [Call.unlinkat fd name AT_REMOVEDIR ENOTEMPTY]
              ++ [Call.tar_savedir name (some (x :: es))] }
          hes hndF
          (by
            intro q hq
            show q ∉ removals (st1.calls ++ [Call.unlinkat fd name AT_REMOVEDIR ENOTEMPTY]
              ++ [Call.tar_savedir name (some (x :: es))])
            rw [hr3]
            exact hnot q (List.mem_append_left _ hq))
        have hr4' : removals st4.calls = removals st.calls
            ++ ((x :: es).map (fun x => postorder fs fuel (fs_join name x))).flatten := by
          rw [hr4]
          show removals (st1.calls ++ [Call.unlinkat fd name AT_REMOVEDIR ENOTEMPTY]
              ++ [Call.tar_savedir name (some (x :: es))]) ++ _ = _
          rw [hr3]
        have hname4 : name ∉ removals st4.calls := by
          rw [hr4']
          intro hmem
          rcases List.mem_append.mp hmem with h | h
          · exact hname h
          · exact hnameF h
        have h0 : (fs_env fs cud).unlinkat st4.calls fd name AT_REMOVEDIR = 0 := by
          rw [fs_unlinkat_dir fs cud st4.calls fd name _ (x :: es) hf hname4, if_pos rfl]
          have : (x :: es).all (fun c => decide (fs_join name c ∈ removals st4.calls))
              = true := by
            rw [List.all_eq_true]
            intro y hy
            apply decide_eq_true
            rw [hr4']
            exact List.mem_append_right _ (hchild y hy)
          rw [this]
          rfl
        refine ⟨_, remove_any_file_recursive_done _ fd fuel name st st1 st4 ENOTEMPTY 0
          (x :: es) hm hu he (Or.inr rfl) hl hloop h0, ?_⟩
        show removals (st4.calls ++ [Call.unlinkat fd name AT_REMOVEDIR 0]
          ++ [Call.remove_delayed_set_stat name]) = _
        rw [removals_snoc_delayed, removals_snoc_unlinkat, if_pos rfl, hr4', List.append_assoc]

/-- In the postorder of a complete tree, every entry of a directory comes
before the directory. -/
theorem postorder_children_first (fs : FsTree) :
    ∀ (fuel : Nat) (name : List Char), tree_ok fs fuel name = true →
      ∀ (q : List Char) (es : List (List Char)) (x : List Char),
        q ∈ postorder fs fuel name → fs q = some (.dir es) → x ∈ es →
        ∃ A B C, postorder fs fuel name = A ++ fs_join q x :: B ++ q :: C := by
  intro fuel
  induction fuel with
  | zero =>
    intro name hok
    simp [tree_ok] at hok
  | succ fuel ih =>
    intro name hok q es x hq hfq hx
    obtain ⟨_, hnode⟩ := tree_ok_succ fs fuel name hok
    rcases hnode with hf | ⟨entries, hf, hes⟩
    · have hpo : postorder fs (fuel + 1) name = [name] := by
        simp only [postorder, hf]
      rw [hpo] at hq
      rw [List.mem_singleton.mp hq, hf] at hfq
      cases hfq
    · have hpo : postorder fs (fuel + 1) name
          = (entries.map (fun x => postorder fs fuel (fs_join name x))).flatten ++ [name] := by
        simp only [postorder, hf]
      rw [hpo] at hq ⊢
      rcases List.mem_append.mp hq with h | h
      · obtain ⟨l, hl, hql⟩ := List.mem_flatten.mp h
        obtain ⟨y, hy, hyl⟩ := List.mem_map.mp hl
        subst hyl
        obtain ⟨A, B, C, hABC⟩ := ih (fs_join name y) (hes y hy).2 q es x hql hfq hx
        obtain ⟨E1, E2, hE⟩ := List.append_of_mem hy
        subst hE
        refine ⟨(E1.map (fun x => postorder fs fuel (fs_join name x))).flatten ++ A, B,
          C ++ (E2.map (fun x => postorder fs fuel (fs_join name x))).flatten ++ [name], ?_⟩
        simp only [List.map_append, List.map_cons, List.flatten_append, List.flatten_cons, hABC,
          List.append_assoc, List.cons_append]
      · have hqn := List.mem_singleton.mp h
        subst hqn
        rw [hf] at hfq
        injection hfq with hfq
        injection hfq with hfq
        subst hfq
        obtain ⟨P, hP⟩ := postorder_last fs fuel (fs_join q x) (hes x hx).2
        obtain ⟨E1, E2, hE⟩ := List.append_of_mem hx
        subst hE
        refine ⟨(E1.map (fun x => postorder fs fuel (fs_join q x))).flatten ++ P,
          (E2.map (fun x => postorder fs fuel (fs_join q x))).flatten, [], ?_⟩
        simp only [List.map_append, List.map_cons, List.flatten_append, List.flatten_cons, hP,
          List.append_assoc, List.cons_append, List.nil_append]

/-- C21. Let `name` be a directory, empty or not, at the top of a complete
tree of distinct files of which nothing is removed yet, in the environment of
that tree, where no removal fails for want of permission. Then
`remove_any_file` with `RECURSIVE_REMOVE_OPTION` returns 1; the files it removes
are those of the tree, each once, in postorder; afterwards `unlinkat` finds
none of them (`ENOENT`), `name` and its entries included; and in the sequence of
removals every entry of every directory comes before the directory. -/
theorem remove_any_file_recursive_removes (fs : FsTree) (cud : Bool) (fd : Int) (fuel : Nat)
    (name : List Char) (st : RmState) (entries : List (List Char))
    (hdir : fs name = some (.dir entries))
    (hok : tree_ok fs fuel name = true) (hnd : (postorder fs fuel name).Nodup)
    (hnot : ∀ q ∈ postorder fs fuel name, q ∉ removals st.calls) :
    ∃ st', remove_any_file (fs_env fs cud) fd fuel name .RECURSIVE_REMOVE_OPTION st
        = .ok (1, st') ∧
      removals st'.calls = removals st.calls ++ postorder fs fuel name ∧
      (∀ q ∈ postorder fs fuel name, ∀ flag,
        (fs_env fs cud).unlinkat st'.calls fd q flag = ENOENT) ∧
      name ∈ postorder fs fuel name ∧
      (∀ x ∈ entries, fs_join name x ∈ postorder fs fuel name) ∧
      (∀ (q : List Char) (es : List (List Char)) (x : List Char),
        q ∈ postorder fs fuel name → fs q = some (.dir es) → x ∈ es →
        ∃ A B C, postorder fs fuel name = A ++ fs_join q x :: B ++ q :: C) := by
  obtain ⟨st', h1, h2⟩ := remove_any_file_tree fs cud fd fuel name st hok hnd hnot
  have hname : name ∈ postorder fs fuel name := by
    obtain ⟨P, hP⟩ := postorder_last fs fuel name hok
    rw [hP]
    simp
  have hfirst := postorder_children_first fs fuel name hok
  refine ⟨st', h1, h2, ?_, hname, ?_, hfirst⟩
  · intro q hq flag
    apply fs_unlinkat_gone
    rw [h2]
    exact List.mem_append_right _ hq
  · intro x hx
    obtain ⟨A, B, C, h⟩ := hfirst name entries x hname hdir hx
    rw [h]
    simp

/-- C21, for the directory "d" with the file "f" and the empty directory "e":
the removals are "d/f", "d/e", "d", in this order. -/
theorem remove_any_file_recursive_removes_witness :
    ∃ st', remove_any_file (fs_env fs0 false) 3 2 ['d'] .RECURSIVE_REMOVE_OPTION RmState.init
        = .ok (1, st') ∧
      removals st'.calls = [['d', '/', 'f'], ['d', '/', 'e'], ['d']] ∧
      (fs_env fs0 false).unlinkat st'.calls 3 ['d'] AT_REMOVEDIR = ENOENT := by
  obtain ⟨st', h1, h2, h3, h4, _⟩ := remove_any_file_recursive_removes fs0 false 3 2 ['d']
    RmState.init [['f'], ['e']] rfl (by decide) (by decide) (by decide)
  exact ⟨st', h1, h2, h3 _ h4 _⟩

/-! ## Claims on `suffix.c` -/

/-- The function `strrchr` finds the text from the last `c` on. -/
theorem strrchr_spec (c : Char) : ∀ (s : List Char),
    (c ∉ s → strrchr s c = none) ∧
    (c ∈ s → ∃ pre t, s = pre ++ c :: t ∧ c ∉ t ∧ strrchr s c = some (c :: t)) := by
  intro s
  induction s with
  | nil => exact ⟨fun _ => rfl, fun h => by simp at h⟩
  | cons x rest ih =>
    by_cases hr : c ∈ rest
    · obtain ⟨pre, t, hs, ht, hq⟩ := ih.2 hr
      refine ⟨fun h => absurd (List.mem_cons_of_mem _ hr) h, fun _ => ⟨x :: pre, t, ?_, ht, ?_⟩⟩
      · rw [hs]; rfl
      · simp only [strrchr, hq]
    · have hn := ih.1 hr
      constructor
      · intro h
        have hx : ¬ x = c := fun e => h (by rw [e]; exact List.mem_cons_self _ _)
        simp only [strrchr, hn, if_neg hx]
      · intro h
        have hx : x = c := by
          rcases List.mem_cons.mp h with e | e
          · exact e.symm
          · exact absurd e hr
        refine ⟨[], rest, by rw [hx]; rfl, hr, ?_⟩
        simp [strrchr, hn, hx]

/-- The text after the last '.', by a decomposition of the name. -/
theorem after_last_dot_spec (pre t : List Char) (ht : '.' ∉ t) :
    after_last_dot (pre ++ '.' :: t) = some t := by
  unfold after_last_dot
  rw [if_pos (by simp)]
  congr 1
  have h1 : (pre ++ '.' :: t).reverse = t.reverse ++ '.' :: pre.reverse := by simp
  rw [h1, List.takeWhile_append_of_pos, List.takeWhile_cons_of_neg (by simp), List.append_nil,
    List.reverse_reverse]
  intro x hx
  have : x ≠ '.' := fun e => ht (by rw [← e]; exact List.mem_reverse.mp hx)
  simpa using this

/-- The test of the loop for one entry whose `length` is the length of its
suffix: the length and the bytes agree iff the suffix is the text. -/
theorem suffix_test (e : compression_suffix) (he : e.length = e.suffix.length) (t : List Char) :
    (decide (e.length = t.length) && memcmp_eq e.suffix t t.length) = decide (t = e.suffix) := by
  by_cases h : t = e.suffix
  · subst h
    simp [he, memcmp_eq]
  · rw [decide_eq_false h]
    by_cases hl : e.suffix.length = t.length
    · have : memcmp_eq e.suffix t t.length = false := by
        unfold memcmp_eq
        rw [List.take_length, ← hl, List.take_length]
        simpa using fun x => h x.symm
      rw [this, Bool.and_false]
    · rw [he, decide_eq_false hl, Bool.false_and]

/-- The loop runs to the end when no entry has the text as its suffix. -/
theorem find_suffix_loop_none (t : List Char)
    (h : ∀ e ∈ compression_suffixes, t ≠ e.suffix) :
    ∀ (fuel i : Nat), find_suffix_loop t t.length fuel i = none := by
  have hlen : ∀ e ∈ compression_suffixes, e.length = e.suffix.length := by decide
  intro fuel
  induction fuel with
  | zero => intro i; rfl
  | succ fuel ih =>
    intro i
    unfold find_suffix_loop
    split
    · split
      · rfl
      · rename_i e he
        have hm : e ∈ compression_suffixes := List.mem_iff_getElem?.mpr ⟨_, he⟩
        have ht := suffix_test e (hlen e hm) t
        rw [decide_eq_false (h e hm)] at ht
        rw [ht]
        simp only [Bool.false_eq_true, if_false]
        exact ih (i + 1)
    · rfl

/-- The loop over the table finds the program of the suffix. -/
theorem find_suffix_loop_spec (t : List Char) :
    find_suffix_loop t t.length (nsuffixes + 1) 0 = program_of_suffix t := by
  by_cases h1 : t = "gz".toList
  · subst h1; rfl
  by_cases h2 : t = "tgz".toList
  · subst h2; rfl
  by_cases h3 : t = "taz".toList
  · subst h3; rfl
  by_cases h4 : t = "Z".toList
  · subst h4; rfl
  by_cases h5 : t = "taZ".toList
  · subst h5; rfl
  by_cases h6 : t = "bz2".toList
  · subst h6; rfl
  by_cases h7 : t = "tbz".toList
  · subst h7; rfl
  by_cases h8 : t = "tbz2".toList
  · subst h8; rfl
  by_cases h9 : t = "tz2".toList
  · subst h9; rfl
  by_cases h10 : t = "lzma".toList
  · subst h10; rfl
  by_cases h11 : t = "tlz".toList
  · subst h11; rfl
  by_cases h12 : t = "lzo".toList
  · subst h12; rfl
  by_cases h13 : t = "xz".toList
  · subst h13; rfl
  rw [find_suffix_loop_none t]
  · unfold program_of_suffix
    rw [if_neg (not_or.mpr ⟨h1, not_or.mpr ⟨h2, h3⟩⟩), if_neg (not_or.mpr ⟨h4, h5⟩),
      if_neg (not_or.mpr ⟨h6, not_or.mpr ⟨h7, not_or.mpr ⟨h8, h9⟩⟩⟩),
      if_neg (not_or.mpr ⟨h10, h11⟩), if_neg h12, if_neg h13]
  · intro e he
    simp only [compression_suffixes, List.mem_cons, List.mem_singleton, List.not_mem_nil,
      or_false] at he
    rcases he with r | r | r | r | r | r | r | r | r | r | r | r | r <;> subst r <;>
      assumption

/-- C38. The function `find_compression_program (name, defprog)` returns the
program that the table gives for the text after the last '.' of `name`, compared
exactly, and `defprog` when `name` has no '.' or that text is not in the table;
`set_comression_program_by_suffix` stores that result, and leaves
`use_compress_program_option` as it was when the result is null. -/
theorem find_compression_program_by_suffix (name : List Char)
    (defprog use_compress_program_option : Option (List Char)) :
    find_compression_program name defprog
      = (match after_last_dot name with
        | some t =>
          match program_of_suffix t with
          | some program => some program
          | none => defprog
        | none => defprog) ∧
    (find_compression_program name defprog = none →
      set_comression_program_by_suffix name defprog use_compress_program_option
        = use_compress_program_option) ∧
    (∀ program, find_compression_program name defprog = some program →
      set_comression_program_by_suffix name defprog use_compress_program_option
        = some program) ∧
    find_compression_program "a.tar.gz".toList none = some "gzip".toList ∧
    find_compression_program "a.tar.GZ".toList defprog = defprog ∧
    find_compression_program "gz".toList defprog = defprog ∧
    find_compression_program "a.taZ".toList none = some "compress".toList ∧
    find_compression_program "a.tbz2".toList none = some "bzip2".toList ∧
    find_compression_program "a.b/tlz".toList defprog = defprog := by
  have main : ∀ (n : List Char) (d : Option (List Char)), find_compression_program n d
      = (match after_last_dot n with
        | some t =>
          match program_of_suffix t with
          | some program => some program
          | none => d
        | none => d) := by
    intro n d
    by_cases hd : '.' ∈ n
    · obtain ⟨pre, t, hs, ht, hq⟩ := (strrchr_spec '.' n).2 hd
      unfold find_compression_program
      rw [hq, hs, after_last_dot_spec pre t ht]
      simp only [List.drop_succ_cons, List.drop_zero, find_suffix_loop_spec]
    · unfold find_compression_program after_last_dot
      rw [(strrchr_spec '.' n).1 hd, if_neg hd]
  refine ⟨main name defprog, ?_, ?_, ?_, ?_, ?_, ?_, ?_, ?_⟩
  · intro h
    simp only [set_comression_program_by_suffix, h]
  · intro program h
    simp only [set_comression_program_by_suffix, h]
  · rw [main]; rfl
  · rw [main]; rfl
  · rw [main]; rfl
  · rw [main]; rfl
  · rw [main]; rfl
  · rw [main]; rfl

/-! ## Claim on the absolute paths of the table -/

/-- The absent case of `chdir_arg` is not taken when the entries of the table
have absolute paths. -/
theorem chdir_arg_absdir_present {s1 : State} (hk : s1.abspaths_present) (d1 : List Char)
    (absdir : Option (List Char)) (h : chdir_arg_absdir s1 d1 = .ok absdir) :
    absdir ≠ none := by
  unfold chdir_arg_absdir at h
  by_cases ha : IS_ABSOLUTE_FILE_NAME d1 = true
  · rw [if_pos ha] at h
    injection h with h
    rw [← h]
    exact Option.some_ne_none _
  · rw [if_neg ha] at h
    split at h
    · cases h
    · cases h
    · rename_i last hlast _
      have hmem : last ∈ s1.wd := List.mem_iff_getElem?.mpr ⟨_, hlast⟩
      cases hp : last.abspath with
      | none => exact absurd hp (hk last hmem)
      | some abspath =>
        rw [hp] at h
        simp only at h
        split at h
        · cases h
        · split at h
          · cases h
          · split at h
            · cases h
            · injection h with h
              rw [← h]
              exact Option.some_ne_none _

/-- The first part of `chdir_arg` keeps the absolute paths, and gives entry 0
the result of `getcwd`. -/
theorem chdir_arg_grow_present (env : Env) {s s1 : State} (hk : s.abspaths_present)
    (h : chdir_arg_grow env s = .ok s1) : s1.abspaths_present := by
  unfold chdir_arg_grow at h
  by_cases hfull : s.wd_count = s.wd_alloc
  · rw [if_pos hfull] at h
    simp only at h
    by_cases hz : s.wd_count = 0
    · rw [if_pos hz] at h
      cases hx : env.xgetcwd with
      | none =>
        rw [hx] at h
        cases h
      | some cwd =>
        rw [hx] at h
        injection h with h
        subst h
        intro e he
        rcases List.mem_append.mp he with he | he
        · exact hk e he
        · rw [List.mem_singleton.mp he]
          exact Option.some_ne_none _
    · rw [if_neg hz] at h
      injection h with h
      subst h
      exact hk
  · rw [if_neg hfull] at h
    injection h with h
    subst h
    exact hk

/-- A completed `chdir_arg` keeps the absolute paths and gives the new entry
one. -/
theorem chdir_arg_present (env : Env) {s s' : State} {dir : List Char} {idx : Nat}
    (hk : s.abspaths_present) (hs : chdir_arg env dir s = .ok (idx, s')) :
    s'.abspaths_present := by
  obtain ⟨s1, d1, hg, _, hcase⟩ := chdir_arg_cases env hs
  have hk1 := chdir_arg_grow_present env hk hg
  rcases hcase with ⟨_, _, he, _⟩ | ⟨_, absdir, ha, hw, _⟩
  · rw [he]; exact hk1
  · intro e he
    rw [hw] at he
    rcases List.mem_append.mp he with he | he
    · exact hk1 e he
    · rw [List.mem_singleton.mp he]
      exact chdir_arg_absdir_present hk1 d1 absdir ha

theorem cache_add_static (i : Nat) (s s' : State) (h : cache_add i s = .ok s') :
    s'.wd.map wd.static = s.wd.map wd.static := by
  unfold cache_add at h
  split at h
  · split at h
    · injection h with h
      subst h
      rfl
    · cases h
  · split at h
    · cases h
    · split at h
      · cases h
      · rename_i st _ _ stale hst
        injection h with h
        subst h
        exact map_static_set s.wd st stale _ hst rfl

theorem chdir_do_finish_wd (i : Nat) (fd : Int) (s s' : State)
    (h : chdir_do_finish i fd s = .ok s') : s'.wd = s.wd := by
  unfold chdir_do_finish at h
  split at h
  · split at h
    · cases h
    · injection h with h
      subst h
      rfl
  · injection h with h
    subst h
    rfl

theorem chdir_do_open_static (env : Env) (i : Nat) (s s' : State) (fd : Int)
    (h : chdir_do_open env i s = .ok (fd, s')) :
    s'.wd.map wd.static = s.wd.map wd.static := by
  unfold chdir_do_open at h
  split at h
  · cases h
  · rename_i curr hcurr
    simp only at h
    split at h
    · cases h
    · split at h
      · cases h
      · rename_i s2 hc
        injection h with h
        injection h with _ h2
        subst h2
        rw [cache_add_static _ _ _ hc]
        exact map_static_set s.wd i curr _ hcurr rfl

/-- A completed `chdir_do` changes no name and no absolute path of the
table, whatever the environment does. -/
theorem chdir_do_static (env : Env) : ∀ (i : Nat) (s s' : State),
    chdir_do env i s = .ok s' → s'.wd.map wd.static = s.wd.map wd.static := by
  have body : ∀ (parent : State → Except Fault State) (i : Nat) (s s' : State),
      (∀ s1 s2, parent s1 = .ok s2 → s2.wd.map wd.static = s1.wd.map wd.static) →
      chdir_do_body env parent i s = .ok s' →
      s'.wd.map wd.static = s.wd.map wd.static := by
    intro parent i s s' hp h
    unfold chdir_do_body at h
    split at h
    · split at h
      · cases h
      · split at h
        · split at h
          · cases h
          · rename_i s1 hs1
            have h1 : s1.wd.map wd.static = s.wd.map wd.static := by
              split at hs1
              · exact hp _ _ hs1
              · injection hs1 with hs1
                subst hs1
                rfl
            split at h
            · cases h
            · rename_i fd s2 ho
              rw [chdir_do_finish_wd _ _ _ _ h, chdir_do_open_static env _ _ _ _ ho, h1]
        · rw [chdir_do_finish_wd _ _ _ _ h]
    · injection h with h
      subst h
      rfl
  intro i
  induction i with
  | zero =>
    intro s s' h
    rw [chdir_do] at h
    exact body _ 0 s s' (fun _ _ hx => by cases hx) h
  | succ i ih =>
    intro s s' h
    rw [chdir_do] at h
    exact body _ (i + 1) s s' (fun s1 s2 hx => ih s1 s2 hx) h

/-- In every reachable state every entry has an absolute path. -/
theorem Reachable.present {env : Env} {s : State} (hr : Reachable env s) :
    s.abspaths_present := by
  induction hr with
  | init => intro e he; simp [State.init] at he
  | arg s s' dir idx _ hs ih => exact chdir_arg_present env ih hs
  | chdir s s' i _ _ hs ih =>
    have hst := chdir_do_static env i s s' hs
    intro e he
    have hm : wd.static e ∈ s.wd.map wd.static := by
      rw [← hst]
      exact List.mem_map_of_mem _ he
    obtain ⟨e0, he0, hs0⟩ := List.mem_map.mp hm
    have : e.abspath = e0.abspath := (congrArg Prod.snd hs0).symm
    rw [this]
    exact ih e0 he0

/-- C34. In every state reachable by completed calls of `chdir_arg` (and of
`chdir_do`), whatever the environment: every entry has an absolute path that is
not null; a further `chdir_arg` that completes gives its entry one (the absent
case is not taken); `tar_getcdpath` returns no null pointer, and for every index
of the table it returns the path of the entry; and for a relative name the block
of `normalize_filename` that applies `strlen` and `strcpy` to that path fills the
buffer with the path, a slash, the name and the NUL. -/
theorem abspath_always_present (env : Env) (s : State) (hr : Reachable env s) :
    (∀ e ∈ s.wd, e.abspath ≠ none) ∧
    (∀ dir idx s', chdir_arg env dir s = .ok (idx, s') → ∀ e ∈ s'.wd, e.abspath ≠ none) ∧
    (∀ c, tar_getcdpath env s c ≠ .ok none) ∧
    (∀ (c : Nat) (e : wd), s.wd[c]? = some e →
      ∃ P, e.abspath = some P ∧ tar_getcdpath env s c = .ok (some P) ∧
        ∀ (fill : Char) (n : List Char), IS_ABSOLUTE_FILE_NAME n = false →
          normalize_filename_copy env fill s c n = .ok (some (buffer_of (P ++ '/' :: n)))) := by
  have hp := hr.present
  refine ⟨hp, fun dir idx s' hs => chdir_arg_present env hp hs, ?_, ?_⟩
  · intro c h
    unfold tar_getcdpath at h
    split at h
    · split at h
      · cases h
      · injection h with h
        cases h
    · split at h
      · cases h
      · rename_i e he
        injection h with h
        exact hp e (List.mem_iff_getElem?.mpr ⟨_, he⟩) h
  · intro c e he
    have hmem : e ∈ s.wd := List.mem_iff_getElem?.mpr ⟨_, he⟩
    cases hP : e.abspath with
    | none => exact absurd hP (hp e hmem)
    | some P =>
      have hg : tar_getcdpath env s c = .ok (some P) := by
        rw [tar_getcdpath_entry env he, hP]
      refine ⟨P, rfl, hg, ?_⟩
      intro fill n hrel
      obtain ⟨c1, c2, h1, h2, h3⟩ := copy_buffer fill P n
      unfold normalize_filename_copy
      simp only [hrel, Bool.not_false, if_true, hg, h1, h2, h3]

/-- C34, for entry 1 of the table made by `chdir_arg ("/tmp/a")`. -/
theorem abspath_always_present_witness :
    (∀ e ∈ demo3.wd, e.abspath ≠ none) ∧
    tar_getcdpath env0 demo3 1 = .ok (some "/tmp/a".toList) ∧
    normalize_filename_copy env0 'x' demo3 1 "b".toList
      = .ok (some (buffer_of "/tmp/a/b".toList)) := by
  obtain ⟨h1, _, _, h4⟩ := abspath_always_present env0 demo3 demo3_reachable
  obtain ⟨P, hP, hg, hn⟩ := h4 1
    { name := "/tmp/a".toList, abspath := some "/tmp/a".toList, fd := 0 } (by decide)
  injection hP with hP
  subst hP
  exact ⟨h1, hg, hn 'x' "b".toList (by decide)⟩

/-! ## Claims on the order of the calls of `remove_any_file` -/

theorem grows_refl {Q : List Call → Prop} (hnil : Q []) (st : RmState) : st.grows Q st :=
  ⟨[], by simp, hnil⟩

theorem grows_trans {Q : List Call → Prop} (happ : ∀ a b, Q a → Q b → Q (a ++ b))
    {a b c : RmState} (h1 : a.grows Q b) (h2 : b.grows Q c) : a.grows Q c := by
  obtain ⟨n1, e1, p1⟩ := h1
  obtain ⟨n2, e2, p2⟩ := h2
  exact ⟨n1 ++ n2, by rw [e2, e1, List.append_assoc], happ _ _ p1 p2⟩

theorem grows_errno {Q : List Call → Prop} {a b : RmState} (h : a.grows Q b) (e : Nat) :
    a.grows Q { b with errno := e } := h

/-- The calls of the first statement of `remove_any_file`: none, or one
`unlinkat` without `AT_REMOVEDIR`. -/
theorem unlink_first_calls (env : RmEnv) (fd : Int) (name : List Char) (st st1 : RmState)
    (o : Option Int) (hu : unlink_first env fd name st = (o, st1)) :
    (env.cannot_unlink_dir = false ∧ o = none ∧ st1 = st) ∨
    (env.cannot_unlink_dir = true ∧
      st1.calls = st.calls ++ [Call.unlinkat fd name 0 (env.unlinkat st.calls fd name 0)]) := by
  rcases unlink_first_total env fd name st with ⟨hc, h⟩ | ⟨hc, o1, h⟩
  · rw [h] at hu
    injection hu with h1 h2
    exact Or.inl ⟨hc, h1.symm, h2.symm⟩
  · rw [h] at hu
    injection hu with _ h2
    exact Or.inr ⟨hc, by rw [← h2]; rfl⟩

/-- The calls of `safer_rmdir`: none for a name that is refused, else the
`rmdir`, followed by `remove_delayed_set_stat` iff it succeeded. -/
theorem safer_rmdir_calls (env : RmEnv) (fd : Int) (name : List Char) (st st1 : RmState)
    (r : Int) (h : safer_rmdir env fd name st = .ok (r, st1)) :
    (must_be_dot_or_slash name = .ok true ∧ r = -1 ∧ st1 = { st with errno := 0 }) ∨
    (must_be_dot_or_slash name = .ok false ∧ env.unlinkat st.calls fd name AT_REMOVEDIR = 0 ∧
      r = 0 ∧ st1 = { errno := st.errno, calls := st.calls ++
        [Call.unlinkat fd name AT_REMOVEDIR 0] ++ [Call.remove_delayed_set_stat name] }) ∨
    (must_be_dot_or_slash name = .ok false ∧ env.unlinkat st.calls fd name AT_REMOVEDIR ≠ 0 ∧
      r = -1 ∧
      st1 = { errno := env.unlinkat st.calls fd name AT_REMOVEDIR,
              calls := st.calls ++ [Call.unlinkat fd name AT_REMOVEDIR
                (env.unlinkat st.calls fd name AT_REMOVEDIR)] }) := by
  obtain ⟨b, hb⟩ := must_be_dot_or_slash_total name
  cases b with
  | true =>
    rw [safer_rmdir_refused env fd st hb] at h
    injection h with h
    injection h with h1 h2
    exact Or.inl ⟨hb, h1.symm, h2.symm⟩
  | false =>
    by_cases h0 : env.unlinkat st.calls fd name AT_REMOVEDIR = 0
    · rw [safer_rmdir_done env fd name st hb h0] at h
      injection h with h
      injection h with h1 h2
      exact Or.inr (Or.inl ⟨hb, h0, h1.symm, h2.symm⟩)
    · rw [safer_rmdir_failed env fd name st _ hb rfl h0] at h
      injection h with h
      injection h with h1 h2
      exact Or.inr (Or.inr ⟨hb, h0, h1.symm, h2.symm⟩)

/-- The calls of a run of `remove_any_file`, at every depth of the recursion,
are made of these pieces: an `unlinkat` without `AT_REMOVEDIR`; a successful
`rmdir` with its `remove_delayed_set_stat`; a failed `rmdir`; a listing. -/
theorem remove_any_file_pieces (Q : List Call → Prop) (hnil : Q [])
    (happ : ∀ a b, Q a → Q b → Q (a ++ b))
    (hun : ∀ d n e, Q [Call.unlinkat d n 0 e])
    (hok : ∀ d n, Q ([Call.unlinkat d n AT_REMOVEDIR 0] ++ [Call.remove_delayed_set_stat n]))
    (hfail : ∀ d n e, e ≠ 0 → Q [Call.unlinkat d n AT_REMOVEDIR e])
    (hsv : ∀ n r, Q [Call.tar_savedir n r]) (env : RmEnv) (fd : Int) :
    ∀ (fuel : Nat) (name : List Char) (option : remove_option) (st st' : RmState) (r : Int),
      remove_any_file env fd fuel name option st = .ok (r, st') → st.grows Q st' := by
  have hfirst : ∀ name st st1 o, unlink_first env fd name st = (o, st1) → st.grows Q st1 := by
    intro name st st1 o hu
    rcases unlink_first_calls env fd name st st1 o hu with ⟨_, _, h⟩ | ⟨_, h⟩
    · rw [h]; exact grows_refl hnil st
    · exact ⟨_, h, hun _ _ _⟩
  have hrm : ∀ name st st1 r, safer_rmdir env fd name st = .ok (r, st1) → st.grows Q st1 := by
    intro name st st1 r hs
    rcases safer_rmdir_calls env fd name st st1 r hs with ⟨_, _, h⟩ | ⟨_, _, _, h⟩ | ⟨_, h0, _, h⟩
    · rw [h]; exact grows_refl hnil st
    · rw [h]; exact ⟨_, by rw [List.append_assoc], hok _ _⟩
    · rw [h]; exact ⟨_, rfl, hfail _ _ _ h0⟩
  have hcall : ∀ (name : List Char) (st : RmState),
      st.grows Q (call_unlinkat env fd name 0 st).2 :=
    fun name st => ⟨_, call_unlinkat_calls env fd name 0 st, hun _ _ _⟩
  have hloop : ∀ (remove : List Char → RmState → Except Fault (Int × RmState))
      (name : List Char),
      (∀ n s r s', remove n s = .ok (r, s') → s.grows Q s') →
      ∀ (entries : List (List Char)) (st st' : RmState) (b : Bool),
        remove_entries env remove name entries st = .ok (b, st') → st.grows Q st' := by
    intro remove name hrem entries
    induction entries with
    | nil =>
      intro st st' b h
      simp only [remove_entries] at h
      injection h with h
      injection h with _ h2
      rw [← h2]; exact grows_refl hnil st
    | cons entry rest ih =>
      intro st st' b h
      simp only [remove_entries] at h
      split at h
      · injection h with h
        injection h with _ h2
        rw [← h2]; exact grows_refl hnil st
      · split at h
        · cases h
        · rename_i r st1 heq
          have h1 := hrem _ _ _ _ heq
          split at h
          · injection h with h
            injection h with _ h2
            rw [← h2]; exact h1
          · exact grows_trans happ (grows_errno h1 _) (ih _ st' b h)
  intro fuel
  induction fuel with
  | zero => intro name option st st' r h; cases h
  | succ fuel ih =>
    intro name option st st' r h
    simp only [remove_any_file] at h
    split at h
    · rename_i r1 st1 heq
      injection h with h
      injection h with _ h2
      rw [← h2]
      exact hfirst _ _ _ _ heq
    · rename_i st1 heq
      have h1 := hfirst _ _ _ _ heq
      split at h
      · cases h
      · rename_i r2 st2 heq2
        have h2 := grows_trans happ h1 (hrm _ _ _ _ heq2)
        split at h
        · injection h with h
          injection h with _ h3
          rw [← h3]; exact h2
        · split at h
          · split at h
            · have hc := hcall name st2
              split at h
              · rename_i st3 heq3
                have : (call_unlinkat env fd name 0 st2).2 = st3 := by rw [heq3]
                injection h with h
                injection h with _ h3
                rw [← h3, ← this]; exact grows_trans happ h2 hc
              · rename_i x st3 _ heq3
                have : (call_unlinkat env fd name 0 st2).2 = st3 := by rw [heq3]
                injection h with h
                injection h with _ h3
                rw [← h3, ← this]; exact grows_trans happ h2 hc
            · injection h with h
              injection h with _ h3
              rw [← h3]; exact h2
          · split at h
            · split at h
              · injection h with h
                injection h with _ h3
                rw [← h3]; exact h2
              · injection h with h
                injection h with _ h3
                rw [← h3]; exact h2
              · have hs : ∀ (ret : Option (List (List Char))) (e : Nat),
                    st.grows Q
                      { errno := e, calls := st2.calls ++ [Call.tar_savedir name ret] } :=
                  fun ret e => grows_trans happ h2 ⟨_, rfl, hsv _ _⟩
                split at h
                · injection h with h
                  injection h with _ h3
                  rw [← h3]; exact hs _ _
                · rename_i directory e heq3
                  split at h
                  · cases h
                  · rename_i st4 heq4
                    have h4 := hloop _ name (fun n s r s' hr => ih n _ s s' r hr)
                      directory _ st4 false heq4
                    injection h with h
                    injection h with _ h3
                    rw [← h3]; exact grows_trans happ (hs _ _) h4
                  · rename_i st4 heq4
                    have h4 := hloop _ name (fun n s r s' hr => ih n _ s s' r hr)
                      directory _ st4 true heq4
                    split at h
                    · cases h
                    · rename_i r5 st5 heq5
                      injection h with h
                      injection h with _ h3
                      rw [← h3]
                      exact grows_trans happ (grows_trans happ (hs _ _) (grows_errno h4 _))
                        (hrm _ _ _ _ heq5)
            · injection h with h
              injection h with _ h3
              rw [← h3]; exact h2

theorem Paired.append {a b : List Call} (ha : Paired a) (hb : Paired b) : Paired (a ++ b) := by
  induction ha with
  | nil => exact hb
  | rmdir d n rest _ ih => exact Paired.rmdir d n _ ih
  | other d n flag err rest hf _ ih => exact Paired.other d n flag err _ hf ih
  | listing n r rest _ ih => exact Paired.listing n r _ ih

/-- In a paired list, `remove_delayed_set_stat (n)` has a successful `rmdir` of
`n` right before it. -/
theorem Paired.before {l : List Call} (h : Paired l) :
    ∀ (A B : List Call) (n : List Char), l = A ++ Call.remove_delayed_set_stat n :: B →
      ∃ A1 d, A = A1 ++ [Call.unlinkat d n AT_REMOVEDIR 0] := by
  induction h with
  | nil =>
    intro A B n h
    simp at h
  | rmdir d m rest _ ih =>
    intro A B n h
    cases A with
    | nil => cases h
    | cons a A =>
      injection h with h1 h2
      cases A with
      | nil =>
        injection h2 with h3 _
        injection h3 with h3
        exact ⟨[], d, by rw [← h1, h3]; rfl⟩
      | cons a2 A =>
        injection h2 with h3 h4
        obtain ⟨A1, d1, hA⟩ := ih A B n h4
        exact ⟨a :: a2 :: A1, d1, by rw [hA]; rfl⟩
  | other d m flag err rest hf hrest ih =>
    intro A B n h
    cases A with
    | nil => cases h
    | cons a A =>
      injection h with h1 h2
      cases A with
      | nil =>
        subst h2
        cases hrest
      | cons a2 A =>
        obtain ⟨A1, d1, hA⟩ := ih (a2 :: A) B n h2
        exact ⟨a :: A1, d1, by rw [hA]; rfl⟩
  | listing m r rest hrest ih =>
    intro A B n h
    cases A with
    | nil => cases h
    | cons a A =>
      injection h with h1 h2
      cases A with
      | nil =>
        subst h2
        cases hrest
      | cons a2 A =>
        obtain ⟨A1, d1, hA⟩ := ih (a2 :: A) B n h2
        exact ⟨a :: A1, d1, by rw [hA]; rfl⟩

/-- In a paired list, a successful `rmdir` of `n` has
`remove_delayed_set_stat (n)` right after it. -/
theorem Paired.after {l : List Call} (h : Paired l) :
    ∀ (A B : List Call) (d : Int) (n : List Char),
      l = A ++ Call.unlinkat d n AT_REMOVEDIR 0 :: B →
      ∃ B1, B = Call.remove_delayed_set_stat n :: B1 := by
  induction h with
  | nil =>
    intro A B d n h
    simp at h
  | rmdir d0 m rest _ ih =>
    intro A B d n h
    cases A with
    | nil =>
      injection h with h1 h2
      injection h1 with _ h3 _ _
      exact ⟨rest, by rw [← h2, h3]⟩
    | cons a A =>
      injection h with h1 h2
      cases A with
      | nil => cases h2
      | cons a2 A =>
        injection h2 with _ h4
        exact ih A B d n h4
  | other d0 m flag err rest hf _ ih =>
    intro A B d n h
    cases A with
    | nil =>
      injection h with h1 _
      injection h1 with _ _ h3 h4
      exact absurd h4 (hf h3)
    | cons a A =>
      injection h with _ h2
      exact ih A B d n h2
  | listing m r rest _ ih =>
    intro A B d n h
    cases A with
    | nil => cases h
    | cons a A =>
      injection h with _ h2
      exact ih A B d n h2

/-- In a paired list there are as many `remove_delayed_set_stat` calls as
successful `rmdir` calls. -/
theorem Paired.count {l : List Call} (h : Paired l) : delayed_calls l = rmdirs l := by
  induction h with
  | nil => rfl
  | rmdir d n rest _ ih => simp [delayed_calls, rmdirs, ih]
  | other d n flag err rest hf _ ih =>
    have : ¬ (flag = AT_REMOVEDIR ∧ err = 0) := fun hx => hf hx.1 hx.2
    simp [delayed_calls, rmdirs, ih, this]
  | listing n r rest _ ih => simp [delayed_calls, rmdirs, ih]

/-- C32. In the calls that a run of `remove_any_file` makes, under every
option and at every depth of the recursion, `remove_delayed_set_stat (n)` is
called exactly for the directory removals that succeed: right after every
successful `rmdir` of `n`, once, and nowhere else; so not for an `rmdir` that
failed or was refused, and not for a removal by `unlinkat` without
`AT_REMOVEDIR`. -/
theorem remove_delayed_set_stat_pairs (env : RmEnv) (fd : Int) (fuel : Nat) (name : List Char)
    (option : remove_option) (st st' : RmState) (r : Int)
    (h : remove_any_file env fd fuel name option st = .ok (r, st')) :
    ∃ new, st'.calls = st.calls ++ new ∧ Paired new ∧
      (∀ (A B : List Call) (n : List Char), new = A ++ Call.remove_delayed_set_stat n :: B →
        ∃ A1 d, A = A1 ++ [Call.unlinkat d n AT_REMOVEDIR 0]) ∧
      (∀ (A B : List Call) (d : Int) (n : List Char),
        new = A ++ Call.unlinkat d n AT_REMOVEDIR 0 :: B →
        ∃ B1, B = Call.remove_delayed_set_stat n :: B1) ∧
      delayed_calls new = rmdirs new := by
  obtain ⟨new, h1, h2⟩ := remove_any_file_pieces Paired Paired.nil
    (fun a b ha hb => ha.append hb)
    (fun d n e => Paired.other d n 0 e [] (fun hx => absurd hx (by decide)) Paired.nil)
    (fun d n => Paired.rmdir d n [] Paired.nil)
    (fun d n e he => Paired.other d n AT_REMOVEDIR e [] (fun _ => he) Paired.nil)
    (fun n r => Paired.listing n r [] Paired.nil)
    env fd fuel name option st st' r h
  exact ⟨new, h1, h2, h2.before, h2.after, h2.count⟩

/-- C32, for the recursive removal of the directory "d" with the file "f" and
the empty directory "e": the two calls of `remove_delayed_set_stat` are those
for "d/e" and "d". -/
theorem remove_delayed_set_stat_pairs_witness :
    ∃ st', remove_any_file (fs_env fs0 false) 3 2 ['d'] .RECURSIVE_REMOVE_OPTION RmState.init
        = .ok (1, st') ∧
      st'.calls = [Call.unlinkat 3 ['d'] AT_REMOVEDIR ENOTEMPTY,
        Call.tar_savedir ['d'] (some [['f'], ['e']]),
        Call.unlinkat 3 ['d', '/', 'f'] AT_REMOVEDIR ENOTDIR,
        Call.unlinkat 3 ['d', '/', 'f'] 0 0,
        Call.unlinkat 3 ['d', '/', 'e'] AT_REMOVEDIR 0,
        Call.remove_delayed_set_stat ['d', '/', 'e'],
        Call.unlinkat 3 ['d'] AT_REMOVEDIR 0,
        Call.remove_delayed_set_stat ['d']] ∧
      Paired st'.calls ∧ delayed_calls st'.calls = 2 := by
  obtain ⟨new, h1, h2, _, _, h5⟩ := remove_delayed_set_stat_pairs (fs_env fs0 false) 3 2 ['d']
    .RECURSIVE_REMOVE_OPTION RmState.init _ 1 rfl
  have hn : new = [Call.unlinkat 3 ['d'] AT_REMOVEDIR ENOTEMPTY,
      Call.tar_savedir ['d'] (some [['f'], ['e']]),
      Call.unlinkat 3 ['d', '/', 'f'] AT_REMOVEDIR ENOTDIR,
      Call.unlinkat 3 ['d', '/', 'f'] 0 0,
      Call.unlinkat 3 ['d', '/', 'e'] AT_REMOVEDIR 0,
      Call.remove_delayed_set_stat ['d', '/', 'e'],
      Call.unlinkat 3 ['d'] AT_REMOVEDIR 0,
      Call.remove_delayed_set_stat ['d']] := by
    have := h1
    simp only [RmState.init, List.nil_append] at this
    exact this.symm
  rw [hn] at h2
  exact ⟨_, rfl, rfl, h2, rfl⟩

/-- What follows the first `safer_rmdir` in a run of `remove_any_file`:
nothing; or, after a failure with `ENOTDIR` on a host where directories can be
unlinked, one `unlinkat` without `AT_REMOVEDIR`, which decides the result; or,
under the recursive option, calls that start with the listing of the name. -/
theorem remove_any_file_after_rmdir (env : RmEnv) (fd : Int) (fuel : Nat) (name : List Char)
    (option : remove_option) (st st1 st2 st' : RmState) (r r2 : Int)
    (hu : unlink_first env fd name st = (none, st1))
    (hs : safer_rmdir env fd name st1 = .ok (r2, st2))
    (h : remove_any_file env fd (fuel + 1) name option st = .ok (r, st')) :
    ∃ rest, st'.calls = st2.calls ++ rest ∧
      ((rest = [] ∧ (r2 = 0 → r = 1) ∧
          (r2 ≠ 0 → st2.errno = ENOTDIR →
            r = 0 ∧ st' = st2 ∧ env.cannot_unlink_dir = true)) ∨
        (∃ e, rest = [Call.unlinkat fd name 0 e] ∧ r2 ≠ 0 ∧ st2.errno = ENOTDIR ∧
          env.cannot_unlink_dir = false ∧ r = (if e = 0 then 1 else 0)) ∨
        (∃ d tl, rest = Call.tar_savedir name d :: tl ∧ r2 ≠ 0 ∧ st2.errno ≠ ENOTDIR ∧
          option = .RECURSIVE_REMOVE_OPTION)) := by
  have hrec : ∀ (directory : List (List Char)) (s3 s4 : RmState) (b : Bool),
      remove_entries env
        (fun n s => remove_any_file env fd fuel n .RECURSIVE_REMOVE_OPTION s)
        name directory s3 = .ok (b, s4) → ∃ new, s4.calls = s3.calls ++ new := by
    intro directory s3 s4 b hx
    obtain ⟨new, e1, _⟩ := remove_entries_ext (P := fun _ => True) env _ name
      (fun n s r s' hr => by
        obtain ⟨new, e1, _⟩ := remove_any_file_guarded env fd fuel n _ s s' r hr
        exact ⟨new, e1, fun _ _ => trivial⟩) directory s3 s4 b hx
    exact ⟨new, e1⟩
  simp only [remove_any_file, hu, hs] at h
  split at h
  · rename_i h0
    injection h with h
    injection h with h1 h2
    exact ⟨[], by rw [← h2]; simp, Or.inl ⟨rfl, fun _ => h1.symm, fun hx => absurd h0 hx⟩⟩
  · rename_i h0
    split at h
    · rename_i hnd
      split at h
      · rename_i hc
        have hcud : env.cannot_unlink_dir = false := by simpa using hc
        have hr : r = (if env.unlinkat st2.calls fd name 0 = 0 then 1 else 0) ∧
            st' = (call_unlinkat env fd name 0 st2).2 := by
          split at h
          · rename_i st3 heq
            injection h with h
            injection h with h1 h2
            have e0 : env.unlinkat st2.calls fd name 0 = 0 := congrArg Prod.fst heq
            have e1 : (call_unlinkat env fd name 0 st2).2 = st3 := by rw [heq]
            exact ⟨by rw [if_pos e0]; exact h1.symm, by rw [e1]; exact h2.symm⟩
          · rename_i x st3 hne heq
            injection h with h
            injection h with h1 h2
            have e0 : ¬ env.unlinkat st2.calls fd name 0 = 0 := by
              intro hz
              have hx : x = env.unlinkat st2.calls fd name 0 := (congrArg Prod.fst heq).symm
              exact hne (by rw [hx]; exact hz)
            have e1 : (call_unlinkat env fd name 0 st2).2 = st3 := by rw [heq]
            exact ⟨by rw [if_neg e0]; exact h1.symm, by rw [e1]; exact h2.symm⟩
        refine ⟨[Call.unlinkat fd name 0 (env.unlinkat st2.calls fd name 0)], ?_,
          Or.inr (Or.inl ⟨_, rfl, h0, hnd, hcud, hr.1⟩)⟩
        rw [hr.2]
        rfl
      · rename_i hc
        have hcud : env.cannot_unlink_dir = true := by simpa using hc
        injection h with h
        injection h with h1 h2
        exact ⟨[], by rw [← h2]; simp,
          Or.inl ⟨rfl, fun hx => absurd hx h0, fun _ _ => ⟨h1.symm, h2.symm, hcud⟩⟩⟩
    · rename_i hnd
      have hnone : st' = st2 →
          ∃ rest, st'.calls = st2.calls ++ rest ∧
            ((rest = [] ∧ (r2 = 0 → r = 1) ∧
                (r2 ≠ 0 → st2.errno = ENOTDIR →
                  r = 0 ∧ st' = st2 ∧ env.cannot_unlink_dir = true)) ∨
              (∃ e, rest = [Call.unlinkat fd name 0 e] ∧ r2 ≠ 0 ∧ st2.errno = ENOTDIR ∧
                env.cannot_unlink_dir = false ∧ r = (if e = 0 then 1 else 0)) ∨
              (∃ d tl, rest = Call.tar_savedir name d :: tl ∧ r2 ≠ 0 ∧ st2.errno ≠ ENOTDIR ∧
                option = .RECURSIVE_REMOVE_OPTION)) := by
        intro h2
        exact ⟨[], by rw [h2]; simp,
          Or.inl ⟨rfl, fun hx => absurd hx h0, fun _ hx => absurd hx hnd⟩⟩
      have hinj : ∀ (v : Int),
          (Except.ok (v, st2) : Except Fault (Int × RmState)) = Except.ok (r, st') →
          st' = st2 := by
        intro v hx
        injection hx with hx
        injection hx with _ h2
        exact h2.symm
      split at h
      · split at h
        · exact hnone (hinj _ h)
        · exact hnone (hinj _ h)
        · split at h
          · rename_i e heq
            injection h with h
            injection h with _ h2
            exact ⟨[Call.tar_savedir name none], by rw [← h2],
              Or.inr (Or.inr ⟨_, _, rfl, h0, hnd, rfl⟩)⟩
          · rename_i directory e heq
            split at h
            · cases h
            · rename_i st4 heq4
              obtain ⟨new, hn⟩ := hrec directory _ st4 false heq4
              injection h with h
              injection h with _ h2
              exact ⟨Call.tar_savedir name (some directory) :: new,
                by rw [← h2, hn]; simp, Or.inr (Or.inr ⟨_, _, rfl, h0, hnd, rfl⟩)⟩
            · rename_i st4 heq4
              obtain ⟨new, hn⟩ := hrec directory _ st4 true heq4
              split at h
              · cases h
              · rename_i r5 st5 heq5
                obtain ⟨new5, hn5, _⟩ := safer_rmdir_guarded env fd name _ st5 r5 heq5
                injection h with h
                injection h with _ h2
                refine ⟨Call.tar_savedir name (some directory) :: (new ++ new5), ?_,
                  Or.inr (Or.inr ⟨_, _, rfl, h0, hnd, rfl⟩)⟩
                rw [← h2, hn5]
                show st4.calls ++ new5 = _
                rw [hn]
                simp
      · exact hnone (hinj _ h)

/-- C31. For a name that is not obviously the directory itself. On a host
where directories cannot be unlinked, `remove_any_file` first calls `unlinkat`
without `AT_REMOVEDIR`: when that succeeds the result is 1 and it is the only
call; when it fails with an `errno` other than `EPERM` and `EISDIR` the result
is 0 and it is the only call; when it fails with `EPERM` or `EISDIR` the next
call is the `rmdir`, and when that fails with `ENOTDIR` the result is 0 and no
call follows. On a host where directories can be unlinked, the first call is the
`rmdir`; an `unlinkat` without `AT_REMOVEDIR` follows exactly when the `rmdir`
failed with `ENOTDIR`, and then decides the result. -/
theorem remove_any_file_unlink_first (env : RmEnv) (fd : Int) (fuel : Nat) (name : List Char)
    (option : remove_option) (st : RmState) (hm : must_be_dot_or_slash name = .ok false) :
    (env.cannot_unlink_dir = true →
      (env.unlinkat st.calls fd name 0 = 0 →
        remove_any_file env fd (fuel + 1) name option st
          = .ok (1, { errno := st.errno, calls := st.calls ++ [Call.unlinkat fd name 0 0] })) ∧
      (∀ e, env.unlinkat st.calls fd name 0 = e → e ≠ 0 → e ≠ EPERM → e ≠ EISDIR →
        remove_any_file env fd (fuel + 1) name option st
          = .ok (0, { errno := e, calls := st.calls ++ [Call.unlinkat fd name 0 e] })) ∧
      (∀ e e2, env.unlinkat st.calls fd name 0 = e → e = EPERM ∨ e = EISDIR →
        env.unlinkat (st.calls ++ [Call.unlinkat fd name 0 e]) fd name AT_REMOVEDIR = e2 →
        (∀ r st', remove_any_file env fd (fuel + 1) name option st = .ok (r, st') →
          ∃ rest, st'.calls = st.calls
            ++ [Call.unlinkat fd name 0 e, Call.unlinkat fd name AT_REMOVEDIR e2] ++ rest) ∧
        (e2 = ENOTDIR →
          remove_any_file env fd (fuel + 1) name option st
            = .ok (0, { errno := ENOTDIR, calls := st.calls
                ++ [Call.unlinkat fd name 0 e, Call.unlinkat fd name AT_REMOVEDIR ENOTDIR] })))) ∧
    (env.cannot_unlink_dir = false →
      ∀ e, env.unlinkat st.calls fd name AT_REMOVEDIR = e →
        ∀ r st', remove_any_file env fd (fuel + 1) name option st = .ok (r, st') →
          ∃ rest, st'.calls = st.calls ++ [Call.unlinkat fd name AT_REMOVEDIR e] ++ rest ∧
            (e = ENOTDIR → ∃ e1, rest = [Call.unlinkat fd name 0 e1] ∧
              r = (if e1 = 0 then 1 else 0)) ∧
            (e ≠ ENOTDIR → ∀ d n e1, rest.head? ≠ some (Call.unlinkat d n 0 e1))) := by
  constructor
  · intro hc
    obtain ⟨_, hu1, hu2, hu3⟩ := unlink_first_spec env fd name st
    refine ⟨?_, ?_, ?_⟩
    · intro h0
      rw [remove_any_file_unlinked env fd fuel name option st _ 1 (hu1 hc h0)]
      simp only [call_unlinkat, h0, if_true]
    · intro e he h0 h1 h2
      subst he
      rw [remove_any_file_unlinked env fd fuel name option st _ 0 (hu3 hc h0 h1 h2)]
      simp only [call_unlinkat, h0, if_false]
    · intro e e2 he hpe he2
      subst he
      have hne : env.unlinkat st.calls fd name 0 ≠ 0 := by
        rcases hpe with h | h <;> rw [h] <;> decide
      have hu := hu2 hc hpe
      have hst1 : (call_unlinkat env fd name 0 st).2
          = { errno := env.unlinkat st.calls fd name 0,
              calls := st.calls ++ [Call.unlinkat fd name 0 (env.unlinkat st.calls fd name 0)] } := by
        simp only [call_unlinkat, hne, if_false]
      rw [hst1] at hu
      have hst : (RmState.mk (env.unlinkat st.calls fd name 0)
          (st.calls ++ [Call.unlinkat fd name 0 (env.unlinkat st.calls fd name 0)])).calls
          = st.calls ++ [Call.unlinkat fd name 0 (env.unlinkat st.calls fd name 0)] := rfl
      rw [← hst] at he2
      constructor
      · intro r st' h
        by_cases h0 : e2 = 0
        · subst h0
          have hs := safer_rmdir_done env fd name _ hm he2
          obtain ⟨rest, hr, _⟩ := remove_any_file_after_rmdir env fd fuel name option st _ _ st'
            r 0 hu hs h
          exact ⟨Call.remove_delayed_set_stat name :: rest, by rw [hr]; simp⟩
        · have hs := safer_rmdir_failed env fd name _ e2 hm he2 h0
          obtain ⟨rest, hr, _⟩ := remove_any_file_after_rmdir env fd fuel name option st _ _ st'
            r (-1) hu hs h
          exact ⟨rest, by rw [hr]; simp⟩
      · intro hnd
        subst hnd
        have hs := safer_rmdir_failed env fd name _ ENOTDIR hm he2 (by decide)
        have h1 : ¬ ((-1 : Int) = 0) := by decide
        simp only [remove_any_file, hu, hs, h1, if_false, if_true, hc, Bool.not_true,
          Bool.false_eq_true, List.append_assoc, List.singleton_append]
  · intro hc e he r st' h
    subst he
    have hu := (unlink_first_spec env fd name st).1 hc
    by_cases h0 : env.unlinkat st.calls fd name AT_REMOVEDIR = 0
    · have hs := safer_rmdir_done env fd name st hm h0
      obtain ⟨rest, hr, hcase⟩ := remove_any_file_after_rmdir env fd fuel name option st st _ st'
        r 0 hu hs h
      have hrest : rest = [] := by
        rcases hcase with ⟨h1, _⟩ | ⟨_, _, h2, _⟩ | ⟨_, _, _, h2, _⟩
        · exact h1
        · exact absurd rfl h2
        · exact absurd rfl h2
      refine ⟨[Call.remove_delayed_set_stat name], by rw [hr, hrest, h0]; simp, ?_, ?_⟩
      · intro hx
        rw [h0] at hx
        exact absurd hx (by decide)
      · intro _ d n e1 hx
        simp at hx
    · have hs := safer_rmdir_failed env fd name st _ hm rfl h0
      obtain ⟨rest, hr, hcase⟩ := remove_any_file_after_rmdir env fd fuel name option st st _ st'
        r (-1) hu hs h
      refine ⟨rest, by rw [hr], ?_, ?_⟩
      · intro hx
        rcases hcase with ⟨_, _, h3⟩ | ⟨e1, h1, _, _, _, h5⟩ | ⟨_, _, _, _, h3, _⟩
        · have := (h3 (by decide) hx).2.2
          rw [hc] at this
          cases this
        · exact ⟨e1, h1, h5⟩
        · exact absurd hx h3
      · intro hx d n e1 hh
        rcases hcase with ⟨h1, _⟩ | ⟨_, _, _, h3, _⟩ | ⟨_, _, h1, _⟩
        · rw [h1] at hh
          simp at hh
        · exact absurd h3 hx
        · rw [h1] at hh
          simp at hh

/-- C31, on a host where directories cannot be unlinked: the file "f" is
removed by the first `unlinkat`, which is the only call. -/
theorem remove_any_file_unlink_first_witness :
    must_be_dot_or_slash ['f'] = .ok false ∧
    remove_any_file rm_env4 3 1 ['f'] .ORDINARY_REMOVE_OPTION RmState.init
      = .ok (1, { errno := 0, calls := [Call.unlinkat 3 ['f'] 0 0] }) :=
  ⟨rfl, ((remove_any_file_unlink_first rm_env4 3 0 ['f'] .ORDINARY_REMOVE_OPTION RmState.init
    rfl).1 rfl).1 rfl⟩

/-! ## Claim on `must_be_dot_or_slash` -/

theorem dot_components_slash (r : List Char) :
    dot_components ('/' :: r) = dot_components r := by
  unfold dot_components
  rw [split_slash_cons_slash]
  simp

/-- The first component of a name that does not start with a slash starts
with the first character. -/
theorem split_slash_head (x : Char) (r : List Char) (hx : x ≠ '/') :
    ∃ comp comps, split_slash (x :: r) = (x :: comp) :: comps ∧
      (comp = [] → r = [] ∨ ∃ t, r = '/' :: t) ∧
      (∀ y t, r = y :: t → y ≠ '/' → ∃ comp1, comp = y :: comp1) := by
  obtain ⟨c0, cs0, h0⟩ := List.exists_cons_of_ne_nil (split_slash_ne_nil r)
  refine ⟨c0, cs0, split_slash_cons_other c0 cs0 x r hx h0, ?_, ?_⟩
  · intro hc
    cases r with
    | nil => exact Or.inl rfl
    | cons y t =>
      rw [hc] at h0
      exact Or.inr ⟨t, by rw [split_slash_head_nil y t cs0 h0]⟩
  · intro y t hr hy
    subst hr
    obtain ⟨c1, cs1, h1⟩ := List.exists_cons_of_ne_nil (split_slash_ne_nil t)
    rw [split_slash_cons_other c1 cs1 y t hy h1] at h0
    injection h0 with h0 _
    exact ⟨c1, h0.symm⟩

theorem dot_components_cons (x : Char) (r : List Char) (hx : x ≠ '/')
    (h : dot_components (x :: r) = true) : x = '.' := by
  obtain ⟨comp, comps, hs, _, _⟩ := split_slash_head x r hx
  unfold dot_components at h
  rw [hs] at h
  simp only [List.all_cons, Bool.and_eq_true, Bool.or_eq_true, beq_iff_eq] at h
  rcases h.1 with (h1 | h1) | h1
  · cases h1
  · injection h1 with h1 _
  · injection h1 with h1 _

theorem dot_components_dot_cons (y : Char) (r : List Char) (hy : y ≠ '/') (hd : y ≠ '.') :
    dot_components ('.' :: y :: r) = false := by
  obtain ⟨comp, comps, hs, _, h3⟩ := split_slash_head '.' (y :: r) (by decide)
  obtain ⟨comp1, hc1⟩ := h3 y r rfl hy
  by_contra hne
  have h : dot_components ('.' :: y :: r) = true := by simpa using hne
  unfold dot_components at h
  rw [hs, hc1] at h
  simp only [List.all_cons, Bool.and_eq_true, Bool.or_eq_true, beq_iff_eq] at h
  rcases h.1 with (h1 | h1) | h1
  · cases h1
  · injection h1 with _ h1
    cases h1
  · injection h1 with _ h1
    injection h1 with h1 _
    exact hd h1

theorem dot_components_dot_dot_cons (y : Char) (r : List Char) (hy : y ≠ '/') :
    dot_components ('.' :: '.' :: y :: r) = false := by
  obtain ⟨comp, comps, hs, _, h3⟩ := split_slash_head '.' ('.' :: y :: r) (by decide)
  obtain ⟨comp1, hc1⟩ := h3 '.' (y :: r) rfl (by decide)
  have hs2 := hs
  rw [hc1] at hs2
  obtain ⟨comp', comps', hs', _, h3'⟩ := split_slash_head '.' (y :: r) (by decide)
  obtain ⟨comp2, hc2⟩ := h3' y r rfl hy
  have hsame : split_slash ('.' :: '.' :: y :: r) = ('.' :: '.' :: y :: comp2) :: comps' := by
    rw [split_slash_cons_other _ _ '.' _ (by decide) hs', hc2]
  by_contra hne
  have h : dot_components ('.' :: '.' :: y :: r) = true := by simpa using hne
  unfold dot_components at h
  rw [hsame] at h
  simp only [List.all_cons, Bool.and_eq_true, Bool.or_eq_true, beq_iff_eq] at h
  rcases h.1 with (h1 | h1) | h1
  · cases h1
  · injection h1 with _ h1
    cases h1
  · injection h1 with _ h1
    injection h1 with _ h1
    cases h1

theorem dot_components_dot_slash (r : List Char) :
    dot_components ('.' :: '/' :: r) = dot_components r := by
  unfold dot_components
  rw [show ('.' :: '/' :: r) = ['.'] ++ '/' :: r from rfl,
    split_slash_append_slash ['.'] r (by decide)]
  simp

theorem dot_components_dot_dot_slash (r : List Char) :
    dot_components ('.' :: '.' :: '/' :: r) = dot_components r := by
  unfold dot_components
  rw [show ('.' :: '.' :: '/' :: r) = ['.', '.'] ++ '/' :: r from rfl,
    split_slash_append_slash ['.', '.'] r (by decide)]
  simp

theorem slash_tail_slash (r : List Char) : slash_tail ('/' :: r) = slash_tail r := by
  unfold slash_tail
  rw [dot_components_slash]
  cases r with
  | nil => rfl
  | cons y t => simp [List.getLast?_cons_cons]

theorem slash_tail_skip (x y : Char) (r : List Char) :
    ((x :: y :: r).isEmpty || (x :: y :: r).getLast? == some '/')
      = ((y :: r).isEmpty || (y :: r).getLast? == some '/') := by
  simp [List.getLast?_cons_cons]

theorem slash_loop_slash (fuel : Nat) (r : List Char) :
    slash_loop (fuel + 1) ('/' :: '/' :: r) = slash_loop fuel ('/' :: r) := by
  have h1 : cchar ('/' :: '/' :: r) 1 = .ok '/' := by simp [cchar]
  simp only [slash_loop, h1, ISSLASH, beq_self_eq_true, if_true, List.drop_succ_cons,
    List.drop_zero]

theorem slash_loop_dot_slash (fuel : Nat) (r : List Char) :
    slash_loop (fuel + 1) ('/' :: '.' :: '/' :: r) = slash_loop fuel ('/' :: r) := by
  have h1 : cchar ('/' :: '.' :: '/' :: r) 1 = .ok '.' := by simp [cchar]
  have h2 : cchar ('/' :: '.' :: '/' :: r) 2 = .ok '/' := by simp [cchar]
  simp only [slash_loop, h1, h2, ISSLASH]
  simp [h2]

theorem slash_loop_dot_dot_slash (fuel : Nat) (r : List Char) :
    slash_loop (fuel + 1) ('/' :: '.' :: '.' :: '/' :: r) = slash_loop fuel ('/' :: r) := by
  have h1 : cchar ('/' :: '.' :: '.' :: '/' :: r) 1 = .ok '.' := by simp [cchar]
  have h2 : cchar ('/' :: '.' :: '.' :: '/' :: r) 2 = .ok '.' := by simp [cchar]
  have h3 : cchar ('/' :: '.' :: '.' :: '/' :: r) 3 = .ok '/' := by simp [cchar]
  simp only [slash_loop, h1, h2, ISSLASH]
  simp [h3]

theorem slash_loop_dot_dot_other (fuel : Nat) (y : Char) (r : List Char) (hy : y ≠ '/') :
    slash_loop (fuel + 1) ('/' :: '.' :: '.' :: y :: r) = .ok false := by
  have h1 : cchar ('/' :: '.' :: '.' :: y :: r) 1 = .ok '.' := by simp [cchar]
  have h2 : cchar ('/' :: '.' :: '.' :: y :: r) 2 = .ok '.' := by simp [cchar]
  have h3 : cchar ('/' :: '.' :: '.' :: y :: r) 3 = .ok y := by simp [cchar]
  simp only [slash_loop, h1, h2, ISSLASH]
  simp [h3, hy]
  decide

theorem slash_loop_dot_other (fuel : Nat) (y : Char) (r : List Char) (hy : y ≠ '/')
    (hd : y ≠ '.') : slash_loop (fuel + 1) ('/' :: '.' :: y :: r) = .ok false := by
  have h1 : cchar ('/' :: '.' :: y :: r) 1 = .ok '.' := by simp [cchar]
  have h2 : cchar ('/' :: '.' :: y :: r) 2 = .ok y := by simp [cchar]
  simp only [slash_loop, h1, h2, ISSLASH]
  simp [h2, hy, hd]
  decide

theorem slash_loop_other (fuel : Nat) (x : Char) (r : List Char) (hx : x ≠ '/')
    (hd : x ≠ '.') (hn : x ≠ NUL) : slash_loop (fuel + 1) ('/' :: x :: r) = .ok false := by
  have h1 : cchar ('/' :: x :: r) 1 = .ok x := by simp [cchar]
  simp only [slash_loop, h1, ISSLASH]
  simp [hx, hd, hn]

theorem slash_tail_of_not_dot (r : List Char) (h : dot_components r = false) :
    slash_tail r = false := by
  unfold slash_tail
  rw [h, Bool.and_false]

/-- The loop of `must_be_dot_or_slash` for a name that starts with a slash:
what it returns for the text behind the slash. -/
theorem slash_loop_spec : ∀ (fuel : Nat) (rest : List Char), NUL ∉ rest → rest.length < fuel →
    slash_loop fuel ('/' :: rest) = .ok (slash_tail rest) := by
  intro fuel
  induction fuel with
  | zero => intro rest _ h; omega
  | succ fuel ih =>
    intro rest hn hlen
    cases rest with
    | nil => rfl
    | cons x r =>
      have hxn : x ≠ NUL := fun e => hn (by rw [e]; exact List.mem_cons_self _ _)
      have hnr : NUL ∉ r := fun h => hn (List.mem_cons_of_mem _ h)
      simp only [List.length_cons] at hlen
      by_cases hx : x = '/'
      · subst hx
        rw [slash_loop_slash, slash_tail_slash]
        exact ih r hnr (by omega)
      by_cases hd : x = '.'
      · subst hd
        cases r with
        | nil => rfl
        | cons y r =>
          have hnr2 : NUL ∉ r := fun h => hnr (List.mem_cons_of_mem _ h)
          simp only [List.length_cons] at hlen
          by_cases hy : y = '/'
          · subst hy
            have hs : slash_tail ('.' :: '/' :: r) = slash_tail r := by
              rw [← slash_tail_slash r]
              unfold slash_tail
              rw [slash_tail_skip, dot_components_dot_slash, dot_components_slash]
            rw [slash_loop_dot_slash, hs]
            exact ih r hnr2 (by omega)
          by_cases hyd : y = '.'
          · subst hyd
            cases r with
            | nil => rfl
            | cons z r =>
              have hnr3 : NUL ∉ r := fun h => hnr2 (List.mem_cons_of_mem _ h)
              simp only [List.length_cons] at hlen
              by_cases hz : z = '/'
              · subst hz
                have hs : slash_tail ('.' :: '.' :: '/' :: r) = slash_tail r := by
                  rw [← slash_tail_slash r]
                  unfold slash_tail
                  rw [slash_tail_skip, slash_tail_skip, dot_components_dot_dot_slash,
                    dot_components_slash]
                rw [slash_loop_dot_dot_slash, hs]
                exact ih r hnr3 (by omega)
              · rw [slash_loop_dot_dot_other fuel z r hz,
                  slash_tail_of_not_dot _ (dot_components_dot_dot_cons z r hz)]
          · rw [slash_loop_dot_other fuel y r hy hyd,
              slash_tail_of_not_dot _ (dot_components_dot_cons y r hy hyd)]
      · rw [slash_loop_other fuel x r hx hd hxn]
        have : dot_components (x :: r) = false := by
          by_contra hne
          exact hd (dot_components_cons x r hx (by simpa using hne))
        rw [slash_tail_of_not_dot _ this]

/-- The prefix loop stops at a name that does not start with "./". -/
theorem skip_dot_slash_stops : ∀ (fuel : Nat) (dir d1 : List Char),
    skip_dot_slash fuel dir = .ok d1 → ∀ t, d1 ≠ '.' :: '/' :: t := by
  intro fuel
  induction fuel with
  | zero => intro dir d1 h; cases h
  | succ fuel ih =>
    intro dir d1 h t
    match dir, h with
    | [], h =>
      simp only [skip_dot_slash] at h
      injection h with h
      rw [← h]
      exact fun e => by cases e
    | [c], h =>
      simp only [skip_dot_slash] at h
      injection h with h
      rw [← h]
      exact fun e => by cases e
    | c0 :: c1 :: rest, h =>
      by_cases hc : (c0 == '.' && ISSLASH c1) = true
      · simp only [skip_dot_slash, hc, if_true] at h
        exact ih _ d1 h t
      · simp only [skip_dot_slash, hc] at h
        injection h with h
        rw [← h]
        intro e
        injection e with e0 e
        injection e with e1 _
        apply hc
        rw [e0, e1]
        rfl

/-- The last test of `must_be_dot_or_slash` on a string without NUL. -/
theorem empty_or_dot_spec (f : List Char) (hn : NUL ∉ f) :
    empty_or_dot f = .ok (decide (f = [] ∨ f = ['.'])) := by
  cases f with
  | nil => rfl
  | cons x r =>
    have hx : (x == NUL) = false := by
      have : x ≠ NUL := fun e => hn (by rw [e]; exact List.mem_cons_self _ _)
      simpa using this
    have h0 : cchar (x :: r) 0 = .ok x := by simp [cchar]
    unfold empty_or_dot
    rw [h0]
    simp only [hx, Bool.false_eq_true, if_false]
    by_cases hd : x = '.'
    · subst hd
      cases r with
      | nil => rfl
      | cons y t =>
        have hy : (y == NUL) = false := by
          have : y ≠ NUL := fun e => hn (by rw [e]; simp)
          simpa using this
        have h1 : cchar ('.' :: y :: t) 1 = .ok y := by simp [cchar]
        simp only [beq_self_eq_true, if_true, h1, hy]
        simp
    · have : (x == '.') = false := by simpa using hd
      simp only [this, Bool.false_eq_true, if_false]
      simp [hd]

theorem trivial_components_kept (s : List Char) :
    trivial_components s = decide (kept s = []) := by
  unfold trivial_components kept
  rw [Bool.eq_iff_iff]
  simp only [List.all_eq_true, Bool.or_eq_true, beq_iff_eq, decide_eq_true_eq,
    List.filter_eq_nil_iff]
  constructor
  · intro h comp hc
    rcases h comp hc with h1 | h1 <;> simp [h1]
  · intro h comp hc
    have := h comp hc
    simp only [ne_eq, decide_eq_true_eq, not_and, not_not] at this
    by_cases h1 : comp = []
    · exact Or.inl h1
    · exact Or.inr (this h1)

/-- A relative name that does not start with "./" has no kept component only
when it is empty or ".". -/
theorem kept_nil_of_stopped (d : List Char) (hrel : IS_ABSOLUTE_FILE_NAME d = false)
    (hstop : ∀ t, d ≠ '.' :: '/' :: t) : kept d = [] ↔ (d = [] ∨ d = ['.']) := by
  constructor
  · intro hk
    cases d with
    | nil => exact Or.inl rfl
    | cons x r =>
      right
      have hx : x ≠ '/' := by
        intro e
        rw [e] at hrel
        cases hrel
      obtain ⟨comp, comps, hs, h2, _⟩ := split_slash_head x r hx
      have hk' : kept_comps ((x :: comp) :: comps) = [] := by
        rw [← hs]
        exact hk
      have htriv : x :: comp = [] ∨ x :: comp = ['.'] := by
        by_contra hne
        rw [kept_comps_cons_other _ _ hne] at hk'
        cases hk'
      rcases htriv with h | h
      · cases h
      · injection h with hx1 hc1
        subst hx1
        rcases h2 hc1 with hr | ⟨t, hr⟩
        · rw [hr]
        · exact absurd (by rw [hr]) (hstop t)
  · intro h
    rcases h with h | h <;> subst h <;> rfl

/-- The reference form of a relative name is "" or "." exactly when no
component is kept. -/
theorem normalize_ref_trivial (s : List Char) (hrel : IS_ABSOLUTE_FILE_NAME s = false) :
    (normalize_ref s = [] ∨ normalize_ref s = ['.']) ↔ kept s = [] := by
  cases s with
  | nil => exact ⟨fun _ => rfl, fun _ => Or.inl rfl⟩
  | cons x r =>
    have hx : ¬ x = '/' := by
      intro e
      rw [e] at hrel
      cases hrel
    simp only [normalize_ref, hx, if_false]
    by_cases hk : kept (x :: r) = []
    · simp [hk]
    · simp only [hk, if_false, iff_false, not_or]
      obtain ⟨w, K, hK⟩ := List.exists_cons_of_ne_nil hk
      have hw : w ∈ kept (x :: r) := by rw [hK]; exact List.mem_cons_self _ _
      have hw2 : w ≠ [] ∧ w ≠ ['.'] := by
        have := (List.mem_filter.mp hw).2
        simpa using this
      rw [hK, intercalate_cons]
      obtain ⟨a, t, hat⟩ := List.exists_cons_of_ne_nil hw2.1
      by_cases hKn : K = []
      · simp only [hKn, if_true, List.append_nil]
        exact ⟨hw2.1, hw2.2⟩
      · simp only [hKn, if_false]
        rw [hat]
        constructor
        · simp
        · intro e
          have := congrArg List.length e
          simp at this

/-- A character that is not a slash is in a component. -/
theorem mem_component (x : Char) (hx : x ≠ '/') : ∀ (s : List Char), x ∈ s →
    ∃ comp ∈ split_slash s, x ∈ comp := by
  intro s
  induction s with
  | nil => intro h; simp at h
  | cons y r ih =>
    intro h
    by_cases hy : y = '/'
    · subst hy
      rcases List.mem_cons.mp h with e | e
      · exact absurd e hx
      · obtain ⟨comp, hc, hm⟩ := ih e
        exact ⟨comp, by rw [split_slash_cons_slash]; exact List.mem_cons_of_mem _ hc, hm⟩
    · obtain ⟨c0, cs0, h0⟩ := List.exists_cons_of_ne_nil (split_slash_ne_nil r)
      rw [split_slash_cons_other c0 cs0 y r hy h0]
      rcases List.mem_cons.mp h with e | e
      · exact ⟨y :: c0, List.mem_cons_self _ _, by rw [e]; exact List.mem_cons_self _ _⟩
      · obtain ⟨comp, hc, hm⟩ := ih e
        rw [h0] at hc
        rcases List.mem_cons.mp hc with e1 | e1
        · exact ⟨y :: c0, List.mem_cons_self _ _, by rw [← e1]; exact List.mem_cons_of_mem _ hm⟩
        · exact ⟨comp, List.mem_cons_of_mem _ e1, hm⟩

/-- C33. For a name without NUL, `must_be_dot_or_slash` returns true exactly
when the name is relative and every component of it is empty or ".", or the name
is rooted, ends with a slash, and every component is empty, "." or "..". For a
relative name that is so exactly when `normalize_filename_x` leaves "" or ".".
It is true for ".", "/" and every name of slashes only, false for every name
with a character other than '.' and '/', and false for "/." and "/..". -/
theorem must_be_dot_or_slash_spec (name : List Char) (hn : NUL ∉ name) :
    must_be_dot_or_slash name = .ok (must_be_dot_or_slash_ref name) ∧
    (IS_ABSOLUTE_FILE_NAME name = false →
      (must_be_dot_or_slash name = .ok true ↔
        (normalize name = .ok [] ∨ normalize name = .ok ['.']))) ∧
    (∀ x ∈ name, x ≠ '.' → x ≠ '/' → must_be_dot_or_slash name = .ok false) ∧
    must_be_dot_or_slash ['.'] = .ok true ∧
    (∀ k, must_be_dot_or_slash (List.replicate (k + 1) '/') = .ok true) ∧
    must_be_dot_or_slash ['/', '.'] = .ok false ∧
    must_be_dot_or_slash ['/', '.', '.'] = .ok false ∧
    must_be_dot_or_slash ['/', '.', '.', '/'] = .ok true ∧
    must_be_dot_or_slash ['.', '.'] = .ok false := by
  have main : must_be_dot_or_slash name = .ok (must_be_dot_or_slash_ref name) := by
    cases hname : name with
    | nil => rfl
    | cons x r =>
      have hnr : NUL ∉ r := fun h => hn (by rw [hname]; exact List.mem_cons_of_mem _ h)
      have h0 : cchar (x :: r) 0 = .ok x := by simp [cchar]
      by_cases hx : x = '/'
      · subst hx
        have hlast : (('/' :: r).getLast? == some '/') = (r.isEmpty || r.getLast? == some '/') := by
          cases r with
          | nil => rfl
          | cons y t => simp [List.getLast?_cons_cons]
        unfold must_be_dot_or_slash must_be_dot_or_slash_ref
        rw [h0]
        simp only [ISSLASH, IS_ABSOLUTE_FILE_NAME, beq_self_eq_true, if_true]
        rw [slash_loop_spec _ r hnr (by simp only [List.length_cons]; omega), hlast,
          dot_components_slash]
        rfl
      · have hrel : IS_ABSOLUTE_FILE_NAME (x :: r) = false := by
          simp [IS_ABSOLUTE_FILE_NAME, ISSLASH, hx]
        have hxs : ISSLASH x = false := by simp [ISSLASH, hx]
        obtain ⟨d1, hd1, hsuf, hk, habs⟩ :=
          skip_dot_slash_spec ((x :: r).length + 1) (x :: r) (Nat.lt_succ_self _)
        have hstop := skip_dot_slash_stops _ _ _ hd1
        have hn1 : NUL ∉ d1 := fun h => hn (by rw [hname]; exact hsuf.subset h)
        unfold must_be_dot_or_slash must_be_dot_or_slash_ref
        rw [h0]
        simp only [hxs, Bool.false_eq_true, if_false, hrel, hd1]
        rw [empty_or_dot_spec d1 hn1, trivial_components_kept, ← hk]
        congr 1
        rw [decide_eq_decide]
        exact (kept_nil_of_stopped d1 (habs.trans hrel) hstop).symm
  refine ⟨main, ?_, ?_, rfl, fun k => must_be_dot_or_slash_obvious _ (Or.inr ⟨k, rfl⟩),
    rfl, rfl, rfl, rfl⟩
  · intro hrel
    rw [main, normalize_eq_ref name hn]
    have e1 : (Except.ok (must_be_dot_or_slash_ref name) : Except Fault Bool) = .ok true ↔
        kept name = [] := by
      unfold must_be_dot_or_slash_ref
      rw [hrel]
      simp only [Bool.false_eq_true, if_false, trivial_components_kept]
      constructor
      · intro h
        injection h with h
        simpa using h
      · intro h
        simp [h]
    rw [e1, ← normalize_ref_trivial name hrel]
    constructor
    · intro h
      rcases h with h | h
      · exact Or.inl (by rw [h])
      · exact Or.inr (by rw [h])
    · intro h
      rcases h with h | h
      · injection h with h
        exact Or.inl h
      · injection h with h
        exact Or.inr h
  · intro x hx hd hs
    rw [main]
    congr 1
    obtain ⟨comp, hc, hm⟩ := mem_component x hs name hx
    have hbad : ¬ (comp = [] ∨ comp = ['.'] ∨ comp = ['.', '.']) := by
      intro h
      rcases h with h | h | h
      · rw [h] at hm; simp at hm
      · rw [h] at hm; simp at hm; exact hd hm
      · rw [h] at hm; simp at hm; exact hd hm
    unfold must_be_dot_or_slash_ref
    by_cases habs : IS_ABSOLUTE_FILE_NAME name = true
    · rw [if_pos habs]
      have : dot_components name = false := by
        by_contra hne
        have ht : dot_components name = true := by simpa using hne
        unfold dot_components at ht
        have := List.all_eq_true.mp ht comp hc
        simp only [Bool.or_eq_true, beq_iff_eq] at this
        exact hbad (by rcases this with (h | h) | h
                       · exact Or.inl h
                       · exact Or.inr (Or.inl h)
                       · exact Or.inr (Or.inr h))
      rw [this, Bool.and_false]
    · rw [if_neg habs]
      by_contra hne
      have ht : trivial_components name = true := by simpa using hne
      unfold trivial_components at ht
      have := List.all_eq_true.mp ht comp hc
      simp only [Bool.or_eq_true, beq_iff_eq] at this
      exact hbad (by rcases this with h | h
                     · exact Or.inl h
                     · exact Or.inr (Or.inl h))

/-- C33, for the names "././/" and "/a": the first is obviously the working
directory, the second is not obviously the root. -/
theorem must_be_dot_or_slash_spec_witness :
    NUL ∉ "././/".toList ∧ must_be_dot_or_slash "././/".toList = .ok true ∧
    must_be_dot_or_slash "/a".toList = .ok false :=
  ⟨by decide, (must_be_dot_or_slash_spec "././/".toList (by decide)).1,
    (must_be_dot_or_slash_spec "/a".toList (by decide)).2.2.1 'a' (by decide) (by decide)
      (by decide)⟩

/-! ## `unquote_string` against the scan of the text -/

theorem is_octal_NUL : is_octal NUL = false := by decide

theorem switch_stores_NUL : switch_stores NUL = none := by decide

theorem switch_stores_eq (x : Char) : switch_stores x = escape_denotes x := by
  unfold switch_stores escape_denotes
  by_cases h1 : x = '\\'
  · subst h1; rfl
  by_cases h2 : x = 'a'
  · subst h2; rfl
  by_cases h3 : x = 'b'
  · subst h3; rfl
  by_cases h4 : x = 'f'
  · subst h4; rfl
  by_cases h5 : x = 'n'
  · subst h5; rfl
  by_cases h6 : x = 'r'
  · subst h6; rfl
  by_cases h7 : x = 't'
  · subst h7; rfl
  by_cases h8 : x = 'v'
  · subst h8; rfl
  by_cases h9 : x = '?'
  · subst h9; rfl
  simp only [List.lookup, beq_eq_false_iff_ne.mpr h1, beq_eq_false_iff_ne.mpr h2,
    beq_eq_false_iff_ne.mpr h3, beq_eq_false_iff_ne.mpr h4, beq_eq_false_iff_ne.mpr h5,
    beq_eq_false_iff_ne.mpr h6, beq_eq_false_iff_ne.mpr h7, beq_eq_false_iff_ne.mpr h8,
    beq_eq_false_iff_ne.mpr h9, if_neg h1, if_neg h2, if_neg h3, if_neg h4, if_neg h5,
    if_neg h6, if_neg h7, if_neg h8, if_neg h9]

theorem unquote_piece_plain (c : Char) (rest : List Char) (h : c ≠ '\\') :
    unquote_piece (c :: rest) = ([c], true, 1) := by
  simp only [unquote_piece, if_neg h]

theorem unquote_piece_end : unquote_piece ['\\'] = (['\\'], false, 1) := by
  simp only [unquote_piece, if_true]

theorem unquote_piece_escape (x ch : Char) (r : List Char) (h : escape_denotes x = some ch) :
    unquote_piece ('\\' :: x :: r) = ([ch], true, 2) := by
  simp only [unquote_piece, if_true, h]

theorem unquote_piece_octal (x : Char) (r : List Char) (h : escape_denotes x = none)
    (ho : is_octal x = true) :
    unquote_piece ('\\' :: x :: r) =
      ([octal_denotes (octal_digits (x :: r))], true, 1 + (octal_digits (x :: r)).length) := by
  simp only [unquote_piece, if_true, h, ho]

theorem unquote_piece_other (x : Char) (r : List Char) (h : escape_denotes x = none)
    (ho : is_octal x = false) :
    unquote_piece ('\\' :: x :: r) = (['\\', x], false, 2) := by
  simp only [unquote_piece, if_true, h, ho, Bool.false_eq_true, if_false]

/-- A piece takes at least one character, at most the text, and gives no
more characters than it takes. -/
theorem unquote_piece_bounds (c : Char) (rest : List Char) :
    1 ≤ (unquote_piece (c :: rest)).2.2 ∧
    (unquote_piece (c :: rest)).2.2 ≤ (c :: rest).length ∧
    (unquote_piece (c :: rest)).1.length ≤ (unquote_piece (c :: rest)).2.2 := by
  by_cases hc : c = '\\'
  · subst hc
    cases rest with
    | nil => rw [unquote_piece_end]; simp
    | cons x r =>
      cases he : escape_denotes x with
      | some ch => rw [unquote_piece_escape x ch r he]; simp
      | none =>
        cases ho : is_octal x with
        | true =>
          rw [unquote_piece_octal x r he ho]
          have h1 : (octal_digits (x :: r)).length ≤ (x :: r).length := by
            unfold octal_digits
            exact le_trans (List.takeWhile_prefix _).length_le (List.take_prefix _ _).length_le
          simp only [List.length_cons, List.length_nil] at h1 ⊢
          omega
        | false => rw [unquote_piece_other x r he ho]; simp
  · rw [unquote_piece_plain c rest hc]; simp

/-- A skipped stretch of the scan is a dropped stretch of the text. -/
theorem unquote_scan_skip : ∀ (s : List Char) (k : Nat),
    unquote_scan k s = unquote_scan 0 (s.drop k)
  | [], k => by cases k <;> simp [unquote_scan]
  | _ :: rest, 0 => by simp
  | _ :: rest, k + 1 => by
    rw [unquote_scan, List.drop_succ_cons]
    exact unquote_scan_skip rest k

/-- The scan takes the first piece and goes on behind it. -/
theorem unquote_scan_cons (c : Char) (rest : List Char) :
    unquote_scan 0 (c :: rest) =
      ((unquote_piece (c :: rest)).1 ++
          (unquote_scan 0 ((c :: rest).drop (unquote_piece (c :: rest)).2.2)).1,
        (unquote_piece (c :: rest)).2.1 &&
          (unquote_scan 0 ((c :: rest).drop (unquote_piece (c :: rest)).2.2)).2) := by
  have hk : 1 ≤ (unquote_piece (c :: rest)).2.2 := (unquote_piece_bounds c rest).1
  obtain ⟨k, hk2⟩ : ∃ k, (unquote_piece (c :: rest)).2.2 = k + 1 := ⟨_, (Nat.sub_add_cancel hk).symm⟩
  rw [unquote_scan, unquote_scan_skip rest, hk2]
  simp

theorem drop_add_of_drop {buf l : List Char} {q : Nat} (k : Nat) (h : buf.drop q = l) :
    buf.drop (q + k) = l.drop k := by
  rw [← h, List.drop_drop, Nat.add_comm]

/-- A store at `destination`, in front of the place where the reading goes
on. -/
theorem store_facts {buf l : List Char} {q d : Nat} (ch : Char)
    (hd : buf.drop q = l) (hdq : d < q) (hlt : d < buf.length) :
    wr buf d ch = .ok (buf.set d ch) ∧ (buf.set d ch).length = buf.length ∧
    (buf.set d ch).take (d + 1) = buf.take d ++ [ch] ∧
    (buf.set d ch).drop q = l :=
  ⟨wr_ok ch hlt, List.length_set _ _ _, take_set_succ ch hlt, by
    rw [List.drop_set_of_lt _ _ hdq]; exact hd⟩

theorem is_octal_ge {y : Char} (h : is_octal y = true) : 48 ≤ y.toNat := by
  unfold is_octal at h
  simp only [Bool.and_eq_true, decide_eq_true_eq] at h
  exact h.1

theorem octal_digits_one (x : Char) (hx : is_octal x = true) : octal_digits [x] = [x] := by
  simp [octal_digits, hx]

theorem octal_digits_one_more (x y : Char) (r : List Char) (hx : is_octal x = true)
    (hy : is_octal y = false) : octal_digits (x :: y :: r) = [x] := by
  simp [octal_digits, hx, hy]

theorem octal_digits_two (x y : Char) (hx : is_octal x = true) (hy : is_octal y = true) :
    octal_digits [x, y] = [x, y] := by
  simp [octal_digits, hx, hy]

theorem octal_digits_two_more (x y z : Char) (r : List Char) (hx : is_octal x = true)
    (hy : is_octal y = true) (hz : is_octal z = false) :
    octal_digits (x :: y :: z :: r) = [x, y] := by
  simp [octal_digits, hx, hy, hz]

theorem octal_digits_three (x y z : Char) (r : List Char) (hx : is_octal x = true)
    (hy : is_octal y = true) (hz : is_octal z = true) :
    octal_digits (x :: y :: z :: r) = [x, y, z] := by
  simp [octal_digits, hx, hy, hz]

theorem octal_denotes_one (x : Char) :
    octal_denotes [x] = int_to_char (x.toNat - '0'.toNat) := by
  simp [octal_denotes]

theorem octal_denotes_two (x y : Char) (hy : is_octal y = true) :
    octal_denotes [x, y] = int_to_char ((x.toNat - '0'.toNat) * 8 + y.toNat - '0'.toNat) := by
  have h := is_octal_ge hy
  have h0 : '0'.toNat = 48 := rfl
  simp only [octal_denotes, List.foldl, h0]
  congr 1
  omega

theorem octal_denotes_three (x y z : Char) (hy : is_octal y = true) (hz : is_octal z = true) :
    octal_denotes [x, y, z] =
      int_to_char (((x.toNat - '0'.toNat) * 8 + y.toNat - '0'.toNat) * 8
        + z.toNat - '0'.toNat) := by
  have h := is_octal_ge hy
  have h2 := is_octal_ge hz
  have h0 : '0'.toNat = 48 := rfl
  simp only [octal_denotes, List.foldl, h0]
  congr 1
  omega

/-- The block of the octal digits stores the character that the digits
denote and steps over them. -/
theorem unquote_octal_spec (buf : List Char) (q d : Nat) (x : Char) (r : List Char)
    (hn : NUL ∉ r) (ho : is_octal x = true) (hd : buf.drop q = x :: (r ++ [NUL]))
    (hlt : d < buf.length) :
    unquote_octal buf q d =
      .ok (buf.set d (octal_denotes (octal_digits (x :: r))),
        q + (octal_digits (x :: r)).length, d + 1) := by
  obtain ⟨hr0, hd1, _⟩ := rd_of_drop hd
  unfold unquote_octal
  rw [hr0]
  cases r with
  | nil =>
    obtain ⟨hr1, _, _⟩ := rd_of_drop (l := []) hd1
    simp only [hr1, is_octal_NUL, Bool.not_false, if_true, wr_ok _ hlt]
    rw [octal_digits_one x ho, octal_denotes_one]
    rfl
  | cons y r2 =>
    obtain ⟨hr1, hd2, _⟩ := rd_of_drop (l := r2 ++ [NUL]) hd1
    simp only [hr1]
    cases hy : is_octal y with
    | false =>
      simp only [Bool.not_false, if_true, wr_ok _ hlt]
      rw [octal_digits_one_more x y r2 ho hy, octal_denotes_one]
      rfl
    | true =>
      simp only [Bool.not_true, Bool.false_eq_true, if_false]
      cases r2 with
      | nil =>
        obtain ⟨hr2, _, _⟩ := rd_of_drop (l := []) hd2
        simp only [hr2, is_octal_NUL, Bool.not_false, if_true, wr_ok _ hlt]
        rw [octal_digits_two x y ho hy, octal_denotes_two x y hy]
        rfl
      | cons z r3 =>
        obtain ⟨hr2, _, _⟩ := rd_of_drop (l := r3 ++ [NUL]) hd2
        simp only [hr2]
        cases hz : is_octal z with
        | false =>
          simp only [Bool.not_false, if_true, wr_ok _ hlt]
          rw [octal_digits_two_more x y z r3 ho hy hz, octal_denotes_two x y hy]
          rfl
        | true =>
          simp only [Bool.not_true, Bool.false_eq_true, if_false, wr_ok _ hlt]
          rw [octal_digits_three x y z r3 ho hy hz, octal_denotes_three x y z hy hz]
          rfl

/-- One turn of the loop of `unquote_string` at a text that is not at its
end: the first piece is stored at `destination`, the reading goes on behind
it, and `result` becomes 0 when the piece is not properly quoted. -/
theorem unquote_step (fuel : Nat) (buf : List Char) (source dest : Nat) (result : Int)
    (c : Char) (rest : List Char) (hn : NUL ∉ c :: rest)
    (hd : buf.drop source = c :: (rest ++ [NUL])) (hle : dest ≤ source) :
    ∃ b1, unquote_loop (fuel + 1) buf source dest result =
        unquote_loop fuel b1 (source + (unquote_piece (c :: rest)).2.2)
          (dest + (unquote_piece (c :: rest)).1.length)
          (if (unquote_piece (c :: rest)).2.1 then result else 0) ∧
      b1.length = buf.length ∧
      b1.take (dest + (unquote_piece (c :: rest)).1.length) =
        buf.take dest ++ (unquote_piece (c :: rest)).1 ∧
      b1.drop (source + (unquote_piece (c :: rest)).2.2) =
        (rest ++ [NUL]).drop ((unquote_piece (c :: rest)).2.2 - 1) := by
  obtain ⟨hr0, hd1, hlt⟩ := rd_of_drop hd
  have hcn : c ≠ NUL := fun e => hn (e ▸ List.mem_cons_self _ _)
  have hnr : NUL ∉ rest := fun h => hn (List.mem_cons_of_mem _ h)
  have hdl : dest < buf.length := lt_of_le_of_lt hle hlt
  have hcb : (c == NUL) = false := beq_eq_false_iff_ne.mpr hcn
  by_cases hc : c = '\\'
  · subst hc
    cases rest with
    | nil =>
      obtain ⟨hr1, _, _⟩ := rd_of_drop (l := []) hd1
      obtain ⟨hw, hlen, htk, hdr⟩ := store_facts '\\' hd1 (Nat.lt_succ_of_le hle) hdl
      obtain ⟨hr1b, _, _⟩ := rd_of_drop (l := []) hdr
      refine ⟨buf.set dest '\\', ?_, hlen, ?_, ?_⟩
      · rw [unquote_loop, hr0]
        simp only [hcb, Bool.false_eq_true, if_false, beq_self_eq_true, if_true, hr1,
          switch_stores_NUL, is_octal_NUL, unquote_default, hw, hr1b, bne_self_eq_false,
          unquote_piece_end, List.length_singleton]
      · rw [unquote_piece_end]; exact htk
      · rw [unquote_piece_end]; exact hdr
    | cons x r =>
      have hxn : x ≠ NUL := fun e => hnr (e ▸ List.mem_cons_self _ _)
      obtain ⟨hr1, hd2, _⟩ := rd_of_drop (l := r ++ [NUL]) hd1
      have hd2b : buf.drop (source + 2) = r ++ [NUL] := hd2
      cases he : escape_denotes x with
      | some ch =>
        obtain ⟨hw, hlen, htk, hdr⟩ := store_facts ch hd2b (by omega) hdl
        refine ⟨buf.set dest ch, ?_, hlen, ?_, ?_⟩
        · rw [unquote_loop, hr0]
          simp only [hcb, Bool.false_eq_true, if_false, beq_self_eq_true, if_true, hr1,
            switch_stores_eq, he, hw, unquote_piece_escape x ch r he, List.length_singleton]
        · rw [unquote_piece_escape x ch r he]; exact htk
        · rw [unquote_piece_escape x ch r he]; exact hdr
      | none =>
        cases ho : is_octal x with
        | true =>
          have hoct := unquote_octal_spec buf (source + 1) dest x r
            (fun h => hnr (List.mem_cons_of_mem _ h)) ho hd1 hdl
          have hk1 : 1 ≤ (octal_digits (x :: r)).length := by
            cases r with
            | nil => rw [octal_digits_one x ho]; simp
            | cons y r2 =>
              cases hy : is_octal y with
              | false => rw [octal_digits_one_more x y r2 ho hy]; simp
              | true =>
                cases r2 with
                | nil => rw [octal_digits_two x y ho hy]; simp
                | cons z r3 =>
                  cases hz : is_octal z with
                  | false => rw [octal_digits_two_more x y z r3 ho hy hz]; simp
                  | true => rw [octal_digits_three x y z r3 ho hy hz]; simp
          have hdk : buf.drop (source + (1 + (octal_digits (x :: r)).length)) =
              (x :: r ++ [NUL]).drop (1 + (octal_digits (x :: r)).length - 1) := by
            have := drop_add_of_drop (octal_digits (x :: r)).length hd1
            rw [Nat.add_sub_cancel_left, ← this]
            congr 1
            omega
          obtain ⟨hw, hlen, htk, hdr⟩ := store_facts
            (octal_denotes (octal_digits (x :: r))) hdk (by omega) hdl
          refine ⟨buf.set dest (octal_denotes (octal_digits (x :: r))), ?_, hlen, ?_, ?_⟩
          · rw [unquote_loop, hr0]
            simp only [hcb, Bool.false_eq_true, if_false, beq_self_eq_true, if_true, hr1,
              switch_stores_eq, he, ho, hoct, unquote_piece_octal x r he ho,
              List.length_singleton]
            congr 1
            omega
          · rw [unquote_piece_octal x r he ho]; exact htk
          · rw [unquote_piece_octal x r he ho]; exact hdr
        | false =>
          obtain ⟨hw, hlen, htk, hdr⟩ := store_facts '\\' hd1 (Nat.lt_succ_of_le hle) hdl
          obtain ⟨hr1b, hd2c, _⟩ := rd_of_drop (l := r ++ [NUL]) hdr
          have hd2d : (buf.set dest '\\').drop (source + 2) = r ++ [NUL] := hd2c
          have hdl2 : dest + 1 < (buf.set dest '\\').length := by
            have := (rd_of_drop (l := r ++ [NUL]) hdr).2.2
            omega
          obtain ⟨hw2, hlen2, htk2, hdr2⟩ := store_facts x hd2d (by omega) hdl2
          refine ⟨(buf.set dest '\\').set (dest + 1) x, ?_, hlen2.trans hlen, ?_, ?_⟩
          · rw [unquote_loop, hr0]
            simp only [hcb, Bool.false_eq_true, if_false, beq_self_eq_true, if_true, hr1,
              switch_stores_eq, he, ho, unquote_default, hw, hr1b,
              bne_iff_ne, ne_eq, hxn, not_false_eq_true, hw2,
              unquote_piece_other x r he ho, List.length_cons, List.length_nil]
          · rw [unquote_piece_other x r he ho]
            show List.take (dest + 1 + 1) _ = _
            rw [htk2, htk]
            simp
          · rw [unquote_piece_other x r he ho]; exact hdr2
  · have hcb2 : (c == '\\') = false := beq_eq_false_iff_ne.mpr hc
    have hd1b : buf.drop (source + 1) = rest ++ [NUL] := hd1
    rw [unquote_piece_plain c rest hc]
    by_cases hsd : source = dest
    · refine ⟨buf, ?_, rfl, ?_, hd1b⟩
      · rw [unquote_loop, hr0]
        simp only [hcb, hcb2, Bool.false_eq_true, if_false, ne_eq, hsd, not_true_eq_false,
          List.length_singleton, if_true]
      · subst hsd
        have hg : buf[source]? = some c := by
          have := List.getElem?_drop buf source 0
          rw [hd] at this
          simpa using this.symm
        rw [List.length_singleton, List.take_succ, hg]
        rfl
    · obtain ⟨hw, hlen, htk, hdr⟩ := store_facts c hd1b (by omega) hdl
      refine ⟨buf.set dest c, ?_, hlen, htk, hdr⟩
      rw [unquote_loop, hr0]
      simp only [hcb, hcb2, Bool.false_eq_true, if_false, ne_eq, hsd, not_false_eq_true,
        if_true, hw, List.length_singleton]

theorem unquote_ref_cons (c : Char) (rest : List Char) :
    unquote_ref (c :: rest) = (unquote_piece (c :: rest)).1 ++
        unquote_ref (rest.drop ((unquote_piece (c :: rest)).2.2 - 1)) ∧
    properly_quoted (c :: rest) = ((unquote_piece (c :: rest)).2.1 &&
        properly_quoted (rest.drop ((unquote_piece (c :: rest)).2.2 - 1))) := by
  obtain ⟨k, hk⟩ : ∃ k, (unquote_piece (c :: rest)).2.2 = k + 1 :=
    ⟨_, (Nat.sub_add_cancel (unquote_piece_bounds c rest).1).symm⟩
  unfold unquote_ref properly_quoted
  rw [unquote_scan_cons, hk]
  simp

/-- The loop of `unquote_string` at a text in the buffer: it ends at the
terminator with the unquoted text stored from `destination` on. -/
theorem unquote_loop_spec : ∀ (n : Nat) (rem : List Char), rem.length ≤ n → NUL ∉ rem →
    ∀ (fuel : Nat) (buf : List Char) (source dest : Nat) (result : Int), n < fuel →
    buf.drop source = rem ++ [NUL] → dest ≤ source →
    ∃ b, unquote_loop fuel buf source dest result =
        .ok (b, source + rem.length, dest + (unquote_ref rem).length,
          if properly_quoted rem then result else 0) ∧
      b.length = buf.length ∧
      b.take (dest + (unquote_ref rem).length) = buf.take dest ++ unquote_ref rem ∧
      dest + (unquote_ref rem).length ≤ source + rem.length ∧
      b.drop (source + rem.length) = [NUL] := by
  intro n
  induction n with
  | zero =>
    intro rem hlen _ fuel buf source dest result hf hd hle
    have hnil : rem = [] := List.eq_nil_of_length_eq_zero (Nat.le_zero.mp hlen)
    subst hnil
    obtain ⟨f, rfl⟩ : ∃ f, fuel = f + 1 := ⟨fuel - 1, by omega⟩
    obtain ⟨hr0, _, _⟩ := rd_of_drop (l := []) hd
    refine ⟨buf, ?_, rfl, ?_, ?_, ?_⟩
    · rw [unquote_loop, hr0]
      simp [unquote_ref, properly_quoted, unquote_scan]
    · simp [unquote_ref, unquote_scan]
    · simpa [unquote_ref, unquote_scan] using hle
    · simpa using hd
  | succ m ih =>
    intro rem hlen hn fuel buf source dest result hf hd hle
    cases rem with
    | nil => exact ih [] (Nat.zero_le _) hn fuel buf source dest result (by omega) hd hle
    | cons c rest =>
      obtain ⟨f, rfl⟩ : ∃ f, fuel = f + 1 := ⟨fuel - 1, by omega⟩
      obtain ⟨b1, hstep, hlen1, htk1, hdr1⟩ :=
        unquote_step f buf source dest result c rest hn hd hle
      obtain ⟨hk1, hk2, hk3⟩ := unquote_piece_bounds c rest
      obtain ⟨href, hprop⟩ := unquote_ref_cons c rest
      generalize unquote_piece (c :: rest) = P at *
      obtain ⟨out, good, k⟩ := P
      simp only at hstep htk1 hdr1 hk1 hk2 hk3 href hprop
      simp only [List.length_cons] at hlen hk2
      have hnr : NUL ∉ rest.drop (k - 1) := fun h =>
        hn (List.mem_cons_of_mem _ (List.mem_of_mem_drop h))
      have hlr : (rest.drop (k - 1)).length = rest.length - (k - 1) := List.length_drop _ _
      have hdr2 : b1.drop (source + k) = rest.drop (k - 1) ++ [NUL] := by
        rw [hdr1, List.drop_append_of_le_length (by omega)]
      obtain ⟨b, hrun, hlen2, htk2, hle2, hdr3⟩ :=
        ih (rest.drop (k - 1)) (by omega) hnr f b1 (source + k) (dest + out.length)
          (if good then result else 0) (by omega) hdr2 (by omega)
      have hsrc : source + k + (rest.drop (k - 1)).length = source + (rest.length + 1) := by
        omega
      have hdst : dest + out.length + (unquote_ref (rest.drop (k - 1))).length =
          dest + (unquote_ref (c :: rest)).length := by
        rw [href, List.length_append]; omega
      rw [hsrc] at hrun hle2 hdr3
      rw [hdst] at hrun htk2 hle2
      refine ⟨b, ?_, hlen2.trans hlen1, ?_, hle2, hdr3⟩
      · rw [hstep, hrun, hprop, List.length_cons]
        cases good <;> cases properly_quoted (rest.drop (k - 1)) <;> simp
      · rw [htk2, htk1, href, List.append_assoc]

theorem takeWhile_length_le_of_stop {p : Char → Bool} {x : Char} (hx : p x = false) :
    ∀ (a b : List Char), ((a ++ x :: b).takeWhile p).length ≤ a.length
  | [], b => by simp [List.takeWhile, hx]
  | y :: a, b => by
    simp only [List.cons_append, List.takeWhile]
    cases p y with
    | false => simp
    | true =>
      simp only [List.length_cons]
      exact Nat.succ_le_succ (takeWhile_length_le_of_stop hx a b)

/-- The function `unquote_string` on the buffer of a string: the loop needs
no more turns than the buffer has characters; the buffer then starts with the
unquoted text and its terminator, and the result is 1 exactly for a properly
quoted text. -/
theorem unquote_string_run (s : List Char) (hn : NUL ∉ s) :
    ∃ tail, unquote_string (buffer_of s) =
        .ok (if properly_quoted s then 1 else 0, unquote_ref s ++ NUL :: tail) ∧
      (unquote_ref s).length + tail.length = s.length ∧
      (unquote_ref s).length ≤ s.length := by
  obtain ⟨b, hrun, hlen, htk, hle, hdr⟩ :=
    unquote_loop_spec s.length s (le_refl _) hn (buffer_of s).length (buffer_of s) 0 0 1
      (by simp [buffer_of]) (by simp [buffer_of]) (le_refl _)
  simp only [Nat.zero_add, List.take_zero, List.nil_append] at hrun htk hle hdr
  have hbl : b.length = s.length + 1 := by rw [hlen]; simp [buffer_of]
  have hfin : ∀ fb : List Char, fb.length = s.length + 1 →
      fb.take ((unquote_ref s).length + 1) = unquote_ref s ++ [NUL] →
      fb = unquote_ref s ++ NUL :: fb.drop ((unquote_ref s).length + 1) ∧
      (unquote_ref s).length + (fb.drop ((unquote_ref s).length + 1)).length = s.length := by
    intro fb hl ht
    refine ⟨?_, ?_⟩
    · conv_lhs => rw [← List.take_append_drop ((unquote_ref s).length + 1) fb, ht]
      simp
    · rw [List.length_drop, hl]; omega
  unfold unquote_string
  rw [hrun]
  by_cases hsd : s.length = (unquote_ref s).length
  · have hg : b[(unquote_ref s).length]? = some NUL := by
      have := List.getElem?_drop b s.length 0
      rw [hdr] at this
      rw [← hsd]
      simpa using this.symm
    have ht : b.take ((unquote_ref s).length + 1) = unquote_ref s ++ [NUL] := by
      rw [List.take_succ, hg, htk]; rfl
    obtain ⟨h1, h2⟩ := hfin b hbl ht
    refine ⟨b.drop ((unquote_ref s).length + 1), ?_, h2, hle⟩
    simp only [ne_eq, hsd, not_true_eq_false, if_false]
    rw [← h1]
  · have hdl : (unquote_ref s).length < b.length := by omega
    have ht : (b.set (unquote_ref s).length NUL).take ((unquote_ref s).length + 1) =
        unquote_ref s ++ [NUL] := by
      rw [take_set_succ NUL hdl, htk]
    obtain ⟨h1, h2⟩ := hfin (b.set (unquote_ref s).length NUL)
      (by rw [List.length_set]; exact hbl) ht
    refine ⟨(b.set (unquote_ref s).length NUL).drop ((unquote_ref s).length + 1), ?_, h2, hle⟩
    simp only [ne_eq, hsd, not_false_eq_true, if_true, wr_ok NUL hdl]
    rw [← h1]

/-- The escape letters are the backslash, `a`, `b`, `f`, `n`, `r`, `t`, `v`
and the question mark. -/
theorem escape_denotes_none (x : Char) :
    escape_denotes x = none ↔ x ∉ ['\\', 'a', 'b', 'f', 'n', 'r', 't', 'v', '?'] := by
  rw [← switch_stores_eq]
  unfold switch_stores
  simp only [List.mem_cons, List.mem_singleton, List.not_mem_nil, or_false, not_or]
  constructor
  · intro h
    split_ifs at h with h1 h2 h3 h4 h5 h6 h7 h8 h9
    exact ⟨h1, h2, h3, h4, h5, h6, h7, h8, h9⟩
  · rintro ⟨h1, h2, h3, h4, h5, h6, h7, h8, h9⟩
    simp only [if_neg h1, if_neg h2, if_neg h3, if_neg h4, if_neg h5, if_neg h6, if_neg h7,
      if_neg h8, if_neg h9]

theorem escape_denotes_octal (x : Char) (ho : is_octal x = true) : escape_denotes x = none := by
  rw [escape_denotes_none]
  intro hm
  simp only [List.mem_cons, List.mem_singleton, List.not_mem_nil, or_false] at hm
  rcases hm with h | h | h | h | h | h | h | h | h <;> subst h <;> exact absurd ho (by decide)

/-- The digits of an octal escape, when the text starts with one to three
octal digits and then has no octal digit or the digits are three. -/
theorem octal_digits_append (ds rest : List Char) (hne : ds ≠ []) (hlen : ds.length ≤ 3)
    (hall : ∀ d ∈ ds, is_octal d = true)
    (hstop : ds.length = 3 ∨ ∀ y ∈ rest.head?, is_octal y = false) :
    octal_digits (ds ++ rest) = ds := by
  have hrest : ∀ (pre : List Char), pre.length < 3 → ds = pre →
      (∀ y ∈ rest.head?, is_octal y = false) := by
    intro pre hp he
    rcases hstop with h | h
    · rw [he] at h; omega
    · exact h
  match ds, hne, hlen, hall, hrest with
  | [x], _, _, hall, hrest =>
    have hx := hall x (by simp)
    cases rest with
    | nil => exact octal_digits_one x hx
    | cons y r =>
      exact octal_digits_one_more x y r hx (hrest [x] (by simp) rfl y (by simp))
  | [x, y], _, _, hall, hrest =>
    have hx := hall x (by simp)
    have hy := hall y (by simp)
    cases rest with
    | nil => exact octal_digits_two x y hx hy
    | cons z r =>
      exact octal_digits_two_more x y z r hx hy (hrest [x, y] (by simp) rfl z (by simp))
  | [x, y, z], _, _, hall, _ =>
    exact octal_digits_three x y z rest (hall x (by simp)) (hall y (by simp))
      (hall z (by simp))
  | _ :: _ :: _ :: _ :: _, _, hlen, _, _ => simp at hlen

theorem unquote_plain (c : Char) (rest : List Char) (h : c ≠ '\\') :
    unquote_ref (c :: rest) = c :: unquote_ref rest ∧
    properly_quoted (c :: rest) = properly_quoted rest := by
  obtain ⟨h1, h2⟩ := unquote_ref_cons c rest
  rw [unquote_piece_plain c rest h] at h1 h2
  exact ⟨by simpa using h1, by simpa using h2⟩

theorem unquote_escape (x ch : Char) (rest : List Char) (h : escape_denotes x = some ch) :
    unquote_ref ('\\' :: x :: rest) = ch :: unquote_ref rest ∧
    properly_quoted ('\\' :: x :: rest) = properly_quoted rest := by
  obtain ⟨h1, h2⟩ := unquote_ref_cons '\\' (x :: rest)
  rw [unquote_piece_escape x ch rest h] at h1 h2
  exact ⟨by simpa using h1, by simpa using h2⟩

theorem unquote_octal_escape (ds rest : List Char) (hne : ds ≠ []) (hlen : ds.length ≤ 3)
    (hall : ∀ d ∈ ds, is_octal d = true)
    (hstop : ds.length = 3 ∨ ∀ y ∈ rest.head?, is_octal y = false) :
    unquote_ref ('\\' :: (ds ++ rest)) = octal_denotes ds :: unquote_ref rest ∧
    properly_quoted ('\\' :: (ds ++ rest)) = properly_quoted rest := by
  have hd := octal_digits_append ds rest hne hlen hall hstop
  obtain ⟨x, r, hx⟩ := List.exists_cons_of_ne_nil hne
  have hox : is_octal x = true := hall x (by rw [hx]; exact List.mem_cons_self _ _)
  obtain ⟨h1, h2⟩ := unquote_ref_cons '\\' (ds ++ rest)
  have hp : unquote_piece ('\\' :: (ds ++ rest)) = ([octal_denotes ds], true, 1 + ds.length) := by
    have := unquote_piece_octal x (r ++ rest) (escape_denotes_octal x hox) hox
    rw [← List.cons_append, ← hx, hd] at this
    exact this
  rw [hp] at h1 h2
  simp only [Nat.add_sub_cancel_left, List.drop_left, Bool.true_and] at h1 h2
  exact ⟨h1, h2⟩

theorem unquote_other (x : Char) (rest : List Char) (h : escape_denotes x = none)
    (ho : is_octal x = false) :
    unquote_ref ('\\' :: x :: rest) = '\\' :: x :: unquote_ref rest ∧
    properly_quoted ('\\' :: x :: rest) = false := by
  obtain ⟨h1, h2⟩ := unquote_ref_cons '\\' (x :: rest)
  rw [unquote_piece_other x rest h ho] at h1 h2
  exact ⟨by simpa using h1, by simpa using h2⟩

/-- C35. On the buffer of a string without NUL, `unquote_string` always
returns: the loop ends within as many turns as the buffer has characters. It
returns 0 exactly when the text is not properly quoted, that is when in the
scan from the left some backslash is followed by something other than a
backslash, `a`, `b`, `f`, `n`, `r`, `t`, `v`, `?` or an octal digit, the
backslash at the end included; otherwise it returns 1. In both cases the buffer
then starts with the unquoted text and a NUL: every recognised escape has
become the one character it denotes (an octal escape takes one to three
digits), a backslash that is not recognised is kept with the character after
it, every other character is kept. The unquoted text is not longer than the
text. -/
theorem unquote_string_spec (s : List Char) (hn : NUL ∉ s) :
    (∃ tail, unquote_string (buffer_of s) =
        .ok (if properly_quoted s then 1 else 0, unquote_ref s ++ NUL :: tail) ∧
      (unquote_ref s).length + tail.length = s.length ∧
      (cstr (unquote_ref s ++ NUL :: tail)).length ≤ s.length ∧
      (NUL ∉ unquote_ref s → cstr (unquote_ref s ++ NUL :: tail) = unquote_ref s)) ∧
    ((∃ b, unquote_string (buffer_of s) = .ok (0, b)) ↔ properly_quoted s = false) ∧
    (unquote_ref s).length ≤ s.length ∧
    (unquote_ref [] = [] ∧ properly_quoted [] = true) ∧
    (∀ c rest, c ≠ '\\' → unquote_ref (c :: rest) = c :: unquote_ref rest ∧
      properly_quoted (c :: rest) = properly_quoted rest) ∧
    (∀ x ch rest, escape_denotes x = some ch →
      unquote_ref ('\\' :: x :: rest) = ch :: unquote_ref rest ∧
      properly_quoted ('\\' :: x :: rest) = properly_quoted rest) ∧
    (∀ ds rest, ds ≠ [] → ds.length ≤ 3 → (∀ d ∈ ds, is_octal d = true) →
      (ds.length = 3 ∨ ∀ y ∈ rest.head?, is_octal y = false) →
      unquote_ref ('\\' :: (ds ++ rest)) = octal_denotes ds :: unquote_ref rest ∧
      properly_quoted ('\\' :: (ds ++ rest)) = properly_quoted rest) ∧
    (∀ x rest, x ∉ ['\\', 'a', 'b', 'f', 'n', 'r', 't', 'v', '?'] → is_octal x = false →
      unquote_ref ('\\' :: x :: rest) = '\\' :: x :: unquote_ref rest ∧
      properly_quoted ('\\' :: x :: rest) = false) ∧
    (unquote_ref ['\\'] = ['\\'] ∧ properly_quoted ['\\'] = false) := by
  obtain ⟨tail, hrun, hlen, hle⟩ := unquote_string_run s hn
  refine ⟨⟨tail, hrun, hlen, ?_, ?_⟩, ?_, hle, ⟨rfl, rfl⟩, unquote_plain, unquote_escape,
    unquote_octal_escape, ?_, ⟨rfl, rfl⟩⟩
  · exact le_trans (takeWhile_length_le_of_stop (by decide) (unquote_ref s) tail) hle
  · intro h
    refine cstr_of_take ?_ h
    rw [show unquote_ref s ++ NUL :: tail = (unquote_ref s ++ [NUL]) ++ tail by simp]
    exact List.take_left' (by simp)
  · rw [hrun]
    cases properly_quoted s with
    | true => simp
    | false => simp
  · intro x rest hx ho
    exact unquote_other x rest ((escape_denotes_none x).mpr hx) ho

/-- C35, for the text `a\tb\101\q\`: the tab and the letter A are unquoted,
the two last backslashes are kept, and the result is 0. -/
theorem unquote_string_spec_witness :
    NUL ∉ "a\\tb\\101\\q\\".toList ∧
    ∃ tail, unquote_string (buffer_of "a\\tb\\101\\q\\".toList) =
        .ok (if properly_quoted "a\\tb\\101\\q\\".toList then 1 else 0,
          unquote_ref "a\\tb\\101\\q\\".toList ++ NUL :: tail) ∧
      (unquote_ref "a\\tb\\101\\q\\".toList).length + tail.length
        = "a\\tb\\101\\q\\".toList.length ∧
      (cstr (unquote_ref "a\\tb\\101\\q\\".toList ++ NUL :: tail)).length
        ≤ "a\\tb\\101\\q\\".toList.length ∧
      (NUL ∉ unquote_ref "a\\tb\\101\\q\\".toList →
        cstr (unquote_ref "a\\tb\\101\\q\\".toList ++ NUL :: tail)
          = unquote_ref "a\\tb\\101\\q\\".toList) :=
  ⟨by decide, (unquote_string_spec "a\\tb\\101\\q\\".toList (by decide)).1⟩

theorem unquote_examples :
    unquote_string (buffer_of "a\\tb\\\\c\\101\\7z".toList)
      = .ok (1, "a\tb\\cA\x07z".toList ++ NUL :: "01\\7z".toList ++ [NUL]) ∧
    unquote_string (buffer_of "a\\qb\\".toList) = .ok (0, buffer_of "a\\qb\\".toList) ∧
    unquote_ref "a\\tb\\101\\q\\".toList = "a\tbA\\q\\".toList ∧
    properly_quoted "a\\tb\\101\\q\\".toList = false ∧
    unquote_ref "\\1234\\?".toList = ['S', '4', Char.ofNat 127] ∧
    unquote_string (buffer_of "x\\0y".toList) = .ok (1, ['x', NUL, 'y', NUL, NUL]) := by
  refine ⟨by rfl, by rfl, by rfl, by rfl, by rfl, by rfl⟩

/-! ## Decimal numerals -/

theorem digit_char_spec (d : Nat) (h : d < 10) :
    ISDIGIT (digit_char d) = true ∧ digit_value (digit_char d) = d ∧ digit_char d ≠ '-' ∧
    digit_char d ≠ '.' ∧ digit_char d ≠ NUL ∧ (digit_char d = '0' ↔ d = 0) := by
  interval_cases d <;> decide

theorem decimal_upto_eq : ∀ (f g n : Nat), n < f → n < g →
    decimal_upto f n = decimal_upto g n
  | 0, _, _, h, _ => absurd h (Nat.not_lt_zero _)
  | _ + 1, 0, _, _, h => absurd h (Nat.not_lt_zero _)
  | f + 1, g + 1, n, hf, hg => by
    unfold decimal_upto
    by_cases h : n < 10
    · rw [if_pos h, if_pos h]
    · rw [if_neg h, if_neg h]
      have hd : n / 10 < n := Nat.div_lt_self (by omega) (by decide)
      rw [decimal_upto_eq f g (n / 10) (by omega) (by omega)]

theorem decimal_lt (n : Nat) (h : n < 10) : decimal n = [digit_char n] := by
  unfold decimal decimal_upto
  rw [if_pos h]

theorem decimal_ge (n : Nat) (h : 10 ≤ n) :
    decimal n = decimal (n / 10) ++ [digit_char (n % 10)] := by
  have hd : n / 10 < n := Nat.div_lt_self (by omega) (by decide)
  unfold decimal
  rw [decimal_upto, if_neg (by omega),
    decimal_upto_eq n (n / 10 + 1) (n / 10) hd (Nat.lt_succ_self _)]

/-- The numeral of a number consists of digits, is not empty, and stands for
the number. -/
theorem decimal_spec (n : Nat) :
    (∀ c ∈ decimal n, ISDIGIT c = true) ∧ decimal n ≠ [] ∧ decimal_value (decimal n) = n := by
  induction n using Nat.strong_induction_on with
  | _ n ih =>
    by_cases h : n < 10
    · rw [decimal_lt n h]
      obtain ⟨h1, h2, _⟩ := digit_char_spec n h
      refine ⟨?_, by simp, ?_⟩
      · intro c hc
        rw [List.mem_singleton] at hc
        rw [hc]; exact h1
      · simp [decimal_value, h2]
    · have hd : n / 10 < n := Nat.div_lt_self (by omega) (by decide)
      obtain ⟨i1, _, i3⟩ := ih (n / 10) hd
      obtain ⟨h1, h2, _⟩ := digit_char_spec (n % 10) (Nat.mod_lt _ (by decide))
      rw [decimal_ge n (by omega)]
      refine ⟨?_, by simp, ?_⟩
      · intro c hc
        rcases List.mem_append.mp hc with hc | hc
        · exact i1 c hc
        · rw [List.mem_singleton] at hc
          rw [hc]; exact h1
      · unfold decimal_value at i3 ⊢
        rw [List.foldl_append, i3]
        simp only [List.foldl, h2]
        omega

/-- The numeral starts with a digit. -/
theorem decimal_head (n : Nat) : ∃ d r, decimal n = d :: r ∧ ISDIGIT d = true := by
  obtain ⟨h1, h2, _⟩ := decimal_spec n
  obtain ⟨d, r, hd⟩ := List.exists_cons_of_ne_nil h2
  exact ⟨d, r, hd, h1 d (by rw [hd]; exact List.mem_cons_self _ _)⟩

/-- The digits at the start of a numeral that no digit follows are the
numeral. -/
theorem takeWhile_decimal (n : Nat) (rest : List Char) (h : no_digit_ahead rest) :
    (decimal n ++ rest).takeWhile ISDIGIT = decimal n := by
  obtain ⟨h1, _, _⟩ := decimal_spec n
  rw [List.takeWhile_append_of_pos h1]
  cases rest with
  | nil => simp
  | cons c r =>
    have hc : ISDIGIT c = false := h c (by simp)
    simp [List.takeWhile, hc]

theorem to_uintmax_to_intmax (n : Nat) (h : n ≤ UINTMAX_MAX) :
    INTMAX_MIN ≤ to_intmax n ∧ to_intmax n ≤ INTMAX_MAX ∧ to_uintmax (to_intmax n) = n := by
  unfold UINTMAX_MAX at h
  unfold to_intmax to_uintmax INTMAX_MIN INTMAX_MAX
  have hm : n % 2 ^ 64 = n := Nat.mod_eq_of_lt (by omega)
  rw [hm]
  split_ifs with h1
  · refine ⟨by omega, by omega, ?_⟩
    omega
  · refine ⟨by omega, by omega, ?_⟩
    omega

/-- The library of decimal numerals keeps the contract. -/
theorem lib0_standard : lib0.standard := by
  refine ⟨fun n _ => rfl, fun i _ _ => rfl, ?_, ?_, ?_, to_uintmax_to_intmax⟩
  · intro n rest hn hr
    obtain ⟨_, h2, h3⟩ := decimal_spec n
    show strtoumax_digits _ = _
    unfold strtoumax_digits
    rw [takeWhile_decimal n rest hr, h3, if_neg, if_pos hn]
    exact fun h => h2 (List.eq_nil_of_length_eq_zero h)
  · intro n rest hn hr
    obtain ⟨_, h2, h3⟩ := decimal_spec n
    obtain ⟨d, r, hd, hdig⟩ := decimal_head n
    have hne : d ≠ '-' := fun e => by rw [e] at hdig; exact absurd hdig (by decide)
    show strtoimax_digits _ = _
    have hs : strtoimax_digits (decimal n ++ rest) =
        (if ((decimal n ++ rest).takeWhile ISDIGIT).length = 0 then ⟨0, 0, none⟩
        else if (decimal_value ((decimal n ++ rest).takeWhile ISDIGIT) : Int) ≤ INTMAX_MAX then
          ⟨(decimal_value ((decimal n ++ rest).takeWhile ISDIGIT) : Int),
            ((decimal n ++ rest).takeWhile ISDIGIT).length, none⟩
        else ⟨INTMAX_MAX, ((decimal n ++ rest).takeWhile ISDIGIT).length, some ERANGE⟩) := by
      rw [hd, List.cons_append]
      unfold strtoimax_digits
      split
      · rename_i t heq
        exact absurd (List.cons.inj heq).1 hne
      · rfl
    rw [hs, takeWhile_decimal n rest hr, h3, if_neg, if_pos hn]
    exact fun h => h2 (List.eq_nil_of_length_eq_zero h)
  · intro n rest hn hr
    obtain ⟨_, h2, h3⟩ := decimal_spec n
    simp only [lib0, strtoimax_digits]
    rw [takeWhile_decimal n rest hr, h3, if_neg, if_pos hn]
    exact fun h => h2 (List.eq_nil_of_length_eq_zero h)

/-! ## `strtosysint` after `sysinttostr` -/

theorem no_digit_ahead_nil : no_digit_ahead [] := by
  intro c hc
  simp at hc

/-- C36. Let the library keep its contract, and let `minval ≤ 0 ≤ maxval` be
the bounds of a system integer type: `minval` is an `intmax_t`, `maxval` a
`uintmax_t`, and the type is unsigned (`minval = 0`) or its maximum is at most
`INTMAX_MAX`. For every value `v` of the type as a `uintmax_t`, that is
`v ≤ maxval` or `v` the conversion of an integer in `minval .. -1`,
`sysinttostr` gives a string on which `strtosysint` returns an `intmax_t` whose
conversion to `uintmax_t` is `v`, with `errno` 0 and `*arglim` at the end of
the string. -/
theorem strtosysint_inverse (lib : NumLib) (hlib : lib.standard) (minval : Int)
    (maxval v : Nat) (hmin : INTMAX_MIN ≤ minval) (hmin0 : minval ≤ 0)
    (hmax : maxval ≤ UINTMAX_MAX) (htype : (maxval : Int) ≤ INTMAX_MAX ∨ minval = 0)
    (hv : v ≤ maxval ∨ ∃ w : Int, minval ≤ w ∧ w ≤ -1 ∧ v = to_uintmax w) :
    ∃ text r, sysinttostr lib v minval maxval = .ok text ∧
      strtosysint lib text minval maxval = .ok r ∧
      to_uintmax r.value = v ∧ INTMAX_MIN ≤ r.value ∧ r.value ≤ INTMAX_MAX ∧
      r.errno = 0 ∧ r.arglim = some text.length := by
  obtain ⟨hu, hi, hsu, hsi, hsn, hrep⟩ := hlib
  by_cases hle : v ≤ maxval
  · have hvu : v ≤ UINTMAX_MAX := le_trans hle hmax
    obtain ⟨d, r, hd, hdig⟩ := decimal_head v
    have hne : d ≠ '-' := fun e => by rw [e] at hdig; exact absurd hdig (by decide)
    have hc0 : cchar (decimal v) 0 = .ok d := by rw [hd]; simp [cchar]
    have hs : sysinttostr lib v minval maxval = .ok (decimal v) := by
      unfold sysinttostr
      rw [if_pos hle, hu v hvu]
    by_cases hm : (maxval : Int) ≤ INTMAX_MAX
    · have hvi : (v : Int) ≤ INTMAX_MAX := le_trans (Int.ofNat_le.mpr hle) hm
      have hconv := hsi v [] hvi no_digit_ahead_nil
      rw [List.append_nil] at hconv
      have htm : to_intmax maxval = (maxval : Int) := by
        unfold INTMAX_MAX at hm
        unfold to_intmax
        have : maxval % 2 ^ 64 = maxval := Nat.mod_eq_of_lt (by omega)
        rw [this, if_pos (by omega)]
      refine ⟨decimal v, ⟨(v : Int), 0, some (decimal v).length⟩, hs, ?_, ?_, ?_, hvi, rfl, rfl⟩
      · unfold strtosysint
        rw [if_pos hm, hc0]
        simp only [beq_iff_eq, hne, if_false, hc0, hdig, if_true, hconv, htm]
        rw [if_pos ⟨by omega, Int.ofNat_le.mpr hle⟩]
        rfl
      · show to_uintmax (v : Int) = v
        unfold INTMAX_MAX at hvi
        unfold to_uintmax
        omega
      · show INTMAX_MIN ≤ (v : Int)
        unfold INTMAX_MIN; omega
    · have hconv := hsu v [] hvu no_digit_ahead_nil
      rw [List.append_nil] at hconv
      obtain ⟨h1, h2, h3⟩ := hrep v hvu
      refine ⟨decimal v, ⟨lib.represent_uintmax v, 0, some (decimal v).length⟩, hs, ?_,
        h3, h1, h2, rfl, rfl⟩
      unfold strtosysint
      rw [if_neg hm, hc0]
      simp only [hdig, if_true, hconv, if_pos hle]
      rfl
  · rcases hv with hv | ⟨w, hw1, hw2, hwv⟩
    · exact absurd hv hle
    · have hm : (maxval : Int) ≤ INTMAX_MAX := by
        rcases htype with h | h
        · exact h
        · omega
      have hwi : INTMAX_MIN ≤ w ∧ w ≤ INTMAX_MAX := by
        unfold INTMAX_MIN INTMAX_MAX at *
        omega
      have hsum : to_intmax ((v + (2 ^ 64 - to_uintmax minval)) % 2 ^ 64) + minval = w := by
        unfold INTMAX_MIN at hmin
        rw [hwv]
        unfold to_intmax to_uintmax
        omega
      have hneg : w < 0 := by omega
      obtain ⟨d, r, hd, hdig⟩ := decimal_head (-w).toNat
      have hconv := hsn (-w).toNat [] (by unfold INTMAX_MIN at *; omega) no_digit_ahead_nil
      rw [List.append_nil] at hconv
      have hback : - (((-w).toNat : Nat) : Int) = w := by omega
      rw [hback] at hconv
      have hs : sysinttostr lib v minval maxval = .ok ('-' :: decimal (-w).toNat) := by
        unfold sysinttostr
        rw [if_neg hle]
        simp only [hsum]
        rw [if_pos hwi, hi w hwi.1 hwi.2, if_pos hneg]
      have htm : to_intmax maxval = (maxval : Int) := by
        unfold INTMAX_MAX at hm
        unfold to_intmax
        have : maxval % 2 ^ 64 = maxval := Nat.mod_eq_of_lt (by omega)
        rw [this, if_pos (by omega)]
      refine ⟨'-' :: decimal (-w).toNat, ⟨w, 0, some ((decimal (-w).toNat).length + 1)⟩, hs,
        ?_, hwv.symm, hwi.1, hwi.2, rfl, rfl⟩
      unfold strtosysint
      rw [if_pos hm]
      have hc0 : cchar ('-' :: decimal (-w).toNat) 0 = .ok '-' := by simp [cchar]
      have hc1 : cchar ('-' :: decimal (-w).toNat) 1 = .ok d := by rw [hd]; simp [cchar]
      rw [hc0]
      simp only [beq_self_eq_true, if_true, hc1, hdig, hconv, htm]
      rw [if_pos ⟨hw1, by omega⟩]
      rfl

/-- C36, for the type of 32 bits with sign and the value -5, and for
`uintmax_t` and its maximum. -/
theorem strtosysint_inverse_witness :
    (∃ text r, sysinttostr lib0 (2 ^ 64 - 5) (- 2 ^ 31) (2 ^ 31 - 1) = .ok text ∧
      strtosysint lib0 text (- 2 ^ 31) (2 ^ 31 - 1) = .ok r ∧
      to_uintmax r.value = 2 ^ 64 - 5 ∧ INTMAX_MIN ≤ r.value ∧ r.value ≤ INTMAX_MAX ∧
      r.errno = 0 ∧ r.arglim = some text.length) ∧
    sysinttostr lib0 (2 ^ 64 - 5) (- 2 ^ 31) (2 ^ 31 - 1) = .ok "-5".toList ∧
    strtosysint lib0 "-5".toList (- 2 ^ 31) (2 ^ 31 - 1) = .ok ⟨-5, 0, some 2⟩ :=
  ⟨strtosysint_inverse lib0 lib0_standard (- 2 ^ 31) (2 ^ 31 - 1) (2 ^ 64 - 5) (by decide)
      (by decide) (by decide) (Or.inl (by decide))
      (Or.inr ⟨-5, by decide, by decide, by decide⟩),
    by rfl, by rfl⟩

/-- Bounds that belong to no system integer type, a negative minimum with a
maximum above `INTMAX_MAX`: the string of -1 is not read back. -/
theorem strtosysint_mixed_bounds :
    sysinttostr lib0 (2 ^ 64 - 1) (-1) (2 ^ 64 - 2) = .ok "-1".toList ∧
    strtosysint lib0 "-1".toList (-1) (2 ^ 64 - 2) = .ok ⟨0, EINVAL, none⟩ := by
  refine ⟨by rfl, by rfl⟩

/-! ## Time stamps: the fraction -/

theorem tmod_ten (n : Nat) : Int.tmod (n : Int) 10 = ((n % 10 : Nat) : Int) :=
  (Int.ofNat_tmod n 10).symm

theorem tdiv_ten (n : Nat) : Int.tdiv (n : Int) 10 = ((n / 10 : Nat) : Int) :=
  (Int.ofNat_tdiv n 10).symm

theorem char_of_int_digit (n : Nat) :
    char_of_int (('0'.toNat : Int) + Int.tmod (n : Int) 10) = digit_char (n % 10) := by
  rw [tmod_ten]
  unfold char_of_int digit_char
  have h0 : '0'.toNat = 48 := rfl
  rw [h0]
  congr 1
  have : n % 10 < 10 := Nat.mod_lt _ (by decide)
  omega

/-- The loop that strips the zeros at the end of a positive number ends: it
gives the number without them, and `i` less their count. -/
theorem strip_zeros_spec : ∀ (fuel n : Nat) (i : Int), 0 < n → n ≤ fuel →
    ∃ m k : Nat, strip_zeros fuel (n : Int) i = .ok ((m : Int), i - (k : Int)) ∧
      n = m * 10 ^ k ∧ m % 10 ≠ 0
  | 0, n, _, h0, hf => by omega
  | fuel + 1, n, i, h0, hf => by
    unfold strip_zeros
    rw [tmod_ten, tdiv_ten]
    by_cases hz : n % 10 = 0
    · have hb : (((n % 10 : Nat) : Int) == 0) = true := by rw [hz]; rfl
      rw [if_pos hb]
      obtain ⟨m, k, hrun, hn, hm⟩ := strip_zeros_spec fuel (n / 10) (i - 1) (by omega) (by omega)
      refine ⟨m, k + 1, ?_, ?_, hm⟩
      · rw [hrun]
        congr 2
        push_cast
        omega
      · have := Nat.div_add_mod n 10
        rw [hz, hn] at this
        rw [pow_succ]
        rw [← this]
        ring
    · have hb : (((n % 10 : Nat) : Int) == 0) = false := by
        rw [beq_eq_false_iff_ne]
        exact fun h => hz (Int.ofNat_eq_zero.mp h)
      rw [hb]
      exact ⟨n, 0, by simp, by simp, hz⟩

theorem fixed_digits_length : ∀ (w m : Nat), (fixed_digits w m).length = w
  | 0, _ => rfl
  | w + 1, m => by
    rw [fixed_digits, List.length_append, fixed_digits_length w]
    rfl

theorem fixed_digits_digits : ∀ (w m : Nat), ∀ x ∈ fixed_digits w m, ISDIGIT x = true
  | 0, _ => by intro x hx; simp [fixed_digits] at hx
  | w + 1, m => by
    intro x hx
    rw [fixed_digits] at hx
    rcases List.mem_append.mp hx with h | h
    · exact fixed_digits_digits w _ x h
    · rw [List.mem_singleton] at h
      rw [h]
      exact (digit_char_spec _ (Nat.mod_lt _ (by decide))).1

theorem decimal_value_snoc (l : List Char) (x : Char) :
    decimal_value (l ++ [x]) = 10 * decimal_value l + digit_value x := by
  unfold decimal_value
  rw [List.foldl_append]
  rfl

theorem fixed_digits_value : ∀ (w m : Nat), decimal_value (fixed_digits w m) = m % 10 ^ w
  | 0, m => by simp [fixed_digits, decimal_value, Nat.mod_one]
  | w + 1, m => by
    rw [fixed_digits, decimal_value_snoc, fixed_digits_value w,
      (digit_char_spec _ (Nat.mod_lt m (by decide))).2.1, pow_succ, Nat.mul_comm (10 ^ w) 10,
      Nat.mod_mul]
    omega

/-- The loop that stores the digits fills the field in front of `p[i]`. -/
theorem fill_digits_spec : ∀ (k fuel : Nat) (A X B : List Char) (m : Nat),
    X.length = k + 1 → k + 1 ≤ fuel →
    fill_digits fuel (A ++ X ++ B) A.length (m : Int) ((k + 1 : Nat) : Int) =
      .ok (A ++ fixed_digits (k + 1) m ++ B)
  | _, 0, _, _, _, _, _, hf => by omega
  | k, fuel + 1, A, X, B, m, hx, hf => by
    have hne : X ≠ [] := fun h => by rw [h] at hx; simp at hx
    obtain ⟨X1, x, hX⟩ : ∃ X1 x, X = X1 ++ [x] :=
      ⟨X.dropLast, X.getLast hne, (List.dropLast_append_getLast hne).symm⟩
    have hx1 : X1.length = k := by
      rw [hX, List.length_append] at hx
      simpa using hx
    have hw : wr_at (A ++ X ++ B) A.length (((k + 1 : Nat) : Int) - 1) (digit_char (m % 10)) =
        .ok (A ++ X1 ++ digit_char (m % 10) :: B) := by
      unfold wr_at
      have h1 : ((A.length : Int) + (((k + 1 : Nat) : Int) - 1)).toNat = (A ++ X1).length := by
        rw [List.length_append, hx1]; omega
      rw [if_pos (by omega), h1, hX]
      have := wr_append (A ++ X1) B x (digit_char (m % 10))
      simpa [List.append_assoc] using this
    unfold fill_digits
    rw [char_of_int_digit, hw, tdiv_ten]
    cases k with
    | zero =>
      have : X1 = [] := List.eq_nil_of_length_eq_zero hx1
      subst this
      simp [fixed_digits]
    | succ j =>
      have hb : (((j + 1 : Nat) : Int) == 0) = false := by
        rw [beq_eq_false_iff_ne]; omega
      have hi : (((j + 1 + 1 : Nat) : Int) - 1) = ((j + 1 : Nat) : Int) := by omega
      rw [hi, hb]
      simp only [Bool.false_eq_true, if_false]
      have := fill_digits_spec j fuel A X1 (digit_char (m % 10) :: B) (m / 10) hx1 (by omega)
      rw [this]
      simp [fixed_digits, List.append_assoc]

theorem pad_loop_spec : ∀ (fuel digits : Nat) (ns : Int), 9 - digits < fuel →
    pad_loop fuel digits ns = .ok (ns * 10 ^ (9 - digits))
  | 0, _, _, h => by omega
  | fuel + 1, digits, ns, h => by
    unfold pad_loop LOG10_BILLION
    by_cases hd : digits < 9
    · rw [if_pos hd, pad_loop_spec fuel (digits + 1) (ns * 10) (by omega)]
      have : 9 - digits = (9 - (digits + 1)) + 1 := by omega
      rw [this, pow_succ]
      congr 1
      ring
    · rw [if_neg hd]
      have : 9 - digits = 0 := by omega
      rw [this]
      simp

/-- The function `code_ns_fraction` for a count of nanoseconds below one
billion, at a place of the buffer with ten characters behind it: nothing but
the terminator for zero, otherwise the point and the nine digits without the
zeros at their end. -/
theorem code_ns_fraction_spec (A R : List Char) (x : Char) (n : Nat) (hn : n < 10 ^ 9)
    (hR : 10 ≤ R.length) :
    ∃ frac, code_ns_fraction (n : Int) (A ++ x :: R) A.length =
        .ok (A ++ frac ++ NUL :: R.drop frac.length) ∧
      (n = 0 → frac = []) ∧
      (n ≠ 0 → ∃ m k, k < 9 ∧ n = m * 10 ^ k ∧ m % 10 ≠ 0 ∧
        frac = '.' :: fixed_digits (9 - k) m) := by
  by_cases h0 : n = 0
  · subst h0
    refine ⟨[], ?_, fun _ => rfl, fun h => absurd rfl h⟩
    unfold code_ns_fraction
    have hb : (((0 : Nat) : Int) == 0) = true := rfl
    rw [if_pos hb, wr_append]
    simp
  · obtain ⟨m, k, hrun, hmk, hm⟩ := strip_zeros_spec (n + 1) n 9 (by omega) (by omega)
    have hk : k < 9 := by
      by_contra hk
      have h1 : 10 ^ 9 ≤ 10 ^ k := Nat.pow_le_pow_right (by decide) (not_lt.mp hk)
      have h2 : 0 < m := by
        rcases Nat.eq_zero_or_pos m with h | h
        · rw [h] at hm; simp at hm
        · exact h
      have h3 : 10 ^ k ≤ m * 10 ^ k := Nat.le_mul_of_pos_left _ h2
      omega
    refine ⟨'.' :: fixed_digits (9 - k) m, ?_, fun h => absurd h h0,
      fun _ => ⟨m, k, hk, hmk, hm, rfl⟩⟩
    have hlt : 9 - k < R.length := by omega
    have hdrop : R.drop (9 - k) = R[9 - k] :: R.drop (9 - k + 1) :=
      List.drop_eq_getElem_cons hlt
    have hsplit : R = R.take (9 - k) ++ R[9 - k] :: R.drop (9 - k + 1) := by
      rw [← hdrop, List.take_append_drop]
    have htl : (R.take (9 - k)).length = 9 - k := by
      rw [List.length_take]; omega
    have hi : (9 : Int) - (k : Int) = ((8 - k + 1 : Nat) : Int) := by omega
    have hw2 : wr_at (A ++ '.' :: R) (A.length + 1) ((8 - k + 1 : Nat) : Int) NUL =
        .ok (A ++ '.' :: R.take (9 - k) ++ NUL :: R.drop (9 - k + 1)) := by
      unfold wr_at
      have h1 : (((A.length + 1 : Nat) : Int) + ((8 - k + 1 : Nat) : Int)).toNat =
          (A ++ '.' :: R.take (9 - k)).length := by
        rw [List.length_append, List.length_cons, htl]; omega
      rw [if_pos (by omega), h1]
      conv_lhs => rw [hsplit]
      have := wr_append (A ++ '.' :: R.take (9 - k)) (R.drop (9 - k + 1)) R[9 - k] NUL
      simpa [List.append_assoc] using this
    have hfill := fill_digits_spec (8 - k) ((A ++ x :: R).length + 10) (A ++ ['.'])
      (R.take (9 - k)) (NUL :: R.drop (9 - k + 1)) m (by rw [htl]; omega) (by omega)
    unfold code_ns_fraction
    have hb : ((n : Int) == 0) = false := by
      rw [beq_eq_false_iff_ne]
      exact fun h => h0 (Int.ofNat_eq_zero.mp h)
    have hw1 := wr_append A R x '.'
    simp only [hb, hw1, Int.natAbs_ofNat, hrun, Bool.false_eq_true, if_false, hi, hw2]
    have hA : (A ++ ['.']).length = A.length + 1 := by simp
    rw [hA] at hfill
    have e1 : A ++ '.' :: R.take (9 - k) ++ NUL :: R.drop (9 - k + 1) =
        A ++ ['.'] ++ R.take (9 - k) ++ NUL :: R.drop (9 - k + 1) := by simp
    rw [e1, hfill]
    have e2 : 8 - k + 1 = 9 - k := by omega
    rw [e2]
    simp [fixed_digits_length, List.append_assoc]

theorem decimal_value_from (l : List Char) (v : Nat) :
    l.foldl (fun v c => 10 * v + digit_value c) v = v * 10 ^ l.length + decimal_value l := by
  induction l generalizing v with
  | nil => simp [decimal_value]
  | cons x r ih =>
    unfold decimal_value
    simp only [List.foldl, List.length_cons]
    rw [ih, ih (10 * 0 + digit_value x), pow_succ]
    ring

theorem cchar_append_left (A B : List Char) (x : Char) : cchar (A ++ x :: B) A.length = .ok x := by
  have h : (A ++ x :: B)[A.length]? = some x := by
    rw [List.getElem?_append_right (le_refl _)]
    simp
  unfold cchar
  rw [h]

theorem cchar_end (A : List Char) : cchar A A.length = .ok NUL := by
  simp [cchar]

/-- The loop of the fraction digits of `decode_timespec` over digits that
end the text, not more than fit: it reads them all. -/
theorem fraction_loop_spec : ∀ (ds : List Char) (fuel : Nat) (A : List Char) (p digits v : Nat)
    (tn : Bool), (∀ x ∈ ds, ISDIGIT x = true) → A.length = p + 1 → digits + ds.length ≤ 9 →
    ds.length < fuel →
    fraction_loop fuel (A ++ ds) p digits (v : Int) tn =
      .ok (p + 1 + ds.length, digits + ds.length,
        ((ds.foldl (fun v c => 10 * v + digit_value c) v : Nat) : Int), tn)
  | _, 0, _, _, _, _, _, _, _, _, hf => by omega
  | [], fuel + 1, A, p, digits, v, tn, _, hA, _, _ => by
    unfold fraction_loop
    rw [List.append_nil, ← hA, cchar_end]
    have : ISDIGIT NUL = false := by decide
    simp [this]
  | x :: ds, fuel + 1, A, p, digits, v, tn, hall, hA, hd, hf => by
    have hx : ISDIGIT x = true := hall x (List.mem_cons_self _ _)
    have hx48 : 48 ≤ x.toNat := by
      unfold ISDIGIT at hx
      simp only [Bool.and_eq_true, decide_eq_true_eq] at hx
      exact hx.1
    simp only [List.length_cons] at hd hf
    unfold fraction_loop
    rw [← hA, cchar_append_left]
    simp only [hx, if_true]
    rw [if_pos (by unfold LOG10_BILLION; omega)]
    have hv : 10 * (v : Int) + ((x.toNat : Int) - ('0'.toNat : Int)) =
        ((10 * v + digit_value x : Nat) : Int) := by
      unfold digit_value
      have h0 : '0'.toNat = 48 := rfl
      rw [h0]
      omega
    rw [hv]
    have := fraction_loop_spec ds fuel (A ++ [x]) (A.length) (digits + 1)
      (10 * v + digit_value x) tn (fun y hy => hall y (List.mem_cons_of_mem _ hy))
      (by simp) (by omega) (by omega)
    rw [List.append_assoc, List.singleton_append] at this
    rw [this]
    simp only [List.foldl, List.length_cons, List.singleton_append]
    congr 2
    · omega
    · congr 1
      omega

theorem decimal_length_le : ∀ (k n : Nat), n < 10 ^ (k + 1) → (decimal n).length ≤ k + 1
  | 0, n, h => by
    rw [decimal_lt n (by simpa using h)]
    simp
  | k + 1, n, h => by
    by_cases h10 : n < 10
    · rw [decimal_lt n h10]; simp
    · rw [decimal_ge n (by omega), List.length_append]
      have : n / 10 < 10 ^ (k + 1) := by
        rw [Nat.div_lt_iff_lt_mul (by decide)]
        rw [pow_succ] at h
        exact h
      have := decimal_length_le k (n / 10) this
      simp only [List.length_singleton]
      omega

/-! ## Time stamps: decoding the text of a time stamp -/

theorem cstr_append_NUL (l t : List Char) (hn : NUL ∉ l) : cstr (l ++ NUL :: t) = l := by
  refine cstr_of_take ?_ hn
  rw [show l ++ NUL :: t = (l ++ [NUL]) ++ t by simp]
  exact List.take_left' (by simp)

/-- The start of `decode_timespec` on a numeral with or without `-`, which
no digit follows: the sign is seen, the digit test passes, and the library
reads the seconds. -/
theorem decode_head (lib : NumLib) (hlib : lib.standard) (neg : Bool) (n : Nat)
    (frac : List Char) (hn : if neg = true then n ≤ 2 ^ 63 else n < 2 ^ 63)
    (hnd : no_digit_ahead frac) :
    ∃ c0 d, cchar ((if neg = true then ['-'] else []) ++ decimal n ++ frac) 0 = .ok c0 ∧
      (c0 == '-') = neg ∧
      cchar ((if neg = true then ['-'] else []) ++ decimal n ++ frac) (if neg = true then 1 else 0)
        = .ok d ∧
      ISDIGIT d = true ∧
      decode_seconds lib ((if neg = true then ['-'] else []) ++ decimal n ++ frac) neg =
        ((if neg = true then - (n : Int) else (n : Int)), 0,
          ((if neg = true then ['-'] else []) ++ decimal n).length) := by
  obtain ⟨_, _, hsu, _, hsn, _⟩ := hlib
  obtain ⟨d, r, hd, hdig⟩ := decimal_head n
  have hne : d ≠ '-' := fun e => by rw [e] at hdig; exact absurd hdig (by decide)
  cases neg with
  | true =>
    simp only [if_true] at hn ⊢
    have hconv := hsn n frac (by unfold INTMAX_MIN; omega) hnd
    refine ⟨'-', d, by simp [cchar], rfl, by rw [hd]; simp [cchar], hdig, ?_⟩
    unfold decode_seconds
    simp only [if_true, List.singleton_append, List.cons_append, List.nil_append, hconv,
      List.length_cons, Option.getD_none]
    rw [if_pos (by unfold TIME_T_MINIMUM; omega)]
  | false =>
    simp only [Bool.false_eq_true, if_false, List.nil_append] at hn ⊢
    have hconv := hsu n frac (by unfold UINTMAX_MAX; omega) hnd
    refine ⟨d, d, by rw [hd]; simp [cchar], beq_eq_false_iff_ne.mpr hne,
      by rw [hd]; simp [cchar], hdig, ?_⟩
    unfold decode_seconds
    simp only [Bool.false_eq_true, if_false, hconv, Option.getD_none]
    rw [if_pos (by unfold TIME_T_MAXIMUM; omega)]

/-- The text without a fraction: `decode_timespec` returns the seconds with
no nanoseconds, `errno` 0 and `*arg_lim` at the end. -/
theorem decode_timespec_plain (lib : NumLib) (hlib : lib.standard) (neg : Bool) (n : Nat)
    (hn : if neg = true then n ≤ 2 ^ 63 else n < 2 ^ 63) :
    decode_timespec lib ((if neg = true then ['-'] else []) ++ decimal n) true =
      .ok ⟨(if neg = true then - (n : Int) else (n : Int)), 0, 0,
        ((if neg = true then ['-'] else []) ++ decimal n).length⟩ := by
  obtain ⟨c0, d, h0, hc, h1, hdig, hsec⟩ := decode_head lib hlib neg n [] hn no_digit_ahead_nil
  rw [List.append_nil] at h0 h1 hsec
  have hif : (if (c0 == '-') = true then 1 else 0) = (if neg = true then 1 else 0) := by rw [hc]
  unfold decode_timespec
  rw [h0]
  simp only [hif, h1, hdig, Bool.not_true, Bool.false_eq_true, if_false, hc, hsec, cchar_end]
  have hN : (NUL == '.') = false := by decide
  have hE : ((0 : Nat) == ERANGE) = false := by decide
  simp only [hN, Bool.and_false, Bool.false_eq_true, if_false, hE]

/-- The text with a fraction: `decode_timespec` reads the digits of the
fraction and pads them to nine. -/
theorem decode_timespec_fraction (lib : NumLib) (hlib : lib.standard) (neg : Bool) (n m k : Nat)
    (hn : if neg = true then n ≤ 2 ^ 63 else n < 2 ^ 63) (hk : k < 9) (hm : m < 10 ^ (9 - k)) :
    decode_timespec lib
        ((if neg = true then ['-'] else []) ++ decimal n ++ '.' :: fixed_digits (9 - k) m) true =
      .ok ⟨(if neg = true then
            (negative_fraction (- (n : Int)) ((m : Int) * 10 ^ k) false).1 else (n : Int)),
        (if neg = true then
            (negative_fraction (- (n : Int)) ((m : Int) * 10 ^ k) false).2
          else (m : Int) * 10 ^ k), 0,
        ((if neg = true then ['-'] else []) ++ decimal n ++ '.' :: fixed_digits (9 - k) m).length⟩
    := by
  have hnd : no_digit_ahead ('.' :: fixed_digits (9 - k) m) := by
    intro x hx
    simp only [List.head?_cons, Option.mem_def, Option.some.injEq] at hx
    rw [← hx]; decide
  obtain ⟨c0, d, h0, hc, h1, hdig, hsec⟩ :=
    decode_head lib hlib neg n ('.' :: fixed_digits (9 - k) m) hn hnd
  have hif : (if (c0 == '-') = true then 1 else 0) = (if neg = true then 1 else 0) := by rw [hc]
  have hlim : cchar ((if neg = true then ['-'] else []) ++ decimal n ++
      '.' :: fixed_digits (9 - k) m) ((if neg = true then ['-'] else []) ++ decimal n).length
      = .ok '.' := cchar_append_left _ _ _
  have hloop := fraction_loop_spec (fixed_digits (9 - k) m)
    (((if neg = true then ['-'] else []) ++ decimal n ++ '.' :: fixed_digits (9 - k) m).length + 1)
    ((if neg = true then ['-'] else []) ++ decimal n ++ ['.'])
    ((if neg = true then ['-'] else []) ++ decimal n).length 0 0 false
    (fixed_digits_digits _ _) (by simp only [List.length_append, List.length_cons,
      List.length_nil]) (by rw [fixed_digits_length]; omega)
    (by simp only [List.length_append, List.length_cons]; omega)
  have hval : (fixed_digits (9 - k) m).foldl (fun v c => 10 * v + digit_value c) 0 = m := by
    have := fixed_digits_value (9 - k) m
    unfold decimal_value at this
    rw [this, Nat.mod_eq_of_lt hm]
  have hpad := pad_loop_spec (LOG10_BILLION + 1) (9 - k) (m : Int)
    (by unfold LOG10_BILLION; omega)
  have h9 : 9 - (9 - k) = k := by omega
  rw [hval, fixed_digits_length, Nat.zero_add] at hloop
  rw [h9] at hpad
  have e1 : (if neg = true then ['-'] else []) ++ decimal n ++ ['.'] ++ fixed_digits (9 - k) m =
      (if neg = true then ['-'] else []) ++ decimal n ++ '.' :: fixed_digits (9 - k) m := by
    simp
  have hz : ((0 : Nat) : Int) = 0 := rfl
  rw [e1, hz] at hloop
  have hE : ((0 : Nat) == ERANGE) = false := by decide
  have hP : ('.' == '.') = true := by decide
  have hlen : ((if neg = true then ['-'] else []) ++ decimal n).length + 1 + (9 - k) =
      ((if neg = true then ['-'] else []) ++ decimal n ++ '.' :: fixed_digits (9 - k) m).length := by
    simp only [List.length_append, List.length_cons, fixed_digits_length]
    omega
  unfold decode_timespec
  rw [h0]
  simp only [hif, h1, hdig, Bool.not_true, Bool.false_eq_true, if_false, hc, hsec, hlim, hP,
    Bool.and_self, if_true, hloop, hpad, Nat.cast_zero]
  cases neg with
  | true =>
    simp only [if_true] at hsec hlen hloop ⊢
    simp only [hsec, hE, Bool.false_eq_true, if_false, hlen, hloop, hpad]
  | false =>
    simp only [Bool.false_eq_true, if_false] at hsec hlen hloop ⊢
    simp only [hsec, hE, Bool.false_eq_true, if_false, hlen, hloop, hpad]

/-! ## Time stamps: the text of `code_timespec` -/

theorem code_timespec_parts_eq (S NS : Int) (hN1 : 0 ≤ NS) (hN2 : NS < BILLION) :
    code_timespec_parts S NS =
      if S < 0 ∧ NS ≠ 0 then (S + 1, BILLION - NS) else (S, NS) := by
  have hi : to_int NS = NS := by
    unfold BILLION at hN2
    unfold to_int
    omega
  have hc : ¬ (BILLION ≤ NS ∨ NS < 0) := by unfold BILLION at hN2 ⊢; omega
  simp only [code_timespec_parts, hi, if_neg hc]
  by_cases h : S < 0 ∧ NS ≠ 0
  · rw [if_pos h, if_pos]
    simp only [Bool.and_eq_true, decide_eq_true_eq, bne_iff_ne, ne_eq]
    exact h
  · rw [if_neg h, if_neg]
    simp only [Bool.and_eq_true, decide_eq_true_eq, bne_iff_ne, ne_eq]
    exact h

theorem dropWhile_append_of_all (p : Char → Bool) : ∀ (l r : List Char),
    (∀ x ∈ l, p x = true) → (l ++ r).dropWhile p = r.dropWhile p
  | [], _, _ => rfl
  | x :: l, r, h => by
    rw [List.cons_append, List.dropWhile_cons, if_pos (h x (List.mem_cons_self _ _))]
    exact dropWhile_append_of_all p l r (fun y hy => h y (List.mem_cons_of_mem _ hy))

/-- The text that `code_timespec` leaves in a buffer of
`TIMESPEC_STRSIZE_BOUND` characters: the sign, the numeral of the seconds
and the fraction of the nanoseconds that `code_timespec_parts` gives. -/
theorem code_timespec_text (lib : NumLib) (hlib : lib.standard) (S NS : Int)
    (hS1 : TIME_T_MINIMUM ≤ S) (hS2 : S ≤ TIME_T_MAXIMUM) (hN1 : 0 ≤ NS) (hN2 : NS < BILLION)
    (sbuf : List Char) (hlen : sbuf.length = TIMESPEC_STRSIZE_BOUND) :
    ∃ (b : List Char) (np n q : Nat) (frac : List Char),
      code_timespec lib S NS sbuf = .ok (b, np) ∧
      cstr (b.drop np) = (if decide (S < 0) = true then ['-'] else []) ++ decimal n ++ frac ∧
      (n : Int) = (if S < 0 then - (code_timespec_parts S NS).1
        else (code_timespec_parts S NS).1) ∧
      (q : Int) = (code_timespec_parts S NS).2 ∧
      (q = 0 → frac = []) ∧
      (q ≠ 0 → ∃ m k, k < 9 ∧ q = m * 10 ^ k ∧ m % 10 ≠ 0 ∧
        frac = '.' :: fixed_digits (9 - k) m) := by
  have hparts := code_timespec_parts_eq S NS hN1 hN2
  unfold TIME_T_MINIMUM at hS1
  unfold TIME_T_MAXIMUM at hS2
  unfold BILLION at hN2 hparts
  have hP1 : (S < 0 → -2 ^ 63 ≤ (code_timespec_parts S NS).1 ∧
        (code_timespec_parts S NS).1 ≤ 0) ∧
      (¬ S < 0 → (code_timespec_parts S NS).1 = S) := by
    rw [hparts]
    by_cases h : S < 0 ∧ NS ≠ 0
    · rw [if_pos h]
      exact ⟨fun _ => ⟨by show -2 ^ 63 ≤ S + 1; omega, by show S + 1 ≤ 0; omega⟩,
        fun hs => absurd h.1 hs⟩
    · rw [if_neg h]
      exact ⟨fun hs => ⟨by show -2 ^ 63 ≤ S; omega, by show S ≤ 0; omega⟩, fun _ => rfl⟩
  have hP2 : 0 ≤ (code_timespec_parts S NS).2 ∧ (code_timespec_parts S NS).2 < 10 ^ 9 := by
    rw [hparts]
    by_cases h : S < 0 ∧ NS ≠ 0
    · rw [if_pos h]
      exact ⟨by show 0 ≤ 1000000000 - NS; omega, by show 1000000000 - NS < 10 ^ 9; omega⟩
    · rw [if_neg h]
      exact ⟨hN1, by show NS < 10 ^ 9; omega⟩
  unfold code_timespec
  generalize code_timespec_parts S NS = P at hP1 hP2 ⊢
  obtain ⟨s1, ns1⟩ := P
  simp only at hP1 hP2 ⊢
  obtain ⟨n, hn⟩ : ∃ n : Nat, (n : Int) = (if S < 0 then - s1 else s1) := by
    refine ⟨(if S < 0 then - s1 else s1).toNat, Int.toNat_of_nonneg ?_⟩
    split_ifs with h
    · have := hP1.1 h; omega
    · have := hP1.2 h; omega
  obtain ⟨q, hq⟩ : ∃ q : Nat, (q : Int) = ns1 := ⟨ns1.toNat, Int.toNat_of_nonneg hP2.1⟩
  have hq9 : q < 10 ^ 9 := by omega
  have hn63 : n ≤ 2 ^ 63 := by
    split_ifs at hn with h
    · have := hP1.1 h; omega
    · have := hP1.2 h; omega
  have hval : (if S < 0 then (2 ^ 64 - to_uintmax s1) % 2 ^ 64 else to_uintmax s1) = n := by
    unfold to_uintmax
    split_ifs at hn ⊢ with h
    · have := hP1.1 h; omega
    · have := hP1.2 h; omega
  obtain ⟨hu, _, _, _, _, _⟩ := hlib
  have hstr : lib.umaxtostr n = decimal n := hu n (by unfold UINTMAX_MAX; omega)
  obtain ⟨hdigs, hne, _⟩ := decimal_spec n
  have hl20 : (decimal n).length ≤ 20 := decimal_length_le 19 n (by norm_num; omega)
  have hl1 : 1 ≤ (decimal n).length := by
    rcases Nat.eq_zero_or_pos (decimal n).length with h | h
    · exact absurd (List.eq_nil_of_length_eq_zero h) hne
    · exact h
  simp only [TIMESPEC_STRSIZE_BOUND, UINTMAX_STRSIZE_BOUND, UINTMAX_STRLEN_BOUND,
    LOG10_BILLION] at hlen
  have hat : umaxtostr_at lib n sbuf 1 =
      .ok (sbuf.take (21 - (decimal n).length) ++ decimal n ++ NUL :: sbuf.drop 22,
        21 - (decimal n).length) := by
    unfold umaxtostr_at
    simp only [UINTMAX_STRLEN_BOUND, hstr]
    rw [if_pos ⟨hl20, by omega⟩]
  have hR : 10 ≤ (sbuf.drop 22).length := by rw [List.length_drop]; omega
  have hNd : NUL ∉ decimal n := fun h => absurd (hdigs NUL h) (by decide)
  have hfracN : ∀ frac : List Char, (q = 0 → frac = []) →
      (q ≠ 0 → ∃ m k, k < 9 ∧ q = m * 10 ^ k ∧ m % 10 ≠ 0 ∧
        frac = '.' :: fixed_digits (9 - k) m) → NUL ∉ frac := by
    intro frac h0 h1
    by_cases hq0 : q = 0
    · rw [h0 hq0]; simp
    · obtain ⟨m, k, _, _, _, hf⟩ := h1 hq0
      rw [hf]
      intro hm
      rcases List.mem_cons.mp hm with h | h
      · exact absurd h (by decide)
      · exact absurd (fixed_digits_digits _ _ NUL h) (by decide)
  simp only [hval, hat, UINTMAX_STRSIZE_BOUND, UINTMAX_STRLEN_BOUND, ← hq]
  by_cases hneg : S < 0
  · have hnp : ¬ (21 - (decimal n).length = 0) := by omega
    have htk : sbuf.take (21 - (decimal n).length) =
        sbuf.take (20 - (decimal n).length) ++ [sbuf[20 - (decimal n).length]] := by
      have h1 : 21 - (decimal n).length = (20 - (decimal n).length) + 1 := by omega
      rw [h1, List.take_succ, List.getElem?_eq_getElem (by omega)]
      rfl
    have hw : wr (sbuf.take (21 - (decimal n).length) ++ decimal n ++ NUL :: sbuf.drop 22)
        (21 - (decimal n).length - 1) '-' =
        .ok (sbuf.take (20 - (decimal n).length) ++ '-' :: decimal n ++ NUL :: sbuf.drop 22) := by
      have hl : 21 - (decimal n).length - 1 = (sbuf.take (20 - (decimal n).length)).length := by
        rw [List.length_take]; omega
      have e0 : sbuf.take (21 - (decimal n).length) ++ decimal n ++ NUL :: sbuf.drop 22 =
          sbuf.take (20 - (decimal n).length) ++
            sbuf[20 - (decimal n).length] :: (decimal n ++ NUL :: sbuf.drop 22) := by
        rw [htk]
        simp only [List.append_assoc, List.singleton_append, List.cons_append, List.nil_append]
      rw [e0, hl, wr_append]
      simp
    have hA : (sbuf.take (20 - (decimal n).length) ++ '-' :: decimal n).length = 21 := by
      rw [List.length_append, List.length_take, List.length_cons]; omega
    obtain ⟨frac, hrun, hf0, hf1⟩ := code_ns_fraction_spec
      (sbuf.take (20 - (decimal n).length) ++ '-' :: decimal n) (sbuf.drop 22) NUL q hq9 hR
    rw [hA] at hrun
    have e1 : sbuf.take (20 - (decimal n).length) ++ '-' :: decimal n ++ NUL :: sbuf.drop 22 =
        (sbuf.take (20 - (decimal n).length) ++ '-' :: decimal n) ++ NUL :: sbuf.drop 22 := by
      simp
    refine ⟨sbuf.take (20 - (decimal n).length) ++ '-' :: decimal n ++ frac ++
        NUL :: (sbuf.drop 22).drop frac.length, 21 - (decimal n).length - 1, n, q, frac,
      ?_, ?_, hn, rfl, hf0, hf1⟩
    · simp only [if_pos hneg, hnp, if_false, hw, e1, hrun]
    · have hl : (sbuf.take (20 - (decimal n).length)).length = 21 - (decimal n).length - 1 := by
        rw [List.length_take]; omega
      have e2 : sbuf.take (20 - (decimal n).length) ++ '-' :: decimal n ++ frac ++
          NUL :: (sbuf.drop 22).drop frac.length =
          sbuf.take (20 - (decimal n).length) ++
            (('-' :: decimal n ++ frac) ++ NUL :: (sbuf.drop 22).drop frac.length) := by
        simp
      rw [e2, List.drop_left' hl, cstr_append_NUL]
      · simp [hneg]
      · intro hm
        rcases List.mem_append.mp hm with h | h
        · rcases List.mem_cons.mp h with h | h
          · exact absurd h (by decide)
          · exact hNd h
        · exact hfracN frac hf0 hf1 h
  · have hA : (sbuf.take (21 - (decimal n).length) ++ decimal n).length = 21 := by
      rw [List.length_append, List.length_take]; omega
    obtain ⟨frac, hrun, hf0, hf1⟩ := code_ns_fraction_spec
      (sbuf.take (21 - (decimal n).length) ++ decimal n) (sbuf.drop 22) NUL q hq9 hR
    rw [hA] at hrun
    refine ⟨sbuf.take (21 - (decimal n).length) ++ decimal n ++ frac ++
        NUL :: (sbuf.drop 22).drop frac.length, 21 - (decimal n).length, n, q, frac,
      ?_, ?_, hn, rfl, hf0, hf1⟩
    · simp only [if_neg hneg, hrun]
    · have hl : (sbuf.take (21 - (decimal n).length)).length = 21 - (decimal n).length := by
        rw [List.length_take]; omega
      have e2 : sbuf.take (21 - (decimal n).length) ++ decimal n ++ frac ++
          NUL :: (sbuf.drop 22).drop frac.length =
          sbuf.take (21 - (decimal n).length) ++
            ((decimal n ++ frac) ++ NUL :: (sbuf.drop 22).drop frac.length) := by
        simp
      rw [e2, List.drop_left' hl, cstr_append_NUL]
      · simp [hneg]
      · intro hm
        rcases List.mem_append.mp hm with h | h
        · exact hNd h
        · exact hfracN frac hf0 hf1 h

/-! ## Time stamps: `decode_timespec` after `code_timespec` -/

theorem fixed_digits_last (w m : Nat) :
    (fixed_digits (w + 1) m).getLast? = some (digit_char (m % 10)) := by
  rw [fixed_digits, List.getLast?_append]
  rfl

/-- C37. Let the library keep its contract and let `time_t` be signed with
64 bits. For every time stamp with `tv_sec` in the range of `time_t`, the
minimum included, and `0 ≤ tv_nsec < 1 000 000 000`, and every buffer of
`TIMESPEC_STRSIZE_BOUND` characters, `code_timespec` gives a text on which
`decode_timespec` with `parse_fraction` returns exactly the time stamp, with
`errno` 0 and `*arg_lim` at the end of the text. The text has no `.` when
`tv_nsec` is 0; otherwise its fraction is the `.` and one to nine digits, the
last of which is not `0`. -/
theorem decode_code_timespec (lib : NumLib) (hlib : lib.standard) (tv_sec tv_nsec : Int)
    (hS1 : TIME_T_MINIMUM ≤ tv_sec) (hS2 : tv_sec ≤ TIME_T_MAXIMUM) (hN1 : 0 ≤ tv_nsec)
    (hN2 : tv_nsec < BILLION) (sbuf : List Char)
    (hlen : sbuf.length = TIMESPEC_STRSIZE_BOUND) :
    ∃ (b : List Char) (np : Nat), code_timespec lib tv_sec tv_nsec sbuf = .ok (b, np) ∧
      decode_timespec lib (cstr (b.drop np)) true =
        .ok ⟨tv_sec, tv_nsec, 0, (cstr (b.drop np)).length⟩ ∧
      (tv_nsec = 0 → '.' ∉ cstr (b.drop np)) ∧
      (tv_nsec ≠ 0 → ∃ ds, fraction_of (cstr (b.drop np)) = '.' :: ds ∧ ds ≠ [] ∧
        ds.length ≤ 9 ∧ (∀ x ∈ ds, ISDIGIT x = true) ∧ ds.getLast? ≠ some '0') := by
  obtain ⟨b, np, n, q, frac, hrun, htext, hn, hq, hf0, hf1⟩ :=
    code_timespec_text lib hlib tv_sec tv_nsec hS1 hS2 hN1 hN2 sbuf hlen
  rw [code_timespec_parts_eq tv_sec tv_nsec hN1 hN2] at hn hq
  unfold TIME_T_MINIMUM at hS1
  unfold TIME_T_MAXIMUM at hS2
  unfold BILLION at hN2 hn hq
  obtain ⟨hdigs, _, _⟩ := decimal_spec n
  have hsign : ∀ x ∈ (if decide (tv_sec < 0) = true then ['-'] else []) ++ decimal n,
      (x != '.') = true := by
    intro x hx
    rcases List.mem_append.mp hx with h | h
    · split_ifs at h
      · rw [List.mem_singleton] at h; rw [h]; decide
      · simp at h
    · have := hdigs x h
      rw [bne_iff_ne]
      intro e
      rw [e] at this
      exact absurd this (by decide)
  have hmpow : ∀ m k : Nat, k < 9 → q = m * 10 ^ k → m < 10 ^ (9 - k) ∧
      (m : Int) * 10 ^ k = (q : Int) := by
    intro m k hk hmk
    have hq9 : q < 10 ^ 9 := by
      by_cases hc : tv_sec < 0 ∧ tv_nsec ≠ 0
      · rw [if_pos hc] at hq
        have : (q : Int) = 1000000000 - tv_nsec := hq
        omega
      · rw [if_neg hc] at hq
        have : (q : Int) = tv_nsec := hq
        omega
    have h9 : (10 : Nat) ^ 9 = 10 ^ (9 - k) * 10 ^ k := by
      rw [← pow_add]; congr 1; omega
    have hlt : m * 10 ^ k < 10 ^ (9 - k) * 10 ^ k := by
      rw [← h9, ← hmk]; exact hq9
    refine ⟨Nat.lt_of_mul_lt_mul_right hlt, ?_⟩
    rw [hmk]; push_cast; rfl
  refine ⟨b, np, hrun, ?_, ?_, ?_⟩
  · rw [htext]
    by_cases hneg : tv_sec < 0
    · have hd : decide (tv_sec < 0) = true := decide_eq_true hneg
      rw [if_pos hneg] at hn
      rw [hd]
      by_cases h0 : tv_nsec = 0
      · have hc : ¬ (tv_sec < 0 ∧ tv_nsec ≠ 0) := fun h => h.2 h0
        rw [if_neg hc] at hn hq
        have hn2 : (n : Int) = - tv_sec := hn
        have hq2 : (q : Int) = tv_nsec := hq
        have hq0 : q = 0 := by omega
        have := decode_timespec_plain lib hlib true n (by simp only [if_true]; omega)
        rw [hf0 hq0, List.append_nil, this]
        simp only [if_true]
        congr 2
        · omega
        · omega
      · have hc : tv_sec < 0 ∧ tv_nsec ≠ 0 := ⟨hneg, h0⟩
        rw [if_pos hc] at hn hq
        have hn2 : (n : Int) = - (tv_sec + 1) := hn
        have hq2 : (q : Int) = 1000000000 - tv_nsec := hq
        have hq0 : q ≠ 0 := by omega
        obtain ⟨m, k, hk, hmk, hm10, hfrac⟩ := hf1 hq0
        obtain ⟨hm, hmq⟩ := hmpow m k hk hmk
        have := decode_timespec_fraction lib hlib true n m k (by simp only [if_true]; omega)
          hk hm
        rw [hfrac, this, hmq]
        unfold negative_fraction TIME_T_MINIMUM BILLION
        simp only [Bool.false_eq_true, if_false, if_true]
        have hb1 : ((q : Int) + 0 != 0) = true := by rw [bne_iff_ne]; omega
        have hb2 : ((- (n : Int)) == - 2 ^ 63) = false := by
          rw [beq_eq_false_iff_ne]; omega
        simp only [hb1, hb2, if_true, Bool.false_eq_true, if_false]
        congr 2
        · omega
        · omega
    · have hd : decide (tv_sec < 0) = false := decide_eq_false hneg
      have hc : ¬ (tv_sec < 0 ∧ tv_nsec ≠ 0) := fun h => hneg h.1
      rw [if_neg hneg, if_neg hc] at hn
      rw [if_neg hc] at hq
      have hn2 : (n : Int) = tv_sec := hn
      have hq2 : (q : Int) = tv_nsec := hq
      rw [hd]
      by_cases h0 : tv_nsec = 0
      · have hq0 : q = 0 := by omega
        have := decode_timespec_plain lib hlib false n
          (by simp only [Bool.false_eq_true, if_false]; omega)
        rw [hf0 hq0, List.append_nil, this]
        simp only [Bool.false_eq_true, if_false]
        congr 2
        omega
      · have hq0 : q ≠ 0 := by omega
        obtain ⟨m, k, hk, hmk, hm10, hfrac⟩ := hf1 hq0
        obtain ⟨hm, hmq⟩ := hmpow m k hk hmk
        have := decode_timespec_fraction lib hlib false n m k
          (by simp only [Bool.false_eq_true, if_false]; omega) hk hm
        rw [hfrac, this, hmq]
        simp only [Bool.false_eq_true, if_false]
        congr 2
  · intro h0 hmem
    have hc : ¬ (tv_sec < 0 ∧ tv_nsec ≠ 0) := fun h => h.2 h0
    rw [if_neg hc] at hq
    have hq2 : (q : Int) = tv_nsec := hq
    rw [htext, hf0 (by omega), List.append_nil] at hmem
    have := hsign '.' hmem
    exact absurd this (by decide)
  · intro h0
    have hq0 : q ≠ 0 := by
      by_cases hc : tv_sec < 0 ∧ tv_nsec ≠ 0
      · rw [if_pos hc] at hq
        have hq2 : (q : Int) = 1000000000 - tv_nsec := hq
        omega
      · rw [if_neg hc] at hq
        have hq2 : (q : Int) = tv_nsec := hq
        omega
    obtain ⟨m, k, hk, hmk, hm10, hfrac⟩ := hf1 hq0
    refine ⟨fixed_digits (9 - k) m, ?_, ?_, ?_, fixed_digits_digits _ _, ?_⟩
    · rw [htext, hfrac]
      unfold fraction_of
      rw [dropWhile_append_of_all _ _ _ hsign]
      simp [List.dropWhile]
    · intro h
      have := fixed_digits_length (9 - k) m
      rw [h] at this
      simp at this
      omega
    · rw [fixed_digits_length]; omega
    · have h9 : 9 - k = (8 - k) + 1 := by omega
      rw [h9, fixed_digits_last]
      intro h
      have := (digit_char_spec (m % 10) (Nat.mod_lt _ (by decide))).2.2.2.2.2.1
        (Option.some.inj h)
      exact hm10 this

/-- C37, for one nanosecond after the least time stamp, and for half a
second before the start of the epoch. -/
theorem decode_code_timespec_witness :
    (∃ (b : List Char) (np : Nat),
      code_timespec lib0 (- 2 ^ 63) 1 (List.replicate 32 'x') = .ok (b, np) ∧
      decode_timespec lib0 (cstr (b.drop np)) true =
        .ok ⟨- 2 ^ 63, 1, 0, (cstr (b.drop np)).length⟩ ∧
      ((1 : Int) = 0 → '.' ∉ cstr (b.drop np)) ∧
      ((1 : Int) ≠ 0 → ∃ ds, fraction_of (cstr (b.drop np)) = '.' :: ds ∧ ds ≠ [] ∧
        ds.length ≤ 9 ∧ (∀ x ∈ ds, ISDIGIT x = true) ∧ ds.getLast? ≠ some '0')) ∧
    (code_timespec lib0 (-1) 500000000 (List.replicate 32 'x')).map
        (fun r => cstr (r.1.drop r.2)) = .ok "-0.5".toList ∧
    decode_timespec lib0 "-0.5".toList true = .ok ⟨-1, 500000000, 0, 4⟩ :=
  ⟨decode_code_timespec lib0 lib0_standard (- 2 ^ 63) 1 (by decide) (by decide) (by decide)
      (by decide) (List.replicate 32 'x') (by decide),
    by rfl, by rfl⟩

theorem timespec_examples :
    (code_timespec lib0 (- 2 ^ 63) 1 (List.replicate 32 'x')).map
        (fun r => cstr (r.1.drop r.2)) = .ok "-9223372036854775807.999999999".toList ∧
    (code_timespec lib0 (- 2 ^ 63) 0 (List.replicate 32 'x')).map
        (fun r => cstr (r.1.drop r.2)) = .ok "-9223372036854775808".toList ∧
    (code_timespec lib0 0 120 (List.replicate 32 'x')).map
        (fun r => cstr (r.1.drop r.2)) = .ok "0.00000012".toList ∧
    decode_timespec lib0 "-9223372036854775807.999999999".toList true =
      .ok ⟨- 2 ^ 63, 1, 0, 30⟩ ∧
    decode_timespec lib0 "-1.10000000000001".toList true = .ok ⟨-2, 899999999, 0, 17⟩ ∧
    decode_timespec lib0 "x".toList true = .ok ⟨- 2 ^ 63, -1, EINVAL, 0⟩ := by
  refine ⟨by rfl, by rfl, by rfl, by rfl, by rfl, by rfl⟩

end Tar
